import Mathlib

/-!
frugal: register IR emulator and Thrift binary decoder translator.

A shallow embedding of

* `internal/atm/emu/emu.go`  (the IR interpreter, `Emulator.Run`),
* `internal/binary/decoder/translator.go` (lowering of the decoder plan to IR),

together with theorems about the translated programs running on the emulator.

Machine words are natural numbers reduced modulo `2^64`; memory is a flat map from
byte addresses to bytes; the host is little-endian.
-/

set_option autoImplicit false

namespace Frugal

/-! ## Machine words and memory -/

/-- The modulus of `uint64` / `uintptr` arithmetic. -/
abbrev W64 : Nat := 18446744073709551616

/-- Conversion `uint64(x)` / `uintptr(x)` of a signed 64-bit value (two's complement). -/
def toU64 (x : Int) : Nat := (x % 18446744073709551616).toNat

/-- Conversion `int64(x)` of an unsigned 64-bit value (two's complement). -/
def toI64 (x : Nat) : Int :=
  if x % W64 < 9223372036854775808 then ((x % W64 : Nat) : Int)
  else ((x % W64 : Nat) : Int) - 18446744073709551616

/-- Conversion of a `bits`-wide signed integer, given by its unsigned bit pattern, to `uint64`
(sign extension), as in `uint64(*(*int8)(p))`. -/
def sext (bits : Nat) (x : Nat) : Nat :=
  if x % 2 ^ bits < 2 ^ (bits - 1) then x % 2 ^ bits else x % 2 ^ bits + (W64 - 2 ^ bits)

/-- Flat byte-addressed memory. -/
abbrev Mem := Nat → Nat

/-- Little-endian read of `n` bytes at address `a`. -/
def loadN (m : Mem) (a : Nat) : Nat → Nat
  | 0 => 0
  | n + 1 => m a % 256 + 256 * loadN m (a + 1) n

/-- Little-endian write of the low `n` bytes of `v` at address `a`. -/
def storeN (m : Mem) (a n v : Nat) : Mem :=
  fun x => if a ≤ x ∧ x < a + n then v / 256 ^ (x - a) % 256 else m x

/-- The Go runtime's `memclrNoHeapPointers(p, n)`. -/
def memclrNoHeapPointers (m : Mem) (p n : Nat) : Mem :=
  fun x => if p ≤ x ∧ x < p + n then 0 else m x

/-- The Go runtime's `memmove(dst, src, n)` (overlap-safe: all source bytes are read first). -/
def memmove (m : Mem) (dst src n : Nat) : Mem :=
  fun x => if dst ≤ x ∧ x < dst + n then m (src + (x - dst)) else m x

/-- `bits.ReverseBytes16`. -/
def ReverseBytes16 (x : Nat) : Nat := x % 256 * 256 + x / 256 % 256

/-- `bits.ReverseBytes32`. -/
def ReverseBytes32 (x : Nat) : Nat :=
  x % 256 * 16777216 + x / 256 % 256 * 65536 + x / 65536 % 256 * 256 + x / 16777216 % 256

/-- `bits.ReverseBytes64`. -/
def ReverseBytes64 (x : Nat) : Nat :=
  x % 256 * 72057594037927936 + x / 256 % 256 * 281474976710656
    + x / 65536 % 256 * 1099511627776 + x / 16777216 % 256 * 4294967296
    + x / 4294967296 % 256 * 16777216 + x / 1099511627776 % 256 * 65536
    + x / 281474976710656 % 256 * 256 + x / 72057594037927936 % 256

/-! ## The IR (`internal/atm/ir`, as used by the emulator and the translator) -/

namespace ir

/-- Generic registers: the bank `uv [6]uint64` of the emulator, `Rz` being the zero register. -/
inductive GenericRegister
  | R0 | R1 | R2 | R3 | R4 | Rz
  deriving DecidableEq, Repr

/-- Pointer registers: the bank `pv [7]unsafe.Pointer` of the emulator, `Pn` being the null
register. -/
inductive PointerRegister
  | P0 | P1 | P2 | P3 | P4 | P5 | Pn
  deriving DecidableEq, Repr

/-- A register of either bank, as routed to a call by the builder chainers `A0..` / `R0..`. -/
inductive Register
  | G (r : GenericRegister)
  | P (r : PointerRegister)
  deriving DecidableEq, Repr

/-- IR opcodes: the cases of the `switch p.Op` in `Emulator.Run`; `OP_illegal c` stands for any
opcode byte `c` that none of the cases matches. -/
inductive OpCode
  | OP_nop | OP_ip
  | OP_lb | OP_lw | OP_ll | OP_lq | OP_lp
  | OP_sb | OP_sw | OP_sl | OP_sq | OP_sp
  | OP_ldaq | OP_ldap | OP_strq | OP_strp
  | OP_addp | OP_subp | OP_addpi
  | OP_add | OP_sub | OP_addi | OP_muli | OP_andi | OP_xori | OP_shri | OP_sbiti
  | OP_swapw | OP_swapl | OP_swapq
  | OP_beq | OP_bne | OP_blt | OP_bltu | OP_bgeu | OP_beqn | OP_bnen
  | OP_jal | OP_bzero | OP_bcopy | OP_halt | OP_break
  | OP_ccall | OP_gcall | OP_icall
  | OP_bts | OP_bsw
  | OP_illegal (c : Nat)
  deriving DecidableEq, Repr

/-- An instruction record. `β` is the type of code references: symbolic labels while the
program is being built, instruction indices once it is linked. `Sw` is the switch table of
`bsw` (the array `Pr` points to), `Ar` / `Rr` the registers routed to and from a call. -/
structure Instr (β : Type) where
  Op : OpCode
  Rx : GenericRegister := GenericRegister.Rz
  Ry : GenericRegister := GenericRegister.Rz
  Rz : GenericRegister := GenericRegister.Rz
  Ps : PointerRegister := PointerRegister.Pn
  Pd : PointerRegister := PointerRegister.Pn
  Iv : Int := 0
  Pr : Nat := 0
  Br : Option β := none
  Ln : Option β := none
  Sw : List (Option β) := []
  Ar : List Register := []
  Rr : List Register := []

/-- A linked instruction: code references are indices into the program. -/
abbrev Ir := Instr Nat

/-- A linked program: the chain rooted at `Head`, laid out as a vector, `Ln` being the index of
the fall-through successor. -/
structure Program where
  code : List Ir
  Head : Option Nat

end ir

open ir
open ir.GenericRegister ir.PointerRegister ir.OpCode

/-! ## The emulator (`internal/atm/emu/emu.go`) -/

namespace emu

/-- An argument or return slot: `struct { U uint64; P unsafe.Pointer }`. -/
structure Value where
  U : Nat := 0
  P : Nat := 0
  deriving DecidableEq, Repr

/-- The emulator instance, together with the memory it operates on. Slot arrays `ar`, `rv` have
eight entries, indexed `0..7`. -/
structure Emulator where
  pc : Option Nat
  uv : GenericRegister → Nat := fun _ => 0
  pv : PointerRegister → Nat := fun _ => 0
  ar : Nat → Value := fun _ => {}
  rv : Nat → Value := fun _ => {}
  mem : Mem := fun _ => 0

/-- What a registered call handle computes: from the values of the argument registers and the
memory, the values for the return registers and the new memory. -/
abbrev CallHandle := List Nat → Mem → List Nat × Mem

/-- The host environment of a run: the call registry, the addresses of the instruction
records, and whether a debugger is attached that resumes the process after the breakpoint trap
of `runtime.Breakpoint()` (without one the trap ends the process). -/
structure Env where
  LookupCall : Int → CallHandle
  irAddr : Nat → Nat
  resume : Bool := false

/-- Register bank update. -/
def setG (f : GenericRegister → Nat) (r : GenericRegister) (v : Nat) : GenericRegister → Nat :=
  fun x => if x = r then v else f x

/-- Pointer bank update. -/
def setP (f : PointerRegister → Nat) (r : PointerRegister) (v : Nat) : PointerRegister → Nat :=
  fun x => if x = r then v else f x

/-- Slot update of the integer half. -/
def setU (f : Nat → Value) (i : Nat) (v : Nat) : Nat → Value :=
  fun x => if x = i then { f x with U := v } else f x

/-- Slot update of the pointer half. -/
def setVP (f : Nat → Value) (i : Nat) (v : Nat) : Nat → Value :=
  fun x => if x = i then { f x with P := v } else f x

def Emulator.Ru (self : Emulator) (i : Nat) : Nat := (self.rv i).U
def Emulator.Rp (self : Emulator) (i : Nat) : Nat := (self.rv i).P
def Emulator.Au (self : Emulator) (i : Nat) (v : Nat) : Emulator := { self with ar := setU self.ar i v }
def Emulator.Ap (self : Emulator) (i : Nat) (v : Nat) : Emulator := { self with ar := setVP self.ar i v }
def Emulator.Gr (self : Emulator) (id : GenericRegister) : Nat := self.uv id
def Emulator.Pr (self : Emulator) (id : PointerRegister) : Nat := self.pv id
def Emulator.SetGr (self : Emulator) (id : GenericRegister) (val : Nat) : Emulator :=
  { self with uv := setG self.uv id val }
def Emulator.SetPr (self : Emulator) (id : PointerRegister) (val : Nat) : Emulator :=
  { self with pv := setP self.pv id val }

/-- Value of a register of either bank. -/
def Emulator.reg (self : Emulator) : Register → Nat
  | Register.G r => self.Gr r
  | Register.P r => self.Pr r

/-- Store into a register of either bank. -/
def Emulator.setReg (self : Emulator) : Register → Nat → Emulator
  | Register.G r, v => self.SetGr r v
  | Register.P r, v => self.SetPr r v

/-- Write the results of a call to the return registers, in declaration order. -/
def writeRets : Emulator → List Register → List Nat → Emulator
  | e, [], _ => e
  | e, r :: rs, vs => writeRets (e.setReg r (vs.headD 0 % W64)) rs vs.tail

/-- Modelled from the spec: the call registry (`ir.LookupCall(p.Iv).Call(self, p)`), which is
not part of the sources at hand. The handle reads the registers routed by the `A0..Ak`
chainers, runs the host function, and writes its results to the registers routed by the
`R0..Rk` chainers. -/
def Call (env : Env) (self : Emulator) (p : Ir) : Emulator :=
  let r := env.LookupCall p.Iv (p.Ar.map self.reg) self.mem
  writeRets { self with mem := r.2 } p.Rr r.1

/-- Address of the instruction record `pc` points to (`unsafe.Pointer(self.pc)`). -/
def pcAddr (env : Env) : Option Nat → Nat
  | none => 0
  | some i => env.irAddr i

/-- Effective address `uintptr(base) + uintptr(iv)`. -/
def ea (base : Nat) (iv : Int) : Nat := (base + toU64 iv) % W64

/-- Outcome of one iteration of the interpreter loop. -/
inductive Step
  | cont (e : Emulator)
  | ret (e : Emulator)
  | fault

/-- The method `trap`: it prints the state through `self.String()`, which calls
`self.pc.Disassemble(nil)`. At that point `pc` has already been advanced to the successor of
the `break` instruction, so for a `break` without a successor it is nil and the call
dereferences a nil pointer, a Go run-time panic. Then `runtime.Breakpoint()` raises a
breakpoint trap, after which the run goes on only when a debugger resumes it. -/
def Emulator.trap (env : Env) (self : Emulator) : Step :=
  match self.pc with
  | none => Step.fault
  | some _ => if env.resume then Step.cont self else Step.fault

/-- The `switch p.Op` of `Emulator.Run`, on the state in which `pc` has already been advanced
and `Rz`, `Pn` have been cleared. `Step.ret` is the `default: return`; `Step.fault` is a Go
run-time panic (slot index out of range, negative shift count, nil dereference in `trap`) or a
breakpoint trap that nothing resumes. -/
def exec (env : Env) (p : Ir) (self : Emulator) : Step :=
  match p.Op with
  | OP_illegal _ => Step.ret self
  | OP_nop => Step.cont self
  | OP_ip => Step.cont { self with pv := setP self.pv p.Pd p.Pr }
  | OP_lb => Step.cont { self with uv := setG self.uv p.Rx (sext 8 (loadN self.mem (ea (self.pv p.Ps) p.Iv) 1)) }
  | OP_lw => Step.cont { self with uv := setG self.uv p.Rx (sext 16 (loadN self.mem (ea (self.pv p.Ps) p.Iv) 2)) }
  | OP_ll => Step.cont { self with uv := setG self.uv p.Rx (sext 32 (loadN self.mem (ea (self.pv p.Ps) p.Iv) 4)) }
  | OP_lq => Step.cont { self with uv := setG self.uv p.Rx (sext 64 (loadN self.mem (ea (self.pv p.Ps) p.Iv) 8)) }
  | OP_lp => Step.cont { self with pv := setP self.pv p.Pd (loadN self.mem (ea (self.pv p.Ps) p.Iv) 8) }
  | OP_sb => Step.cont { self with mem := storeN self.mem (ea (self.pv p.Pd) p.Iv) 1 (self.uv p.Rx) }
  | OP_sw => Step.cont { self with mem := storeN self.mem (ea (self.pv p.Pd) p.Iv) 2 (self.uv p.Rx) }
  | OP_sl => Step.cont { self with mem := storeN self.mem (ea (self.pv p.Pd) p.Iv) 4 (self.uv p.Rx) }
  | OP_sq => Step.cont { self with mem := storeN self.mem (ea (self.pv p.Pd) p.Iv) 8 (self.uv p.Rx) }
  | OP_sp => Step.cont { self with mem := storeN self.mem (ea (self.pv p.Pd) p.Iv) 8 (self.pv p.Ps) }
  | OP_ldaq =>
      if 0 ≤ p.Iv ∧ p.Iv < 8 then Step.cont { self with uv := setG self.uv p.Rx (self.ar p.Iv.toNat).U }
      else Step.fault
  | OP_ldap =>
      if 0 ≤ p.Iv ∧ p.Iv < 8 then Step.cont { self with pv := setP self.pv p.Pd (self.ar p.Iv.toNat).P }
      else Step.fault
  | OP_strq =>
      if 0 ≤ p.Iv ∧ p.Iv < 8 then Step.cont { self with rv := setU self.rv p.Iv.toNat (self.uv p.Rx) }
      else Step.fault
  | OP_strp =>
      if 0 ≤ p.Iv ∧ p.Iv < 8 then Step.cont { self with rv := setVP self.rv p.Iv.toNat (self.pv p.Ps) }
      else Step.fault
  | OP_addp => Step.cont { self with pv := setP self.pv p.Pd ((self.pv p.Ps + self.uv p.Rx) % W64) }
  | OP_subp => Step.cont { self with pv := setP self.pv p.Pd ((self.pv p.Ps + (W64 - self.uv p.Rx % W64)) % W64) }
  | OP_addpi => Step.cont { self with pv := setP self.pv p.Pd (ea (self.pv p.Ps) p.Iv) }
  | OP_add => Step.cont { self with uv := setG self.uv p.Rz ((self.uv p.Rx + self.uv p.Ry) % W64) }
  | OP_sub => Step.cont { self with uv := setG self.uv p.Rz ((self.uv p.Rx + (W64 - self.uv p.Ry % W64)) % W64) }
  | OP_addi => Step.cont { self with uv := setG self.uv p.Ry ((self.uv p.Rx + toU64 p.Iv) % W64) }
  | OP_muli => Step.cont { self with uv := setG self.uv p.Ry ((self.uv p.Rx * toU64 p.Iv) % W64) }
  | OP_andi => Step.cont { self with uv := setG self.uv p.Ry (self.uv p.Rx &&& toU64 p.Iv) }
  | OP_xori => Step.cont { self with uv := setG self.uv p.Ry (self.uv p.Rx ^^^ toU64 p.Iv) }
  | OP_shri =>
      if 0 ≤ p.Iv then Step.cont { self with uv := setG self.uv p.Ry (self.uv p.Rx >>> p.Iv.toNat) }
      else Step.fault
  | OP_sbiti =>
      if 0 ≤ p.Iv then Step.cont { self with uv := setG self.uv p.Ry (self.uv p.Rx ||| (1 <<< p.Iv.toNat) % W64) }
      else Step.fault
  | OP_swapw => Step.cont { self with uv := setG self.uv p.Ry (ReverseBytes16 (self.uv p.Rx % 65536)) }
  | OP_swapl => Step.cont { self with uv := setG self.uv p.Ry (ReverseBytes32 (self.uv p.Rx % 4294967296)) }
  | OP_swapq => Step.cont { self with uv := setG self.uv p.Ry (ReverseBytes64 (self.uv p.Rx % W64)) }
  | OP_beq => Step.cont (if self.uv p.Rx = self.uv p.Ry then { self with pc := p.Br } else self)
  | OP_bne => Step.cont (if self.uv p.Rx ≠ self.uv p.Ry then { self with pc := p.Br } else self)
  | OP_blt => Step.cont (if toI64 (self.uv p.Rx) < toI64 (self.uv p.Ry) then { self with pc := p.Br } else self)
  | OP_bltu => Step.cont (if self.uv p.Rx < self.uv p.Ry then { self with pc := p.Br } else self)
  | OP_bgeu => Step.cont (if self.uv p.Rx ≥ self.uv p.Ry then { self with pc := p.Br } else self)
  | OP_beqn => Step.cont (if self.pv p.Ps = 0 then { self with pc := p.Br } else self)
  | OP_bnen => Step.cont (if self.pv p.Ps ≠ 0 then { self with pc := p.Br } else self)
  | OP_jal => Step.cont { self with pv := setP self.pv p.Pd (pcAddr env self.pc), pc := p.Br }
  | OP_bzero => Step.cont { self with mem := memclrNoHeapPointers self.mem (self.pv p.Pd) (toU64 p.Iv) }
  | OP_bcopy => Step.cont { self with mem := memmove self.mem (self.pv p.Pd) (self.pv p.Ps) (self.uv p.Rx) }
  | OP_halt => Step.cont { self with pc := none }
  | OP_break => self.trap env
  | OP_ccall => Step.cont (Call env self p)
  | OP_gcall => Step.cont (Call env self p)
  | OP_icall => Step.cont (Call env self p)
  | OP_bts =>
      let x := self.uv p.Rx
      let y := self.uv p.Ry
      let uv1 := setG self.uv p.Ry ((y ||| 1 <<< x) % W64)
      Step.cont { self with uv := setG uv1 p.Rz (if y &&& (1 <<< x) % W64 = 0 then 0 else 1) }
  | OP_bsw =>
      let v := self.uv p.Rx
      if v < toU64 p.Iv then
        match p.Sw.getD v none with
        | some q => Step.cont { self with pc := some q }
        | none => Step.cont self
      else Step.cont self

/-- Head of the loop body: `p, self.pc = self.pc, self.pc.Ln` and
`self.uv[ir.Rz], self.pv[ir.Pn] = 0, nil`. -/
def advance (p : Ir) (self : Emulator) : Emulator :=
  { self with pc := p.Ln, uv := setG self.uv Rz 0, pv := setP self.pv Pn 0 }

/-- One iteration of the loop `for self.pc != nil` at instruction index `i`. An index outside
the program is a dangling pointer, reported as a fault. -/
def step (env : Env) (prog : List Ir) (self : Emulator) (i : Nat) : Step :=
  match prog[i]? with
  | none => Step.fault
  | some p => exec env p (advance p self)

/-- How `Run` ends. -/
inductive Exit
  | returned (e : Emulator)
  | panicked (e : Emulator)
  | fault

/-- The code after the loop: `if self.pc != nil { panic("illegal OpCode") }`. -/
def finish (self : Emulator) : Exit :=
  if self.pc ≠ none then Exit.panicked self else Exit.returned self

/-- The method `Run`, with a bound on the number of loop iterations (`none`: the bound was
reached). -/
def Run (env : Env) (prog : List Ir) : Nat → Emulator → Option Exit
  | 0, self => if self.pc = none then some (finish self) else none
  | fuel + 1, self =>
    match self.pc with
    | none => some (finish self)
    | some i =>
      match step env prog self i with
      | Step.cont e => Run env prog fuel e
      | Step.ret e => some (Exit.returned e)
      | Step.fault => some Exit.fault

/-- The method `Reset`: `*self = Emulator{pc: p.Head}`. The memory is not part of the instance
and is kept. -/
def Emulator.Reset (self : Emulator) (p : Program) : Emulator :=
  { pc := p.Head, mem := self.mem }

end emu

/-! ## The builder (`ir.Builder`) -/

namespace ir

/-- Label names. `name s` is a literal name; `loc s n` is a name `s` containing the token
`{n}`, instantiated with the counter value `n`; `mark i` is the label that `Mark(i)` attaches
and `At(i)` refers to. -/
inductive Label
  | name (s : String)
  | loc (s : String) (n : Nat)
  | mark (i : Nat)
  deriving DecidableEq, Repr

/-- What the builder records: label definitions and instructions, in emission order. -/
inductive Item
  | label (l : Label)
  | ins (i : Instr Label)

/-- The instructions of a builder, in order. -/
def instrs : List Item → List (Instr Label)
  | [] => []
  | Item.label _ :: r => instrs r
  | Item.ins i :: r => i :: instrs r

/-- The labels defined in a builder, in order. -/
def labels : List Item → List Label
  | [] => []
  | Item.label l :: r => l :: labels r
  | Item.ins _ :: r => labels r

/-- Index of the instruction that follows the definition of `l`: a label attaches to the next
instruction emitted. -/
def labelIndex (l : Label) : List Item → Option Nat
  | [] => none
  | Item.label k :: r => if k = l then some 0 else labelIndex l r
  | Item.ins _ :: r => (labelIndex l r).map (fun i => i + 1)

/-- Resolution of a label reference in a program of `n` instructions; an undefined label, or
one with no instruction after it, does not resolve. -/
def resolve (items : List Item) (n : Nat) (l : Label) : Option Nat :=
  match labelIndex l items with
  | some i => if i < n then some i else none
  | none => none

/-- Resolution of an optional reference (`none`: the instruction has no branch target, or the
switch slot is empty). -/
def resolveRef (tgt : Label → Option Nat) : Option Label → Option (Option Nat)
  | none => some none
  | some l => (tgt l).map some

/-- Resolution of a switch table. -/
def resolveTab (tgt : Label → Option Nat) : List (Option Label) → Option (List (Option Nat))
  | [] => some []
  | o :: r =>
    match resolveRef tgt o, resolveTab tgt r with
    | some a, some b => some (a :: b)
    | _, _ => none

/-- Linking of the instruction at index `i` of `n`: references become indices (through the
label table `tgt`), `Ln` becomes the next index (nil for the last instruction). -/
def linkInstr (tgt : Label → Option Nat) (n i : Nat) (r : Instr Label) : Option Ir :=
  match resolveRef tgt r.Br, resolveTab tgt r.Sw with
  | some br, some sw =>
    some { Op := r.Op, Rx := r.Rx, Ry := r.Ry, Rz := r.Rz, Ps := r.Ps, Pd := r.Pd, Iv := r.Iv,
           Pr := r.Pr, Br := br, Ln := if i + 1 < n then some (i + 1) else none, Sw := sw,
           Ar := r.Ar, Rr := r.Rr }
  | _, _ => none

/-- Linking of the instructions from index `i` on. -/
def linkFrom (tgt : Label → Option Nat) (n : Nat) : Nat → List (Instr Label) → Option (List Ir)
  | _, [] => some []
  | i, r :: rs =>
    match linkInstr tgt n i r, linkFrom tgt n (i + 1) rs with
    | some a, some b => some (a :: b)
    | _, _ => none

/-- Modelled from the spec: `Builder.Build`, which is not part of the sources at hand. It links
the fall-through pointers and resolves all labels; an unresolved label and a duplicate label
definition are fatal (`none`). -/
def Build (items : List Item) : Option Program :=
  if (labels items).Nodup then
    match linkFrom (resolve items (instrs items).length) (instrs items).length 0 (instrs items) with
    | some code => some { code := code, Head := if (instrs items).length = 0 then none else some 0 }
    | none => none
  else none

/-! Modelled from the spec: the emission methods of `ir.Builder`, one per opcode, which are not
part of the sources at hand. Operand order is that of the call sites in the translator. The
methods `IB`, `IQ`, `MOVP` and `SUBI` have no case of their own in the emulator's switch:
they are emitted as `addi` from the zero register, `addpi` by 0 and `addi` of the negated
immediate. -/

abbrev mk (i : Instr Label) : Item := Item.ins i

abbrev IP (pr : Nat) (pd : PointerRegister) : Item := mk { Op := OP_ip, Pr := pr, Pd := pd }
abbrev LB (ps : PointerRegister) (iv : Int) (rx : GenericRegister) : Item := mk { Op := OP_lb, Ps := ps, Iv := iv, Rx := rx }
abbrev LW (ps : PointerRegister) (iv : Int) (rx : GenericRegister) : Item := mk { Op := OP_lw, Ps := ps, Iv := iv, Rx := rx }
abbrev LL (ps : PointerRegister) (iv : Int) (rx : GenericRegister) : Item := mk { Op := OP_ll, Ps := ps, Iv := iv, Rx := rx }
abbrev LQ (ps : PointerRegister) (iv : Int) (rx : GenericRegister) : Item := mk { Op := OP_lq, Ps := ps, Iv := iv, Rx := rx }
abbrev LP (ps : PointerRegister) (iv : Int) (pd : PointerRegister) : Item := mk { Op := OP_lp, Ps := ps, Iv := iv, Pd := pd }
abbrev SB (rx : GenericRegister) (pd : PointerRegister) (iv : Int) : Item := mk { Op := OP_sb, Rx := rx, Pd := pd, Iv := iv }
abbrev SW (rx : GenericRegister) (pd : PointerRegister) (iv : Int) : Item := mk { Op := OP_sw, Rx := rx, Pd := pd, Iv := iv }
abbrev SL (rx : GenericRegister) (pd : PointerRegister) (iv : Int) : Item := mk { Op := OP_sl, Rx := rx, Pd := pd, Iv := iv }
abbrev SQ (rx : GenericRegister) (pd : PointerRegister) (iv : Int) : Item := mk { Op := OP_sq, Rx := rx, Pd := pd, Iv := iv }
abbrev SP (ps : PointerRegister) (pd : PointerRegister) (iv : Int) : Item := mk { Op := OP_sp, Ps := ps, Pd := pd, Iv := iv }
abbrev LDAQ (id : Int) (rx : GenericRegister) : Item := mk { Op := OP_ldaq, Iv := id, Rx := rx }
abbrev LDAP (id : Int) (pd : PointerRegister) : Item := mk { Op := OP_ldap, Iv := id, Pd := pd }
abbrev STRQ (rx : GenericRegister) (id : Int) : Item := mk { Op := OP_strq, Rx := rx, Iv := id }
abbrev STRP (ps : PointerRegister) (id : Int) : Item := mk { Op := OP_strp, Ps := ps, Iv := id }
abbrev ADDP (ps : PointerRegister) (rx : GenericRegister) (pd : PointerRegister) : Item := mk { Op := OP_addp, Ps := ps, Rx := rx, Pd := pd }
abbrev ADDPI (ps : PointerRegister) (iv : Int) (pd : PointerRegister) : Item := mk { Op := OP_addpi, Ps := ps, Iv := iv, Pd := pd }
abbrev ADD (rx ry rz : GenericRegister) : Item := mk { Op := OP_add, Rx := rx, Ry := ry, Rz := rz }
abbrev SUB (rx ry rz : GenericRegister) : Item := mk { Op := OP_sub, Rx := rx, Ry := ry, Rz := rz }
abbrev ADDI (rx : GenericRegister) (iv : Int) (ry : GenericRegister) : Item := mk { Op := OP_addi, Rx := rx, Iv := iv, Ry := ry }
abbrev SUBI (rx : GenericRegister) (iv : Int) (ry : GenericRegister) : Item := ADDI rx (-iv) ry
abbrev MULI (rx : GenericRegister) (iv : Int) (ry : GenericRegister) : Item := mk { Op := OP_muli, Rx := rx, Iv := iv, Ry := ry }
abbrev ANDI (rx : GenericRegister) (iv : Int) (ry : GenericRegister) : Item := mk { Op := OP_andi, Rx := rx, Iv := iv, Ry := ry }
abbrev XORI (rx : GenericRegister) (iv : Int) (ry : GenericRegister) : Item := mk { Op := OP_xori, Rx := rx, Iv := iv, Ry := ry }
abbrev SBITI (rx : GenericRegister) (iv : Int) (ry : GenericRegister) : Item := mk { Op := OP_sbiti, Rx := rx, Iv := iv, Ry := ry }
abbrev SWAPW (rx ry : GenericRegister) : Item := mk { Op := OP_swapw, Rx := rx, Ry := ry }
abbrev SWAPL (rx ry : GenericRegister) : Item := mk { Op := OP_swapl, Rx := rx, Ry := ry }
abbrev SWAPQ (rx ry : GenericRegister) : Item := mk { Op := OP_swapq, Rx := rx, Ry := ry }
abbrev IB (v : Int) (rx : GenericRegister) : Item := ADDI GenericRegister.Rz v rx
abbrev IQ (v : Int) (rx : GenericRegister) : Item := ADDI GenericRegister.Rz v rx
abbrev MOVP (ps pd : PointerRegister) : Item := ADDPI ps 0 pd
abbrev BEQ (rx ry : GenericRegister) (br : Label) : Item := mk { Op := OP_beq, Rx := rx, Ry := ry, Br := some br }
abbrev BNE (rx ry : GenericRegister) (br : Label) : Item := mk { Op := OP_bne, Rx := rx, Ry := ry, Br := some br }
abbrev BLT (rx ry : GenericRegister) (br : Label) : Item := mk { Op := OP_blt, Rx := rx, Ry := ry, Br := some br }
abbrev BLTU (rx ry : GenericRegister) (br : Label) : Item := mk { Op := OP_bltu, Rx := rx, Ry := ry, Br := some br }
abbrev BGEU (rx ry : GenericRegister) (br : Label) : Item := mk { Op := OP_bgeu, Rx := rx, Ry := ry, Br := some br }
abbrev BNEN (ps : PointerRegister) (br : Label) : Item := mk { Op := OP_bnen, Ps := ps, Br := some br }
abbrev JAL (br : Label) (pd : PointerRegister) : Item := mk { Op := OP_jal, Br := some br, Pd := pd }
abbrev HALT : Item := mk { Op := OP_halt }
abbrev BSW (rx : GenericRegister) (ptab : List (Option Label)) : Item := mk { Op := OP_bsw, Rx := rx, Iv := ptab.length, Sw := ptab }
abbrev GCALL (fn : Int) (args rets : List Register) : Item := mk { Op := OP_gcall, Iv := fn, Ar := args, Rr := rets }
abbrev CCALL (fn : Int) (args rets : List Register) : Item := mk { Op := OP_ccall, Iv := fn, Ar := args, Rr := rets }

end ir

/-! ## The decoder translator (`internal/binary/decoder/translator.go`) -/

namespace decoder

open ir.Label

/-- Opcodes of the decoder plan: the entries of the table `translators`; `OP_other c` stands
for any opcode byte `c` whose entry in the table is nil. -/
inductive OpCode
  | OP_int | OP_str | OP_bin | OP_enum | OP_size | OP_type | OP_seek | OP_deref
  | OP_ctr_load | OP_ctr_decr | OP_ctr_is_zero
  | OP_map_alloc | OP_map_close
  | OP_map_set_i8 | OP_map_set_i16 | OP_map_set_i32 | OP_map_set_i64 | OP_map_set_str
  | OP_map_set_pointer
  | OP_list_alloc
  | OP_struct_skip | OP_struct_ignore | OP_struct_bitmap | OP_struct_switch | OP_struct_require
  | OP_struct_is_stop | OP_struct_mark_tag | OP_struct_read_type | OP_struct_check_type
  | OP_make_state | OP_drop_state | OP_construct | OP_defer | OP_goto | OP_halt
  | OP_other (c : Nat)
  deriving DecidableEq, Repr

/-- A type descriptor `*rt.GoType` as the translator uses it: its address, its `Size` field, and
the result of `rt.MapType(vt).IsFastMap()`. -/
structure GoType where
  addr : Nat := 0
  Size : Nat := 0
  IsFastMap : Bool := false
  deriving DecidableEq, Repr

/-- An instruction of the decoder plan, `Instr { Op, Iv, Tx, Vt, To, Sw }`. -/
structure Instr where
  Op : OpCode
  Iv : Int := 0
  Tx : Nat := 0
  Vt : GoType := {}
  To : Nat := 0
  Sw : List Int := []
  deriving DecidableEq, Repr

/-- The constants and registered call handles the translator refers to and that are declared
outside the sources at hand: the runtime-state layout, the bitmap size, the Thrift struct tag,
the addresses of the package variables `_E_overflow` and `_V_zerovalue`, and the ids of the
call handles; and the state of the field-bitmap pool as the translator meets it: `pooled n w`
is word `w` of the bitmap that the pooled constructor `newFieldBitmap()` hands to the lowering
of plan instruction `n`. -/
structure Defs where
  StateMax : Nat
  StateSize : Nat
  NbOffset : Nat
  MpOffset : Nat
  FmOffset : Nat
  WpOffset : Nat
  IvOffset : Nat
  PrOffset : Nat
  SkOffset : Nat
  MaxBitmap : Nat
  T_struct : Nat
  E_overflow : Nat
  V_zerovalue : Nat
  F_error_eof : Int
  F_error_type : Int
  F_error_skip : Int
  F_error_missing : Int
  F_mallocgc : Int
  F_makemap : Int
  F_mapassign : Int
  F_mapassign_fast32 : Int
  F_mapassign_fast64 : Int
  F_mapassign_faststr : Int
  F_mapassign_fast64ptr : Int
  F_newFiedBitmap : Int
  F_FieldBitmap_Free : Int
  F_decode : Int
  C_skip : Int
  pooled : Nat → Nat → Nat

abbrev ARG_buf : Int := 0
abbrev ARG_nb : Int := 1
abbrev ARG_i : Int := 2
abbrev ARG_p : Int := 3
abbrev ARG_rs : Int := 4
abbrev ARG_st : Int := 5

abbrev RET_pos : Int := 0
abbrev RET_err_itab : Int := 1
abbrev RET_err_data : Int := 2

abbrev WP : PointerRegister := P1
abbrev IP : PointerRegister := P2
abbrev RS : PointerRegister := P3
abbrev ET : PointerRegister := P4
abbrev EP : PointerRegister := P5

abbrev IC : GenericRegister := R2
abbrev ST : GenericRegister := R3
abbrev TG : GenericRegister := R4

abbrev TP : PointerRegister := P0
abbrev TR : GenericRegister := R0
abbrev UR : GenericRegister := R1

abbrev LB_eof : Label := name "_eof"
abbrev LB_halt : Label := name "_halt"
abbrev LB_type : Label := name "_type"
abbrev LB_skip : Label := name "_skip"
abbrev LB_error : Label := name "_error"
abbrev LB_missing : Label := name "_missing"
abbrev LB_overflow : Label := name "_overflow"

/-- Conversion `int8(x)` of a byte. -/
def int8 (x : Nat) : Int := if x % 256 < 128 then ((x % 256 : Nat) : Int) else ((x % 256 : Nat) : Int) - 256

/-- Modelled from the spec: `mkstab(s, n)`, which is not part of the sources at hand: the
table of length `n` that `s` points to. -/
def mkstab (s : List Int) (n : Int) : List Int := s.take n.toNat

/-- Modelled from the spec: `FieldBitmap.Append`, which is not part of the sources at hand: it
sets bit `i` of a bitmap of `MaxBitmap` 64-bit words; an index outside the array is a Go
run-time panic (`none`). -/
def Append (D : Defs) (buf : List Nat) (i : Int) : Option (List Nat) :=
  if 0 ≤ i ∧ i < 64 * (D.MaxBitmap : Int) then
    some (buf.set (i.toNat / 64) (buf.getD (i.toNat / 64) 0 ||| 1 <<< (i.toNat % 64)))
  else none

/-- Modelled from the spec: `newFieldBitmap()` at translation time, which is not part of the
sources at hand: the pooled constructor. It hands out a bitmap of `MaxBitmap` 64-bit words,
either a new one or one that was released to the pool before, with the content it was released
with; `n` is the index of the plan instruction whose lowering makes the call. -/
def newFieldBitmap (D : Defs) (n : Nat) : List Nat :=
  (List.range D.MaxBitmap).map (fun w => D.pooled n w % W64)

/-- The loop `for _, i := range tab { buf.Append(i) }`. -/
def appendAll (D : Defs) : List Nat → List Int → Option (List Nat)
  | buf, [] => some buf
  | buf, i :: r =>
    match Append D buf i with
    | some b => appendAll D b r
    | none => none

def errors (D : Defs) : List Item :=
  [ Item.label LB_eof,
    LDAQ ARG_nb UR,
    SUB TR UR TR,
    GCALL D.F_error_eof [Register.G TR] [Register.P ET, Register.P EP],
    JAL LB_error Pn,
    Item.label LB_type,
    GCALL D.F_error_type [Register.G UR, Register.G TR] [Register.P ET, Register.P EP],
    JAL LB_error Pn,
    Item.label LB_skip,
    GCALL D.F_error_skip [Register.G TR] [Register.P ET, Register.P EP],
    JAL LB_error Pn,
    Item.label LB_missing,
    GCALL D.F_error_missing [Register.P ET, Register.G UR, Register.G TR] [Register.P ET, Register.P EP],
    JAL LB_error Pn,
    Item.label LB_overflow,
    ir.IP D.E_overflow TP,
    LP TP 0 ET,
    LP TP 8 EP,
    JAL LB_error Pn ]

def prologue : List Item :=
  [ LDAP ARG_buf IP,
    LDAQ ARG_i IC,
    LDAP ARG_p WP,
    LDAP ARG_rs RS,
    LDAQ ARG_st ST ]

def epilogue : List Item :=
  [ Item.label LB_halt,
    MOVP Pn ET,
    MOVP Pn EP,
    Item.label LB_error,
    STRQ IC RET_pos,
    STRP ET RET_err_itab,
    STRP EP RET_err_data,
    HALT ]

def translate_OP_int (v : Instr) : Option (List Item) :=
  if v.Iv = 1 then some [ADDP IP IC EP, LB EP 0 TR, SB TR WP 0, ADDI IC 1 IC]
  else if v.Iv = 2 then some [ADDP IP IC EP, LW EP 0 TR, SWAPW TR TR, SW TR WP 0, ADDI IC 2 IC]
  else if v.Iv = 4 then some [ADDP IP IC EP, LL EP 0 TR, SWAPL TR TR, SL TR WP 0, ADDI IC 4 IC]
  else if v.Iv = 8 then some [ADDP IP IC EP, LQ EP 0 TR, SWAPQ TR TR, SQ TR WP 0, ADDI IC 8 IC]
  else none

def translate_OP_binstr (n : Nat) : List Item :=
  [ ADDP IP IC EP,
    ADDI IC 4 IC,
    LL EP 0 TR,
    SWAPL TR TR,
    LDAQ ARG_nb UR,
    BLTU UR TR LB_eof,
    BEQ TR Rz (loc "_empty_{n}" n),
    ADDPI EP 4 EP,
    ADD IC TR IC,
    SP EP WP 0,
    Item.label (loc "_empty_{n}" n),
    SQ TR WP 8 ]

def translate_OP_str (n : Nat) : List Item :=
  [SP Pn WP 0] ++ translate_OP_binstr n

def translate_OP_bin (D : Defs) (n : Nat) : List Item :=
  [ir.IP D.V_zerovalue TP, SP TP WP 0] ++ translate_OP_binstr n ++ [SQ TR WP 16]

def translate_OP_enum : List Item :=
  [ADDP IP IC EP, LL EP 0 TR, SWAPL TR TR, SQ TR WP 0, ADDI IC 4 IC]

def translate_OP_size (v : Instr) : List Item :=
  [IQ v.Iv TR, LDAQ ARG_nb UR, BLTU UR TR LB_eof]

def translate_OP_type (v : Instr) : List Item :=
  [ADDP IP IC TP, LB TP 0 TR, IB (int8 v.Tx) UR, BNE TR UR LB_type, ADDI IC 1 IC]

def translate_OP_seek (v : Instr) : List Item :=
  [ADDPI WP v.Iv WP]

def translate_OP_deref (D : Defs) (n : Nat) (v : Instr) : List Item :=
  [ LQ WP 0 TR,
    BNE TR Rz (loc "_skip_{n}" n),
    IB 1 UR,
    ir.IP v.Vt.addr TP,
    IQ v.Vt.Size TR,
    GCALL D.F_mallocgc [Register.G TR, Register.P TP, Register.G UR] [Register.P TP],
    SP TP WP 0,
    Item.label (loc "_skip_{n}" n),
    LP WP 0 WP ]

def translate_OP_ctr_load (D : Defs) : List Item :=
  [ADDP IP IC EP, ADDI IC 4 IC, LL EP 0 TR, SWAPL TR TR, ADDP RS ST TP, SQ TR TP D.NbOffset]

def translate_OP_ctr_decr (D : Defs) : List Item :=
  [ADDP RS ST TP, LQ TP D.NbOffset TR, SUBI TR 1 TR, SQ TR TP D.NbOffset]

def translate_OP_ctr_is_zero (D : Defs) (v : Instr) : List Item :=
  [ADDP RS ST TP, LQ TP D.NbOffset TR, BEQ TR Rz (mark v.To)]

def translate_OP_map_alloc (D : Defs) (v : Instr) : List Item :=
  [ ADDP RS ST TP,
    LQ TP D.NbOffset TR,
    LP WP 0 TP,
    ir.IP v.Vt.addr ET,
    GCALL D.F_makemap [Register.P ET, Register.G TR, Register.P TP] [Register.P TP],
    SP TP WP 0,
    ADDP RS ST EP,
    SP TP EP D.MpOffset ]

def translate_OP_map_close (D : Defs) : List Item :=
  [ADDP RS ST TP, SP Pn TP D.MpOffset]

def translate_OP_map_set_i8 (D : Defs) (v : Instr) : List Item :=
  [ ADDP IP IC EP,
    ADDP RS ST TP,
    LP TP D.MpOffset TP,
    ir.IP v.Vt.addr ET,
    GCALL D.F_mapassign [Register.P ET, Register.P TP, Register.P EP] [Register.P WP],
    ADDI IC 1 IC ]

def translate_OP_map_set_i16 (D : Defs) (v : Instr) : List Item :=
  [ ADDP IP IC ET,
    ADDI IC 2 IC,
    ADDP RS ST TP,
    LP TP D.MpOffset EP,
    LW ET 0 TR,
    SWAPW TR TR,
    SW TR RS D.IvOffset,
    ADDPI RS D.IvOffset TP,
    ir.IP v.Vt.addr ET,
    GCALL D.F_mapassign [Register.P ET, Register.P EP, Register.P TP] [Register.P WP] ]

def translate_OP_map_set_i32_fast (D : Defs) (v : Instr) : List Item :=
  [ ADDP IP IC EP,
    ADDI IC 4 IC,
    ADDP RS ST TP,
    LP TP D.MpOffset TP,
    LL EP 0 TR,
    SWAPL TR TR,
    ir.IP v.Vt.addr ET,
    GCALL D.F_mapassign_fast32 [Register.P ET, Register.P TP, Register.G TR] [Register.P WP] ]

def translate_OP_map_set_i32_safe (D : Defs) (v : Instr) : List Item :=
  [ ADDP IP IC ET,
    ADDI IC 4 IC,
    ADDP RS ST TP,
    LP TP D.MpOffset EP,
    LL ET 0 TR,
    SWAPL TR TR,
    SL TR RS D.IvOffset,
    ADDPI RS D.IvOffset TP,
    ir.IP v.Vt.addr ET,
    GCALL D.F_mapassign [Register.P ET, Register.P EP, Register.P TP] [Register.P WP] ]

def translate_OP_map_set_i32 (D : Defs) (v : Instr) : List Item :=
  if v.Vt.IsFastMap then translate_OP_map_set_i32_fast D v else translate_OP_map_set_i32_safe D v

def translate_OP_map_set_i64_fast (D : Defs) (v : Instr) : List Item :=
  [ ADDP IP IC EP,
    ADDI IC 8 IC,
    ADDP RS ST TP,
    LP TP D.MpOffset TP,
    LQ EP 0 TR,
    SWAPQ TR TR,
    ir.IP v.Vt.addr ET,
    GCALL D.F_mapassign_fast64 [Register.P ET, Register.P TP, Register.G TR] [Register.P WP] ]

def translate_OP_map_set_i64_safe (D : Defs) (v : Instr) : List Item :=
  [ ADDP IP IC ET,
    ADDI IC 2 IC,
    ADDP RS ST TP,
    LP TP D.MpOffset EP,
    LQ ET 0 TR,
    SWAPQ TR TR,
    SQ TR RS D.IvOffset,
    ADDPI RS D.IvOffset TP,
    ir.IP v.Vt.addr ET,
    GCALL D.F_mapassign [Register.P ET, Register.P EP, Register.P TP] [Register.P WP] ]

def translate_OP_map_set_i64 (D : Defs) (v : Instr) : List Item :=
  if v.Vt.IsFastMap then translate_OP_map_set_i64_fast D v else translate_OP_map_set_i64_safe D v

def translate_OP_map_set_str_fast (D : Defs) (n : Nat) (v : Instr) : List Item :=
  [ ADDP IP IC EP,
    ADDI IC 4 IC,
    LL EP 0 TR,
    SWAPL TR TR,
    LDAQ ARG_nb UR,
    BLTU UR TR LB_eof,
    MOVP Pn EP,
    BEQ TR Rz (loc "_empty_{n}" n),
    ADDP IP IC EP,
    ADD IC TR IC,
    Item.label (loc "_empty_{n}" n),
    ADDP RS ST TP,
    LP TP D.MpOffset TP,
    ir.IP v.Vt.addr ET,
    GCALL D.F_mapassign_faststr [Register.P ET, Register.P TP, Register.P EP, Register.G TR] [Register.P WP] ]

def translate_OP_map_set_str_safe (D : Defs) (n : Nat) (v : Instr) : List Item :=
  [ ADDP IP IC ET,
    ADDI IC 4 IC,
    LL ET 0 TR,
    SWAPL TR TR,
    LDAQ ARG_nb UR,
    BLTU UR TR LB_eof,
    SQ TR RS D.IvOffset,
    SP Pn RS D.PrOffset,
    BEQ TR Rz (loc "_empty_{n}" n),
    ADDPI ET 4 ET,
    ADD IC TR IC,
    SP ET RS D.PrOffset,
    Item.label (loc "_empty_{n}" n),
    ADDP RS ST EP,
    LP EP D.MpOffset EP,
    ir.IP v.Vt.addr ET,
    ADDPI RS D.PrOffset TP,
    GCALL D.F_mapassign [Register.P ET, Register.P EP, Register.P TP] [Register.P WP],
    SP Pn RS D.PrOffset ]

def translate_OP_map_set_str (D : Defs) (n : Nat) (v : Instr) : List Item :=
  if v.Vt.IsFastMap then translate_OP_map_set_str_fast D n v else translate_OP_map_set_str_safe D n v

def translate_OP_map_set_pointer_fast (D : Defs) (v : Instr) : List Item :=
  [ ADDP RS ST TP,
    LP TP D.MpOffset TP,
    ir.IP v.Vt.addr ET,
    GCALL D.F_mapassign_fast64ptr [Register.P ET, Register.P TP, Register.P WP] [Register.P WP] ]

def translate_OP_map_set_pointer_safe (D : Defs) (v : Instr) : List Item :=
  [ ADDP RS ST TP,
    LP TP D.MpOffset EP,
    SP WP RS D.PrOffset,
    ir.IP v.Vt.addr ET,
    ADDPI RS D.PrOffset TP,
    GCALL D.F_mapassign [Register.P ET, Register.P EP, Register.P TP] [Register.P WP],
    SP Pn RS D.PrOffset ]

def translate_OP_map_set_pointer (D : Defs) (v : Instr) : List Item :=
  if v.Vt.IsFastMap then translate_OP_map_set_pointer_fast D v else translate_OP_map_set_pointer_safe D v

def translate_OP_list_alloc (D : Defs) (n : Nat) (v : Instr) : List Item :=
  [ ADDP RS ST TP,
    LQ TP D.NbOffset TR,
    SQ TR WP 8,
    LQ WP 16 UR,
    BNE TR Rz (loc "_alloc_{n}" n),
    BNE UR Rz (loc "_done_{n}" n),
    ir.IP D.V_zerovalue TP,
    SP TP WP 0,
    SQ Rz WP 16,
    JAL (loc "_done_{n}" n) Pn,
    Item.label (loc "_alloc_{n}" n),
    BGEU UR TR (loc "_done_{n}" n),
    SQ TR WP 16,
    IB 1 UR,
    ir.IP v.Vt.addr TP,
    MULI TR v.Vt.Size TR,
    GCALL D.F_mallocgc [Register.G TR, Register.P TP, Register.G UR] [Register.P TP],
    SP TP WP 0,
    Item.label (loc "_done_{n}" n),
    LP WP 0 WP ]

def translate_OP_struct_skip (D : Defs) : List Item :=
  [ ADDPI RS D.SkOffset TP,
    LDAQ ARG_nb TR,
    SUB TR IC TR,
    ADDP IP IC EP,
    CCALL D.C_skip [Register.P TP, Register.P EP, Register.G TR, Register.G TG] [Register.G TR],
    BLT TR Rz LB_skip,
    ADD IC TR IC ]

def translate_OP_struct_ignore (D : Defs) : List Item :=
  [ ADDPI RS D.SkOffset TP,
    LDAQ ARG_nb TR,
    SUB TR IC TR,
    ADDP IP IC EP,
    IB (int8 D.T_struct) TG,
    CCALL D.C_skip [Register.P TP, Register.P EP, Register.G TR, Register.G TG] [Register.G TR],
    BLT TR Rz LB_skip,
    ADD IC TR IC ]

/-- The loop `for i := 0; i < MaxBitmap; i++ { if buf[i] != 0 { p.SQ(ir.Rz, TP, i * 8) } }` of
`translate_OP_struct_bitmap`, from word index `i` on. -/
def clearWords : Nat → List Nat → List Item
  | _, [] => []
  | i, w :: ws => (if w ≠ 0 then [SQ Rz TP ((i : Int) * 8)] else []) ++ clearWords (i + 1) ws

def translate_OP_struct_bitmap (D : Defs) (n : Nat) (v : Instr) : Option (List Item) :=
  match appendAll D (newFieldBitmap D n) (mkstab v.Sw v.Iv) with
  | none => none
  | some buf =>
    some ([ GCALL D.F_newFiedBitmap [] [Register.P TP],
            ADDP RS ST EP,
            SP TP EP D.FmOffset ] ++ clearWords 0 buf)

def translate_OP_struct_switch (v : Instr) : Option (List Item) :=
  if 0 ≤ v.Iv then
    some [ ADDP IP IC EP,
           ADDI IC 2 IC,
           LW EP 0 TR,
           SWAPW TR TR,
           BSW TR (((mkstab v.Sw v.Iv).map (fun (t : Int) => if t ≥ 0 then some (mark t.toNat) else none))
                    ++ List.replicate (v.Iv.toNat - (mkstab v.Sw v.Iv).length) none) ]
  else none

/-- The loop of `translate_OP_struct_require` that tests the mask of each non-zero word, from
word index `i` on. -/
def testWords (v : Instr) : Nat → List Nat → List Item
  | _, [] => []
  | i, w :: ws =>
    (if w ≠ 0 then
      [ LQ TP ((i : Int) * 8) TR,
        ANDI TR (toI64 w) TR,
        XORI TR (toI64 w) TR,
        IQ (i : Int) UR,
        ir.IP v.Vt.addr ET,
        BNE TR Rz LB_missing ]
     else []) ++ testWords v (i + 1) ws

def translate_OP_struct_require (D : Defs) (n : Nat) (v : Instr) : Option (List Item) :=
  match appendAll D (newFieldBitmap D n) (mkstab v.Sw v.Iv) with
  | none => none
  | some buf =>
    some ([ ADDP RS ST EP,
            LP EP D.FmOffset TP ] ++ testWords v 0 buf ++
          [ SP Pn EP D.FmOffset,
            GCALL D.F_FieldBitmap_Free [Register.P TP] [] ])

def translate_OP_struct_is_stop (v : Instr) : List Item :=
  [BEQ TG Rz (mark v.To)]

def translate_OP_struct_mark_tag (D : Defs) (v : Instr) : List Item :=
  [ ADDP RS ST TP,
    LP TP D.FmOffset TP,
    LQ TP (Int.tdiv v.Iv 64 * 8) TR,
    SBITI TR (Int.tmod v.Iv 64) TR,
    SQ TR TP (Int.tdiv v.Iv 64 * 8) ]

def translate_OP_struct_read_type : List Item :=
  [ADDP IP IC EP, ADDI IC 1 IC, LB EP 0 TG]

def translate_OP_struct_check_type (v : Instr) : List Item :=
  [IB (int8 v.Tx) TR, BNE TG TR (mark v.To)]

def translate_OP_make_state (D : Defs) : List Item :=
  [ IQ D.StateMax TR,
    BGEU ST TR LB_overflow,
    ADDP RS ST TP,
    SP WP TP D.WpOffset,
    ADDI ST D.StateSize ST ]

def translate_OP_drop_state (D : Defs) : List Item :=
  [ SUBI ST D.StateSize ST,
    ADDP RS ST TP,
    LP TP D.WpOffset WP,
    SP Pn TP D.WpOffset ]

def translate_OP_construct (D : Defs) (v : Instr) : List Item :=
  [ IB 1 UR,
    ir.IP v.Vt.addr TP,
    IQ v.Vt.Size TR,
    GCALL D.F_mallocgc [Register.G TR, Register.P TP, Register.G UR] [Register.P WP] ]

def translate_OP_defer (D : Defs) (v : Instr) : List Item :=
  [ ir.IP v.Vt.addr TP,
    LDAQ ARG_nb TR,
    GCALL D.F_decode
      [Register.P TP, Register.P IP, Register.G TR, Register.G IC, Register.P WP, Register.P RS, Register.G ST]
      [Register.G IC, Register.P ET, Register.P EP],
    BNEN ET LB_error ]

def translate_OP_goto (v : Instr) : List Item :=
  [JAL (mark v.To) Pn]

def translate_OP_halt : List Item :=
  [JAL LB_halt Pn]

/-- The table `translators`, applied: `translators[v.Op](p, v)` for the plan instruction at
index `n`, with the builder's counter for `{n}` at `n`. A nil entry and a panic of the
translator give `none`. -/
def translators (D : Defs) (n : Nat) (v : Instr) : Option (List Item) :=
  match v.Op with
  | OpCode.OP_int => translate_OP_int v
  | OpCode.OP_str => some (translate_OP_str n)
  | OpCode.OP_bin => some (translate_OP_bin D n)
  | OpCode.OP_enum => some translate_OP_enum
  | OpCode.OP_size => some (translate_OP_size v)
  | OpCode.OP_type => some (translate_OP_type v)
  | OpCode.OP_seek => some (translate_OP_seek v)
  | OpCode.OP_deref => some (translate_OP_deref D n v)
  | OpCode.OP_ctr_load => some (translate_OP_ctr_load D)
  | OpCode.OP_ctr_decr => some (translate_OP_ctr_decr D)
  | OpCode.OP_ctr_is_zero => some (translate_OP_ctr_is_zero D v)
  | OpCode.OP_map_alloc => some (translate_OP_map_alloc D v)
  | OpCode.OP_map_close => some (translate_OP_map_close D)
  | OpCode.OP_map_set_i8 => some (translate_OP_map_set_i8 D v)
  | OpCode.OP_map_set_i16 => some (translate_OP_map_set_i16 D v)
  | OpCode.OP_map_set_i32 => some (translate_OP_map_set_i32 D v)
  | OpCode.OP_map_set_i64 => some (translate_OP_map_set_i64 D v)
  | OpCode.OP_map_set_str => some (translate_OP_map_set_str D n v)
  | OpCode.OP_map_set_pointer => some (translate_OP_map_set_pointer D v)
  | OpCode.OP_list_alloc => some (translate_OP_list_alloc D n v)
  | OpCode.OP_struct_skip => some (translate_OP_struct_skip D)
  | OpCode.OP_struct_ignore => some (translate_OP_struct_ignore D)
  | OpCode.OP_struct_bitmap => translate_OP_struct_bitmap D n v
  | OpCode.OP_struct_switch => translate_OP_struct_switch v
  | OpCode.OP_struct_require => translate_OP_struct_require D n v
  | OpCode.OP_struct_is_stop => some (translate_OP_struct_is_stop v)
  | OpCode.OP_struct_mark_tag => some (translate_OP_struct_mark_tag D v)
  | OpCode.OP_struct_read_type => some translate_OP_struct_read_type
  | OpCode.OP_struct_check_type => some (translate_OP_struct_check_type v)
  | OpCode.OP_make_state => some (translate_OP_make_state D)
  | OpCode.OP_drop_state => some (translate_OP_drop_state D)
  | OpCode.OP_construct => some (translate_OP_construct D v)
  | OpCode.OP_defer => some (translate_OP_defer D v)
  | OpCode.OP_goto => some (translate_OP_goto v)
  | OpCode.OP_halt => some translate_OP_halt
  | OpCode.OP_other _ => none

/-- The loop of `program`: `p.Mark(i); translators[v.Op](p, v)` for the plan instructions from
index `i` on. -/
def program (D : Defs) : Nat → List Instr → Option (List Item)
  | _, [] => some []
  | i, v :: s =>
    match translators D i v, program D (i + 1) s with
    | some a, some b => some (Item.label (mark i) :: a ++ b)
    | _, _ => none

/-- The items that `Translate` hands to `Build`: prologue, program, epilogue, errors. -/
def assemble (D : Defs) (s : List Instr) : Option (List Item) :=
  match program D 0 s with
  | some body => some (prologue ++ body ++ epilogue ++ errors D)
  | none => none

def Translate (D : Defs) (s : List Instr) : Option ir.Program :=
  match assemble D s with
  | some items => Build items
  | none => none

/-- The instruction index a label of the translated plan resolves to; `addrOf D s (mark k)` is
what `p.At(k)` refers to: the first instruction of the lowering of `s[k]`. -/
def addrOf (D : Defs) (s : List Instr) (l : Label) : Option Nat :=
  match assemble D s with
  | some items => resolve items (instrs items).length l
  | none => none

end decoder

namespace decoder

/-- The linked epilogue and error blocks of a translated plan: `E` is the index of the first
instruction of the epilogue (the label `_halt`), the program has `E + 20` instructions, and the
last twenty are the epilogue and the five error blocks with their labels resolved. -/
structure Tail (D : Defs) (s : List Instr) (P : ir.Program) (E : Nat) : Prop where
  len : P.code.length = E + 20
  halt : addrOf D s LB_halt = some E
  error : addrOf D s LB_error = some (E + 2)
  eof : addrOf D s LB_eof = some (E + 6)
  type : addrOf D s LB_type = some (E + 10)
  skip : addrOf D s LB_skip = some (E + 12)
  missing : addrOf D s LB_missing = some (E + 14)
  overflow : addrOf D s LB_overflow = some (E + 16)
  c0 : P.code[E]? = some { Op := OP_addpi, Ps := Pn, Iv := 0, Pd := ET, Ln := some (E + 1) }
  c1 : P.code[E + 1]? = some { Op := OP_addpi, Ps := Pn, Iv := 0, Pd := EP, Ln := some (E + 2) }
  c2 : P.code[E + 2]? = some { Op := OP_strq, Rx := IC, Iv := RET_pos, Ln := some (E + 3) }
  c3 : P.code[E + 3]? = some { Op := OP_strp, Ps := ET, Iv := RET_err_itab, Ln := some (E + 4) }
  c4 : P.code[E + 4]? = some { Op := OP_strp, Ps := EP, Iv := RET_err_data, Ln := some (E + 5) }
  c5 : P.code[E + 5]? = some { Op := OP_halt, Ln := some (E + 6) }
  c6 : P.code[E + 6]? = some { Op := OP_ldaq, Iv := ARG_nb, Rx := UR, Ln := some (E + 7) }
  c7 : P.code[E + 7]? = some { Op := OP_sub, Rx := TR, Ry := UR, Rz := TR, Ln := some (E + 8) }
  c8 : P.code[E + 8]? = some { Op := OP_gcall, Iv := D.F_error_eof, Ar := [Register.G TR], Rr := [Register.P ET, Register.P EP], Ln := some (E + 9) }
  c9 : P.code[E + 9]? = some { Op := OP_jal, Br := some (E + 2), Pd := Pn, Ln := some (E + 10) }
  c10 : P.code[E + 10]? = some { Op := OP_gcall, Iv := D.F_error_type, Ar := [Register.G UR, Register.G TR], Rr := [Register.P ET, Register.P EP], Ln := some (E + 11) }
  c11 : P.code[E + 11]? = some { Op := OP_jal, Br := some (E + 2), Pd := Pn, Ln := some (E + 12) }
  c12 : P.code[E + 12]? = some { Op := OP_gcall, Iv := D.F_error_skip, Ar := [Register.G TR], Rr := [Register.P ET, Register.P EP], Ln := some (E + 13) }
  c13 : P.code[E + 13]? = some { Op := OP_jal, Br := some (E + 2), Pd := Pn, Ln := some (E + 14) }
  c14 : P.code[E + 14]? = some { Op := OP_gcall, Iv := D.F_error_missing, Ar := [Register.P ET, Register.G UR, Register.G TR], Rr := [Register.P ET, Register.P EP], Ln := some (E + 15) }
  c15 : P.code[E + 15]? = some { Op := OP_jal, Br := some (E + 2), Pd := Pn, Ln := some (E + 16) }
  c16 : P.code[E + 16]? = some { Op := OP_ip, Pr := D.E_overflow, Pd := TP, Ln := some (E + 17) }
  c17 : P.code[E + 17]? = some { Op := OP_lp, Ps := TP, Iv := 0, Pd := ET, Ln := some (E + 18) }
  c18 : P.code[E + 18]? = some { Op := OP_lp, Ps := TP, Iv := 8, Pd := EP, Ln := some (E + 19) }
  c19 : P.code[E + 19]? = some { Op := OP_jal, Br := some (E + 2), Pd := Pn, Ln := none }

end decoder

namespace emu

/-- The state after `n` iterations of the interpreter loop, when each of them continues
(`none`: the loop has ended before, by `pc = nil`, a return or a fault). -/
def steps (env : Env) (prog : List Ir) : Nat → Emulator → Option Emulator
  | 0, self => some self
  | n + 1, self =>
    match self.pc with
    | none => none
    | some i =>
      match step env prog self i with
      | Step.cont e => steps env prog n e
      | Step.ret _ => none
      | Step.fault => none

end emu

/-! ## A concrete instance, for evaluating the definitions -/

namespace decoder

/-- A concrete instance of the constants: frames of four 8-byte slots (`Nb`, `Mp`, `Wp`, `Fm`),
a stack bound of 64 bytes, the spill slots behind the stack, bitmaps of two words, and a pool
that hands the translator cleared bitmaps only. -/
def sampleDefs : Defs :=
  { StateMax := 64, StateSize := 32, NbOffset := 0, MpOffset := 8, WpOffset := 16, FmOffset := 24,
    PrOffset := 96, IvOffset := 104, SkOffset := 112, MaxBitmap := 2, T_struct := 12,
    E_overflow := 8192, V_zerovalue := 8208,
    F_error_eof := 0, F_error_type := 1, F_error_skip := 2, F_error_missing := 3,
    F_mallocgc := 4, F_makemap := 5, F_mapassign := 6, F_mapassign_fast32 := 7,
    F_mapassign_fast64 := 8, F_mapassign_faststr := 9, F_mapassign_fast64ptr := 10,
    F_newFiedBitmap := 11, F_FieldBitmap_Free := 12, F_decode := 13, C_skip := 14,
    pooled := fun _ _ => 0 }

/-- A concrete host: handle `id` returns the words `4096 + 16 * id`, its first and its second
argument, and leaves the memory alone. -/
def sampleEnv : emu.Env :=
  { LookupCall := fun id args m => ([4096 + 16 * id.toNat, args.headD 0, args.getD 1 0], m),
    irAddr := fun i => 65536 + 64 * i }

/-- The translation of a plan under `sampleDefs` (the empty program when translation fails). -/
def sampleProgram (s : List Instr) : ir.Program :=
  (Translate sampleDefs s).getD { code := [], Head := none }

end decoder

namespace decoder

/-- A concrete emulator state at instruction `pc` over memory `m`: `WP = 1024`, `IP = 2048`,
`RS = 4096`, `IC = 3`, `ST = 0`, the other registers hold stale values, `nb = 64`. -/
def sampleState (pc : Nat) (m : Mem) : emu.Emulator :=
  { pc := some pc,
    uv := fun r => match r with
      | R0 => 11 | R1 => 12 | R2 => 3 | R3 => 0 | R4 => 14 | GenericRegister.Rz => 15,
    pv := fun r => match r with
      | P0 => 21 | P1 => 1024 | P2 => 2048 | P3 => 4096 | P4 => 24 | P5 => 25 | Pn => 26,
    ar := fun i => { U := if i = 1 then 64 else 0, P := 0 },
    mem := m }

end decoder

namespace ir

/-- Whether instruction `q` has the generic register `x` as a destination: the left-hand sides
`self.uv[...]` of its case in the emulator's switch, and the return registers of a call. -/
def writesG {β : Type} (q : Instr β) (x : GenericRegister) : Bool :=
  match q.Op with
  | OP_lb | OP_lw | OP_ll | OP_lq | OP_ldaq => decide (q.Rx = x)
  | OP_add | OP_sub => decide (q.Rz = x)
  | OP_addi | OP_muli | OP_andi | OP_xori | OP_shri | OP_sbiti
  | OP_swapw | OP_swapl | OP_swapq => decide (q.Ry = x)
  | OP_ccall | OP_gcall | OP_icall => decide (Register.G x ∈ q.Rr)
  | OP_bts => decide (q.Ry = x) || decide (q.Rz = x)
  | _ => false

end ir

namespace emu

/-- The function `LoadProgram`; `v` is what `emulatorPool.Get()` returns (`none` for nil) and
`m` the memory at the time of the call. -/
def LoadProgram (v : Option Emulator) (p : Program) (m : Mem) : Emulator :=
  match v with
  | none => { pc := p.Head, mem := m }
  | some e => Emulator.Reset { e with mem := m } p

end emu

namespace decoder

/-- Modelled from the spec: the invocation `decode(buf, nb, i, p, rs, st)` of a linked program
through the emulator (the emulator wrapper of the linker is not part of the sources at hand):
the program is loaded and the six arguments are put into the argument slots 0 to 5. -/
def invoke (P : ir.Program) (m : Mem) (buf nb i p rs st : Nat) : emu.Emulator :=
  ((((((emu.LoadProgram none P m).Ap 0 buf).Au 1 nb).Au 2 i).Ap 3 p).Ap 4 rs).Au 5 st

end decoder

/-- Big-endian read of `n` bytes at address `a`: the integer whose big-endian encoding is the
`n` bytes at `a`. -/
def loadBE (m : Mem) (a : Nat) : Nat → Nat
  | 0 => 0
  | n + 1 => m a % 256 * 256 ^ n + loadBE m (a + 1) n

/-- The memory that holds the bytes `bs` from address `base` on and zero elsewhere. -/
def bytesAt (base : Nat) (bs : List Nat) : Mem :=
  fun a => if base ≤ a then bs.getD (a - base) 0 else 0

namespace decoder

/-- The residue `translate_OP_struct_require` computes for bitmap word `i` with required-bits
mask `x`, from the bitmap at `tp` in memory `m`: load, `andi`, `xori`. -/
def residue (m : Mem) (tp i x : Nat) : Nat :=
  (sext 64 (loadN m (emu.ea tp ((i : Int) * 8)) 8) &&& toU64 (toI64 x)) ^^^ toU64 (toI64 x)

/-- The memory after the stores `SQ(Rz, TP, i * 8)` that `translate_OP_struct_bitmap` emits for
the non-zero words of the template, from word index `i` on. -/
def clearedMem (m : Mem) (tp : Nat) : Nat → List Nat → Mem
  | _, [] => m
  | i, w :: ws =>
    clearedMem (if w ≠ 0 then storeN m (emu.ea tp ((i : Int) * 8)) 8 0 else m) tp (i + 1) ws

end decoder

namespace decoder

/-- What the word tests of `translate_OP_struct_require` find, from word index `i` on: the
first word whose mask is non-zero and whose residue is non-zero, with that residue. -/
def firstMissing (m : Mem) (tp : Nat) : Nat → List Nat → Option (Nat × Nat)
  | _, [] => none
  | i, w :: ws =>
    if w ≠ 0 ∧ residue m tp i w ≠ 0 then some (i, residue m tp i w)
    else firstMissing m tp (i + 1) ws

end decoder

namespace emu

/-- The standard library's `sync.Pool` that `emulatorPool` is, as the list of the instances it
holds. -/
abbrev Pool := List Emulator

/-- The method `Put` of `sync.Pool`. -/
def Pool.Put (pool : Pool) (x : Emulator) : Pool := x :: pool

/-- The method `Get` of `sync.Pool`: an instance of the pool, removed from it, or nil. -/
def Pool.Get : Pool → Option Emulator × Pool
  | [] => (none, [])
  | x :: r => (some x, r)

/-- The method `Free`: `emulatorPool.Put(self)`. -/
def Emulator.Free (self : Emulator) (pool : Pool) : Pool := pool.Put self

end emu

/-! ## The encoder's linker selection (`internal/binary/encoder/linker.go`) -/

namespace encoder

/-- The interface `Linker`, with its one method `Link(p ir.Program) Encoder`; `Encoder` is the
type of linked encoders, which the sources at hand do not define. -/
structure Linker (Encoder : Type) where
  Link : ir.Program → Encoder

/-- The package state `Link` consults: the variable `linker` (`none` for a nil interface) and
`utils.ForceEmulator`. -/
structure Globals (Encoder : Type) where
  linker : Option (Linker Encoder) := none
  ForceEmulator : Bool := false

/-- The function `Link`: `if linker == nil || utils.ForceEmulator { return link_emu(p) } else
{ return linker.Link(p) }`, the test `linker == nil` being evaluated first. The emulator wrapper
`link_emu`, which is not part of the sources at hand, is a parameter. -/
def Link {Encoder : Type} (g : Globals Encoder) (link_emu : ir.Program → Encoder)
    (p : ir.Program) : Encoder :=
  match g.linker with
  | none => link_emu p
  | some l => if g.ForceEmulator then link_emu p else l.Link p

/-- The function `SetLinker`: `linker = v`. -/
def SetLinker {Encoder : Type} (g : Globals Encoder) (v : Option (Linker Encoder)) :
    Globals Encoder :=
  { g with linker := v }

end encoder

namespace decoder

open ir.Label

/-- The field bitmap of a frame while the fields `M` are marked: the frame slot at `slot` holds
the bitmap pointer `bm`, and bit `b` of word `w` is set exactly when field `64 w + b` is in `M`,
or the lowering of `struct_bitmap` did not clear the word (its template word in `W` is zero) and
the bit was set in the memory `m0` that the allocation helper left. -/
def bitmapHolds (D : Defs) (W : List Nat) (m0 m : Mem) (slot bm : Nat) (M : List Nat) : Prop :=
  loadN m slot 8 = bm ∧
  ∀ w, w < D.MaxBitmap → ∀ b, (loadN m (bm + 8 * w) 8).testBit b =
    ((decide (W.getD w 0 = 0) && (loadN m0 (bm + 8 * w) 8).testBit b) ||
      decide (b < 64 ∧ 64 * w + b ∈ M))

/-- The runs of a translated plan from the state `e0` in which the lowering of `struct_bitmap`
has ended: `Marks D env s P slot bm e0 M e` says that the program ran from `e0` to `e`, that on
the way the lowerings of `struct_mark_tag` ran on the frame of `e0` for the fields `M`, in this
order, and that whatever ran in between (the lowerings of `struct_switch`, `goto`, the field
decoders, nested frames) left the frame registers `RS` and `ST`, the frame slot at `slot` and
the bitmap at `bm` as they were. -/
inductive Marks (D : Defs) (env : emu.Env) (s : List Instr) (P : ir.Program) (slot bm : Nat)
    (e0 : emu.Emulator) : List Nat → emu.Emulator → Prop
  | start : Marks D env s P slot bm e0 [] e0
  | tag (M : List Nat) (e e1 : emu.Emulator) (k : Nat) (v : Instr) (f : Nat) :
      Marks D env s P slot bm e0 M e → s[k]? = some v → v.Op = OpCode.OP_struct_mark_tag →
      v.Iv = (f : Int) → f < 64 * D.MaxBitmap → e.pc = addrOf D s (mark k) →
      emu.steps env P.code 5 e = some e1 → Marks D env s P slot bm e0 (M ++ [f]) e1
  | other (M : List Nat) (e e1 : emu.Emulator) (t : Nat) :
      Marks D env s P slot bm e0 M e → emu.steps env P.code t e = some e1 →
      e1.pv RS = e.pv RS → e1.uv ST = e.uv ST →
      (∀ x, slot ≤ x → x < slot + 8 → e1.mem x = e.mem x) →
      (∀ x, bm ≤ x → x < bm + 8 * D.MaxBitmap → e1.mem x = e.mem x) →
      Marks D env s P slot bm e0 M e1

end decoder

namespace decoder

/-- The constants of `sampleDefs` with a pool in which a bitmap was released with the marks of
fields 1 and 2 still set (word 0 is 6), as `F_FieldBitmap_Free` at the end of the lowering of
`struct_require` releases it: the first call of `newFieldBitmap()` of a translation, made by
the lowering of plan instruction 1 in the plans below, receives that bitmap; the lowerings
clear their bitmap before they release it, so the later calls receive a cleared one. -/
def staleDefs : Defs :=
  { sampleDefs with pooled := fun n w => if n = 1 ∧ w = 0 then 6 else 0 }

/-- A plan for a struct with the one required field 70: control goes to the `struct_bitmap`
at index 3, field 70 is marked, and control goes back to the `struct_require` at index 1. -/
def markedPlan : List Instr :=
  [ { Op := OpCode.OP_goto, To := 3 },
    { Op := OpCode.OP_struct_require, Sw := [70], Iv := 1 },
    { Op := OpCode.OP_halt },
    { Op := OpCode.OP_struct_bitmap, Sw := [70], Iv := 1 },
    { Op := OpCode.OP_struct_mark_tag, Iv := 70 },
    { Op := OpCode.OP_goto, To := 1 } ]

/-- The plan `markedPlan` without the mark: no field is marked when control reaches the
`struct_require`. -/
def unmarkedPlan : List Instr :=
  [ { Op := OpCode.OP_goto, To := 3 },
    { Op := OpCode.OP_struct_require, Sw := [70], Iv := 1 },
    { Op := OpCode.OP_halt },
    { Op := OpCode.OP_struct_bitmap, Sw := [70], Iv := 1 },
    { Op := OpCode.OP_goto, To := 1 } ]

end decoder

/-! ## The interpreter as the spec words the zero registers

A second interpreter, written from the sentence "the zero and null registers read as zero/null
and silently discard writes": nothing is cleared at the head of the loop; every operand read goes
through `specReadG` / `specReadP`, every register write through `specWriteG` / `specWriteP`. It
is compared with `Run`, which is written from the source. -/

namespace emu

/-- An operand read of a generic register, in the spec's words: `Rz` reads as zero. -/
def specReadG (self : Emulator) (r : GenericRegister) : Nat :=
  if r = Rz then 0 else self.uv r

/-- An operand read of a pointer register, in the spec's words: `Pn` reads as null. -/
def specReadP (self : Emulator) (r : PointerRegister) : Nat :=
  if r = Pn then 0 else self.pv r

/-- A write to a generic register, in the spec's words: a write to `Rz` is discarded. -/
def specWriteG (self : Emulator) (r : GenericRegister) (v : Nat) : Emulator :=
  if r = Rz then self else { self with uv := setG self.uv r v }

/-- A write to a pointer register, in the spec's words: a write to `Pn` is discarded. -/
def specWriteP (self : Emulator) (r : PointerRegister) (v : Nat) : Emulator :=
  if r = Pn then self else { self with pv := setP self.pv r v }

/-- What a call handle reads through `Gr` / `Pr`, in the spec's words. -/
def specReadReg (self : Emulator) : Register → Nat
  | Register.G r => specReadG self r
  | Register.P r => specReadP self r

/-- What a call handle stores through `SetGr` / `SetPr`, in the spec's words. -/
def specWriteReg (self : Emulator) : Register → Nat → Emulator
  | Register.G r, v => specWriteG self r v
  | Register.P r, v => specWriteP self r v

/-- The results of a call written to the return registers, in the spec's words. -/
def specWriteRets : Emulator → List Register → List Nat → Emulator
  | e, [], _ => e
  | e, r :: rs, vs => specWriteRets (specWriteReg e r (vs.headD 0 % W64)) rs vs.tail

/-- A call through the registry, in the spec's words. -/
def specCall (env : Env) (self : Emulator) (p : Ir) : Emulator :=
  let r := env.LookupCall p.Iv (p.Ar.map (specReadReg self)) self.mem
  specWriteRets { self with mem := r.2 } p.Rr r.1

/-- The effect of one instruction, in the spec's words, on the state in which `pc` has been
advanced: the cases of `exec`, with every operand read and every register write going through
the spec's reads and writes. -/
def specExec (env : Env) (p : Ir) (self : Emulator) : Step :=
  match p.Op with
  | OP_illegal _ => Step.ret self
  | OP_nop => Step.cont self
  | OP_ip => Step.cont (specWriteP self p.Pd p.Pr)
  | OP_lb => Step.cont (specWriteG self p.Rx (sext 8 (loadN self.mem (ea (specReadP self p.Ps) p.Iv) 1)))
  | OP_lw => Step.cont (specWriteG self p.Rx (sext 16 (loadN self.mem (ea (specReadP self p.Ps) p.Iv) 2)))
  | OP_ll => Step.cont (specWriteG self p.Rx (sext 32 (loadN self.mem (ea (specReadP self p.Ps) p.Iv) 4)))
  | OP_lq => Step.cont (specWriteG self p.Rx (sext 64 (loadN self.mem (ea (specReadP self p.Ps) p.Iv) 8)))
  | OP_lp => Step.cont (specWriteP self p.Pd (loadN self.mem (ea (specReadP self p.Ps) p.Iv) 8))
  | OP_sb => Step.cont { self with mem := storeN self.mem (ea (specReadP self p.Pd) p.Iv) 1 (specReadG self p.Rx) }
  | OP_sw => Step.cont { self with mem := storeN self.mem (ea (specReadP self p.Pd) p.Iv) 2 (specReadG self p.Rx) }
  | OP_sl => Step.cont { self with mem := storeN self.mem (ea (specReadP self p.Pd) p.Iv) 4 (specReadG self p.Rx) }
  | OP_sq => Step.cont { self with mem := storeN self.mem (ea (specReadP self p.Pd) p.Iv) 8 (specReadG self p.Rx) }
  | OP_sp => Step.cont { self with mem := storeN self.mem (ea (specReadP self p.Pd) p.Iv) 8 (specReadP self p.Ps) }
  | OP_ldaq =>
      if 0 ≤ p.Iv ∧ p.Iv < 8 then Step.cont (specWriteG self p.Rx (self.ar p.Iv.toNat).U)
      else Step.fault
  | OP_ldap =>
      if 0 ≤ p.Iv ∧ p.Iv < 8 then Step.cont (specWriteP self p.Pd (self.ar p.Iv.toNat).P)
      else Step.fault
  | OP_strq =>
      if 0 ≤ p.Iv ∧ p.Iv < 8 then Step.cont { self with rv := setU self.rv p.Iv.toNat (specReadG self p.Rx) }
      else Step.fault
  | OP_strp =>
      if 0 ≤ p.Iv ∧ p.Iv < 8 then Step.cont { self with rv := setVP self.rv p.Iv.toNat (specReadP self p.Ps) }
      else Step.fault
  | OP_addp => Step.cont (specWriteP self p.Pd ((specReadP self p.Ps + specReadG self p.Rx) % W64))
  | OP_subp => Step.cont (specWriteP self p.Pd ((specReadP self p.Ps + (W64 - specReadG self p.Rx % W64)) % W64))
  | OP_addpi => Step.cont (specWriteP self p.Pd (ea (specReadP self p.Ps) p.Iv))
  | OP_add => Step.cont (specWriteG self p.Rz ((specReadG self p.Rx + specReadG self p.Ry) % W64))
  | OP_sub => Step.cont (specWriteG self p.Rz ((specReadG self p.Rx + (W64 - specReadG self p.Ry % W64)) % W64))
  | OP_addi => Step.cont (specWriteG self p.Ry ((specReadG self p.Rx + toU64 p.Iv) % W64))
  | OP_muli => Step.cont (specWriteG self p.Ry ((specReadG self p.Rx * toU64 p.Iv) % W64))
  | OP_andi => Step.cont (specWriteG self p.Ry (specReadG self p.Rx &&& toU64 p.Iv))
  | OP_xori => Step.cont (specWriteG self p.Ry (specReadG self p.Rx ^^^ toU64 p.Iv))
  | OP_shri =>
      if 0 ≤ p.Iv then Step.cont (specWriteG self p.Ry (specReadG self p.Rx >>> p.Iv.toNat))
      else Step.fault
  | OP_sbiti =>
      if 0 ≤ p.Iv then Step.cont (specWriteG self p.Ry (specReadG self p.Rx ||| (1 <<< p.Iv.toNat) % W64))
      else Step.fault
  | OP_swapw => Step.cont (specWriteG self p.Ry (ReverseBytes16 (specReadG self p.Rx % 65536)))
  | OP_swapl => Step.cont (specWriteG self p.Ry (ReverseBytes32 (specReadG self p.Rx % 4294967296)))
  | OP_swapq => Step.cont (specWriteG self p.Ry (ReverseBytes64 (specReadG self p.Rx % W64)))
  | OP_beq => Step.cont (if specReadG self p.Rx = specReadG self p.Ry then { self with pc := p.Br } else self)
  | OP_bne => Step.cont (if specReadG self p.Rx ≠ specReadG self p.Ry then { self with pc := p.Br } else self)
  | OP_blt => Step.cont (if toI64 (specReadG self p.Rx) < toI64 (specReadG self p.Ry) then { self with pc := p.Br } else self)
  | OP_bltu => Step.cont (if specReadG self p.Rx < specReadG self p.Ry then { self with pc := p.Br } else self)
  | OP_bgeu => Step.cont (if specReadG self p.Rx ≥ specReadG self p.Ry then { self with pc := p.Br } else self)
  | OP_beqn => Step.cont (if specReadP self p.Ps = 0 then { self with pc := p.Br } else self)
  | OP_bnen => Step.cont (if specReadP self p.Ps ≠ 0 then { self with pc := p.Br } else self)
  | OP_jal => Step.cont { specWriteP self p.Pd (pcAddr env self.pc) with pc := p.Br }
  | OP_bzero => Step.cont { self with mem := memclrNoHeapPointers self.mem (specReadP self p.Pd) (toU64 p.Iv) }
  | OP_bcopy => Step.cont { self with mem := memmove self.mem (specReadP self p.Pd) (specReadP self p.Ps) (specReadG self p.Rx) }
  | OP_halt => Step.cont { self with pc := none }
  | OP_break => self.trap env
  | OP_ccall => Step.cont (specCall env self p)
  | OP_gcall => Step.cont (specCall env self p)
  | OP_icall => Step.cont (specCall env self p)
  | OP_bts =>
      let x := specReadG self p.Rx
      let y := specReadG self p.Ry
      Step.cont (specWriteG (specWriteG self p.Ry ((y ||| 1 <<< x) % W64)) p.Rz
        (if y &&& (1 <<< x) % W64 = 0 then 0 else 1))
  | OP_bsw =>
      let v := specReadG self p.Rx
      if v < toU64 p.Iv then
        match p.Sw.getD v none with
        | some q => Step.cont { self with pc := some q }
        | none => Step.cont self
      else Step.cont self

/-- One iteration of the loop, in the spec's words: `pc` moves on, nothing is cleared. -/
def specStep (env : Env) (prog : List Ir) (self : Emulator) (i : Nat) : Step :=
  match prog[i]? with
  | none => Step.fault
  | some p => specExec env p { self with pc := p.Ln }

/-- The run of a program, in the spec's words, with the same bound on the number of loop
iterations as `Run`. -/
def specRun (env : Env) (prog : List Ir) : Nat → Emulator → Option Exit
  | 0, self => if self.pc = none then some (finish self) else none
  | fuel + 1, self =>
    match self.pc with
    | none => some (finish self)
    | some i =>
      match specStep env prog self i with
      | Step.cont e => specRun env prog fuel e
      | Step.ret e => some (Exit.returned e)
      | Step.fault => some Exit.fault

/-- The state as a program can observe it: everything but what the cells of `Rz` and `Pn`
hold, which are put to zero. -/
def Emulator.visible (self : Emulator) : Emulator :=
  { self with uv := setG self.uv Rz 0, pv := setP self.pv Pn 0 }

/-- The outcome of a loop iteration, up to the cells of `Rz` and `Pn`. -/
def Step.visible : Step → Step
  | Step.cont e => Step.cont e.visible
  | Step.ret e => Step.ret e.visible
  | Step.fault => Step.fault

/-- The end of a run, up to the cells of `Rz` and `Pn`. -/
def Exit.visible : Exit → Exit
  | Exit.returned e => Exit.returned e.visible
  | Exit.panicked e => Exit.panicked e.visible
  | Exit.fault => Exit.fault

/-- A program that writes the zero registers in every way: an `addi` with destination `Rz`, a
`jal` that links into `Pn`, a call whose handle stores its results into `Rz` and `Pn`; then an
`add` and an `addpi` that read them into `R0` and `P0`. -/
def zeroProgram : List Ir :=
  [ { Op := OP_addi, Rx := Rz, Iv := 7, Ry := Rz, Ln := some 1 },
    { Op := OP_jal, Pd := Pn, Br := some 2, Ln := some 2 },
    { Op := OP_gcall, Iv := 1, Ar := [Register.G R2], Rr := [Register.G Rz, Register.P Pn],
      Ln := some 3 },
    { Op := OP_add, Rx := Rz, Ry := Rz, Rz := R0, Ln := some 4 },
    { Op := OP_addpi, Ps := Pn, Iv := 0, Pd := P0, Ln := some 5 },
    { Op := OP_halt } ]

end emu

namespace decoder

/-- A plan for a struct with the required fields 1 and 2, both marked before the
`struct_require`. -/
def requiredPlan : List Instr :=
  [ { Op := OpCode.OP_struct_bitmap, Sw := [1, 2], Iv := 2 },
    { Op := OpCode.OP_struct_mark_tag, Iv := 2 },
    { Op := OpCode.OP_struct_mark_tag, Iv := 1 },
    { Op := OpCode.OP_struct_require, Sw := [1, 2], Iv := 2 },
    { Op := OpCode.OP_halt } ]

/-- A plan for a struct with the required fields 1 and 2 whose marks depend on the input: the
`struct_switch` at index 1 reads a field id and goes to the mark of field 2 at index 3 when
the id is 2, and on to the `goto` to the `struct_require` otherwise. -/
def switchPlan : List Instr :=
  [ { Op := OpCode.OP_struct_bitmap, Sw := [1, 2], Iv := 2 },
    { Op := OpCode.OP_struct_switch, Sw := [-1, -1, 3], Iv := 3 },
    { Op := OpCode.OP_goto, To := 4 },
    { Op := OpCode.OP_struct_mark_tag, Iv := 2 },
    { Op := OpCode.OP_struct_require, Sw := [1, 2], Iv := 2 },
    { Op := OpCode.OP_halt } ]

/-- A memory of `0xFF` bytes that holds the field id 2, big-endian, at the cursor of
`sampleState` (address 2051). -/
def switchInput : Mem :=
  fun a => if a = 2051 then 0 else if a = 2052 then 2 else 255

end decoder

/-! # Theorems -/

open emu decoder
open ir.Label

/-! ## Linking -/

namespace ir

theorem instrs_append (a b : List Item) : instrs (a ++ b) = instrs a ++ instrs b := by
  induction a with
  | nil => rfl
  | cons x r ih => cases x <;> simp [instrs, ih]

theorem labels_append (a b : List Item) : labels (a ++ b) = labels a ++ labels b := by
  induction a with
  | nil => rfl
  | cons x r ih => cases x <;> simp [labels, ih]

theorem labelIndex_eq_none (l : Label) (a : List Item) (h : l ∉ labels a) : labelIndex l a = none := by
  induction a with
  | nil => rfl
  | cons x r ih =>
    cases x with
    | label k =>
      simp only [labels, List.mem_cons, not_or] at h
      simp [labelIndex, Ne.symm h.1, ih h.2]
    | ins i =>
      simp only [labels] at h
      simp [labelIndex, ih h]

theorem labelIndex_append_left (l : Label) (a b : List Item) (i : Nat) (h : labelIndex l a = some i) :
    labelIndex l (a ++ b) = some i := by
  induction a generalizing i with
  | nil => simp [labelIndex] at h
  | cons x r ih =>
    cases x with
    | label k =>
      by_cases hk : k = l
      · simpa [labelIndex, hk] using h
      · simp only [labelIndex, hk, if_false] at h
        simp [labelIndex, hk, ih _ h]
    | ins q =>
      simp only [labelIndex, Option.map_eq_some'] at h
      obtain ⟨j, hj, rfl⟩ := h
      simp [labelIndex, ih _ hj]

theorem labelIndex_append_right (l : Label) (a b : List Item) (h : l ∉ labels a) :
    labelIndex l (a ++ b) = (labelIndex l b).map (fun i => (instrs a).length + i) := by
  induction a with
  | nil => simp [instrs]
  | cons x r ih =>
    cases x with
    | label k =>
      simp only [labels, List.mem_cons, not_or] at h
      simp [labelIndex, Ne.symm h.1, ih h.2, instrs]
    | ins q =>
      simp only [labels] at h
      rw [List.cons_append]
      simp only [labelIndex, instrs, List.length_cons]
      rw [ih h]
      cases labelIndex l b with
      | none => rfl
      | some i => simp only [Option.map_some']; congr 1; omega

theorem linkFrom_get (tgt : Label → Option Nat) (n : Nat) :
    ∀ (rs : List (Instr Label)) (i : Nat) (code : List Ir), linkFrom tgt n i rs = some code →
      ∀ (j : Nat) (r : Instr Label), rs[j]? = some r → code[j]? = linkInstr tgt n (i + j) r := by
  intro rs
  induction rs with
  | nil => intro i code _ j r hr; simp at hr
  | cons x xs ih =>
    intro i code h j r hr
    simp only [linkFrom] at h
    cases hx : linkInstr tgt n i x with
    | none => simp [hx] at h
    | some a =>
      cases hxs : linkFrom tgt n (i + 1) xs with
      | none => simp [hx, hxs] at h
      | some b =>
        simp only [hx, hxs, Option.some.injEq] at h
        subst h
        cases j with
        | zero =>
          simp only [List.getElem?_cons_zero, Option.some.injEq] at hr
          subst hr
          simp [hx]
        | succ j =>
          simp only [List.getElem?_cons_succ] at hr
          have := ih (i + 1) b hxs j r hr
          simp only [List.getElem?_cons_succ, this]
          congr 1
          omega

theorem linkFrom_length (tgt : Label → Option Nat) (n : Nat) :
    ∀ (rs : List (Instr Label)) (i : Nat) (code : List Ir), linkFrom tgt n i rs = some code →
      code.length = rs.length := by
  intro rs
  induction rs with
  | nil => intro i code h; simp [linkFrom] at h; simp [← h]
  | cons x xs ih =>
    intro i code h
    simp only [linkFrom] at h
    cases hx : linkInstr tgt n i x with
    | none => simp [hx] at h
    | some a =>
      cases hxs : linkFrom tgt n (i + 1) xs with
      | none => simp [hx, hxs] at h
      | some b =>
        simp only [hx, hxs, Option.some.injEq] at h
        subst h
        simp [ih _ _ hxs]

theorem Build_get (items : List Item) (P : Program) (h : Build items = some P) (j : Nat)
    (r : Instr Label) (hr : (instrs items)[j]? = some r) :
    P.code[j]? = linkInstr (resolve items (instrs items).length) (instrs items).length j r := by
  unfold Build at h
  split at h
  · cases hl : linkFrom (resolve items (instrs items).length) (instrs items).length 0 (instrs items) with
    | none => simp [hl] at h
    | some code =>
      simp only [hl, Option.some.injEq] at h
      subst h
      simpa using linkFrom_get _ _ _ 0 code hl j r hr
  · simp at h

end ir

/-! ## Shape of the translated plan -/

namespace decoder

open ir.Label

theorem labels_clearWords (ws : List Nat) : ∀ i, labels (clearWords i ws) = [] := by
  induction ws with
  | nil => intro i; rfl
  | cons w ws ih =>
    intro i
    by_cases hw : w = 0 <;> simp [clearWords, hw, labels_append, ih, labels]

theorem labels_testWords (v : Instr) (ws : List Nat) : ∀ i, labels (testWords v i ws) = [] := by
  induction ws with
  | nil => intro i; rfl
  | cons w ws ih =>
    intro i
    by_cases hw : w = 0 <;> simp [testWords, hw, labels_append, ih, labels]

/-- A lowering defines local labels only, all instantiated with its own counter value. -/
theorem translators_labels (D : Defs) (n : Nat) (v : Instr) (mid : List Item)
    (h : translators D n v = some mid) : ∀ l ∈ labels mid, ∃ t, l = loc t n := by
  unfold translators at h
  split at h
  case h_1 =>
    unfold translate_OP_int at h
    split_ifs at h <;> simp at h <;> subst h <;> simp [labels]
  case h_23 =>
    unfold translate_OP_struct_bitmap at h
    split at h
    · simp at h
    · simp only [Option.some.injEq] at h
      subst h
      simp [labels, labels_append, labels_clearWords]
  case h_24 =>
    unfold translate_OP_struct_switch at h
    split_ifs at h
    simp only [Option.some.injEq] at h
    subst h
    simp [labels]
  case h_25 =>
    unfold translate_OP_struct_require at h
    split at h
    · simp at h
    · simp only [Option.some.injEq] at h
      subst h
      simp [labels, labels_append, labels_testWords]
  case h_36 => simp at h
  all_goals
    simp only [Option.some.injEq] at h
    subst h
    simp [labels, translate_OP_str, translate_OP_bin, translate_OP_binstr, translate_OP_enum,
      translate_OP_size, translate_OP_type, translate_OP_seek, translate_OP_deref,
      translate_OP_ctr_load, translate_OP_ctr_decr, translate_OP_ctr_is_zero,
      translate_OP_map_alloc, translate_OP_map_close, translate_OP_map_set_i8,
      translate_OP_map_set_i16, translate_OP_map_set_i32, translate_OP_map_set_i32_fast,
      translate_OP_map_set_i32_safe, translate_OP_map_set_i64, translate_OP_map_set_i64_fast,
      translate_OP_map_set_i64_safe, translate_OP_map_set_str, translate_OP_map_set_str_fast,
      translate_OP_map_set_str_safe, translate_OP_map_set_pointer,
      translate_OP_map_set_pointer_fast, translate_OP_map_set_pointer_safe,
      translate_OP_list_alloc, translate_OP_struct_skip, translate_OP_struct_ignore,
      translate_OP_struct_is_stop, translate_OP_struct_mark_tag, translate_OP_struct_read_type,
      translate_OP_struct_check_type, translate_OP_make_state, translate_OP_drop_state,
      translate_OP_construct, translate_OP_defer, translate_OP_goto, translate_OP_halt]
    try split_ifs <;> simp [labels]

end decoder

namespace decoder

open ir.Label

theorem program_cons (D : Defs) (i : Nat) (v : Instr) (s : List Instr) (body : List Item)
    (h : program D i (v :: s) = some body) :
    ∃ mid rest, translators D i v = some mid ∧ program D (i + 1) s = some rest ∧
      body = Item.label (mark i) :: (mid ++ rest) := by
  simp only [program] at h
  cases hm : translators D i v with
  | none => simp [hm] at h
  | some mid =>
    cases hr : program D (i + 1) s with
    | none => simp [hm, hr] at h
    | some rest =>
      simp only [hm, hr, Option.some.injEq] at h
      exact ⟨mid, rest, rfl, rfl, by simpa using h.symm⟩

/-- Labels of the body: marks and local labels of the plan indices it covers. -/
theorem program_labels (D : Defs) : ∀ (s : List Instr) (i : Nat) (body : List Item),
    program D i s = some body →
    ∀ l ∈ labels body, ∃ j, i ≤ j ∧ j < i + s.length ∧ (l = mark j ∨ ∃ t, l = loc t j) := by
  intro s
  induction s with
  | nil =>
    intro i body h l hl
    simp only [program, Option.some.injEq] at h
    subst h
    simp [labels] at hl
  | cons v s ih =>
    intro i body h l hl
    obtain ⟨mid, rest, hm, hr, rfl⟩ := program_cons D i v s body h
    simp only [labels, labels_append, List.mem_cons, List.mem_append] at hl
    rcases hl with hl | hl | hl
    · exact ⟨i, Nat.le_refl _, by simp, Or.inl hl⟩
    · obtain ⟨t, ht⟩ := translators_labels D i v mid hm l hl
      exact ⟨i, Nat.le_refl _, by simp, Or.inr ⟨t, ht⟩⟩
    · obtain ⟨j, h1, h2, h3⟩ := ih (i + 1) rest hr l hl
      exact ⟨j, by omega, by simp only [List.length_cons]; omega, h3⟩

/-- The body splits at every plan index `k` into the lowerings before it, the mark and the
lowering of `s[k]`, and the lowerings after it. -/
theorem program_split (D : Defs) : ∀ (s : List Instr) (i k : Nat) (v : Instr) (body : List Item),
    program D i s = some body → s[k]? = some v →
    ∃ pre mid post, program D i (s.take k) = some pre ∧ translators D (i + k) v = some mid ∧
      body = pre ++ (Item.label (mark (i + k)) :: (mid ++ post)) := by
  intro s
  induction s with
  | nil => intro i k v body _ hk; simp at hk
  | cons w s ih =>
    intro i k v body h hk
    obtain ⟨mid, rest, hm, hr, rfl⟩ := program_cons D i w s body h
    cases k with
    | zero =>
      simp only [List.getElem?_cons_zero, Option.some.injEq] at hk
      subst hk
      exact ⟨[], mid, rest, by simp [program], by simpa using hm, by simp⟩
    | succ k =>
      simp only [List.getElem?_cons_succ] at hk
      obtain ⟨pre, mid2, post, h1, h2, h3⟩ := ih (i + 1) k v rest hr hk
      refine ⟨Item.label (mark i) :: mid ++ pre, mid2, post, ?_, ?_, ?_⟩
      · simp [program, hm, h1]
      · rw [← h2]; congr 1; omega
      · subst h3
        have : i + (k + 1) = i + 1 + k := by omega
        simp [this]

end decoder

namespace ir

theorem Build_length (items : List Item) (P : Program) (h : Build items = some P) :
    P.code.length = (instrs items).length := by
  unfold Build at h
  split at h
  · cases hl : linkFrom (resolve items (instrs items).length) (instrs items).length 0 (instrs items) with
    | none => simp [hl] at h
    | some code =>
      simp only [hl, Option.some.injEq] at h
      subst h
      exact linkFrom_length _ _ _ 0 code hl
  · simp at h

end ir

namespace decoder

open ir.Label

theorem Translate_items (D : Defs) (s : List Instr) (P : ir.Program) (h : Translate D s = some P) :
    ∃ body, program D 0 s = some body ∧ assemble D s = some (prologue ++ body ++ epilogue ++ errors D) ∧
      Build (prologue ++ body ++ epilogue ++ errors D) = some P := by
  unfold Translate at h
  cases hb : program D 0 s with
  | none => simp [assemble, hb] at h
  | some body =>
    have ha : assemble D s = some (prologue ++ body ++ epilogue ++ errors D) := by
      simp [assemble, hb]
    rw [ha] at h
    exact ⟨body, rfl, ha, h⟩

theorem name_not_mem_body (D : Defs) (s : List Instr) (body : List Item)
    (hb : program D 0 s = some body) (t : String) : name t ∉ labels (prologue ++ body) := by
  intro hmem
  rw [labels_append] at hmem
  have hp : labels prologue = [] := rfl
  rw [hp, List.nil_append] at hmem
  obtain ⟨j, _, _, h3⟩ := program_labels D s 0 body hb _ hmem
  rcases h3 with h3 | ⟨_, h3⟩ <;> simp at h3

theorem tail_labelIndex (D : Defs) :
    labelIndex LB_halt (epilogue ++ errors D) = some 0 ∧
    labelIndex LB_error (epilogue ++ errors D) = some 2 ∧
    labelIndex LB_eof (epilogue ++ errors D) = some 6 ∧
    labelIndex LB_type (epilogue ++ errors D) = some 10 ∧
    labelIndex LB_skip (epilogue ++ errors D) = some 12 ∧
    labelIndex LB_missing (epilogue ++ errors D) = some 14 ∧
    labelIndex LB_overflow (epilogue ++ errors D) = some 16 := by
  refine ⟨?_, ?_, ?_, ?_, ?_, ?_, ?_⟩ <;> simp [epilogue, errors, labelIndex]

end decoder

namespace decoder

open ir.Label

theorem addrOf_eq (D : Defs) (s : List Instr) (items : List Item) (h : assemble D s = some items) :
    addrOf D s = resolve items (instrs items).length := by
  funext l
  simp [addrOf, h]

theorem getElem?_append_add {α : Type} (a b : List α) (j : Nat) :
    (a ++ b)[a.length + j]? = b[j]? := by
  rw [List.getElem?_append_right (by omega)]
  congr 1
  omega

/-- The epilogue and the error blocks of every translated plan. -/
theorem tail_code (D : Defs) (s : List Instr) (P : ir.Program) (h : Translate D s = some P) :
    ∃ E, Tail D s P E := by
  obtain ⟨body, hb, ha, hB⟩ := Translate_items D s P h
  have hassoc : prologue ++ body ++ epilogue ++ errors D = (prologue ++ body) ++ (epilogue ++ errors D) := by
    simp [List.append_assoc]
  have hlen20 : (instrs (epilogue ++ errors D)).length = 20 := rfl
  have hn : (instrs (prologue ++ body ++ epilogue ++ errors D)).length = (instrs (prologue ++ body)).length + 20 := by
    rw [hassoc, instrs_append, List.length_append, hlen20]
  have haddr := addrOf_eq D s _ ha
  rw [hn] at haddr
  have hres : ∀ (t : String) (j : Nat), j < 20 → labelIndex (name t) (epilogue ++ errors D) = some j →
      addrOf D s (name t) = some ((instrs (prologue ++ body)).length + j) := by
    intro t j hj hl
    rw [haddr]
    unfold resolve
    rw [hassoc, labelIndex_append_right _ _ _ (name_not_mem_body D s body hb t), hl]
    simp [hj]
  obtain ⟨l0, l2, l6, l10, l12, l14, l16⟩ := tail_labelIndex D
  have hhalt := hres _ 0 (by decide) l0
  have herror := hres _ 2 (by decide) l2
  have hfetch : ∀ (j : Nat) (r : ir.Instr Label), (instrs (epilogue ++ errors D))[j]? = some r →
      P.code[(instrs (prologue ++ body)).length + j]? =
        linkInstr (addrOf D s) ((instrs (prologue ++ body)).length + 20)
          ((instrs (prologue ++ body)).length + j) r := by
    intro j r hr
    have := Build_get _ P hB ((instrs (prologue ++ body)).length + j) r
      (by rw [hassoc, instrs_append, getElem?_append_add]; exact hr)
    rw [this, hn, haddr]
  refine ⟨(instrs (prologue ++ body)).length, ?_, hhalt, herror, hres _ 6 (by decide) l6,
    hres _ 10 (by decide) l10, hres _ 12 (by decide) l12, hres _ 14 (by decide) l14,
    hres _ 16 (by decide) l16, ?_, ?_, ?_, ?_, ?_, ?_, ?_, ?_, ?_, ?_, ?_, ?_, ?_, ?_, ?_, ?_, ?_, ?_, ?_, ?_⟩
  · rw [Build_length _ P hB, hn]
  · have := hfetch 0 _ rfl
    simpa [linkInstr, resolveRef, resolveTab, instrs, epilogue, errors] using this
  all_goals
    first
    | (rw [hfetch 1 _ rfl]; simp [linkInstr, resolveRef, resolveTab, herror, instrs, epilogue, errors])
    | (rw [hfetch 2 _ rfl]; simp [linkInstr, resolveRef, resolveTab, herror, instrs, epilogue, errors])
    | (rw [hfetch 3 _ rfl]; simp [linkInstr, resolveRef, resolveTab, herror, instrs, epilogue, errors])
    | (rw [hfetch 4 _ rfl]; simp [linkInstr, resolveRef, resolveTab, herror, instrs, epilogue, errors])
    | (rw [hfetch 5 _ rfl]; simp [linkInstr, resolveRef, resolveTab, herror, instrs, epilogue, errors])
    | (rw [hfetch 6 _ rfl]; simp [linkInstr, resolveRef, resolveTab, herror, instrs, epilogue, errors])
    | (rw [hfetch 7 _ rfl]; simp [linkInstr, resolveRef, resolveTab, herror, instrs, epilogue, errors])
    | (rw [hfetch 8 _ rfl]; simp [linkInstr, resolveRef, resolveTab, herror, instrs, epilogue, errors])
    | (rw [hfetch 9 _ rfl]; simp [linkInstr, resolveRef, resolveTab, herror, instrs, epilogue, errors])
    | (rw [hfetch 10 _ rfl]; simp [linkInstr, resolveRef, resolveTab, herror, instrs, epilogue, errors])
    | (rw [hfetch 11 _ rfl]; simp [linkInstr, resolveRef, resolveTab, herror, instrs, epilogue, errors])
    | (rw [hfetch 12 _ rfl]; simp [linkInstr, resolveRef, resolveTab, herror, instrs, epilogue, errors])
    | (rw [hfetch 13 _ rfl]; simp [linkInstr, resolveRef, resolveTab, herror, instrs, epilogue, errors])
    | (rw [hfetch 14 _ rfl]; simp [linkInstr, resolveRef, resolveTab, herror, instrs, epilogue, errors])
    | (rw [hfetch 15 _ rfl]; simp [linkInstr, resolveRef, resolveTab, herror, instrs, epilogue, errors])
    | (rw [hfetch 16 _ rfl]; simp [linkInstr, resolveRef, resolveTab, herror, instrs, epilogue, errors])
    | (rw [hfetch 17 _ rfl]; simp [linkInstr, resolveRef, resolveTab, herror, instrs, epilogue, errors])
    | (rw [hfetch 18 _ rfl]; simp [linkInstr, resolveRef, resolveTab, herror, instrs, epilogue, errors])
    | (rw [hfetch 19 _ rfl]; simp [linkInstr, resolveRef, resolveTab, herror, instrs, epilogue, errors])

end decoder

namespace ir

theorem instrs_label_cons (l : Label) (r : List Item) : instrs (Item.label l :: r) = instrs r := rfl

theorem instrs_ins_cons (i : Instr Label) (r : List Item) : instrs (Item.ins i :: r) = i :: instrs r := rfl

theorem labelIndex_le (l : Label) (a : List Item) (i : Nat) (h : labelIndex l a = some i) :
    i ≤ (instrs a).length := by
  induction a generalizing i with
  | nil => simp [labelIndex] at h
  | cons x r ih =>
    cases x with
    | label k =>
      by_cases hk : k = l
      · simp only [labelIndex, hk, if_true, Option.some.injEq] at h
        omega
      · simp only [labelIndex, hk, if_false] at h
        simpa [instrs] using ih _ h
    | ins q =>
      simp only [labelIndex, Option.map_eq_some'] at h
      obtain ⟨j, hj, rfl⟩ := h
      have := ih _ hj
      simp only [instrs, List.length_cons]
      omega

end ir

namespace decoder

open ir.Label

/-- Where the lowering of plan instruction `k` sits in the linked program: its first instruction
is what `At(k)` resolves to, its instructions are linked in place, and its local labels resolve
into it. -/
theorem lowering_code (D : Defs) (s : List Instr) (P : ir.Program) (h : Translate D s = some P)
    (k : Nat) (v : Instr) (hk : s[k]? = some v) (mid : List Item)
    (hm : translators D k v = some mid) :
    ∃ E a pre, Tail D s P E ∧ program D 0 (s.take k) = some pre ∧
      a = (instrs prologue).length + (instrs pre).length ∧
      addrOf D s (mark k) = some a ∧ a + (instrs mid).length ≤ E ∧
      (∀ (j : Nat) (r : ir.Instr Label), (instrs mid)[j]? = some r →
        P.code[a + j]? = linkInstr (addrOf D s) (E + 20) (a + j) r) ∧
      (∀ (t : String) (o : Nat), labelIndex (loc t k) mid = some o →
        addrOf D s (loc t k) = some (a + o)) := by
  obtain ⟨E, hT⟩ := tail_code D s P h
  obtain ⟨body, hb, ha, hB⟩ := Translate_items D s P h
  obtain ⟨pre, mid2, post, hpre, hmid, hbody⟩ := program_split D s 0 k v body hb hk
  simp only [Nat.zero_add] at hmid hbody
  rw [hm] at hmid
  cases hmid
  have hitems : prologue ++ body ++ epilogue ++ errors D =
      (prologue ++ pre) ++ (Item.label (mark k) :: (mid ++ (post ++ epilogue ++ errors D))) := by
    rw [hbody]; simp [List.append_assoc]
  have hlen := Build_length _ P hB
  rw [hT.len, hitems] at hlen
  simp only [instrs_append, instrs_label_cons, List.length_append] at hlen
  have hlen6 : (instrs epilogue).length = 6 := rfl
  have hlen14 : (instrs (errors D)).length = 14 := rfl
  have hpp : (instrs (prologue ++ pre)).length = (instrs prologue).length + (instrs pre).length := by
    rw [instrs_append, List.length_append]
  have haddr := addrOf_eq D s _ ha
  have hn : (instrs (prologue ++ body ++ epilogue ++ errors D)).length = E + 20 := by
    rw [← hT.len, Build_length _ P hB]
  rw [hn] at haddr
  have hprelab : ∀ l ∈ labels (prologue ++ pre), ∃ j, j < k ∧ (l = mark j ∨ ∃ t, l = loc t j) := by
    intro l hl
    rw [labels_append] at hl
    have hp : labels prologue = [] := rfl
    rw [hp, List.nil_append] at hl
    obtain ⟨j, _, h2, h3⟩ := program_labels D _ 0 pre hpre l hl
    refine ⟨j, ?_, h3⟩
    have := List.length_take_le k s
    omega
  have hmark : mark k ∉ labels (prologue ++ pre) := by
    intro hmem
    obtain ⟨j, hj, h3⟩ := hprelab _ hmem
    rcases h3 with h3 | ⟨_, h3⟩
    · simp only [mark.injEq] at h3; omega
    · simp at h3
  have hloc : ∀ t, loc t k ∉ labels (prologue ++ pre) := by
    intro t hmem
    obtain ⟨j, hj, h3⟩ := hprelab _ hmem
    rcases h3 with h3 | ⟨_, h3⟩
    · simp at h3
    · simp only [loc.injEq] at h3; omega
  refine ⟨E, (instrs (prologue ++ pre)).length, pre, hT, hpre, by rw [instrs_append, List.length_append],
    ?_, by omega, ?_, ?_⟩
  · rw [haddr]
    unfold resolve
    rw [hitems, labelIndex_append_right _ _ _ hmark]
    simp only [labelIndex, if_true, Option.map_some', Nat.add_zero]
    rw [if_pos (by omega)]
  · intro j r hr
    have hget : (instrs (prologue ++ body ++ epilogue ++ errors D))[(instrs (prologue ++ pre)).length + j]? = some r := by
      rw [hitems, instrs_append, getElem?_append_add]
      simp only [instrs_label_cons, instrs_append]
      rw [List.getElem?_append_left (by
        have := List.getElem?_eq_some.mp hr
        obtain ⟨hlt, _⟩ := this
        exact hlt)]
      exact hr
    rw [Build_get _ P hB _ r hget, hn, haddr]
  · intro t o ho
    rw [haddr]
    unfold resolve
    rw [hitems, labelIndex_append_right _ _ _ (hloc t)]
    have hne : mark k ≠ loc t k := by simp
    simp only [labelIndex, hne, if_false]
    rw [labelIndex_append_left _ _ _ _ ho]
    have := labelIndex_le _ _ _ ho
    simp only [Option.map_some']
    rw [if_pos (by omega)]

end decoder

namespace decoder

open ir.Label

theorem program_take_succ (D : Defs) : ∀ (s : List Instr) (i k : Nat) (v : Instr)
    (pre mid : List Item), s[k]? = some v → program D i (s.take k) = some pre →
    translators D (i + k) v = some mid →
    program D i (s.take (k + 1)) = some (pre ++ (Item.label (mark (i + k)) :: mid)) := by
  intro s
  induction s with
  | nil => intro i k v pre mid hk; simp at hk
  | cons w s ih =>
    intro i k v pre mid hk hpre hmid
    cases k with
    | zero =>
      simp only [List.getElem?_cons_zero, Option.some.injEq] at hk
      subst hk
      simp only [List.take_zero, program, Option.some.injEq] at hpre
      subst hpre
      simp only [Nat.add_zero] at hmid
      simp [program, hmid]
    | succ k =>
      simp only [List.getElem?_cons_succ] at hk
      simp only [List.take_succ_cons] at hpre ⊢
      obtain ⟨m0, rest, hm0, hr, rfl⟩ := program_cons D i w _ pre hpre
      have e1 : i + (k + 1) = i + 1 + k := by omega
      rw [e1] at hmid ⊢
      have := ih (i + 1) k v rest mid hk hr hmid
      simp [program, hm0, this]

end decoder

/-! ## Running the emulator -/

namespace emu

theorem steps_add (env : Env) (prog : List Ir) : ∀ (m n : Nat) (e : Emulator),
    steps env prog (m + n) e = (steps env prog m e).bind (steps env prog n) := by
  intro m
  induction m with
  | zero => intro n e; simp [steps]
  | succ m ih =>
    intro n e
    have : m + 1 + n = (m + n) + 1 := by omega
    rw [this]
    simp only [steps]
    cases hpc : e.pc with
    | none => rfl
    | some i =>
      simp only []
      cases hs : step env prog e i with
      | cont e1 => simpa using ih n e1
      | ret _ => rfl
      | fault => rfl

theorem Run_steps (env : Env) (prog : List Ir) : ∀ (m n : Nat) (e e1 : Emulator),
    steps env prog m e = some e1 → Run env prog (m + n) e = Run env prog n e1 := by
  intro m
  induction m with
  | zero => intro n e e1 h; simp only [steps, Option.some.injEq] at h; subst h; simp
  | succ m ih =>
    intro n e e1 h
    have : m + 1 + n = (m + n) + 1 := by omega
    rw [this]
    simp only [steps] at h
    simp only [Run]
    cases hpc : e.pc with
    | none => simp [hpc] at h
    | some i =>
      simp only [hpc] at h ⊢
      cases hs : step env prog e i with
      | cont e2 => simp only [hs] at h ⊢; exact ih n e2 e1 h
      | ret _ => simp [hs] at h
      | fault => simp [hs] at h

theorem Run_halted (env : Env) (prog : List Ir) (f : Nat) (e : Emulator) (h : e.pc = none) :
    Run env prog f e = some (Exit.returned e) := by
  cases f <;> simp [Run, h, finish]

theorem setG_apply (f : GenericRegister → Nat) (r x : GenericRegister) (v : Nat) :
    setG f r v x = if x = r then v else f x := rfl

theorem setP_apply (f : PointerRegister → Nat) (r x : PointerRegister) (v : Nat) :
    setP f r v x = if x = r then v else f x := rfl

theorem setG_idem (f : GenericRegister → Nat) (r : GenericRegister) (v w : Nat) :
    setG (setG f r v) r w = setG f r w := by
  funext x; simp only [setG]; split <;> rfl

theorem setP_idem (f : PointerRegister → Nat) (r : PointerRegister) (v w : Nat) :
    setP (setP f r v) r w = setP f r w := by
  funext x; simp only [setP]; split <;> rfl

theorem setU_apply (f : Nat → Value) (i x v : Nat) :
    setU f i v x = if x = i then { f x with U := v } else f x := rfl

theorem setVP_apply (f : Nat → Value) (i x v : Nat) :
    setVP f i v x = if x = i then { f x with P := v } else f x := rfl

end emu

namespace decoder

/-- The block at `_error`: it stores `IC`, `ET`, `EP` into the return slots and halts. -/
theorem run_error (D : Defs) (s : List Instr) (P : ir.Program) (E : Nat) (hT : Tail D s P E)
    (env : Env) (e : Emulator) (hpc : e.pc = some (E + 2)) (f : Nat) :
    ∃ e1, Run env P.code (f + 4) e = some (Exit.returned e1) ∧ e1.pc = none ∧
      e1.Ru 0 = e.uv IC ∧ e1.Rp 1 = e.pv ET ∧ e1.Rp 2 = e.pv EP ∧ e1.mem = e.mem := by
  simp [Run, step, hpc, hT.c2, hT.c3, hT.c4, hT.c5, exec, advance, RET_pos, RET_err_itab,
    RET_err_data, Run_halted, setG_apply, setP_apply, setU_apply, setVP_apply, Emulator.Ru,
    Emulator.Rp]

end decoder

/-! ## Words -/

theorem toU64_natCast (n : Nat) : toU64 (n : Int) = n % W64 := by
  unfold toU64
  have : ((n : Int) % 18446744073709551616) = ((n % 18446744073709551616 : Nat) : Int) := by
    omega
  rw [this, Int.toNat_ofNat]

@[simp] theorem toU64_zero : toU64 0 = 0 := by decide

theorem ea_natCast (b n : Nat) : ea b (n : Int) = (b + n) % W64 := by
  unfold ea
  rw [toU64_natCast, Nat.add_mod_mod]

@[simp] theorem ea_zero (b : Nat) : ea b 0 = b % W64 := by
  simp [ea]

namespace ir

theorem linkInstr_plain (tgt : Label → Option Nat) (n i : Nat) (r : Instr Label)
    (hBr : r.Br = none) (hSw : r.Sw = []) (hi : i + 1 < n) :
    linkInstr tgt n i r = some
      { Op := r.Op, Rx := r.Rx, Ry := r.Ry, Rz := r.Rz, Ps := r.Ps,
        Pd := r.Pd, Iv := r.Iv, Pr := r.Pr, Br := none, Ln := some (i + 1), Sw := [], Ar := r.Ar,
        Rr := r.Rr } := by
  simp [linkInstr, hBr, hSw, resolveRef, resolveTab, hi]

theorem linkInstr_br (tgt : Label → Option Nat) (n i : Nat) (r : Instr Label) (l : Label) (t : Nat)
    (hBr : r.Br = some l) (ht : tgt l = some t) (hSw : r.Sw = []) (hi : i + 1 < n) :
    linkInstr tgt n i r = some
      { Op := r.Op, Rx := r.Rx, Ry := r.Ry, Rz := r.Rz, Ps := r.Ps,
        Pd := r.Pd, Iv := r.Iv, Pr := r.Pr, Br := some t, Ln := some (i + 1), Sw := [], Ar := r.Ar,
        Rr := r.Rr } := by
  simp [linkInstr, hBr, hSw, resolveRef, resolveTab, hi, ht]

end ir

namespace decoder

/-- The block at `_halt`: it clears `ET` and `EP` and falls into `_error`. -/
theorem run_halt (D : Defs) (s : List Instr) (P : ir.Program) (E : Nat) (hT : Tail D s P E)
    (env : Env) (e : Emulator) (hpc : e.pc = some E) (f : Nat) :
    ∃ e1, Run env P.code (f + 6) e = some (Exit.returned e1) ∧ e1.pc = none ∧
      e1.Ru 0 = e.uv IC ∧ e1.Rp 1 = 0 ∧ e1.Rp 2 = 0 ∧ e1.mem = e.mem := by
  simp [Run, step, hpc, hT.c0, hT.c1, hT.c2, hT.c3, hT.c4, hT.c5, exec, advance, RET_pos,
    RET_err_itab, RET_err_data, Run_halted, setG_apply, setP_apply, setU_apply, setVP_apply,
    Emulator.Ru, Emulator.Rp]

/-- C9. Whenever a translated program reaches the lowering of the plan opcode `halt`, the run
ends after seven instructions with `pc = nil`, return slot 0 (`pos`) holding the value `IC` had
on arrival, and return slots 1 and 2 (`err_itab`, `err_data`) null, whatever `ET` and `EP`
held. -/
theorem halt_returns_cursor (D : Defs) (env : Env) (s : List Instr) (P : ir.Program) (k : Nat)
    (v : Instr) (h : Translate D s = some P) (hk : s[k]? = some v)
    (hop : v.Op = decoder.OpCode.OP_halt) (e : Emulator) (hpc : e.pc = addrOf D s (mark k)) :
    ∃ e1, Run env P.code 7 e = some (Exit.returned e1) ∧ e1.pc = none ∧
      e1.Ru 0 = e.uv IC ∧ e1.Rp 1 = 0 ∧ e1.Rp 2 = 0 := by
  have hm : translators D k v = some translate_OP_halt := by simp [translators, hop]
  obtain ⟨E, a, pre, hT, _, _, ha, hle, hfetch, _⟩ := lowering_code D s P h k v hk _ hm
  have hlen : (instrs translate_OP_halt).length = 1 := rfl
  rw [hlen] at hle
  have c0 := hfetch 0 _ rfl
  rw [linkInstr_br _ _ _ _ _ E rfl hT.halt rfl (by omega)] at c0
  simp [instrs, translate_OP_halt] at c0
  rw [ha] at hpc
  obtain ⟨e2, hstep, hpc2, hic2⟩ : ∃ e2, steps env P.code 1 e = some e2 ∧ e2.pc = some E ∧
      e2.uv IC = e.uv IC := by
    simp [steps, step, hpc, c0, exec, advance, setG_apply]
  have hrun := Run_steps env P.code 1 6 e e2 hstep
  obtain ⟨e1, h1, h2, h3, h4, h5, _⟩ := run_halt D s P E hT env e2 hpc2 0
  refine ⟨e1, ?_, h2, ?_, h4, h5⟩
  · rw [← h1]; exact hrun
  · rw [h3, hic2]

end decoder

namespace decoder

/-- Witness of `halt_returns_cursor`: the plan `[halt]`, entered at the lowering of `halt`
with `IC = 7` and stale scratch pointers in `ET` and `EP`. -/
theorem halt_returns_cursor_witness :
    ∃ e1, Run sampleEnv (sampleProgram [{ Op := decoder.OpCode.OP_halt }]).code 7
        { pc := some 5, uv := fun r => if r = IC then 7 else 0, pv := fun _ => 4660 }
          = some (Exit.returned e1) ∧ e1.pc = none ∧ e1.Ru 0 = 7 ∧ e1.Rp 1 = 0 ∧ e1.Rp 2 = 0 :=
  halt_returns_cursor sampleDefs sampleEnv [{ Op := decoder.OpCode.OP_halt }] _ 0
    { Op := decoder.OpCode.OP_halt } (by rfl) (by rfl) (by rfl)
    { pc := some 5, uv := fun r => if r = IC then 7 else 0, pv := fun _ => 4660 } (by rfl)

end decoder

namespace decoder

/-- The lowering after the one of plan instruction `k` starts right behind it. -/
theorem next_addr (D : Defs) (s : List Instr) (P : ir.Program) (h : Translate D s = some P)
    (k : Nat) (v : Instr) (hk : s[k]? = some v) (mid : List Item)
    (hm : translators D k v = some mid) (a : Nat) (ha : addrOf D s (mark k) = some a)
    (hlt : k + 1 < s.length) : addrOf D s (mark (k + 1)) = some (a + (instrs mid).length) := by
  obtain ⟨E, a1, pre, hT, hpre, ha1, hm1, _, _, _⟩ := lowering_code D s P h k v hk mid hm
  rw [ha] at hm1
  cases hm1
  obtain ⟨body, hb, _, _⟩ := Translate_items D s P h
  have hk2 : s[k + 1]? = some (s[k + 1]) := List.getElem?_eq_getElem hlt
  obtain ⟨_, mid2, _, _, hmid2, _⟩ := program_split D s 0 (k + 1) _ body hb hk2
  simp only [Nat.zero_add] at hmid2
  obtain ⟨E2, a2, pre2, _, hpre2, ha2, hm2, _, _, _⟩ := lowering_code D s P h (k + 1) _ hk2 mid2 hmid2
  have hsucc := program_take_succ D s 0 k v pre mid hk hpre (by simpa using hm)
  rw [hsucc] at hpre2
  cases hpre2
  rw [hm2, ha2, ha1]
  simp only [Nat.zero_add, instrs_append, instrs_label_cons, List.length_append]
  congr 1
  omega

/-- C10. At a `defer` lowering, for every triple `(pos, et, ep)` the registered sub-decoder
returns: `IC` becomes `pos`; if `et` is non-null the fourth instruction branches to `_error`
and the run ends after four more instructions, returning `pos` and the error words `(et, ep)`
unchanged in return slots 0, 1 and 2; if `et` is null execution continues with the instruction
after the lowering. -/
theorem defer_threads_result (D : Defs) (env : Env) (s : List Instr) (P : ir.Program) (k : Nat)
    (v : Instr) (h : Translate D s = some P) (hk : s[k]? = some v)
    (hop : v.Op = decoder.OpCode.OP_defer) (e : Emulator) (a : Nat)
    (ha : addrOf D s (mark k) = some a) (hpc : e.pc = some a)
    (pos et ep : Nat) (m1 : Mem) (hpos : pos < W64) (het : et < W64) (hep : ep < W64)
    (hr : env.LookupCall D.F_decode
      [v.Vt.addr, e.pv IP, (e.ar 1).U, e.uv IC, e.pv WP, e.pv RS, e.uv ST] e.mem
        = ([pos, et, ep], m1)) :
    (∃ e3, steps env P.code 3 e = some e3 ∧ e3.uv IC = pos ∧ e3.pv ET = et ∧ e3.pv EP = ep) ∧
    (et ≠ 0 →
      (∃ e4, steps env P.code 4 e = some e4 ∧ e4.pc = addrOf D s LB_error) ∧
      ∃ e1, Run env P.code 8 e = some (Exit.returned e1) ∧ e1.pc = none ∧
        e1.Ru 0 = pos ∧ e1.Rp 1 = et ∧ e1.Rp 2 = ep) ∧
    (et = 0 →
      ∃ e4, steps env P.code 4 e = some e4 ∧ e4.pc = some (a + 4) ∧ e4.uv IC = pos ∧
        (k + 1 < s.length → e4.pc = addrOf D s (mark (k + 1)))) := by
  have hm : translators D k v = some (translate_OP_defer D v) := by simp [translators, hop]
  obtain ⟨E, a1, pre, hT, _, _, ha1, hle, hfetch, _⟩ := lowering_code D s P h k v hk _ hm
  rw [ha] at ha1
  cases ha1
  have hlen : (instrs (translate_OP_defer D v)).length = 4 := rfl
  rw [hlen] at hle
  have c0 := hfetch 0 _ rfl
  have c1 := hfetch 1 _ rfl
  have c2 := hfetch 2 _ rfl
  have c3 := hfetch 3 _ rfl
  rw [linkInstr_plain _ _ _ _ rfl rfl (by omega)] at c0 c1 c2
  rw [linkInstr_br _ _ _ _ _ (E + 2) rfl hT.error rfl (by omega)] at c3
  simp [instrs, translate_OP_defer] at c0 c1 c2 c3
  have h3 : ∃ e3, steps env P.code 3 e = some e3 ∧ e3.pc = some (a + 3) ∧ e3.uv IC = pos ∧
      e3.pv ET = et ∧ e3.pv EP = ep := by
    simp [steps, step, hpc, c0, c1, c2, exec, advance, setG_apply, setP_apply, Call, writeRets,
      Emulator.setReg, Emulator.SetGr, Emulator.SetPr, Emulator.reg, Emulator.Gr, Emulator.Pr,
      ARG_nb, hr, Nat.mod_eq_of_lt hpos, Nat.mod_eq_of_lt het, Nat.mod_eq_of_lt hep]
  obtain ⟨e3, hs3, hpc3, hic3, het3, hep3⟩ := h3
  refine ⟨⟨e3, hs3, hic3, het3, hep3⟩, ?_, ?_⟩
  · intro hne
    have h4 : ∃ e4, steps env P.code 1 e3 = some e4 ∧ e4.pc = some (E + 2) ∧ e4.uv IC = pos ∧
        e4.pv ET = et ∧ e4.pv EP = ep := by
      simp [steps, step, hpc3, c3, exec, advance, setG_apply, setP_apply, het3, hne, hic3, hep3]
    obtain ⟨e4, hs4, hpc4, hic4, het4, hep4⟩ := h4
    have hs : steps env P.code 4 e = some e4 := by
      rw [show 4 = 3 + 1 from rfl, steps_add, hs3]; exact hs4
    refine ⟨⟨e4, hs, by rw [hpc4, hT.error]⟩, ?_⟩
    obtain ⟨e1, h1, h2, h3', h4', h5', _⟩ := run_error D s P E hT env e4 hpc4 0
    refine ⟨e1, ?_, h2, by rw [h3', hic4], by rw [h4', het4], by rw [h5', hep4]⟩
    rw [← h1]
    exact Run_steps env P.code 4 4 e e4 hs
  · intro heq
    have h4 : ∃ e4, steps env P.code 1 e3 = some e4 ∧ e4.pc = some (a + 4) ∧ e4.uv IC = pos := by
      simp [steps, step, hpc3, c3, exec, advance, setG_apply, setP_apply, het3, heq, hic3]
    obtain ⟨e4, hs4, hpc4, hic4⟩ := h4
    have hs : steps env P.code 4 e = some e4 := by
      rw [show 4 = 3 + 1 from rfl, steps_add, hs3]; exact hs4
    refine ⟨e4, hs, hpc4, hic4, ?_⟩
    intro hlt
    rw [hpc4, next_addr D s P h k v hk _ hm a ha hlt, hlen]

end decoder

namespace decoder

/-- Witness of `defer_threads_result`: the plan `[defer, halt]` with a sub-decoder that
returns position 4304 and the non-null error words `(77, 2048)`. -/
theorem defer_threads_result_witness :
    ∃ e1, Run sampleEnv
        (sampleProgram [{ Op := decoder.OpCode.OP_defer, Vt := { addr := 77 } },
          { Op := decoder.OpCode.OP_halt }]).code 8 (sampleState 5 (fun _ => 0))
          = some (Exit.returned e1) ∧ e1.pc = none ∧
        e1.Ru 0 = 4304 ∧ e1.Rp 1 = 77 ∧ e1.Rp 2 = 2048 :=
  ((defer_threads_result sampleDefs sampleEnv
      [{ Op := decoder.OpCode.OP_defer, Vt := { addr := 77 } }, { Op := decoder.OpCode.OP_halt }]
      _ 0 { Op := decoder.OpCode.OP_defer, Vt := { addr := 77 } } (by rfl) (by rfl) (by rfl)
      (sampleState 5 (fun _ => 0)) 5 (by rfl) (by rfl) 4304 77 2048 (fun _ => 0)
      (by decide) (by decide) (by decide) (by rfl)).2.1 (by decide)).2

end decoder

@[simp] theorem toU64_one : toU64 1 = 1 := by decide
@[simp] theorem toU64_two : toU64 2 = 2 := by decide
@[simp] theorem toU64_four : toU64 4 = 4 := by decide
@[simp] theorem toU64_eight : toU64 8 = 8 := by decide
@[simp] theorem toU64_sixteen : toU64 16 = 16 := by decide

theorem toU64_neg_natCast (n : Nat) (h : n < W64) : toU64 (-(n : Int)) = (W64 - n) % W64 := by
  unfold toU64
  have : (-(n : Int)) % 18446744073709551616 = (((W64 - n) % W64 : Nat) : Int) := by
    simp only [W64] at h ⊢
    omega
  rw [this, Int.toNat_ofNat]

namespace decoder

/-- The block at `_overflow`: it loads the two words of `_E_overflow` and leaves by `_error`. -/
theorem run_overflow (D : Defs) (s : List Instr) (P : ir.Program) (E : Nat) (hT : Tail D s P E)
    (env : Env) (e : Emulator) (hpc : e.pc = some (E + 16)) (f : Nat) :
    ∃ e1, Run env P.code (f + 8) e = some (Exit.returned e1) ∧ e1.pc = none ∧
      e1.Ru 0 = e.uv IC ∧ e1.Rp 1 = loadN e.mem (D.E_overflow % W64) 8 ∧
      e1.Rp 2 = loadN e.mem ((D.E_overflow + 8) % W64) 8 ∧ e1.mem = e.mem := by
  simp [Run, step, hpc, hT.c16, hT.c17, hT.c18, hT.c19, hT.c2, hT.c3, hT.c4, hT.c5, exec,
    advance, RET_pos, RET_err_itab, RET_err_data, Run_halted, setG_apply, setP_apply,
    setU_apply, setVP_apply, Emulator.Ru, Emulator.Rp, ea]

/-- The lowering of `make_state`, from any state that reaches it. -/
theorem make_state_spec (D : Defs) (env : Env) (s : List Instr) (P : ir.Program) (k : Nat)
    (v : Instr) (h : Translate D s = some P) (hk : s[k]? = some v)
    (hop : v.Op = decoder.OpCode.OP_make_state) (a : Nat) (ha : addrOf D s (mark k) = some a)
    (e : Emulator) (hpc : e.pc = some a) :
    (D.StateMax % W64 ≤ e.uv ST →
      (∃ e2, steps env P.code 2 e = some e2 ∧ e2.pc = addrOf D s LB_overflow ∧
        e2.uv ST = e.uv ST ∧ e2.uv IC = e.uv IC ∧ e2.mem = e.mem) ∧
      ∃ e1, Run env P.code 10 e = some (Exit.returned e1) ∧ e1.pc = none ∧
        e1.Ru 0 = e.uv IC ∧ e1.Rp 1 = loadN e.mem (D.E_overflow % W64) 8 ∧
        e1.Rp 2 = loadN e.mem ((D.E_overflow + 8) % W64) 8 ∧ e1.mem = e.mem) ∧
    (e.uv ST < D.StateMax % W64 →
      ∃ e5, steps env P.code 5 e = some e5 ∧ e5.pc = some (a + 5) ∧
        e5.uv ST = (e.uv ST + D.StateSize) % W64 ∧ e5.uv IC = e.uv IC ∧
        e5.pv WP = e.pv WP ∧ e5.pv RS = e.pv RS ∧ e5.pv IP = e.pv IP ∧ e5.ar = e.ar ∧
        e5.mem = storeN e.mem (((e.pv RS + e.uv ST) % W64 + D.WpOffset) % W64) 8 (e.pv WP)) := by
  have hm : translators D k v = some (translate_OP_make_state D) := by simp [translators, hop]
  obtain ⟨E, a1, pre, hT, _, _, ha1, hle, hfetch, _⟩ := lowering_code D s P h k v hk _ hm
  rw [ha] at ha1
  cases ha1
  have hlen : (instrs (translate_OP_make_state D)).length = 5 := rfl
  rw [hlen] at hle
  have c0 := hfetch 0 _ rfl
  have c1 := hfetch 1 _ rfl
  have c2 := hfetch 2 _ rfl
  have c3 := hfetch 3 _ rfl
  have c4 := hfetch 4 _ rfl
  rw [linkInstr_plain _ _ _ _ rfl rfl (by omega)] at c0 c2 c3 c4
  rw [linkInstr_br _ _ _ _ _ (E + 16) rfl hT.overflow rfl (by omega)] at c1
  simp [instrs, translate_OP_make_state] at c0 c1 c2 c3 c4
  constructor
  · intro hge
    have h2 : ∃ e2, steps env P.code 2 e = some e2 ∧ e2.pc = some (E + 16) ∧
        e2.uv ST = e.uv ST ∧ e2.uv IC = e.uv IC ∧ e2.mem = e.mem := by
      simp [steps, step, hpc, c0, c1, exec, advance, setG_apply, setP_apply, toU64_natCast, hge]
    obtain ⟨e2, hs2, hpc2, hst2, hic2, hmem2⟩ := h2
    refine ⟨⟨e2, hs2, by rw [hpc2, hT.overflow], hst2, hic2, hmem2⟩, ?_⟩
    obtain ⟨e1, h1, h2', h3, h4, h5, h6⟩ := run_overflow D s P E hT env e2 hpc2 0
    refine ⟨e1, ?_, h2', by rw [h3, hic2], by rw [h4, hmem2], by rw [h5, hmem2], by rw [h6, hmem2]⟩
    rw [← h1]
    exact Run_steps env P.code 2 8 e e2 hs2
  · intro hlt
    simp [steps, step, hpc, c0, c1, c2, c3, c4, exec, advance, setG_apply, setP_apply,
      toU64_natCast, Nat.not_le.mpr hlt, ea_natCast]

end decoder

namespace emu

theorem writeRets_uv (x : GenericRegister) : ∀ (rr : List Register) (e : Emulator) (vs : List Nat),
    Register.G x ∉ rr → (writeRets e rr vs).uv x = e.uv x := by
  intro rr
  induction rr with
  | nil => intro e vs _; rfl
  | cons r rr ih =>
    intro e vs hmem
    simp only [List.mem_cons, not_or] at hmem
    rw [writeRets, ih _ _ hmem.2]
    cases r with
    | G y =>
      have : x ≠ y := fun hxy => hmem.1 (by rw [hxy])
      simp [Emulator.setReg, Emulator.SetGr, setG_apply, this]
    | P y => simp [Emulator.setReg, Emulator.SetPr]

/-- A `trap` that lets the run go on leaves the state as it was. -/
theorem trap_cont (env : Env) (e e1 : Emulator) (h : e.trap env = Step.cont e1) : e1 = e := by
  unfold Emulator.trap at h
  cases hpc : e.pc with
  | none => simp [hpc] at h
  | some i =>
    simp only [hpc] at h
    split at h
    · exact (Step.cont.inj h).symm
    · cases h

/-- A `trap` never makes `Run` return. -/
theorem trap_ne_ret (env : Env) (e e1 : Emulator) : e.trap env ≠ Step.ret e1 := by
  unfold Emulator.trap
  cases e.pc with
  | none => simp
  | some i =>
    simp only
    split <;> simp

/-- An instruction changes a generic register only if that register is one of its
destinations. -/
theorem exec_uv (env : Env) (q : Ir) (e e1 : Emulator) (x : GenericRegister)
    (hw : writesG q x = false) (hx : exec env q e = Step.cont e1) : e1.uv x = e.uv x := by
  cases hop : q.Op <;> simp only [exec, hop] at hx <;> simp only [writesG, hop] at hw
  all_goals first
    | (have hh := trap_cont _ _ _ hx; subst hh; rfl)
    | (simp only [Step.cont.injEq] at hx; subst hx; rfl)
    | (simp only [Step.cont.injEq] at hx; subst hx
       simp only [decide_eq_false_iff_not] at hw
       simp [setG_apply, Ne.symm hw])
    | (split at hx
       · simp only [Step.cont.injEq] at hx; subst hx
         first
           | rfl
           | (simp only [decide_eq_false_iff_not] at hw
              simp [setG_apply, Ne.symm hw])
       · simp at hx)
    | (simp only [Step.cont.injEq] at hx; subst hx; split <;> rfl)
    | (simp only [Step.cont.injEq] at hx; subst hx
       simp only [decide_eq_false_iff_not] at hw
       exact writeRets_uv x _ _ _ hw)
    | (simp at hx; done)
    | (simp only [Step.cont.injEq] at hx; subst hx
       simp only [Bool.or_eq_false_iff, decide_eq_false_iff_not] at hw
       simp [setG_apply, Ne.symm hw.1, Ne.symm hw.2])
    | (split at hx
       · split at hx <;> (simp only [Step.cont.injEq] at hx; subst hx; rfl)
       · simp only [Step.cont.injEq] at hx; subst hx; rfl)

end emu

namespace ir

theorem linkInstr_writesG (tgt : Label → Option Nat) (n i : Nat) (r : Instr Label) (q : Ir)
    (x : GenericRegister) (h : linkInstr tgt n i r = some q) : writesG q x = writesG r x := by
  unfold linkInstr at h
  split at h
  · simp only [Option.some.injEq] at h
    subst h
    rfl
  · simp at h

end ir

namespace decoder

theorem clearWords_writes (x : GenericRegister) (ws : List Nat) :
    ∀ i, ∀ r ∈ instrs (clearWords i ws), writesG r x = false := by
  induction ws with
  | nil => intro i r hr; simp [clearWords, instrs] at hr
  | cons w ws ih =>
    intro i r hr
    by_cases hw : w = 0
    · simp only [clearWords, hw, ne_eq, not_true_eq_false, if_false, List.nil_append] at hr
      exact ih _ r hr
    · simp only [clearWords, hw, ne_eq, not_false_eq_true, if_true, instrs_append,
        List.mem_append] at hr
      rcases hr with hr | hr
      · simp [instrs] at hr
        subst hr
        rfl
      · exact ih _ r hr

theorem testWords_writes (v : Instr) (ws : List Nat) :
    ∀ i, ∀ r ∈ instrs (testWords v i ws), writesG r ST = false := by
  induction ws with
  | nil => intro i r hr; simp [testWords, instrs] at hr
  | cons w ws ih =>
    intro i r hr
    by_cases hw : w = 0
    · simp only [testWords, hw, ne_eq, not_true_eq_false, if_false, List.nil_append] at hr
      exact ih _ r hr
    · simp only [testWords, hw, ne_eq, not_false_eq_true, if_true, instrs_append,
        List.mem_append] at hr
      rcases hr with hr | hr
      · simp [instrs] at hr
        rcases hr with hr | hr | hr | hr | hr | hr <;> subst hr <;> rfl
      · exact ih _ r hr

theorem forall_of_all {α : Type} (l : List α) (f : α → Bool)
    (h : l.all (fun r => !f r) = true) : ∀ r ∈ l, f r = false := by
  intro r hr
  have := List.all_eq_true.mp h r hr
  simpa using this

/-- No lowering other than those of `make_state` and `drop_state` emits an instruction with
`ST` as a destination. -/
theorem translators_keep_ST (D : Defs) (n : Nat) (v : Instr) (mid : List Item)
    (h : translators D n v = some mid) (h1 : v.Op ≠ decoder.OpCode.OP_make_state)
    (h2 : v.Op ≠ decoder.OpCode.OP_drop_state) : ∀ r ∈ instrs mid, writesG r ST = false := by
  unfold translators at h
  split at h
  case h_1 =>
    unfold translate_OP_int at h
    split_ifs at h <;> simp at h <;> subst h <;> simp [instrs, writesG]
  case h_23 =>
    unfold translate_OP_struct_bitmap at h
    split at h
    · simp at h
    · simp only [Option.some.injEq] at h
      subst h
      intro r hr
      simp only [instrs_append, List.mem_append] at hr
      rcases hr with hr | hr
      · simp [instrs] at hr
        rcases hr with hr | hr | hr <;> subst hr <;> rfl
      · exact clearWords_writes ST _ _ r hr
  case h_24 =>
    unfold translate_OP_struct_switch at h
    split_ifs at h
    simp only [Option.some.injEq] at h
    subst h
    simp [instrs, writesG]
  case h_25 =>
    unfold translate_OP_struct_require at h
    split at h
    · simp at h
    · simp only [Option.some.injEq] at h
      subst h
      intro r hr
      simp only [instrs_append, List.mem_append] at hr
      rcases hr with (hr | hr) | hr
      · simp [instrs] at hr
        rcases hr with hr | hr <;> subst hr <;> rfl
      · exact testWords_writes _ _ _ r hr
      · simp [instrs] at hr
        rcases hr with hr | hr <;> subst hr <;> rfl
  case h_30 => exact absurd (by assumption) h1
  case h_31 => exact absurd (by assumption) h2
  case h_36 => simp at h
  all_goals
    simp only [Option.some.injEq] at h
    subst h
    apply forall_of_all
    first
      | rfl
      | (unfold translate_OP_map_set_i32; split <;> rfl)
      | (unfold translate_OP_map_set_i64; split <;> rfl)
      | (unfold translate_OP_map_set_str; split <;> rfl)
      | (unfold translate_OP_map_set_pointer; split <;> rfl)

end decoder

namespace decoder

/-- C7, as amended. `StateMax` bounds the stack offset `ST` itself: a `make_state` lowering
branches to `_overflow` exactly when `ST >= StateMax`, and the run then ends returning the two
words of `_E_overflow` in return slots 1 and 2; otherwise it saves `WP` and adds `StateSize` to
`ST`. Hence, from `ST = 0`, consecutive `make_state` lowerings push frames as long as the
offset reached, `j * StateSize`, is below `StateMax`. -/
theorem make_state_overflow_threshold (D : Defs) (env : Env) (s : List Instr) (P : ir.Program)
    (h : Translate D s = some P) (hmax : D.StateMax < W64)
    (hfit : D.StateMax + D.StateSize ≤ W64) :
    (∀ (k : Nat) (v : Instr) (a : Nat) (e : Emulator), s[k]? = some v →
      v.Op = decoder.OpCode.OP_make_state → addrOf D s (mark k) = some a → e.pc = some a →
      (D.StateMax ≤ e.uv ST →
        (∃ e2, steps env P.code 2 e = some e2 ∧ e2.pc = addrOf D s LB_overflow ∧
          e2.uv ST = e.uv ST ∧ e2.mem = e.mem) ∧
        ∃ e1, Run env P.code 10 e = some (Exit.returned e1) ∧ e1.pc = none ∧
          e1.Rp 1 = loadN e.mem (D.E_overflow % W64) 8 ∧
          e1.Rp 2 = loadN e.mem ((D.E_overflow + 8) % W64) 8) ∧
      (e.uv ST < D.StateMax →
        ∃ e5, steps env P.code 5 e = some e5 ∧ e5.pc = some (a + 5) ∧
          e5.uv ST = e.uv ST + D.StateSize ∧
          e5.mem = storeN e.mem (((e.pv RS + e.uv ST) % W64 + D.WpOffset) % W64) 8 (e.pv WP))) ∧
    (∀ (k0 n a : Nat) (e : Emulator),
      (∀ j, j < n → ∃ v, s[k0 + j]? = some v ∧ v.Op = decoder.OpCode.OP_make_state) →
      addrOf D s (mark k0) = some a → e.pc = some a → e.uv ST = 0 →
      ∀ m, m ≤ n → (∀ j, j < m → j * D.StateSize < D.StateMax) →
        ∃ e1, steps env P.code (5 * m) e = some e1 ∧ e1.pc = some (a + 5 * m) ∧
          e1.uv ST = m * D.StateSize ∧ (m < n → addrOf D s (mark (k0 + m)) = some (a + 5 * m))) := by
  have hmod : D.StateMax % W64 = D.StateMax := Nat.mod_eq_of_lt hmax
  constructor
  · intro k v a e hk hop ha hpc
    obtain ⟨hov, hpush⟩ := make_state_spec D env s P k v h hk hop a ha e hpc
    rw [hmod] at hov hpush
    constructor
    · intro hge
      obtain ⟨⟨e2, h1, h2, h3, _, h5⟩, ⟨e1, g1, g2, _, g4, g5, _⟩⟩ := hov hge
      exact ⟨⟨e2, h1, h2, h3, h5⟩, ⟨e1, g1, g2, g4, g5⟩⟩
    · intro hlt
      obtain ⟨e5, h1, h2, h3, _, _, _, _, _, h9⟩ := hpush hlt
      refine ⟨e5, h1, h2, ?_, h9⟩
      rw [h3]
      exact Nat.mod_eq_of_lt (by omega)
  · intro k0 n a e hall ha hpc hst m
    induction m with
    | zero =>
      intro _ _
      exact ⟨e, rfl, by simpa using hpc, by simpa using hst, fun _ => by simpa using ha⟩
    | succ m ih =>
      intro hle hsmall
      obtain ⟨e1, hs1, hpc1, hst1, haddr1⟩ := ih (by omega) (fun j hj => hsmall j (by omega))
      obtain ⟨v, hv, hop⟩ := hall m (by omega)
      have ha1 := haddr1 (by omega)
      obtain ⟨_, hpush⟩ := make_state_spec D env s P (k0 + m) v h hv hop _ ha1 e1 hpc1
      have hm := hsmall m (by omega)
      rw [hmod, hst1] at hpush
      obtain ⟨e5, g1, g2, g3, _⟩ := hpush hm
      refine ⟨e5, ?_, ?_, ?_, ?_⟩
      · rw [show 5 * (m + 1) = 5 * m + 5 by omega, steps_add, hs1]
        exact g1
      · rw [g2, show a + 5 * m + 5 = a + 5 * (m + 1) by omega]
      · rw [g3, Nat.mod_eq_of_lt (by omega), Nat.succ_mul]
      · intro hlt
        obtain ⟨w, hw, _⟩ := hall (m + 1) hlt
        have hlen : k0 + m + 1 < s.length := by
          have := List.getElem?_eq_some.mp hw
          obtain ⟨hl, _⟩ := this
          omega
        have hmid : translators D (k0 + m) v = some (translate_OP_make_state D) := by
          simp [translators, hop]
        have := next_addr D s P h (k0 + m) v hv _ hmid _ ha1 hlen
        have hl5 : (instrs (translate_OP_make_state D)).length = 5 := rfl
        rw [show k0 + (m + 1) = k0 + m + 1 by omega, this, hl5,
          show a + 5 * m + 5 = a + 5 * (m + 1) by omega]

/-- Counterexample to C7 as stated: with `StateMax = 64` and `StateSize = 32`, the third
consecutive `make_state` from `st = 0` branches to `_overflow`, at `ST = 64`, although
`3 <= StateMax` and `ST` has not reached `StateMax * StateSize`. -/
theorem make_state_third_overflows :
    3 ≤ sampleDefs.StateMax ∧
    (steps sampleEnv
      (sampleProgram [{ Op := decoder.OpCode.OP_make_state }, { Op := decoder.OpCode.OP_make_state },
        { Op := decoder.OpCode.OP_make_state }, { Op := decoder.OpCode.OP_halt }]).code 17
      (invoke (sampleProgram [{ Op := decoder.OpCode.OP_make_state },
        { Op := decoder.OpCode.OP_make_state }, { Op := decoder.OpCode.OP_make_state },
        { Op := decoder.OpCode.OP_halt }]) (fun _ => 0) 2048 0 0 1024 4096 0)).map
        (fun e => (e.pc, e.uv ST))
      = some (addrOf sampleDefs [{ Op := decoder.OpCode.OP_make_state },
          { Op := decoder.OpCode.OP_make_state }, { Op := decoder.OpCode.OP_make_state },
          { Op := decoder.OpCode.OP_halt }] LB_overflow, 64) ∧
    64 < sampleDefs.StateMax * sampleDefs.StateSize := by
  refine ⟨by decide, by rfl, by decide⟩

/-- Witness of `make_state_overflow_threshold`: under the sample constants, a `make_state`
reached with `ST = 64` ends the run with the words of `_E_overflow` (here 171 and 205). -/
theorem make_state_overflow_threshold_witness :
    ∃ e1, Run sampleEnv
        (sampleProgram [{ Op := decoder.OpCode.OP_make_state }, { Op := decoder.OpCode.OP_halt }]).code 10
        { sampleState 5 (fun a => if a = 8192 then 171 else if a = 8200 then 205 else 0) with
          uv := fun _ => 64 } = some (Exit.returned e1) ∧
      e1.pc = none ∧ e1.Rp 1 = 171 ∧ e1.Rp 2 = 205 :=
  (((make_state_overflow_threshold sampleDefs sampleEnv
      [{ Op := decoder.OpCode.OP_make_state }, { Op := decoder.OpCode.OP_halt }] _ (by rfl)
      (by decide) (by decide)).1 0 { Op := decoder.OpCode.OP_make_state } 5
      { sampleState 5 (fun a => if a = 8192 then 171 else if a = 8200 then 205 else 0) with
        uv := fun _ => 64 } (by rfl) (by rfl) (by rfl) (by rfl)).1
      (by decide)).2

end decoder

namespace decoder

/-- The lowering of `drop_state`, from any state that reaches it. -/
theorem drop_state_spec (D : Defs) (env : Env) (s : List Instr) (P : ir.Program) (k : Nat)
    (v : Instr) (h : Translate D s = some P) (hk : s[k]? = some v)
    (hop : v.Op = decoder.OpCode.OP_drop_state) (a : Nat) (ha : addrOf D s (mark k) = some a)
    (e : Emulator) (hpc : e.pc = some a) :
    ∃ e4, steps env P.code 4 e = some e4 ∧ e4.pc = some (a + 4) ∧
      e4.uv ST = (e.uv ST + toU64 (-(D.StateSize : Int))) % W64 ∧ e4.uv IC = e.uv IC ∧
      e4.pv RS = e.pv RS ∧ e4.pv IP = e.pv IP ∧
      e4.pv WP = loadN e.mem (((e.pv RS + e4.uv ST) % W64 + D.WpOffset) % W64) 8 ∧
      e4.mem = storeN e.mem (((e.pv RS + e4.uv ST) % W64 + D.WpOffset) % W64) 8 0 := by
  have hm : translators D k v = some (translate_OP_drop_state D) := by simp [translators, hop]
  obtain ⟨E, a1, pre, hT, _, _, ha1, hle, hfetch, _⟩ := lowering_code D s P h k v hk _ hm
  rw [ha] at ha1
  cases ha1
  have hlen : (instrs (translate_OP_drop_state D)).length = 4 := rfl
  rw [hlen] at hle
  have c0 := hfetch 0 _ rfl
  have c1 := hfetch 1 _ rfl
  have c2 := hfetch 2 _ rfl
  have c3 := hfetch 3 _ rfl
  rw [linkInstr_plain _ _ _ _ rfl rfl (by omega)] at c0 c1 c2 c3
  simp [instrs, translate_OP_drop_state] at c0 c1 c2 c3
  simp [steps, step, hpc, c0, c1, c2, c3, exec, advance, setG_apply, setP_apply, ea_natCast]
  have haddr : ∀ x y z : Nat, (x + y + z) % W64 = (x + y % W64 + z) % W64 := by
    intro x y z
    simp only [W64]
    omega
  rw [haddr]
  exact ⟨rfl, rfl⟩

/-- One iteration of the loop at an instruction that does not have `ST` as a destination leaves
`ST` as it is. -/
theorem step_keeps_ST (env : Env) (code : List Ir) (i : Nat) (q : Ir) (hq : code[i]? = some q)
    (hw : writesG q ST = false) (e e1 : Emulator) (hs : step env code e i = Step.cont e1) :
    e1.uv ST = e.uv ST := by
  simp only [step, hq] at hs
  rw [exec_uv env q _ e1 ST hw hs]
  simp [advance, setG_apply]

/-- C8. `ST <= StateMax * StateSize` is kept by every lowering: (1) no instruction of a
lowering other than those of `make_state` and `drop_state` changes `ST`; (2) a `make_state`
reached with the bound in force either pushes, leaving `ST + StateSize` within the bound, or,
and this whenever pushing would exceed the bound, branches to `_overflow` with `ST` and the
memory (so the runtime state) unchanged and the run ends by the error exit; (3) a `drop_state`
reached with `ST >= StateSize` leaves `ST - StateSize`. -/
theorem stack_offset_invariant (D : Defs) (env : Env) (s : List Instr) (P : ir.Program)
    (h : Translate D s = some P) (hbound : D.StateMax * D.StateSize < W64) (k : Nat) (v : Instr)
    (hk : s[k]? = some v) (a : Nat) (ha : addrOf D s (mark k) = some a) :
    (v.Op ≠ decoder.OpCode.OP_make_state → v.Op ≠ decoder.OpCode.OP_drop_state →
      ∀ (mid : List Item), translators D k v = some mid →
      ∀ (j : Nat) (e e1 : Emulator), j < (instrs mid).length → e.pc = some (a + j) →
        step env P.code e (a + j) = Step.cont e1 → e1.uv ST = e.uv ST) ∧
    (v.Op = decoder.OpCode.OP_make_state →
      ∀ (e : Emulator), e.pc = some a → e.uv ST ≤ D.StateMax * D.StateSize →
        (D.StateMax * D.StateSize < e.uv ST + D.StateSize → D.StateMax % W64 ≤ e.uv ST) ∧
        (D.StateMax % W64 ≤ e.uv ST →
          (∃ e2, steps env P.code 2 e = some e2 ∧ e2.pc = addrOf D s LB_overflow ∧
            e2.uv ST = e.uv ST ∧ e2.mem = e.mem) ∧
          ∃ e1, Run env P.code 10 e = some (Exit.returned e1) ∧ e1.pc = none ∧
            e1.mem = e.mem) ∧
        (e.uv ST < D.StateMax % W64 →
          ∃ e5, steps env P.code 5 e = some e5 ∧ e5.pc = some (a + 5) ∧
            e5.uv ST = e.uv ST + D.StateSize ∧ e5.uv ST ≤ D.StateMax * D.StateSize)) ∧
    (v.Op = decoder.OpCode.OP_drop_state →
      ∀ (e : Emulator), e.pc = some a → D.StateSize ≤ e.uv ST →
        e.uv ST ≤ D.StateMax * D.StateSize →
        ∃ e4, steps env P.code 4 e = some e4 ∧ e4.pc = some (a + 4) ∧
          e4.uv ST = e.uv ST - D.StateSize ∧ e4.uv ST ≤ D.StateMax * D.StateSize) := by
  have hmul : ∀ x, x ≤ D.StateMax * D.StateSize → x < D.StateMax % W64 →
      x + D.StateSize ≤ D.StateMax * D.StateSize := by
    intro x hxb hx
    have h1 : D.StateMax % W64 ≤ D.StateMax := Nat.mod_le _ _
    by_cases hz : D.StateSize = 0
    · simp only [hz, Nat.mul_zero, Nat.add_zero] at hxb ⊢
      exact hxb
    · have h3 : D.StateMax * D.StateSize = D.StateMax * (D.StateSize - 1) + D.StateMax * 1 := by
        rw [← Nat.mul_add]; congr 1; omega
      have h4 : 1 * (D.StateSize - 1) ≤ D.StateMax * (D.StateSize - 1) :=
        Nat.mul_le_mul_right _ (by omega)
      omega
  refine ⟨?_, ?_, ?_⟩
  · intro h1 h2 mid hm j e e1 hj hpc hs
    obtain ⟨E, a1, pre, hT, _, _, ha1, hle, hfetch, _⟩ := lowering_code D s P h k v hk _ hm
    rw [ha] at ha1
    cases ha1
    have hr : (instrs mid)[j]? = some ((instrs mid)[j]) := List.getElem?_eq_getElem hj
    have hf := hfetch j _ hr
    cases hq : linkInstr (addrOf D s) (E + 20) (a + j) ((instrs mid)[j]) with
    | none =>
      rw [hq] at hf
      simp [step, hf] at hs
    | some q =>
      rw [hq] at hf
      have hw := translators_keep_ST D k v mid hm h1 h2 _ (List.getElem_mem hj)
      rw [← linkInstr_writesG _ _ _ _ q ST hq] at hw
      exact step_keeps_ST env P.code (a + j) q hf hw e e1 hs
  · intro hop e hpc hinv
    obtain ⟨hov, hpush⟩ := make_state_spec D env s P k v h hk hop a ha e hpc
    refine ⟨?_, ?_, ?_⟩
    · intro hex
      by_contra hlt
      have := hmul _ hinv (Nat.not_le.mp hlt)
      omega
    · intro hge
      obtain ⟨⟨e2, g1, g2, g3, _, g5⟩, ⟨e1, f1, f2, _, _, _, f6⟩⟩ := hov hge
      exact ⟨⟨e2, g1, g2, g3, g5⟩, ⟨e1, f1, f2, f6⟩⟩
    · intro hlt
      obtain ⟨e5, g1, g2, g3, _⟩ := hpush hlt
      have := hmul _ hinv hlt
      have hst : e5.uv ST = e.uv ST + D.StateSize := by
        rw [g3]; exact Nat.mod_eq_of_lt (by omega)
      exact ⟨e5, g1, g2, hst, by omega⟩
  · intro hop e hpc hge hinv
    obtain ⟨e4, g1, g2, g3, _⟩ := drop_state_spec D env s P k v h hk hop a ha e hpc
    have hst : e4.uv ST = e.uv ST - D.StateSize := by
      have hlt : e.uv ST < W64 := Nat.lt_of_le_of_lt hinv hbound
      have hss : D.StateSize < W64 := Nat.lt_of_le_of_lt hge hlt
      rw [g3, toU64_neg_natCast _ hss]
      simp only [W64] at hlt hss ⊢
      omega
    exact ⟨e4, g1, g2, hst, by omega⟩

end decoder

namespace decoder

/-- Witness of `stack_offset_invariant`: under the sample constants a `make_state` reached with
`ST = 0` pushes a frame and leaves `ST = 32`, within the bound `64 * 32`. -/
theorem stack_offset_invariant_witness :
    ∃ e5, steps sampleEnv
        (sampleProgram [{ Op := decoder.OpCode.OP_make_state }, { Op := decoder.OpCode.OP_halt }]).code 5
        (sampleState 5 (fun _ => 0)) = some e5 ∧
      e5.pc = some 10 ∧ e5.uv ST = 32 ∧ e5.uv ST ≤ 2048 :=
  (((stack_offset_invariant sampleDefs sampleEnv
      [{ Op := decoder.OpCode.OP_make_state }, { Op := decoder.OpCode.OP_halt }] _ (by rfl)
      (by decide) 0 { Op := decoder.OpCode.OP_make_state } (by rfl) 5 (by rfl)).2.1 (by rfl)
      (sampleState 5 (fun _ => 0)) (by rfl) (by decide)).2.2 (by decide))

end decoder

theorem sext_64 (x : Nat) : sext 64 x = x % W64 := by
  unfold sext
  have h : (2 : Nat) ^ 64 = W64 := by norm_num
  rw [h]
  split <;> simp

theorem loadN_lt (m : Mem) : ∀ (n a : Nat), loadN m a n < 256 ^ n := by
  intro n
  induction n with
  | zero => intro a; simp [loadN]
  | succ n ih =>
    intro a
    have := ih (a + 1)
    have h1 : m a % 256 < 256 := Nat.mod_lt _ (by decide)
    rw [loadN, pow_succ]
    omega

theorem loadN_8_lt (m : Mem) (a : Nat) : loadN m a 8 < W64 := by
  have := loadN_lt m 8 a
  norm_num at this
  exact this

namespace decoder

/-- C4 (the code departs from the claim). At a `map_set_i64` lowering both variants read the
key at `IP + IC`, byte-swap it and hand it to the host helper, the fast one by value and the
safe one through `RS[IvOffset]`; but while the fast lowering leaves `IC + 8`, the safe lowering
leaves `IC + 2`. -/
theorem map_set_i64_cursor (D : Defs) (env : Env) (s : List Instr) (P : ir.Program) (k : Nat)
    (v : Instr) (h : Translate D s = some P) (hk : s[k]? = some v)
    (hop : v.Op = decoder.OpCode.OP_map_set_i64) (a : Nat) (ha : addrOf D s (mark k) = some a)
    (e : Emulator) (hpc : e.pc = some a) :
    (v.Vt.IsFastMap = true →
      ∃ e8, steps env P.code 8 e = some e8 ∧ e8.pc = some (a + 8) ∧
        e8.uv IC = (e.uv IC + 8) % W64 ∧
        e8.pv WP = (env.LookupCall D.F_mapassign_fast64
          [v.Vt.addr, loadN e.mem (((e.pv RS + e.uv ST) % W64 + D.MpOffset) % W64) 8,
           ReverseBytes64 (loadN e.mem ((e.pv IP + e.uv IC) % W64) 8)] e.mem).1.headD 0 % W64) ∧
    (v.Vt.IsFastMap = false →
      ∃ e10, steps env P.code 10 e = some e10 ∧ e10.pc = some (a + 10) ∧
        e10.uv IC = (e.uv IC + 2) % W64 ∧
        e10.pv WP = (env.LookupCall D.F_mapassign
          [v.Vt.addr, loadN e.mem (((e.pv RS + e.uv ST) % W64 + D.MpOffset) % W64) 8,
           (e.pv RS + D.IvOffset) % W64]
          (storeN e.mem ((e.pv RS + D.IvOffset) % W64) 8
            (ReverseBytes64 (loadN e.mem ((e.pv IP + e.uv IC) % W64) 8)))).1.headD 0 % W64) := by
  constructor
  · intro hfast
    have hm : translators D k v = some (translate_OP_map_set_i64_fast D v) := by
      simp [translators, hop, translate_OP_map_set_i64, hfast]
    obtain ⟨E, a1, pre, hT, _, _, ha1, hle, hfetch, _⟩ := lowering_code D s P h k v hk _ hm
    rw [ha] at ha1
    cases ha1
    have hlen : (instrs (translate_OP_map_set_i64_fast D v)).length = 8 := rfl
    rw [hlen] at hle
    have c0 := hfetch 0 _ rfl
    have c1 := hfetch 1 _ rfl
    have c2 := hfetch 2 _ rfl
    have c3 := hfetch 3 _ rfl
    have c4 := hfetch 4 _ rfl
    have c5 := hfetch 5 _ rfl
    have c6 := hfetch 6 _ rfl
    have c7 := hfetch 7 _ rfl
    rw [linkInstr_plain _ _ _ _ rfl rfl (by omega)] at c0 c1 c2 c3 c4 c5 c6 c7
    simp [instrs, translate_OP_map_set_i64_fast] at c0 c1 c2 c3 c4 c5 c6 c7
    simp [steps, step, hpc, c0, c1, c2, c3, c4, c5, c6, c7, exec, advance, setG_apply,
      setP_apply, ea_natCast, Call, writeRets, Emulator.setReg, Emulator.SetGr, Emulator.SetPr,
      Emulator.reg, Emulator.Gr, Emulator.Pr, sext_64, Nat.mod_eq_of_lt (loadN_8_lt _ _)]
  · intro hsafe
    have hm : translators D k v = some (translate_OP_map_set_i64_safe D v) := by
      simp [translators, hop, translate_OP_map_set_i64, hsafe]
    obtain ⟨E, a1, pre, hT, _, _, ha1, hle, hfetch, _⟩ := lowering_code D s P h k v hk _ hm
    rw [ha] at ha1
    cases ha1
    have hlen : (instrs (translate_OP_map_set_i64_safe D v)).length = 10 := rfl
    rw [hlen] at hle
    have c0 := hfetch 0 _ rfl
    have c1 := hfetch 1 _ rfl
    have c2 := hfetch 2 _ rfl
    have c3 := hfetch 3 _ rfl
    have c4 := hfetch 4 _ rfl
    have c5 := hfetch 5 _ rfl
    have c6 := hfetch 6 _ rfl
    have c7 := hfetch 7 _ rfl
    have c8 := hfetch 8 _ rfl
    have c9 := hfetch 9 _ rfl
    rw [linkInstr_plain _ _ _ _ rfl rfl (by omega)] at c0 c1 c2 c3 c4 c5 c6 c7 c8 c9
    simp [instrs, translate_OP_map_set_i64_safe] at c0 c1 c2 c3 c4 c5 c6 c7 c8 c9
    simp [steps, step, hpc, c0, c1, c2, c3, c4, c5, c6, c7, c8, c9, exec, advance, setG_apply,
      setP_apply, ea_natCast, Call, writeRets, Emulator.setReg, Emulator.SetGr, Emulator.SetPr,
      Emulator.reg, Emulator.Gr, Emulator.Pr, sext_64, Nat.mod_eq_of_lt (loadN_8_lt _ _)]

end decoder

namespace decoder

/-- Witness of `map_set_i64_cursor`: the safe lowering of `map_set_i64`, reached with `IC = 3`,
leaves `IC = 5`, not 11. -/
theorem map_set_i64_cursor_witness :
    ∃ e10, steps sampleEnv
        (sampleProgram [{ Op := decoder.OpCode.OP_map_set_i64, Vt := { IsFastMap := false } },
          { Op := decoder.OpCode.OP_halt }]).code 10 (sampleState 5 (fun _ => 0)) = some e10 ∧
      e10.pc = some 15 ∧ e10.uv IC = 5 ∧ e10.pv WP = 4192 :=
  (map_set_i64_cursor sampleDefs sampleEnv
      [{ Op := decoder.OpCode.OP_map_set_i64, Vt := { IsFastMap := false } },
        { Op := decoder.OpCode.OP_halt }] _ 0
      { Op := decoder.OpCode.OP_map_set_i64, Vt := { IsFastMap := false } } (by rfl) (by rfl)
      (by rfl) 5 (by rfl) (sampleState 5 (fun _ => 0)) (by rfl)).2 (by rfl)

end decoder

/-! ## Memory -/

theorem storeN_apply (m : Mem) (a n v x : Nat) :
    storeN m a n v x = if a ≤ x ∧ x < a + n then v / 256 ^ (x - a) % 256 else m x := rfl

theorem storeN_outside (m : Mem) (a n v x : Nat) (h : x < a ∨ a + n ≤ x) :
    storeN m a n v x = m x := by
  rw [storeN_apply, if_neg]
  omega

theorem loadN_congr (m1 m2 : Mem) : ∀ (n a : Nat), (∀ x, a ≤ x → x < a + n → m1 x = m2 x) →
    loadN m1 a n = loadN m2 a n := by
  intro n
  induction n with
  | zero => intro a _; rfl
  | succ n ih =>
    intro a h
    rw [loadN, loadN, h a (Nat.le_refl _) (by omega), ih (a + 1) (fun x h1 h2 => h x (by omega) (by omega))]

theorem loadN_storeN_disjoint (m : Mem) (a n v b k : Nat) (h : b + k ≤ a ∨ a + n ≤ b) :
    loadN (storeN m a n v) b k = loadN m b k := by
  apply loadN_congr
  intro x h1 h2
  apply storeN_outside
  omega

theorem loadN_storeN_same (m : Mem) : ∀ (n a v : Nat),
    loadN (storeN m a n v) a n = v % 256 ^ n := by
  intro n
  induction n with
  | zero => intro a v; simp [loadN, Nat.mod_one]
  | succ n ih =>
    intro a v
    rw [loadN]
    have h0 : storeN m a (n + 1) v a = v % 256 := by
      rw [storeN_apply, if_pos (by omega)]; simp
    have h1 : loadN (storeN m a (n + 1) v) (a + 1) n = loadN (storeN m (a + 1) n (v / 256)) (a + 1) n := by
      apply loadN_congr
      intro x hx1 hx2
      rw [storeN_apply, storeN_apply, if_pos (by omega), if_pos (by omega)]
      have : x - a = (x - (a + 1)) + 1 := by omega
      rw [this, pow_succ, Nat.mul_comm, Nat.div_div_eq_div_mul]
    rw [h0, h1, ih (a + 1) (v / 256), Nat.mod_mod, pow_succ]
    rw [Nat.mul_comm (256 ^ n) 256, Nat.mod_mul]

theorem storeN_mod (m : Mem) (a n v : Nat) : storeN m a n (v % 256 ^ n) = storeN m a n v := by
  funext x
  rw [storeN_apply, storeN_apply]
  split
  · rename_i hx
    have hk : x - a < n := by omega
    have hpow : 256 ^ n = 256 ^ (x - a) * 256 ^ (n - (x - a)) := by
      rw [← pow_add]; congr 1; omega
    rw [hpow, Nat.mod_mul_right_div_self]
    have h256 : 256 ^ (n - (x - a)) = 256 * 256 ^ (n - (x - a) - 1) := by
      rw [← pow_succ']; congr 1; omega
    rw [h256, Nat.mod_mul_right_mod]
  · rfl

theorem sext_8_mod (x : Nat) : sext 8 x % 256 = x % 256 := by
  simp only [sext, W64]
  norm_num
  split <;> omega

theorem sext_16_mod (x : Nat) : sext 16 x % 65536 = x % 65536 := by
  simp only [sext, W64]
  norm_num
  split <;> omega

theorem sext_32_mod (x : Nat) : sext 32 x % 4294967296 = x % 4294967296 := by
  simp only [sext, W64]
  norm_num
  split <;> omega

theorem swap_1 (m : Mem) (a : Nat) : sext 8 (loadN m a 1) % 256 = loadBE m a 1 := by
  rw [sext_8_mod]
  simp only [loadN, loadBE]
  omega

theorem swap_2 (m : Mem) (a : Nat) :
    ReverseBytes16 (sext 16 (loadN m a 2) % 65536) = loadBE m a 2 := by
  rw [sext_16_mod]
  simp only [loadN, loadBE, ReverseBytes16]
  have h0 := Nat.mod_lt (m a) (by decide : 256 > 0)
  have h1 := Nat.mod_lt (m (a + 1)) (by decide : 256 > 0)
  generalize m a % 256 = b0 at *
  generalize m (a + 1) % 256 = b1 at *
  norm_num
  omega

theorem swap_4 (m : Mem) (a : Nat) :
    ReverseBytes32 (sext 32 (loadN m a 4) % 4294967296) = loadBE m a 4 := by
  rw [sext_32_mod]
  simp only [loadN, loadBE, ReverseBytes32, Nat.add_assoc]
  have h0 := Nat.mod_lt (m a) (by decide : 256 > 0)
  have h1 := Nat.mod_lt (m (a + 1)) (by decide : 256 > 0)
  have h2 := Nat.mod_lt (m (a + (1 + 1))) (by decide : 256 > 0)
  have h3 := Nat.mod_lt (m (a + (1 + (1 + 1)))) (by decide : 256 > 0)
  generalize m a % 256 = b0 at *
  generalize m (a + 1) % 256 = b1 at *
  generalize m (a + (1 + 1)) % 256 = b2 at *
  generalize m (a + (1 + (1 + 1))) % 256 = b3 at *
  norm_num
  omega

theorem loadN_byte (m : Mem) : ∀ (j n a : Nat), j < n →
    loadN m a n / 256 ^ j % 256 = m (a + j) % 256 := by
  intro j
  induction j with
  | zero =>
    intro n a hn
    obtain ⟨k, rfl⟩ : ∃ k, n = k + 1 := ⟨n - 1, by omega⟩
    rw [loadN]
    simp
  | succ j ih =>
    intro n a hn
    obtain ⟨k, rfl⟩ : ∃ k, n = k + 1 := ⟨n - 1, by omega⟩
    rw [loadN, pow_succ, Nat.mul_comm (256 ^ j) 256, ← Nat.div_div_eq_div_mul]
    have h1 : (m a % 256 + 256 * loadN m (a + 1) k) / 256 = loadN m (a + 1) k := by
      have := Nat.mod_lt (m a) (by decide : 256 > 0)
      omega
    rw [h1, ih k (a + 1) (by omega)]
    congr 2
    omega

theorem loadBE_lt (m : Mem) : ∀ (n a : Nat), loadBE m a n < 256 ^ n := by
  intro n
  induction n with
  | zero => intro a; simp [loadBE]
  | succ n ih =>
    intro a
    have := ih (a + 1)
    have h1 : m a % 256 < 256 := Nat.mod_lt _ (by decide)
    have h2 : m a % 256 * 256 ^ n ≤ 255 * 256 ^ n := Nat.mul_le_mul_right _ (by omega)
    rw [loadBE, pow_succ]
    omega

theorem loadBE_byte (m : Mem) : ∀ (n j a : Nat), j < n →
    loadBE m a n / 256 ^ j % 256 = m (a + (n - 1 - j)) % 256 := by
  intro n
  induction n with
  | zero => intro j a hj; omega
  | succ n ih =>
    intro j a hj
    rw [loadBE]
    have hlo := loadBE_lt m n (a + 1)
    by_cases hjn : j = n
    · subst hjn
      rw [Nat.add_comm, Nat.add_mul_div_right _ _ (by positivity), Nat.div_eq_of_lt hlo]
      simp
    · have hpow : 256 ^ n = 256 ^ j * (256 * 256 ^ (n - j - 1)) := by
        rw [← pow_succ', ← pow_add]; congr 1; omega
      rw [Nat.add_comm, hpow, ← Nat.mul_assoc, Nat.mul_comm (m a % 256) (256 ^ j), Nat.mul_assoc,
        Nat.add_mul_div_left _ _ (by positivity), ← Nat.mul_assoc, Nat.mul_comm (m a % 256) 256,
        Nat.mul_assoc, Nat.add_mul_mod_self_left, ih j (a + 1) (by omega)]
      congr 2
      omega

theorem swap_8 (m : Mem) (a : Nat) :
    ReverseBytes64 (sext 64 (loadN m a 8) % W64) = loadBE m a 8 := by
  rw [sext_64, Nat.mod_mod, Nat.mod_eq_of_lt (loadN_8_lt m a)]
  have h0 := loadN_byte m 0 8 a (by decide)
  have h1 := loadN_byte m 1 8 a (by decide)
  have h2 := loadN_byte m 2 8 a (by decide)
  have h3 := loadN_byte m 3 8 a (by decide)
  have h4 := loadN_byte m 4 8 a (by decide)
  have h5 := loadN_byte m 5 8 a (by decide)
  have h6 := loadN_byte m 6 8 a (by decide)
  have h7 := loadN_byte m 7 8 a (by decide)
  norm_num at h0 h1 h2 h3 h4 h5 h6 h7
  simp only [ReverseBytes64, h0, h1, h2, h3, h4, h5, h6, h7, loadBE, Nat.add_assoc]
  norm_num

namespace ir

theorem Build_head (items : List Item) (P : Program) (h : Build items = some P)
    (hne : (instrs items).length ≠ 0) : P.Head = some 0 := by
  unfold Build at h
  split at h
  · cases hl : linkFrom (resolve items (instrs items).length) (instrs items).length 0 (instrs items) with
    | none => simp [hl] at h
    | some code =>
      simp only [hl, Option.some.injEq] at h
      subst h
      rfl
  · simp at h

end ir

namespace decoder

/-- The prologue: from the invocation state, five instructions load the arguments into the
convention registers and arrive at the first lowering. -/
theorem prologue_spec (D : Defs) (env : Env) (s : List Instr) (P : ir.Program)
    (h : Translate D s = some P) (m : Mem) (buf nb i p rs st : Nat) :
    ∃ e5, steps env P.code 5 (invoke P m buf nb i p rs st) = some e5 ∧ e5.pc = some 5 ∧
      e5.pv IP = buf ∧ e5.uv IC = i ∧ e5.pv WP = p ∧ e5.pv RS = rs ∧ e5.uv ST = st ∧
      e5.mem = m ∧ (e5.ar 1).U = nb := by
  obtain ⟨E, hT⟩ := tail_code D s P h
  obtain ⟨body, hb, _, hB⟩ := Translate_items D s P h
  have hn : (instrs (prologue ++ body ++ epilogue ++ errors D)).length = E + 20 := by
    rw [← hT.len, Build_length _ P hB]
  have hfetch : ∀ (j : Nat) (r : ir.Instr Label), (instrs prologue)[j]? = some r →
      P.code[j]? = linkInstr (resolve (prologue ++ body ++ epilogue ++ errors D) (E + 20)) (E + 20) j r := by
    intro j r hr
    have hlt : j < (instrs prologue).length := (List.getElem?_eq_some.mp hr).1
    have := Build_get _ P hB j r (by
      rw [List.append_assoc, List.append_assoc, instrs_append, List.getElem?_append_left hlt]
      exact hr)
    rw [this, hn]
  have hhead : P.Head = some 0 := Build_head _ P hB (by rw [hn]; omega)
  have c0 := hfetch 0 _ rfl
  have c1 := hfetch 1 _ rfl
  have c2 := hfetch 2 _ rfl
  have c3 := hfetch 3 _ rfl
  have c4 := hfetch 4 _ rfl
  rw [linkInstr_plain _ _ _ _ rfl rfl (by omega)] at c0 c1 c2 c3 c4
  simp [instrs, prologue] at c0 c1 c2 c3 c4
  simp [steps, step, invoke, LoadProgram, hhead, Emulator.Ap, Emulator.Au, c0, c1, c2, c3, c4,
    exec, advance, setG_apply, setP_apply, setU_apply, setVP_apply, ARG_buf, ARG_i, ARG_p,
    ARG_rs, ARG_st]

/-- The first lowering starts right behind the prologue. -/
theorem addrOf_mark_zero (D : Defs) (s : List Instr) (P : ir.Program) (h : Translate D s = some P)
    (v : Instr) (hk : s[0]? = some v) : addrOf D s (mark 0) = some 5 := by
  obtain ⟨body, hb, _, _⟩ := Translate_items D s P h
  obtain ⟨_, mid, _, _, hmid, _⟩ := program_split D s 0 0 v body hb hk
  obtain ⟨E, a, pre, _, hpre, ha, hm, _⟩ := lowering_code D s P h 0 v hk mid hmid
  simp only [List.take_zero, program, Option.some.injEq] at hpre
  subst hpre
  rw [hm, ha]
  rfl

/-- The lowering of `halt`, from any state that reaches it. -/
theorem halt_run (D : Defs) (env : Env) (s : List Instr) (P : ir.Program) (k : Nat)
    (v : Instr) (h : Translate D s = some P) (hk : s[k]? = some v)
    (hop : v.Op = decoder.OpCode.OP_halt) (a : Nat) (ha : addrOf D s (mark k) = some a)
    (e : Emulator) (hpc : e.pc = some a) (f : Nat) :
    ∃ e1, Run env P.code (f + 7) e = some (Exit.returned e1) ∧ e1.pc = none ∧
      e1.Ru 0 = e.uv IC ∧ e1.Rp 1 = 0 ∧ e1.Rp 2 = 0 ∧ e1.mem = e.mem := by
  have hm : translators D k v = some translate_OP_halt := by simp [translators, hop]
  obtain ⟨E, a1, pre, hT, _, _, ha1, hle, hfetch, _⟩ := lowering_code D s P h k v hk _ hm
  rw [ha] at ha1
  cases ha1
  have hlen : (instrs translate_OP_halt).length = 1 := rfl
  rw [hlen] at hle
  have c0 := hfetch 0 _ rfl
  rw [linkInstr_br _ _ _ _ _ E rfl hT.halt rfl (by omega)] at c0
  simp [instrs, translate_OP_halt] at c0
  obtain ⟨e2, hstep, hpc2, hic2, hmem2⟩ : ∃ e2, steps env P.code 1 e = some e2 ∧
      e2.pc = some E ∧ e2.uv IC = e.uv IC ∧ e2.mem = e.mem := by
    simp [steps, step, hpc, c0, exec, advance, setG_apply]
  have hrun := Run_steps env P.code 1 (f + 6) e e2 hstep
  obtain ⟨e1, h1, h2, h3, h4, h5, h6⟩ := run_halt D s P E hT env e2 hpc2 f
  refine ⟨e1, ?_, h2, ?_, h4, h5, ?_⟩
  · rw [← h1, ← hrun]; congr 1; omega
  · rw [h3, hic2]
  · rw [h6, hmem2]

end decoder

namespace decoder

/-- The lowering of `int` with `Iv = n`, from any state that reaches it: the `n` input bytes at
the cursor are read as a big-endian integer, stored at `WP`, and the cursor moves by `n`. -/
theorem int_spec (D : Defs) (env : Env) (s : List Instr) (P : ir.Program) (k : Nat)
    (v : Instr) (h : Translate D s = some P) (hk : s[k]? = some v)
    (hop : v.Op = decoder.OpCode.OP_int) (n : Nat) (hn : n = 1 ∨ n = 2 ∨ n = 4 ∨ n = 8)
    (hiv : v.Iv = n) (a : Nat) (ha : addrOf D s (mark k) = some a)
    (e : Emulator) (hpc : e.pc = some a) :
    ∃ mid len, translators D k v = some mid ∧ (instrs mid).length = len ∧
      ∃ e1, steps env P.code len e = some e1 ∧ e1.pc = some (a + len) ∧
      e1.uv IC = (e.uv IC + n) % W64 ∧
      e1.mem = storeN e.mem (e.pv WP % W64) n (loadBE e.mem ((e.pv IP + e.uv IC) % W64) n) := by
  rcases hn with rfl | rfl | rfl | rfl
  · have hm : translators D k v = some [ADDP IP IC EP, LB EP 0 TR, SB TR WP 0, ADDI IC 1 IC] := by
      simp [translators, hop, translate_OP_int, hiv]
    obtain ⟨E, a1, pre, hT, _, _, ha1, hle, hfetch, _⟩ := lowering_code D s P h k v hk _ hm
    rw [ha] at ha1
    cases ha1
    have hlen : (instrs [ADDP IP IC EP, LB EP 0 TR, SB TR WP 0, ADDI IC 1 IC]).length = 4 := rfl
    rw [hlen] at hle
    have c0 := hfetch 0 _ rfl
    have c1 := hfetch 1 _ rfl
    have c2 := hfetch 2 _ rfl
    have c3 := hfetch 3 _ rfl
    rw [linkInstr_plain _ _ _ _ rfl rfl (by omega)] at c0 c1 c2 c3
    simp [instrs] at c0 c1 c2 c3
    refine ⟨_, 4, hm, rfl, ?_⟩
    simp [steps, step, hpc, c0, c1, c2, c3, exec, advance, setG_apply, setP_apply]
    rw [← storeN_mod, ← swap_1]
    simp
  · have hm : translators D k v = some
        [ADDP IP IC EP, LW EP 0 TR, SWAPW TR TR, SW TR WP 0, ADDI IC 2 IC] := by
      simp [translators, hop, translate_OP_int, hiv]
    obtain ⟨E, a1, pre, hT, _, _, ha1, hle, hfetch, _⟩ := lowering_code D s P h k v hk _ hm
    rw [ha] at ha1
    cases ha1
    have hlen : (instrs [ADDP IP IC EP, LW EP 0 TR, SWAPW TR TR, SW TR WP 0, ADDI IC 2 IC]).length = 5 := rfl
    rw [hlen] at hle
    have c0 := hfetch 0 _ rfl
    have c1 := hfetch 1 _ rfl
    have c2 := hfetch 2 _ rfl
    have c3 := hfetch 3 _ rfl
    have c4 := hfetch 4 _ rfl
    rw [linkInstr_plain _ _ _ _ rfl rfl (by omega)] at c0 c1 c2 c3 c4
    simp [instrs] at c0 c1 c2 c3 c4
    refine ⟨_, 5, hm, rfl, ?_⟩
    simp [steps, step, hpc, c0, c1, c2, c3, c4, exec, advance, setG_apply, setP_apply, swap_2]
  · have hm : translators D k v = some
        [ADDP IP IC EP, LL EP 0 TR, SWAPL TR TR, SL TR WP 0, ADDI IC 4 IC] := by
      simp [translators, hop, translate_OP_int, hiv]
    obtain ⟨E, a1, pre, hT, _, _, ha1, hle, hfetch, _⟩ := lowering_code D s P h k v hk _ hm
    rw [ha] at ha1
    cases ha1
    have hlen : (instrs [ADDP IP IC EP, LL EP 0 TR, SWAPL TR TR, SL TR WP 0, ADDI IC 4 IC]).length = 5 := rfl
    rw [hlen] at hle
    have c0 := hfetch 0 _ rfl
    have c1 := hfetch 1 _ rfl
    have c2 := hfetch 2 _ rfl
    have c3 := hfetch 3 _ rfl
    have c4 := hfetch 4 _ rfl
    rw [linkInstr_plain _ _ _ _ rfl rfl (by omega)] at c0 c1 c2 c3 c4
    simp [instrs] at c0 c1 c2 c3 c4
    refine ⟨_, 5, hm, rfl, ?_⟩
    simp [steps, step, hpc, c0, c1, c2, c3, c4, exec, advance, setG_apply, setP_apply, swap_4]
  · have hm : translators D k v = some
        [ADDP IP IC EP, LQ EP 0 TR, SWAPQ TR TR, SQ TR WP 0, ADDI IC 8 IC] := by
      simp [translators, hop, translate_OP_int, hiv]
    obtain ⟨E, a1, pre, hT, _, _, ha1, hle, hfetch, _⟩ := lowering_code D s P h k v hk _ hm
    rw [ha] at ha1
    cases ha1
    have hlen : (instrs [ADDP IP IC EP, LQ EP 0 TR, SWAPQ TR TR, SQ TR WP 0, ADDI IC 8 IC]).length = 5 := rfl
    rw [hlen] at hle
    have c0 := hfetch 0 _ rfl
    have c1 := hfetch 1 _ rfl
    have c2 := hfetch 2 _ rfl
    have c3 := hfetch 3 _ rfl
    have c4 := hfetch 4 _ rfl
    rw [linkInstr_plain _ _ _ _ rfl rfl (by omega)] at c0 c1 c2 c3 c4
    simp [instrs] at c0 c1 c2 c3 c4
    refine ⟨_, 5, hm, rfl, ?_⟩
    simp [steps, step, hpc, c0, c1, c2, c3, c4, exec, advance, setG_apply, setP_apply, swap_8]

end decoder

namespace decoder

/-- A plan `[x, halt]` run from the invocation state: the prologue, the lowering of `x` as
given by `hx`, and the lowering of `halt`. -/
theorem run_single (D : Defs) (env : Env) (x : Instr) (P : ir.Program)
    (h : Translate D [x, { Op := decoder.OpCode.OP_halt }] = some P) (mid : List Item)
    (hmid : translators D 0 x = some mid) (m : Mem) (buf nb i p rs st : Nat)
    (Q : Emulator → Prop)
    (hx : ∀ e, e.pc = some 5 → e.pv IP = buf → e.uv IC = i → e.pv WP = p → e.pv RS = rs →
      e.uv ST = st → e.mem = m → (e.ar 1).U = nb →
      ∃ t e1, steps env P.code t e = some e1 ∧
        e1.pc = some (5 + (instrs mid).length) ∧ Q e1) :
    ∃ e1 e2 fuel, Q e1 ∧ Run env P.code fuel
        (invoke P m buf nb i p rs st) = some (Exit.returned e2) ∧
      e2.pc = none ∧ e2.Ru 0 = e1.uv IC ∧ e2.Rp 1 = 0 ∧ e2.Rp 2 = 0 ∧ e2.mem = e1.mem := by
  obtain ⟨e5, hs5, g1, g2, g3, g4, g5, g6, g7, g8⟩ := prologue_spec D env _ P h m buf nb i p rs st
  obtain ⟨t, e1, hs1, hpc1, hq⟩ := hx e5 g1 g2 g3 g4 g5 g6 g7 g8
  have ha0 := addrOf_mark_zero D _ P h x rfl
  have ha1 := next_addr D _ P h 0 x rfl mid hmid 5 ha0 (by simp)
  obtain ⟨e2, hr, r1, r2, r3, r4, r5⟩ :=
    halt_run D env _ P 1 _ h rfl rfl _ ha1 e1 hpc1 0
  have hs : steps env P.code (5 + t) (invoke P m buf nb i p rs st) = some e1 := by
    rw [steps_add, hs5]; exact hs1
  have hR := Run_steps env P.code (5 + t) (0 + 7) _ e1 hs
  exact ⟨e1, e2, _, hq, by rw [hR]; exact hr, r1, r2, r3, r4, r5⟩

end decoder

namespace decoder

theorem isSome_elim {α : Type} (o : Option α) (h : o.isSome = true) : ∃ x, o = some x := by
  cases o with
  | none => simp at h
  | some x => exact ⟨x, rfl⟩

/-- C3. For `n` in `{1, 2, 4, 8}`, the plan `[int(n), halt]` translates; run from any
invocation it returns `pos = i + n` (as a 64-bit word) with a null error, and the memory
afterwards is the memory before with the `n` bytes at `p` overwritten by the integer whose
big-endian encoding is the `n` input bytes at `buf + i`: reading `p` gives that integer, the
destination bytes are the input bytes in reverse order, and no other byte is changed. -/
theorem int_reads_big_endian (D : Defs) (env : Env) (n : Nat)
    (hn : n = 1 ∨ n = 2 ∨ n = 4 ∨ n = 8) (m : Mem) (buf nb i p rs st : Nat) :
    ∃ P, Translate D [{ Op := decoder.OpCode.OP_int, Iv := n }, { Op := decoder.OpCode.OP_halt }]
        = some P ∧
      ∃ fuel e2, Run env P.code fuel (invoke P m buf nb i p rs st) = some (Exit.returned e2) ∧
        e2.pc = none ∧ e2.Ru 0 = (i + n) % W64 ∧ e2.Rp 1 = 0 ∧ e2.Rp 2 = 0 ∧
        e2.mem = storeN m (p % W64) n (loadBE m ((buf + i) % W64) n) ∧
        loadN e2.mem (p % W64) n = loadBE m ((buf + i) % W64) n ∧
        (∀ j, j < n → e2.mem (p % W64 + j) = m ((buf + i) % W64 + (n - 1 - j)) % 256) ∧
        (∀ x, x < p % W64 ∨ p % W64 + n ≤ x → e2.mem x = m x) := by
  have hsome : (Translate D [{ Op := decoder.OpCode.OP_int, Iv := n },
      { Op := decoder.OpCode.OP_halt }]).isSome = true := by
    rcases hn with rfl | rfl | rfl | rfl <;> rfl
  obtain ⟨P, h⟩ := isSome_elim _ hsome
  refine ⟨P, h, ?_⟩
  obtain ⟨mid, len, hmid, hlen, _⟩ : ∃ mid len, translators D 0
      { Op := decoder.OpCode.OP_int, Iv := n } = some mid ∧ (instrs mid).length = len ∧ True := by
    rcases hn with rfl | rfl | rfl | rfl <;> exact ⟨_, _, rfl, rfl, trivial⟩
  obtain ⟨e1, e2, fuel, hq, hrun, r1, r2, r3, r4, r5⟩ := run_single D env _ P h mid hmid m buf nb i p rs st
    (fun e1 => e1.uv IC = (i + n) % W64 ∧
      e1.mem = storeN m (p % W64) n (loadBE m ((buf + i) % W64) n))
    (by
      intro e hpc g2 g3 g4 _ _ g7 _
      obtain ⟨mid2, len2, hm2, hl2, e1, hs1, hpc1, hic1, hmem1⟩ :=
        int_spec D env _ P 0 { Op := decoder.OpCode.OP_int, Iv := n } h rfl rfl n hn rfl 5 (addrOf_mark_zero D _ P h _ rfl) e hpc
      rw [hmid] at hm2
      cases hm2
      rw [← hl2] at hpc1
      refine ⟨_, e1, hs1, hpc1, ?_, ?_⟩
      · rw [hic1, g3]
      · rw [hmem1, g2, g3, g4, g7])
  obtain ⟨hic, hmem⟩ := hq
  have hmem2 : e2.mem = storeN m (p % W64) n (loadBE m ((buf + i) % W64) n) := by rw [r5, hmem]
  refine ⟨fuel, e2, hrun, r1, by rw [r2, hic], r3, r4, hmem2, ?_, ?_, ?_⟩
  · rw [hmem2, loadN_storeN_same, Nat.mod_eq_of_lt (loadBE_lt m n _)]
  · intro j hj
    rw [hmem2, storeN_apply, if_pos (by omega), Nat.add_sub_cancel_left, loadBE_byte m n j _ hj]
  · intro x hx
    rw [hmem2]
    exact storeN_outside _ _ _ _ _ hx

end decoder

namespace decoder

/-- Witness of `int_reads_big_endian` (scenario S1, isolated): `[int(4), halt]` on the buffer
`00 00 00 2A` at address 2048, with `p = 1024`, returns `pos = 4`, a null error and
`*p = 0x2A`. -/
theorem int_reads_big_endian_witness :
    ∃ P, Translate sampleDefs
        [{ Op := decoder.OpCode.OP_int, Iv := 4 }, { Op := decoder.OpCode.OP_halt }] = some P ∧
      ∃ fuel e2, Run sampleEnv P.code fuel
          (invoke P (fun a => if a = 2051 then 42 else 0) 2048 4 0 1024 4096 0)
            = some (Exit.returned e2) ∧
        e2.pc = none ∧ e2.Ru 0 = 4 ∧ e2.Rp 1 = 0 ∧ e2.Rp 2 = 0 ∧ loadN e2.mem 1024 4 = 42 :=
  match int_reads_big_endian sampleDefs sampleEnv 4 (by decide)
      (fun a => if a = 2051 then 42 else 0) 2048 4 0 1024 4096 0 with
  | ⟨P, h, fuel, e2, h1, h2, h3, h4, h5, _, h7, _⟩ => ⟨P, h, fuel, e2, h1, h2, h3, h4, h5, h7⟩

end decoder

namespace decoder

/-- The lowering of `str`, from any state that reaches it. The pointer word at `WP` is cleared
first; the length `L` is then read big-endian at the cursor and compared with `nb`. -/
theorem str_spec (D : Defs) (env : Env) (s : List Instr) (P : ir.Program) (k : Nat)
    (v : Instr) (h : Translate D s = some P) (hk : s[k]? = some v)
    (hop : v.Op = decoder.OpCode.OP_str) (a : Nat) (ha : addrOf D s (mark k) = some a)
    (e : Emulator) (hpc : e.pc = some a) (m1 : Mem)
    (hm1 : m1 = storeN e.mem (e.pv WP % W64) 8 0) (L : Nat)
    (hL : L = loadBE m1 ((e.pv IP + e.uv IC) % W64) 4) :
    ((e.ar 1).U < L →
      ∃ e7, steps env P.code 7 e = some e7 ∧ e7.pc = addrOf D s LB_eof ∧
        e7.uv IC = (e.uv IC + 4) % W64 ∧ e7.uv TR = L ∧ e7.mem = m1 ∧ e7.ar = e.ar) ∧
    (¬ (e.ar 1).U < L → L = 0 →
      ∃ e9, steps env P.code 9 e = some e9 ∧ e9.pc = some (a + 12) ∧
        e9.uv IC = (e.uv IC + 4) % W64 ∧
        e9.mem = storeN m1 ((e.pv WP + 8) % W64) 8 0) ∧
    (¬ (e.ar 1).U < L → L ≠ 0 →
      ∃ e12, steps env P.code 12 e = some e12 ∧ e12.pc = some (a + 12) ∧
        e12.uv IC = ((e.uv IC + 4) % W64 + L) % W64 ∧
        e12.mem = storeN (storeN m1 (e.pv WP % W64) 8 (((e.pv IP + e.uv IC) % W64 + 4) % W64))
          ((e.pv WP + 8) % W64) 8 L) := by
  have hm : translators D k v = some (translate_OP_str k) := by simp [translators, hop]
  obtain ⟨E, a1, pre, hT, _, _, ha1, hle, hfetch, hloc⟩ := lowering_code D s P h k v hk _ hm
  rw [ha] at ha1
  cases ha1
  have hlen : (instrs (translate_OP_str k)).length = 12 := rfl
  rw [hlen] at hle
  have hempty := hloc "_empty_{n}" 11 (by simp [translate_OP_str, translate_OP_binstr, labelIndex])
  have c0 := hfetch 0 _ rfl
  have c1 := hfetch 1 _ rfl
  have c2 := hfetch 2 _ rfl
  have c3 := hfetch 3 _ rfl
  have c4 := hfetch 4 _ rfl
  have c5 := hfetch 5 _ rfl
  have c6 := hfetch 6 _ rfl
  have c7 := hfetch 7 _ rfl
  have c8 := hfetch 8 _ rfl
  have c9 := hfetch 9 _ rfl
  have c10 := hfetch 10 _ rfl
  have c11 := hfetch 11 _ rfl
  rw [linkInstr_plain _ _ _ _ rfl rfl (by omega)] at c0 c1 c2 c3 c4 c5 c8 c9 c10 c11
  rw [linkInstr_br _ _ _ _ _ (E + 6) rfl hT.eof rfl (by omega)] at c6
  rw [linkInstr_br _ _ _ _ _ (a + 11) rfl hempty rfl (by omega)] at c7
  simp [instrs, translate_OP_str, translate_OP_binstr] at c0 c1 c2 c3 c4 c5 c6 c7 c8 c9 c10 c11
  have hswap : ReverseBytes32 (sext 32 (loadN (storeN e.mem (e.pv WP % W64) 8 0)
      ((e.pv IP + e.uv IC) % W64) 4) % 4294967296) = L := by
    rw [swap_4, hL, hm1]
  refine ⟨?_, ?_, ?_⟩
  · intro hlt
    simp [steps, step, hpc, c0, c1, c2, c3, c4, c5, c6, exec, advance, setG_apply, setP_apply,
      ARG_nb, hswap, hlt, hT.eof, hm1]
  · intro hge hz
    simp [steps, step, hpc, c0, c1, c2, c3, c4, c5, c6, c7, c11, exec, advance, setG_apply,
      setP_apply, ARG_nb, hswap, hge, hz, hm1, ea]
  · intro hge hnz
    simp [steps, step, hpc, c0, c1, c2, c3, c4, c5, c6, c7, c8, c9, c10, c11, exec, advance,
      setG_apply, setP_apply, ARG_nb, hswap, hge, hnz, hm1, ea]

end decoder

namespace decoder

/-- The plan `[str, halt]`, run from any invocation in which the length `L` read at the cursor
(after the pointer word at `p` has been cleared) is at most `nb`: no error is raised, whatever
the cursor. -/
theorem str_halt_run (D : Defs) (env : Env) (m : Mem) (buf nb i p rs st L : Nat)
    (hL : L = loadBE (storeN m (p % W64) 8 0) ((buf + i) % W64) 4) (hge : L ≤ nb) :
    ∃ P, Translate D [{ Op := decoder.OpCode.OP_str }, { Op := decoder.OpCode.OP_halt }] = some P ∧
      ∃ fuel e2, Run env P.code fuel (invoke P m buf nb i p rs st) = some (Exit.returned e2) ∧
        e2.pc = none ∧ e2.Rp 1 = 0 ∧ e2.Rp 2 = 0 ∧
        (L = 0 → e2.Ru 0 = (i + 4) % W64 ∧
          e2.mem = storeN (storeN m (p % W64) 8 0) ((p + 8) % W64) 8 0) ∧
        (L ≠ 0 → e2.Ru 0 = ((i + 4) % W64 + L) % W64 ∧
          e2.mem = storeN (storeN (storeN m (p % W64) 8 0) (p % W64) 8
            (((buf + i) % W64 + 4) % W64)) ((p + 8) % W64) 8 L) := by
  have hsome : (Translate D [{ Op := decoder.OpCode.OP_str },
      { Op := decoder.OpCode.OP_halt }]).isSome = true := rfl
  obtain ⟨P, h⟩ := isSome_elim _ hsome
  refine ⟨P, h, ?_⟩
  have hmid : translators D 0 { Op := decoder.OpCode.OP_str } = some (translate_OP_str 0) := rfl
  obtain ⟨e1, e2, fuel, hq, hrun, r1, r2, r3, r4, r5⟩ :=
    run_single D env _ P h _ hmid m buf nb i p rs st
    (fun e1 =>
      (L = 0 → e1.uv IC = (i + 4) % W64 ∧
        e1.mem = storeN (storeN m (p % W64) 8 0) ((p + 8) % W64) 8 0) ∧
      (L ≠ 0 → e1.uv IC = ((i + 4) % W64 + L) % W64 ∧
        e1.mem = storeN (storeN (storeN m (p % W64) 8 0) (p % W64) 8
          (((buf + i) % W64 + 4) % W64)) ((p + 8) % W64) 8 L))
    (by
      intro e hpc g2 g3 g4 _ _ g7 g8
      obtain ⟨_, hempty, hfull⟩ := str_spec D env _ P 0 { Op := decoder.OpCode.OP_str } h rfl rfl 5
        (addrOf_mark_zero D _ P h _ rfl) e hpc (storeN m (p % W64) 8 0) (by rw [g4, g7]) L
        (by rw [hL, g2, g3])
      have hnlt : ¬ (e.ar 1).U < L := by rw [g8]; omega
      by_cases hz : L = 0
      · obtain ⟨e9, s9, p9, i9, m9⟩ := hempty hnlt hz
        refine ⟨9, e9, s9, p9, ?_, ?_⟩
        · intro _
          exact ⟨by rw [i9, g3], by rw [m9, g4]⟩
        · intro hne
          exact absurd hz hne
      · obtain ⟨e12, s12, p12, i12, m12⟩ := hfull hnlt hz
        refine ⟨12, e12, s12, p12, ?_, ?_⟩
        · intro h0
          exact absurd h0 hz
        · intro _
          exact ⟨by rw [i12, g3], by rw [m12, g2, g3, g4]⟩)
  refine ⟨fuel, e2, hrun, r1, r3, r4, ?_, ?_⟩
  · intro hz
    obtain ⟨q1, q2⟩ := hq.1 hz
    exact ⟨by rw [r2, q1], by rw [r5, q2]⟩
  · intro hnz
    obtain ⟨q1, q2⟩ := hq.2 hnz
    exact ⟨by rw [r2, q1], by rw [r5, q2]⟩

theorem loadBE_congr (m1 m2 : Mem) : ∀ (n a : Nat), (∀ x, a ≤ x → x < a + n → m1 x = m2 x) →
    loadBE m1 a n = loadBE m2 a n := by
  intro n
  induction n with
  | zero => intro a _; rfl
  | succ n ih =>
    intro a h
    rw [loadBE, loadBE, h a (Nat.le_refl _) (by omega),
      ih (a + 1) (fun x h1 h2 => h x (by omega) (by omega))]

/-- C2. When the length prefix at `buf + i` is `L` and the payload is available
(`i + 4 + L <= nb`), the plan `[str, halt]` returns a null error and `pos = i + 4 + L`, and
leaves in the string header at `p` the length `L` (at `p + 8`) and the pointer `buf + i + 4`
when `L > 0`, null when `L = 0`. The buffer and the header lie in the address space and the
pointer word of the header does not overlap the length prefix. -/
theorem str_decodes_header (D : Defs) (env : Env) (m : Mem) (buf nb i p rs st L : Nat)
    (hL : L = loadBE m (buf + i) 4) (havail : i + 4 + L ≤ nb) (hbuf : buf + nb < W64)
    (hp : p + 16 ≤ W64) (hdis : buf + i + 4 ≤ p ∨ p + 8 ≤ buf + i) :
    ∃ P, Translate D [{ Op := decoder.OpCode.OP_str }, { Op := decoder.OpCode.OP_halt }] = some P ∧
      ∃ fuel e2, Run env P.code fuel (invoke P m buf nb i p rs st) = some (Exit.returned e2) ∧
        e2.pc = none ∧ e2.Rp 1 = 0 ∧ e2.Rp 2 = 0 ∧ e2.Ru 0 = i + 4 + L ∧
        loadN e2.mem (p + 8) 8 = L ∧
        (0 < L → loadN e2.mem p 8 = buf + i + 4) ∧ (L = 0 → loadN e2.mem p 8 = 0) := by
  have hW : W64 = 18446744073709551616 := rfl
  have hpm : p % W64 = p := Nat.mod_eq_of_lt (by omega)
  have hp8 : (p + 8) % W64 = p + 8 := Nat.mod_eq_of_lt (by omega)
  have hsrc : (buf + i) % W64 = buf + i := Nat.mod_eq_of_lt (by omega)
  have hL2 : L = loadBE (storeN m (p % W64) 8 0) ((buf + i) % W64) 4 := by
    rw [hL, hpm, hsrc]
    apply loadBE_congr
    intro x h1 h2
    rw [storeN_outside]
    omega
  have hLlt : L < 4294967296 := by
    rw [hL]
    have := loadBE_lt m 4 (buf + i)
    norm_num at this
    exact this
  obtain ⟨P, h, fuel, e2, hrun, r1, r3, r4, hz, hnz⟩ :=
    str_halt_run D env m buf nb i p rs st L hL2 (by omega)
  refine ⟨P, h, fuel, e2, hrun, r1, r3, r4, ?_, ?_, ?_, ?_⟩
  · by_cases h0 : L = 0
    · rw [(hz h0).1, h0]
      exact Nat.mod_eq_of_lt (by omega)
    · rw [(hnz h0).1, Nat.mod_eq_of_lt (by omega : i + 4 < W64)]
      exact Nat.mod_eq_of_lt (by omega)
  · by_cases h0 : L = 0
    · rw [(hz h0).2, hp8, loadN_storeN_same, h0]
      rfl
    · rw [(hnz h0).2, hp8, loadN_storeN_same]
      exact Nat.mod_eq_of_lt (by norm_num; omega)
  · intro hpos
    rw [(hnz (by omega)).2, hp8, hpm, hsrc, loadN_storeN_disjoint _ _ _ _ _ _ (by omega),
      loadN_storeN_same, Nat.mod_eq_of_lt (by omega : buf + i + 4 < W64)]
    exact Nat.mod_eq_of_lt (by norm_num; omega)
  · intro h0
    rw [(hz h0).2, hp8, hpm, loadN_storeN_disjoint _ _ _ _ _ _ (by omega), loadN_storeN_same]
    rfl

end decoder

namespace decoder

/-- Witness of `str_decodes_header` (scenarios S2 and S3), with the buffer at address 2048 and
the header at 1024: on `00 00 00 03 'a' 'b' 'c'`, `nb = 7`, the result is `pos = 7` and the
header `{ptr = buf + 4, len = 3}`; on `00 00 00 00`, `nb = 4`, it is `pos = 4` and
`{ptr = null, len = 0}`. -/
theorem str_decodes_header_witness :
    (∃ P, Translate sampleDefs
        [{ Op := decoder.OpCode.OP_str }, { Op := decoder.OpCode.OP_halt }] = some P ∧
      ∃ fuel e2, Run sampleEnv P.code fuel
          (invoke P (bytesAt 2048 [0, 0, 0, 3, 97, 98, 99]) 2048 7 0 1024 4096 0)
            = some (Exit.returned e2) ∧
        e2.pc = none ∧ e2.Rp 1 = 0 ∧ e2.Rp 2 = 0 ∧ e2.Ru 0 = 7 ∧
        loadN e2.mem 1032 8 = 3 ∧ loadN e2.mem 1024 8 = 2052) ∧
    (∃ P, Translate sampleDefs
        [{ Op := decoder.OpCode.OP_str }, { Op := decoder.OpCode.OP_halt }] = some P ∧
      ∃ fuel e2, Run sampleEnv P.code fuel
          (invoke P (bytesAt 2048 [0, 0, 0, 0]) 2048 4 0 1024 4096 0)
            = some (Exit.returned e2) ∧
        e2.pc = none ∧ e2.Rp 1 = 0 ∧ e2.Rp 2 = 0 ∧ e2.Ru 0 = 4 ∧
        loadN e2.mem 1032 8 = 0 ∧ loadN e2.mem 1024 8 = 0) :=
  ⟨match str_decodes_header sampleDefs sampleEnv (bytesAt 2048 [0, 0, 0, 3, 97, 98, 99])
      2048 7 0 1024 4096 0 3 (by rfl) (by decide) (by decide) (by decide)
      (Or.inr (by decide)) with
    | ⟨P, h, fuel, e2, h1, h2, h3, h4, h5, h6, h7, _⟩ =>
      ⟨P, h, fuel, e2, h1, h2, h3, h4, h5, h6, h7 (by decide)⟩,
   match str_decodes_header sampleDefs sampleEnv (bytesAt 2048 [0, 0, 0, 0])
      2048 4 0 1024 4096 0 0 (by rfl) (by decide) (by decide) (by decide)
      (Or.inr (by decide)) with
    | ⟨P, h, fuel, e2, h1, h2, h3, h4, h5, h6, _, h8⟩ =>
      ⟨P, h, fuel, e2, h1, h2, h3, h4, h5, h6, h8 rfl⟩⟩

/-- C1 (the code departs from the claim). On the input of scenario S4, the buffer
`00 00 00 05 'a' 'b'` with `nb = 6` and `i = 0`, where the prefix declares 5 bytes and only 2
remain, the plan `[str, halt]` raises no EOF error: the bounds check compares `nb` with the
length alone, the run returns a null error and `pos = 9`, and the header points past the
buffer, `{ptr = buf + 4, len = 5}`. -/
theorem str_short_input_not_detected (D : Defs) (env : Env) :
    ∃ P, Translate D [{ Op := decoder.OpCode.OP_str }, { Op := decoder.OpCode.OP_halt }] = some P ∧
      ∃ fuel e2, Run env P.code fuel
          (invoke P (bytesAt 2048 [0, 0, 0, 5, 97, 98]) 2048 6 0 1024 4096 0)
            = some (Exit.returned e2) ∧
        e2.pc = none ∧ e2.Rp 1 = 0 ∧ e2.Rp 2 = 0 ∧ e2.Ru 0 = 9 ∧
        loadN e2.mem 1032 8 = 5 ∧ loadN e2.mem 1024 8 = 2052 ∧ 0 + 4 + 5 > 6 := by
  obtain ⟨P, h, fuel, e2, hrun, r1, r3, r4, _, hnz⟩ :=
    str_halt_run D env (bytesAt 2048 [0, 0, 0, 5, 97, 98]) 2048 6 0 1024 4096 0 5 (by rfl)
      (by decide)
  obtain ⟨q1, q2⟩ := hnz (by decide)
  refine ⟨P, h, fuel, e2, hrun, r1, r3, r4, q1, ?_, ?_, by decide⟩
  · rw [q2]; rfl
  · rw [q2]; rfl

end decoder

theorem toU64_toI64 (x : Nat) : toU64 (toI64 x) = x % W64 := by
  unfold toU64 toI64
  simp only [W64]
  split <;> omega

theorem ea_word (tp i : Nat) : ea tp ((i : Int) * 8) = (tp + 8 * i) % W64 := by
  have : ((i : Int) * 8) = ((8 * i : Nat) : Int) := by push_cast; ring
  rw [this, ea_natCast]

namespace decoder

theorem getElem?_drop_fetch {α : Type} (l1 l2 l3 : List α) (j : Nat) (r : α)
    (h : l2[j]? = some r) : (l1 ++ l2 ++ l3)[l1.length + j]? = some r := by
  have hlt : j < l2.length := (List.getElem?_eq_some.mp h).1
  rw [List.append_assoc, getElem?_append_add, List.getElem?_append_left hlt]
  exact h

/-- The stores that clear the required words of a fresh bitmap. -/
theorem clearWords_run (D : Defs) (env : Env) (s : List Instr) (P : ir.Program) (E : Nat) :
    ∀ (ws : List Nat) (i base : Nat) (e : Emulator),
      (∀ (j : Nat) (r : ir.Instr Label), (instrs (clearWords i ws))[j]? = some r →
        P.code[base + j]? = linkInstr (addrOf D s) (E + 20) (base + j) r) →
      base + (instrs (clearWords i ws)).length ≤ E → e.pc = some base →
      ∃ e1, steps env P.code (instrs (clearWords i ws)).length e = some e1 ∧
        e1.pc = some (base + (instrs (clearWords i ws)).length) ∧
        e1.mem = clearedMem e.mem (e.pv TP) i ws ∧ e1.pv TP = e.pv TP ∧
        e1.pv RS = e.pv RS ∧ e1.pv WP = e.pv WP ∧ e1.pv IP = e.pv IP ∧
        e1.uv IC = e.uv IC ∧ e1.uv ST = e.uv ST ∧ e1.ar = e.ar := by
  intro ws
  induction ws with
  | nil =>
    intro i base e _ _ hpc
    exact ⟨e, rfl, by simpa [clearWords, instrs] using hpc, rfl, rfl, rfl, rfl, rfl, rfl, rfl, rfl⟩
  | cons w ws ih =>
    intro i base e hfetch hle hpc
    by_cases hw : w = 0
    · have heq : clearWords i (w :: ws) = clearWords (i + 1) ws := by simp [clearWords, hw]
      rw [heq] at hfetch hle ⊢
      obtain ⟨e1, h1, h2, h3, h4⟩ := ih (i + 1) base e hfetch hle hpc
      exact ⟨e1, h1, h2, by rw [h3]; simp [clearedMem, hw], h4⟩
    · have heq : instrs (clearWords i (w :: ws)) =
          { Op := OP_sq, Rx := GenericRegister.Rz, Pd := TP, Iv := (i : Int) * 8 } ::
            instrs (clearWords (i + 1) ws) := by
        simp only [clearWords, ne_eq, hw, not_false_eq_true, if_true]
        rfl
      rw [heq] at hfetch hle ⊢
      simp only [List.length_cons] at hle ⊢
      have c0 := hfetch 0 _ List.getElem?_cons_zero
      rw [linkInstr_plain _ _ _ _ rfl rfl (by omega)] at c0
      simp at c0
      obtain ⟨e0, hs0, hpc0, hm0, g1, g2, g3, g4, g5, g6, g7⟩ : ∃ e0,
          steps env P.code 1 e = some e0 ∧ e0.pc = some (base + 1) ∧
          e0.mem = storeN e.mem (ea (e.pv TP) ((i : Int) * 8)) 8 0 ∧ e0.pv TP = e.pv TP ∧
          e0.pv RS = e.pv RS ∧ e0.pv WP = e.pv WP ∧ e0.pv IP = e.pv IP ∧
          e0.uv IC = e.uv IC ∧ e0.uv ST = e.uv ST ∧ e0.ar = e.ar := by
        simp [steps, step, hpc, c0, exec, advance, setG_apply, setP_apply]
      obtain ⟨e1, h1, h2, h3, k1, k2, k3, k4, k5, k6, k7⟩ := ih (i + 1) (base + 1) e0
        (by
          intro j r hr
          have := hfetch (j + 1) r (by simpa using hr)
          rw [show base + 1 + j = base + (j + 1) by omega]
          exact this)
        (by omega) hpc0
      refine ⟨e1, ?_, ?_, ?_, by rw [k1, g1], by rw [k2, g2], by rw [k3, g3], by rw [k4, g4],
        by rw [k5, g5], by rw [k6, g6], by rw [k7, g7]⟩
      · rw [show (instrs (clearWords (i + 1) ws)).length + 1 =
          1 + (instrs (clearWords (i + 1) ws)).length by omega, steps_add, hs0]
        exact h1
      · rw [h2]; congr 1; omega
      · rw [h3, hm0, g1]
        simp [clearedMem, hw]

end decoder

namespace decoder

/-- The word tests of `struct_require`: they either all pass and fall through, leaving the
state as it was up to scratch registers, or branch to `_missing` at the first word with a
non-zero residue, with `UR` the word index, `TR` the residue and `ET` the type. -/
theorem testWords_run (D : Defs) (env : Env) (s : List Instr) (P : ir.Program) (E : Nat)
    (hT : Tail D s P E) (v : Instr) :
    ∀ (ws : List Nat) (i base : Nat) (e : Emulator),
      (∀ (j : Nat) (r : ir.Instr Label), (instrs (testWords v i ws))[j]? = some r →
        P.code[base + j]? = linkInstr (addrOf D s) (E + 20) (base + j) r) →
      base + (instrs (testWords v i ws)).length ≤ E → e.pc = some base →
      match firstMissing e.mem (e.pv TP) i ws with
      | none =>
        ∃ e1, steps env P.code (instrs (testWords v i ws)).length e = some e1 ∧
          e1.pc = some (base + (instrs (testWords v i ws)).length) ∧
          e1.mem = e.mem ∧ e1.pv TP = e.pv TP ∧ e1.pv EP = e.pv EP ∧ e1.pv RS = e.pv RS ∧
          e1.pv WP = e.pv WP ∧ e1.pv IP = e.pv IP ∧ e1.uv IC = e.uv IC ∧ e1.uv ST = e.uv ST ∧
          e1.ar = e.ar
      | some (w, r) =>
        ∃ t e1, steps env P.code t e = some e1 ∧ e1.pc = some (E + 14) ∧
          e1.uv UR = w % W64 ∧ e1.uv TR = r ∧ e1.pv ET = v.Vt.addr ∧
          e1.mem = e.mem ∧ e1.pv TP = e.pv TP ∧ e1.pv EP = e.pv EP ∧ e1.pv RS = e.pv RS ∧
          e1.pv WP = e.pv WP ∧ e1.pv IP = e.pv IP ∧ e1.uv IC = e.uv IC ∧ e1.uv ST = e.uv ST ∧
          e1.ar = e.ar := by
  intro ws
  induction ws with
  | nil =>
    intro i base e _ _ hpc
    simp only [firstMissing]
    exact ⟨e, rfl, by simpa [testWords, instrs] using hpc, rfl, rfl, rfl, rfl, rfl, rfl, rfl, rfl,
      rfl⟩
  | cons x xs ih =>
    intro i base e hfetch hle hpc
    by_cases hx : x = 0
    · have heq : testWords v i (x :: xs) = testWords v (i + 1) xs := by simp [testWords, hx]
      have hfm : firstMissing e.mem (e.pv TP) i (x :: xs) =
          firstMissing e.mem (e.pv TP) (i + 1) xs := by simp [firstMissing, hx]
      rw [heq] at hfetch hle ⊢
      rw [hfm]
      exact ih (i + 1) base e hfetch hle hpc
    · have heq : instrs (testWords v i (x :: xs)) =
          { Op := OP_lq, Ps := TP, Iv := (i : Int) * 8, Rx := TR } ::
          { Op := OP_andi, Rx := TR, Iv := toI64 x, Ry := TR } ::
          { Op := OP_xori, Rx := TR, Iv := toI64 x, Ry := TR } ::
          { Op := OP_addi, Rx := GenericRegister.Rz, Iv := (i : Int), Ry := UR } ::
          { Op := OP_ip, Pr := v.Vt.addr, Pd := ET } ::
          { Op := OP_bne, Rx := TR, Ry := GenericRegister.Rz, Br := some LB_missing } ::
            instrs (testWords v (i + 1) xs) := by
        simp only [testWords, ne_eq, hx, not_false_eq_true, if_true]
        rfl
      rw [heq] at hfetch hle ⊢
      simp only [List.length_cons] at hle ⊢
      have c0 := hfetch 0 _ rfl
      have c1 := hfetch 1 _ rfl
      have c2 := hfetch 2 _ rfl
      have c3 := hfetch 3 _ rfl
      have c4 := hfetch 4 _ rfl
      have c5 := hfetch 5 { Op := OP_bne, Rx := TR, Ry := GenericRegister.Rz, Br := some LB_missing }
        (by simp)
      rw [linkInstr_plain _ _ _ _ rfl rfl (by omega)] at c0 c1 c2 c3 c4
      rw [linkInstr_br _ _ _ _ _ (E + 14) rfl hT.missing rfl (by omega)] at c5
      simp at c0 c1 c2 c3 c4 c5
      by_cases hres : residue e.mem (e.pv TP) i x = 0
      · have hfm : firstMissing e.mem (e.pv TP) i (x :: xs) =
            firstMissing e.mem (e.pv TP) (i + 1) xs := by simp [firstMissing, hres]
        rw [hfm]
        obtain ⟨e0, hs0, hpc0, hm0, g1, g2, g3, g4, g5, g6, g7, g8⟩ : ∃ e0,
            steps env P.code 6 e = some e0 ∧ e0.pc = some (base + 6) ∧
            e0.mem = e.mem ∧ e0.pv TP = e.pv TP ∧ e0.pv EP = e.pv EP ∧ e0.pv RS = e.pv RS ∧
            e0.pv WP = e.pv WP ∧ e0.pv IP = e.pv IP ∧ e0.uv IC = e.uv IC ∧ e0.uv ST = e.uv ST ∧
            e0.ar = e.ar := by
          unfold residue at hres
          simp [steps, step, hpc, c0, c1, c2, c3, c4, c5, exec, advance, setG_apply, setP_apply,
            hres]
        have hih := ih (i + 1) (base + 6) e0
          (by
            intro j r hr
            have := hfetch (j + 6) r (by simpa using hr)
            rw [show base + 6 + j = base + (j + 6) by omega]
            exact this)
          (by omega) hpc0
        rw [hm0, g1] at hih
        cases hfm2 : firstMissing e.mem (e.pv TP) (i + 1) xs with
        | none =>
          rw [hfm2] at hih
          obtain ⟨e1, h1, h2, h3, k1, k2, k3, k4, k5, k6, k7, k8⟩ := hih
          refine ⟨e1, ?_, ?_, h3, k1, by rw [k2, g2], by rw [k3, g3],
            by rw [k4, g4], by rw [k5, g5], by rw [k6, g6], by rw [k7, g7], by rw [k8, g8]⟩
          · rw [show (instrs (testWords v (i + 1) xs)).length + 1 + 1 + 1 + 1 + 1 + 1 =
              6 + (instrs (testWords v (i + 1) xs)).length by omega, steps_add, hs0]
            exact h1
          · rw [h2]; congr 1; omega
        | some wr =>
          rw [hfm2] at hih
          obtain ⟨t, e1, h1, h2, h3, h4, h5, h6, k1, k2, k3, k4, k5, k6, k7, k8⟩ := hih
          refine ⟨6 + t, e1, ?_, h2, h3, h4, h5, h6, k1, by rw [k2, g2],
            by rw [k3, g3], by rw [k4, g4], by rw [k5, g5], by rw [k6, g6], by rw [k7, g7],
            by rw [k8, g8]⟩
          rw [steps_add, hs0]
          exact h1
      · have hfm : firstMissing e.mem (e.pv TP) i (x :: xs) =
            some (i, residue e.mem (e.pv TP) i x) := by simp [firstMissing, hres, hx]
        rw [hfm]
        refine ⟨6, ?_⟩
        unfold residue at hres ⊢
        simp [steps, step, hpc, c0, c1, c2, c3, c4, c5, exec, advance, setG_apply, setP_apply,
          hres, toU64_natCast]

end decoder

namespace decoder

theorem testBit_one_shiftLeft (n b : Nat) : (1 <<< n).testBit b = decide (n = b) := by
  rw [Nat.one_shiftLeft, Nat.testBit_two_pow]

/-- The bitmap built by the `Append` loop: it has `MaxBitmap` words, every table entry is a
valid bit index, and bit `b` of word `w` is set exactly when it was set before or `64 w + b`
is in the table. -/
theorem appendAll_spec (D : Defs) : ∀ (tab : List Int) (buf W : List Nat),
    buf.length = D.MaxBitmap → appendAll D buf tab = some W →
    W.length = D.MaxBitmap ∧ (∀ i ∈ tab, 0 ≤ i ∧ i < 64 * (D.MaxBitmap : Int)) ∧
    ∀ w b, (W.getD w 0).testBit b =
      ((buf.getD w 0).testBit b || decide (b < 64 ∧ ((64 * w + b : Nat) : Int) ∈ tab)) := by
  intro tab
  induction tab with
  | nil =>
    intro buf W hlen h
    simp only [appendAll, Option.some.injEq] at h
    subst h
    exact ⟨hlen, by simp, by simp⟩
  | cons i r ih =>
    intro buf W hlen h
    simp only [appendAll] at h
    by_cases hi : 0 ≤ i ∧ i < 64 * (D.MaxBitmap : Int)
    · simp only [Append, hi, and_self, if_true] at h
      obtain ⟨h1, h2, h3⟩ := ih _ W (by simpa using hlen) h
      refine ⟨h1, ?_, ?_⟩
      · intro j hj
        rcases List.mem_cons.mp hj with rfl | hj
        · exact hi
        · exact h2 j hj
      · intro w b
        rw [h3 w b]
        obtain ⟨n, rfl⟩ := Int.eq_ofNat_of_zero_le hi.1
        have hn : n / 64 < buf.length := by
          rw [hlen]
          have := hi.2
          omega
        simp only [Int.toNat_ofNat, List.mem_cons, Nat.cast_inj]
        by_cases hw : w = n / 64
        · subst hw
          rw [List.getD_eq_getElem?_getD, List.getElem?_set_self hn]
          simp only [Option.getD_some, Nat.testBit_or, testBit_one_shiftLeft]
          by_cases hb : b = n % 64
          · subst hb
            have : 64 * (n / 64) + n % 64 = n := Nat.div_add_mod n 64
            have hlt : n % 64 < 64 := Nat.mod_lt _ (by decide)
            simp [this, hlt]
          · have hne : ¬ (64 * (n / 64) + b = n) := by
              intro hh
              apply hb
              omega
            have hne2 : ¬ (n % 64 = b) := fun hh => hb hh.symm
            simp [hne, hne2]
        · have hne : ¬ (b < 64 ∧ 64 * w + b = n) := by
            intro ⟨hh1, hh2⟩
            apply hw
            omega
          rw [List.getD_eq_getElem?_getD, List.getElem?_set_ne (fun hh => hw hh.symm)]
          rw [← List.getD_eq_getElem?_getD]
          by_cases hm : b < 64 ∧ ((64 * w + b : Nat) : Int) ∈ r
          · have hm2 : b < 64 ∧ (64 * w + b = n ∨ ((64 * w + b : Nat) : Int) ∈ r) :=
              ⟨hm.1, Or.inr hm.2⟩
            rw [decide_eq_true hm2, decide_eq_true hm]
          · have hm2 : ¬ (b < 64 ∧ (64 * w + b = n ∨ ((64 * w + b : Nat) : Int) ∈ r)) := by
              intro ⟨hh1, hh2⟩
              rcases hh2 with hh2 | hh2
              · exact hne ⟨hh1, hh2⟩
              · exact hm ⟨hh1, hh2⟩
            have hm3 : ¬ (b < 64 ∧ ((64 * w + b : Nat) : Int) ∈ r) := hm
            rw [decide_eq_false hm2, decide_eq_false hm3]
    · simp [Append, hi] at h

end decoder

namespace decoder

/-- The lowering of `struct_bitmap`: the bitmap pointer the helper returns is stored in the
frame slot at `FmOffset` and kept in `TP`, and the words holding required bits are cleared. -/
theorem struct_bitmap_spec (D : Defs) (env : Env) (s : List Instr) (P : ir.Program) (k : Nat)
    (v : Instr) (h : Translate D s = some P) (hk : s[k]? = some v)
    (hop : v.Op = decoder.OpCode.OP_struct_bitmap) (W : List Nat)
    (hW : appendAll D (newFieldBitmap D k) (mkstab v.Sw v.Iv) = some W)
    (a : Nat) (ha : addrOf D s (mark k) = some a) (e : Emulator) (hpc : e.pc = some a) :
    translators D k v = some ([ GCALL D.F_newFiedBitmap [] [Register.P TP], ADDP RS ST EP,
      SP TP EP D.FmOffset ] ++ clearWords 0 W) ∧
    ∃ e1, steps env P.code (3 + (instrs (clearWords 0 W)).length) e = some e1 ∧
      e1.pc = some (a + (3 + (instrs (clearWords 0 W)).length)) ∧
      e1.mem = clearedMem
        (storeN (env.LookupCall D.F_newFiedBitmap [] e.mem).2
          (((e.pv RS + e.uv ST) % W64 + D.FmOffset) % W64) 8
          ((env.LookupCall D.F_newFiedBitmap [] e.mem).1.headD 0 % W64))
        ((env.LookupCall D.F_newFiedBitmap [] e.mem).1.headD 0 % W64) 0 W ∧
      e1.pv RS = e.pv RS ∧ e1.pv WP = e.pv WP ∧ e1.pv IP = e.pv IP ∧ e1.uv IC = e.uv IC ∧
      e1.uv ST = e.uv ST ∧ e1.ar = e.ar := by
  have hm : translators D k v = some ([ GCALL D.F_newFiedBitmap [] [Register.P TP],
      ADDP RS ST EP, SP TP EP D.FmOffset ] ++ clearWords 0 W) := by
    simp [translators, hop, translate_OP_struct_bitmap, hW]
  refine ⟨hm, ?_⟩
  obtain ⟨E, a1, pre, hT, _, _, ha1, hle, hfetch, _⟩ := lowering_code D s P h k v hk _ hm
  rw [ha] at ha1
  cases ha1
  rw [instrs_append] at hle hfetch
  have hlen : (instrs [ GCALL D.F_newFiedBitmap [] [Register.P TP], ADDP RS ST EP,
      SP TP EP D.FmOffset ]).length = 3 := rfl
  rw [List.length_append, hlen] at hle
  have c0 := hfetch 0 { Op := OP_gcall, Iv := D.F_newFiedBitmap, Ar := [], Rr := [Register.P TP] }
    (by simp [instrs])
  have c1 := hfetch 1 { Op := OP_addp, Ps := RS, Rx := ST, Pd := EP } (by simp [instrs])
  have c2 := hfetch 2 { Op := OP_sp, Ps := TP, Pd := EP, Iv := (D.FmOffset : Int) }
    (by simp [instrs])
  rw [linkInstr_plain _ _ _ _ rfl rfl (by omega)] at c0 c1 c2
  simp at c0 c1 c2
  obtain ⟨e3, hs3, hpc3, hm3, htp3, g1, g2, g3, g4, g5, g6⟩ : ∃ e3,
      steps env P.code 3 e = some e3 ∧ e3.pc = some (a + 3) ∧
      e3.mem = storeN (env.LookupCall D.F_newFiedBitmap [] e.mem).2
          (((e.pv RS + e.uv ST) % W64 + D.FmOffset) % W64) 8
          ((env.LookupCall D.F_newFiedBitmap [] e.mem).1.headD 0 % W64) ∧
      e3.pv TP = (env.LookupCall D.F_newFiedBitmap [] e.mem).1.headD 0 % W64 ∧
      e3.pv RS = e.pv RS ∧ e3.pv WP = e.pv WP ∧ e3.pv IP = e.pv IP ∧ e3.uv IC = e.uv IC ∧
      e3.uv ST = e.uv ST ∧ e3.ar = e.ar := by
    simp [steps, step, hpc, c0, c1, c2, exec, advance, setG_apply, setP_apply, ea_natCast, Call,
      writeRets, Emulator.setReg, Emulator.SetGr, Emulator.SetPr, Emulator.reg]
  obtain ⟨e1, h1, h2, h3, k0, k1, k2, k3, k4, k5, k6⟩ := clearWords_run D env s P E W 0 (a + 3) e3
    (by
      intro j r hr
      have hj : j < (instrs (clearWords 0 W)).length := (List.getElem?_eq_some.mp hr).1
      have := hfetch (3 + j) r (by
        rw [show 3 + j = (instrs [ GCALL D.F_newFiedBitmap [] [Register.P TP],
          ADDP RS ST EP, SP TP EP D.FmOffset ]).length + j from rfl, getElem?_append_add]
        exact hr)
      rw [show a + 3 + j = a + (3 + j) by omega]
      exact this)
    (by omega) hpc3
  refine ⟨e1, ?_, ?_, ?_, by rw [k1, g1], by rw [k2, g2], by rw [k3, g3], by rw [k4, g4],
    by rw [k5, g5], by rw [k6, g6]⟩
  · rw [steps_add, hs3]
    exact h1
  · rw [h2, Nat.add_assoc]
  · rw [h3, hm3, htp3]

/-- The lowering of `struct_mark_tag` for a field id `f`: it ors bit `f % 64` into word
`f / 64` of the bitmap the frame slot points to. -/
theorem mark_tag_spec (D : Defs) (env : Env) (s : List Instr) (P : ir.Program) (k : Nat)
    (v : Instr) (h : Translate D s = some P) (hk : s[k]? = some v)
    (hop : v.Op = decoder.OpCode.OP_struct_mark_tag) (f : Nat) (hf : v.Iv = (f : Int))
    (a : Nat) (ha : addrOf D s (mark k) = some a) (e : Emulator) (hpc : e.pc = some a) :
    translators D k v = some (translate_OP_struct_mark_tag D v) ∧
    ∃ e1, steps env P.code 5 e = some e1 ∧ e1.pc = some (a + 5) ∧
      e1.mem = storeN e.mem
        ((loadN e.mem (((e.pv RS + e.uv ST) % W64 + D.FmOffset) % W64) 8 + 8 * (f / 64)) % W64) 8
        (loadN e.mem
          ((loadN e.mem (((e.pv RS + e.uv ST) % W64 + D.FmOffset) % W64) 8 + 8 * (f / 64)) % W64)
            8 ||| 1 <<< (f % 64)) ∧
      e1.pv RS = e.pv RS ∧ e1.pv WP = e.pv WP ∧ e1.pv IP = e.pv IP ∧ e1.uv IC = e.uv IC ∧
      e1.uv ST = e.uv ST ∧ e1.ar = e.ar := by
  have hm : translators D k v = some (translate_OP_struct_mark_tag D v) := by
    simp [translators, hop]
  refine ⟨hm, ?_⟩
  obtain ⟨E, a1, pre, hT, _, _, ha1, hle, hfetch, _⟩ := lowering_code D s P h k v hk _ hm
  rw [ha] at ha1
  cases ha1
  have hlen : (instrs (translate_OP_struct_mark_tag D v)).length = 5 := rfl
  rw [hlen] at hle
  have c0 := hfetch 0 _ rfl
  have c1 := hfetch 1 _ rfl
  have c2 := hfetch 2 _ rfl
  have c3 := hfetch 3 _ rfl
  have c4 := hfetch 4 _ rfl
  rw [linkInstr_plain _ _ _ _ rfl rfl (by omega)] at c0 c1 c2 c3 c4
  have hdiv : Int.tdiv (f : Int) 64 * 8 = ((f / 64 : Nat) : Int) * 8 := by
    rw [Int.tdiv_eq_ediv (by omega) (by omega)]
    norm_cast
  have hmod : Int.tmod (f : Int) 64 = ((f % 64 : Nat) : Int) := by
    rw [Int.tmod_eq_emod (by omega) (by omega)]
    norm_cast
  simp [instrs, translate_OP_struct_mark_tag, hf, hdiv, hmod] at c0 c1 c2 c3 c4
  have hsh : 1 <<< (f % 64) % W64 = 1 <<< (f % 64) := by
    apply Nat.mod_eq_of_lt
    rw [Nat.one_shiftLeft]
    exact Nat.pow_lt_pow_right (by decide) (Nat.mod_lt _ (by decide))
  have hnn : (0 : Int) ≤ (f : Int) % 64 := by omega
  have htn : ((f : Int) % 64).toNat = f % 64 := by omega
  have hea : ∀ b, ea b ((f : Int) / 64 * 8) = (b + 8 * (f / 64)) % W64 := by
    intro b
    rw [← ea_word]
    congr 1
  simp [steps, step, hpc, c0, c1, c2, c3, c4, exec, advance, setG_apply, setP_apply, ea_natCast,
    hea, hnn, htn, sext_64, hsh, Nat.mod_eq_of_lt (loadN_8_lt _ _)]

/-- The lowering of `struct_require`: it loads the bitmap pointer from the frame slot and
tests the required words in order. If no residue is non-zero it clears the slot, releases the
bitmap and falls through; otherwise it branches to `_missing` at the first offending word. -/
theorem struct_require_spec (D : Defs) (env : Env) (s : List Instr) (P : ir.Program) (k : Nat)
    (v : Instr) (h : Translate D s = some P) (hk : s[k]? = some v)
    (hop : v.Op = decoder.OpCode.OP_struct_require) (W : List Nat)
    (hW : appendAll D (newFieldBitmap D k) (mkstab v.Sw v.Iv) = some W)
    (a : Nat) (ha : addrOf D s (mark k) = some a) (e : Emulator) (hpc : e.pc = some a) :
    (firstMissing e.mem (loadN e.mem (((e.pv RS + e.uv ST) % W64 + D.FmOffset) % W64) 8) 0 W
        = none →
      ∃ e1, steps env P.code (2 + (instrs (testWords v 0 W)).length + 2) e = some e1 ∧
        e1.pc = some (a + (2 + (instrs (testWords v 0 W)).length + 2)) ∧
        e1.mem = (env.LookupCall D.F_FieldBitmap_Free
          [loadN e.mem (((e.pv RS + e.uv ST) % W64 + D.FmOffset) % W64) 8]
          (storeN e.mem (((e.pv RS + e.uv ST) % W64 + D.FmOffset) % W64) 8 0)).2 ∧
        e1.pv RS = e.pv RS ∧ e1.pv WP = e.pv WP ∧ e1.pv IP = e.pv IP ∧ e1.uv IC = e.uv IC ∧
        e1.uv ST = e.uv ST ∧ e1.ar = e.ar) ∧
    (∀ w r,
      firstMissing e.mem (loadN e.mem (((e.pv RS + e.uv ST) % W64 + D.FmOffset) % W64) 8) 0 W
        = some (w, r) →
      ∃ t e1, steps env P.code t e = some e1 ∧ e1.pc = addrOf D s LB_missing ∧
        e1.uv UR = w % W64 ∧ e1.uv TR = r ∧ e1.pv ET = v.Vt.addr ∧ e1.mem = e.mem ∧
        e1.pv RS = e.pv RS ∧ e1.pv WP = e.pv WP ∧ e1.pv IP = e.pv IP ∧ e1.uv IC = e.uv IC ∧
        e1.uv ST = e.uv ST ∧ e1.ar = e.ar) := by
  have hm : translators D k v = some ([ ADDP RS ST EP, LP EP D.FmOffset TP ] ++
      testWords v 0 W ++ [ SP Pn EP D.FmOffset, GCALL D.F_FieldBitmap_Free [Register.P TP] [] ]) := by
    simp [translators, hop, translate_OP_struct_require, hW]
  obtain ⟨E, a1, pre, hT, _, _, ha1, hle, hfetch, _⟩ := lowering_code D s P h k v hk _ hm
  rw [ha] at ha1
  cases ha1
  rw [instrs_append, instrs_append] at hle hfetch
  have hlen : (instrs [ ADDP RS ST EP, LP EP D.FmOffset TP ]).length = 2 := rfl
  have hlen2 : (instrs [ SP Pn EP D.FmOffset,
      GCALL D.F_FieldBitmap_Free [Register.P TP] [] ]).length = 2 := rfl
  rw [List.length_append, List.length_append, hlen, hlen2] at hle
  have c0 := hfetch 0 { Op := OP_addp, Ps := RS, Rx := ST, Pd := EP } (by simp [instrs])
  have c1 := hfetch 1 { Op := OP_lp, Ps := EP, Iv := (D.FmOffset : Int), Pd := TP }
    (by simp [instrs])
  rw [linkInstr_plain _ _ _ _ rfl rfl (by omega)] at c0 c1
  simp at c0 c1
  obtain ⟨e2, hs2, hpc2, hm2, htp2, hep2, g1, g2, g3, g4, g5, g6⟩ : ∃ e2,
      steps env P.code 2 e = some e2 ∧ e2.pc = some (a + 2) ∧ e2.mem = e.mem ∧
      e2.pv TP = loadN e.mem (((e.pv RS + e.uv ST) % W64 + D.FmOffset) % W64) 8 ∧
      e2.pv EP = (e.pv RS + e.uv ST) % W64 ∧
      e2.pv RS = e.pv RS ∧ e2.pv WP = e.pv WP ∧ e2.pv IP = e.pv IP ∧ e2.uv IC = e.uv IC ∧
      e2.uv ST = e.uv ST ∧ e2.ar = e.ar := by
    simp [steps, step, hpc, c0, c1, exec, advance, setG_apply, setP_apply, ea_natCast]
  have htw := testWords_run D env s P E hT v W 0 (a + 2) e2
    (by
      intro j r hr
      have := hfetch (2 + j) r (by
        rw [show 2 + j = (instrs [ ADDP RS ST EP, LP EP D.FmOffset TP ]).length + j from rfl]
        exact getElem?_drop_fetch _ _ _ j r hr)
      rw [show a + 2 + j = a + (2 + j) by omega]
      exact this)
    (by omega) hpc2
  rw [hm2, htp2] at htw
  constructor
  · intro hnone
    rw [hnone] at htw
    obtain ⟨e3, h1, h2, h3, k1, k2, k3, k4, k5, k6, k7, k8⟩ := htw
    have hf2 : ∀ (j : Nat) (r : ir.Instr Label),
        (instrs [ SP Pn EP D.FmOffset, GCALL D.F_FieldBitmap_Free [Register.P TP] [] ])[j]?
          = some r →
        P.code[a + (2 + (instrs (testWords v 0 W)).length) + j]? =
          linkInstr (addrOf D s) (E + 20) (a + (2 + (instrs (testWords v 0 W)).length) + j) r := by
      intro j r hr
      have := hfetch (2 + (instrs (testWords v 0 W)).length + j) r (by
        rw [show 2 + (instrs (testWords v 0 W)).length + j =
          (instrs [ ADDP RS ST EP, LP EP D.FmOffset TP ] ++ instrs (testWords v 0 W)).length + j by
            rw [List.length_append, hlen], getElem?_append_add]
        exact hr)
      rw [show a + (2 + (instrs (testWords v 0 W)).length) + j =
        a + (2 + (instrs (testWords v 0 W)).length + j) by omega]
      exact this
    have d0 := hf2 0 { Op := OP_sp, Ps := Pn, Pd := EP, Iv := (D.FmOffset : Int) } rfl
    have d1 := hf2 1
      { Op := OP_gcall, Iv := D.F_FieldBitmap_Free, Ar := [Register.P TP], Rr := [] } rfl
    rw [linkInstr_plain _ _ _ _ rfl rfl (by omega)] at d0 d1
    simp at d0 d1
    have hpc3 : e3.pc = some (a + (2 + (instrs (testWords v 0 W)).length)) := by
      rw [h2, Nat.add_assoc]
    obtain ⟨e4, hs4, hpc4, hm4, q1, q2, q3, q4, q5, q6⟩ : ∃ e4,
        steps env P.code 2 e3 = some e4 ∧
        e4.pc = some (a + (2 + (instrs (testWords v 0 W)).length) + 1 + 1) ∧
        e4.mem = (env.LookupCall D.F_FieldBitmap_Free [e3.pv TP]
          (storeN e3.mem ((e3.pv EP + D.FmOffset) % W64) 8 0)).2 ∧
        e4.pv RS = e3.pv RS ∧ e4.pv WP = e3.pv WP ∧ e4.pv IP = e3.pv IP ∧ e4.uv IC = e3.uv IC ∧
        e4.uv ST = e3.uv ST ∧ e4.ar = e3.ar := by
      simp [steps, step, hpc3, d0, d1, exec, advance, setG_apply, setP_apply, ea_natCast, Call,
        writeRets, Emulator.setReg, Emulator.SetGr, Emulator.SetPr, Emulator.reg, Emulator.Pr]
    refine ⟨e4, ?_, by rw [hpc4]; congr 1, ?_, by rw [q1, k3, g1], by rw [q2, k4, g2], by rw [q3, k5, g3],
      by rw [q4, k6, g4], by rw [q5, k7, g5], by rw [q6, k8, g6]⟩
    · rw [steps_add, steps_add, hs2]
      simp only [Option.bind_eq_bind, Option.some_bind]
      rw [h1]
      exact hs4
    · rw [hm4, k1, k2, h3, hep2]
  · intro w r hsome
    rw [hsome] at htw
    obtain ⟨t, e3, h1, h2, h3, h4, h5, h6, k1, k2, k3, k4, k5, k6, k7, k8⟩ := htw
    refine ⟨2 + t, e3, ?_, by rw [h2, hT.missing], h3, h4, h5, h6, by rw [k3, g1],
      by rw [k4, g2], by rw [k5, g3], by rw [k6, g4], by rw [k7, g5], by rw [k8, g6]⟩
    rw [steps_add, hs2]
    exact h1

end decoder

namespace decoder

theorem clearedMem_outside (tp : Nat) : ∀ (ws : List Nat) (i : Nat) (m : Mem) (x : Nat),
    (x < tp + 8 * i ∨ tp + 8 * (i + ws.length) ≤ x) → tp + 8 * (i + ws.length) ≤ W64 →
    clearedMem m tp i ws x = m x := by
  intro ws
  induction ws with
  | nil => intro i m x _ _; rfl
  | cons w ws ih =>
    intro i m x hx hfit
    simp only [List.length_cons] at hx hfit
    simp only [clearedMem]
    rw [ih (i + 1) _ x (by omega) (by omega)]
    split
    · rw [ea_word, Nat.mod_eq_of_lt (by omega)]
      apply storeN_outside
      omega
    · rfl

theorem clearedMem_word (tp : Nat) : ∀ (ws : List Nat) (i : Nat) (m : Mem) (j : Nat),
    j < ws.length → ws.getD j 0 ≠ 0 → tp + 8 * (i + ws.length) ≤ W64 →
    loadN (clearedMem m tp i ws) (tp + 8 * (i + j)) 8 = 0 := by
  intro ws
  induction ws with
  | nil => intro i m j hj; simp at hj
  | cons w ws ih =>
    intro i m j hj hne hfit
    simp only [List.length_cons] at hj hfit
    cases j with
    | zero =>
      have hw : w ≠ 0 := by simpa using hne
      simp only [clearedMem, hw, ne_eq, not_false_eq_true, if_true, Nat.add_zero]
      rw [ea_word, Nat.mod_eq_of_lt (by omega)]
      rw [loadN_congr _ (storeN m (tp + 8 * i) 8 0) 8 (tp + 8 * i)
        (fun x h1 h2 => clearedMem_outside tp ws (i + 1) _ x (by omega) (by omega))]
      rw [loadN_storeN_same]
      rfl
    | succ j =>
      simp only [clearedMem]
      have := ih (i + 1) (if w ≠ 0 then storeN m (ea tp ((i : Int) * 8)) 8 0 else m) j
        (by omega) (by simpa using hne) (by omega)
      rw [show tp + 8 * (i + (j + 1)) = tp + 8 * (i + 1 + j) by omega]
      exact this

theorem firstMissing_none (m : Mem) (tp : Nat) : ∀ (ws : List Nat) (i : Nat),
    (∀ j, j < ws.length → ws.getD j 0 ≠ 0 → residue m tp (i + j) (ws.getD j 0) = 0) →
    firstMissing m tp i ws = none := by
  intro ws
  induction ws with
  | nil => intro i _; rfl
  | cons w ws ih =>
    intro i hall
    have h0 := hall 0 (by simp)
    simp only [List.getD_cons_zero, Nat.add_zero] at h0
    have hno : ¬ (w ≠ 0 ∧ residue m tp i w ≠ 0) := fun ⟨h1, h2⟩ => h2 (h0 h1)
    simp only [firstMissing, hno, if_false]
    apply ih
    intro j hj hne
    have := hall (j + 1) (by simpa using hj) (by simpa using hne)
    simp only [List.getD_cons_succ] at this
    rw [show i + 1 + j = i + (j + 1) by omega]
    exact this

theorem firstMissing_some (m : Mem) (tp : Nat) : ∀ (ws : List Nat) (i w r : Nat),
    firstMissing m tp i ws = some (w, r) →
    i ≤ w ∧ w < i + ws.length ∧ ws.getD (w - i) 0 ≠ 0 ∧ r = residue m tp w (ws.getD (w - i) 0) ∧
    r ≠ 0 ∧ ∀ j, i ≤ j → j < w → ws.getD (j - i) 0 = 0 ∨ residue m tp j (ws.getD (j - i) 0) = 0 := by
  intro ws
  induction ws with
  | nil => intro i w r h; simp [firstMissing] at h
  | cons x xs ih =>
    intro i w r h
    simp only [firstMissing] at h
    by_cases hx : x ≠ 0 ∧ residue m tp i x ≠ 0
    · rw [if_pos hx] at h
      simp only [Option.some.injEq, Prod.mk.injEq] at h
      obtain ⟨rfl, rfl⟩ := h
      refine ⟨le_refl _, by simp, by simpa using hx.1, by simp, by simpa using hx.2, ?_⟩
      intro j h1 h2
      omega
    · rw [if_neg hx] at h
      obtain ⟨h1, h2, h3, h4, h5, h6⟩ := ih (i + 1) w r h
      have hwi : w - i = (w - (i + 1)) + 1 := by omega
      refine ⟨by omega, by simp only [List.length_cons]; omega, ?_, ?_, h5, ?_⟩
      · rw [hwi, List.getD_cons_succ]
        exact h3
      · rw [hwi, List.getD_cons_succ]
        exact h4
      · intro j hj1 hj2
        by_cases hji : j = i
        · subst hji
          simp only [Nat.sub_self, List.getD_cons_zero]
          by_cases hx0 : x = 0
          · exact Or.inl hx0
          · right
            by_contra hres
            exact hx ⟨hx0, hres⟩
        · have hjs : j - i = (j - (i + 1)) + 1 := by omega
          rw [hjs, List.getD_cons_succ]
          exact h6 j (by omega) hj2

end decoder

namespace decoder

theorem firstMissing_none_elim (m : Mem) (tp : Nat) : ∀ (ws : List Nat) (i : Nat),
    firstMissing m tp i ws = none →
    ∀ j, j < ws.length → ws.getD j 0 ≠ 0 → residue m tp (i + j) (ws.getD j 0) = 0 := by
  intro ws
  induction ws with
  | nil => intro i _ j hj; simp at hj
  | cons x xs ih =>
    intro i h j hj hne
    simp only [firstMissing] at h
    by_cases hx : x ≠ 0 ∧ residue m tp i x ≠ 0
    · rw [if_pos hx] at h
      cases h
    · rw [if_neg hx] at h
      cases j with
      | zero =>
        simp only [List.getD_cons_zero, Nat.add_zero] at hne ⊢
        by_contra hres
        exact hx ⟨hne, hres⟩
      | succ j =>
        simp only [List.getD_cons_succ] at hne ⊢
        have := ih (i + 1) h j (by simpa using hj) hne
        rw [show i + (j + 1) = i + 1 + j by omega]
        exact this

end decoder

namespace decoder

/-- A plan with an instruction the translator rejects is not translated. -/
theorem Translate_rejects (D : Defs) (s : List Instr) (k : Nat) (v : Instr)
    (hk : s[k]? = some v) (hv : translators D k v = none) : Translate D s = none := by
  cases h : Translate D s with
  | none => rfl
  | some P =>
    obtain ⟨body, hb, _, _⟩ := Translate_items D s P h
    obtain ⟨_, mid, _, _, hmid, _⟩ := program_split D s 0 k v body hb hk
    rw [Nat.zero_add, hv] at hmid
    cases hmid

/-- C11. `translate_OP_int` is rejected exactly when `Iv` is not one of 1, 2, 4, 8: for such an
`Iv` the translator yields nothing and no plan holding the instruction is translated; for each
`Iv` of the set it emits address, load, byte swap (none for a single byte), store and cursor
advance, and the plan `[int(Iv), halt]` is translated. -/
theorem int_width_rejected (D : Defs) :
    (∀ (k : Nat) (v : Instr), v.Op = decoder.OpCode.OP_int →
      (translators D k v = none ↔ ¬ (v.Iv = 1 ∨ v.Iv = 2 ∨ v.Iv = 4 ∨ v.Iv = 8))) ∧
    (∀ (s : List Instr) (k : Nat) (v : Instr), s[k]? = some v →
      v.Op = decoder.OpCode.OP_int → ¬ (v.Iv = 1 ∨ v.Iv = 2 ∨ v.Iv = 4 ∨ v.Iv = 8) →
      Translate D s = none) ∧
    (∀ (k : Nat) (v : Instr), v.Op = decoder.OpCode.OP_int →
      (v.Iv = 1 → translators D k v =
        some [ADDP IP IC EP, LB EP 0 TR, SB TR WP 0, ADDI IC 1 IC]) ∧
      (v.Iv = 2 → translators D k v =
        some [ADDP IP IC EP, LW EP 0 TR, SWAPW TR TR, SW TR WP 0, ADDI IC 2 IC]) ∧
      (v.Iv = 4 → translators D k v =
        some [ADDP IP IC EP, LL EP 0 TR, SWAPL TR TR, SL TR WP 0, ADDI IC 4 IC]) ∧
      (v.Iv = 8 → translators D k v =
        some [ADDP IP IC EP, LQ EP 0 TR, SWAPQ TR TR, SQ TR WP 0, ADDI IC 8 IC])) ∧
    (∀ n : Int, n = 1 ∨ n = 2 ∨ n = 4 ∨ n = 8 →
      ∃ P, Translate D [{ Op := decoder.OpCode.OP_int, Iv := n },
        { Op := decoder.OpCode.OP_halt }] = some P) := by
  have hiff : ∀ (k : Nat) (v : Instr), v.Op = decoder.OpCode.OP_int →
      (translators D k v = none ↔ ¬ (v.Iv = 1 ∨ v.Iv = 2 ∨ v.Iv = 4 ∨ v.Iv = 8)) := by
    intro k v hop
    simp only [translators, hop, translate_OP_int]
    by_cases h1 : v.Iv = 1
    · simp [h1]
    · by_cases h2 : v.Iv = 2
      · simp [h2]
      · by_cases h4 : v.Iv = 4
        · simp [h4]
        · by_cases h8 : v.Iv = 8
          · simp [h8]
          · simp [h1, h2, h4, h8]
  refine ⟨hiff, ?_, ?_, ?_⟩
  · intro s k v hk hop hbad
    exact Translate_rejects D s k v hk ((hiff k v hop).mpr hbad)
  · intro k v hop
    refine ⟨?_, ?_, ?_, ?_⟩ <;> intro hiv <;> simp [translators, hop, translate_OP_int, hiv]
  · intro n hn
    apply isSome_elim
    rcases hn with rfl | rfl | rfl | rfl <;> rfl

/-- Witness of `int_width_rejected`: `[int(3), halt]` is not translated, `[int(4), halt]` is. -/
theorem int_width_rejected_witness :
    Translate sampleDefs [{ Op := decoder.OpCode.OP_int, Iv := 3 },
      { Op := decoder.OpCode.OP_halt }] = none ∧
    ∃ P, Translate sampleDefs [{ Op := decoder.OpCode.OP_int, Iv := 4 },
      { Op := decoder.OpCode.OP_halt }] = some P :=
  ⟨(int_width_rejected sampleDefs).2.1 _ 0 { Op := decoder.OpCode.OP_int, Iv := 3 } rfl rfl
      (by decide),
    (int_width_rejected sampleDefs).2.2.2 4 (by decide)⟩

end decoder

namespace emu

/-- Only the `default` case of the switch returns from `Run`, and it leaves the state as the
loop head made it. -/
theorem exec_ret (env : Env) (p : Ir) (e e1 : Emulator) (h : exec env p e = Step.ret e1) :
    (∃ c, p.Op = OP_illegal c) ∧ e1 = e := by
  cases hop : p.Op <;> simp only [exec, hop] at h
  all_goals first
    | exact ⟨⟨_, rfl⟩, (Step.ret.inj h).symm⟩
    | exact absurd h (trap_ne_ret _ _ _)
    | cases h
    | (split at h <;> cases h)
    | (split at h
       · split at h <;> cases h
       · cases h)

/-- The method `Run` never reaches its `panic`: the loop is left with `pc = nil` or through the
`return` of the `default` case. -/
theorem Run_never_panics (env : Env) (prog : List Ir) :
    ∀ (fuel : Nat) (e x : Emulator), Run env prog fuel e ≠ some (Exit.panicked x) := by
  intro fuel
  induction fuel with
  | zero =>
    intro e x h
    simp only [Run] at h
    split at h
    · rename_i hpc
      simp [finish, hpc] at h
    · cases h
  | succ n ih =>
    intro e x h
    simp only [Run] at h
    split at h
    · rename_i hpc
      simp [finish, hpc] at h
    · split at h
      · exact ih _ _ h
      · cases h
      · cases h

/-- C12 (the code departs from the claim). `Run` never raises the illegal-opcode error: no run
of any program ends in the `panic`, and when an instruction with an unrecognised opcode is
dispatched, after any number of steps and whatever its `Ln`, `Run` returns normally, in the
state the loop head left. -/
theorem illegal_opcode_returns (env : Env) (prog : List Ir) :
    (∀ (fuel : Nat) (e x : Emulator), Run env prog fuel e ≠ some (Exit.panicked x)) ∧
    (∀ (n fuel : Nat) (e0 e : Emulator) (i : Nat) (p : Ir) (c : Nat),
      steps env prog n e0 = some e → e.pc = some i → prog[i]? = some p → p.Op = OP_illegal c →
      Run env prog (n + (fuel + 1)) e0 = some (Exit.returned (advance p e))) := by
  refine ⟨Run_never_panics env prog, ?_⟩
  intro n fuel e0 e i p c hs hpc hp hop
  rw [Run_steps env prog n (fuel + 1) e0 e hs]
  simp [Run, hpc, step, hp, exec, hop]

/-- Witness of `illegal_opcode_returns`: the one-instruction program whose instruction has the
unrecognised opcode `0xff` and `Ln = nil` returns normally. -/
theorem illegal_opcode_returns_witness :
    ∃ e1, Run sampleEnv [{ Op := OP_illegal 255 }] 1 { pc := some 0 } = some (Exit.returned e1) ∧
      e1.pc = none :=
  ⟨_, (illegal_opcode_returns sampleEnv [{ Op := OP_illegal 255 }]).2 0 0 { pc := some 0 }
    { pc := some 0 } 0 { Op := OP_illegal 255 } 255 rfl rfl rfl rfl, rfl⟩

/-- A normal return of `Run` is either the end of the loop, with `pc = nil`, or the `return`
of the `default` case, with `pc` the `Ln` of the unrecognised instruction. -/
theorem Run_returned (env : Env) (prog : List Ir) :
    ∀ (fuel : Nat) (e e1 : Emulator), Run env prog fuel e = some (Exit.returned e1) →
      e1.pc = none ∨ ∃ (i : Nat) (p : Ir) (c : Nat), prog[i]? = some p ∧ p.Op = OP_illegal c ∧ e1.pc = p.Ln := by
  intro fuel
  induction fuel with
  | zero =>
    intro e e1 h
    simp only [Run] at h
    split at h
    · rename_i hpc
      simp only [finish, hpc, ne_eq, not_true_eq_false, if_false, Option.some.injEq,
        Exit.returned.injEq] at h
      subst h
      exact Or.inl hpc
    · cases h
  | succ n ih =>
    intro e e1 h
    cases hpc : e.pc with
    | none =>
      simp only [Run, hpc, finish, ne_eq, not_true_eq_false, if_false, Option.some.injEq,
        Exit.returned.injEq] at h
      subst h
      exact Or.inl hpc
    | some i =>
      simp only [Run, hpc] at h
      cases hstep : step env prog e i with
      | cont e2 =>
        rw [hstep] at h
        exact ih _ _ h
      | ret e2 =>
        rw [hstep] at h
        simp only [Option.some.injEq, Exit.returned.injEq] at h
        subst h
        right
        simp only [step] at hstep
        cases hp : prog[i]? with
        | none =>
          rw [hp] at hstep
          cases hstep
        | some p =>
          rw [hp] at hstep
          obtain ⟨⟨c, hc⟩, he⟩ := exec_ret env p _ _ hstep
          exact ⟨i, p, c, hp, hc, by rw [he]; rfl⟩
      | fault =>
        rw [hstep] at h
        cases h

/-- C13 (the code departs from the claim). When `Run` returns normally, `pc` is nil or it is
the `Ln` of an instruction with an unrecognised opcode, the one the `default` case returned
at; and a dispatched unrecognised instruction does make `Run` return with `pc` equal to its
`Ln`, which need not be nil. -/
theorem returned_pc (env : Env) (prog : List Ir) :
    (∀ (fuel : Nat) (e e1 : Emulator), Run env prog fuel e = some (Exit.returned e1) →
      e1.pc = none ∨ ∃ (i : Nat) (p : Ir) (c : Nat), prog[i]? = some p ∧ p.Op = OP_illegal c ∧ e1.pc = p.Ln) ∧
    (∀ (fuel : Nat) (e : Emulator) (i : Nat) (p : Ir) (c : Nat),
      e.pc = some i → prog[i]? = some p → p.Op = OP_illegal c →
      ∃ e1, Run env prog (fuel + 1) e = some (Exit.returned e1) ∧ e1.pc = p.Ln) := by
  refine ⟨Run_returned env prog, ?_⟩
  intro fuel e i p c hpc hp hop
  exact ⟨advance p e, by simp [Run, hpc, step, hp, exec, hop], rfl⟩

/-- Witness of `returned_pc`: on the program `[0xff, halt]` the run returns normally with
`pc` at the second instruction. -/
theorem returned_pc_witness :
    ∃ e1, Run sampleEnv [{ Op := OP_illegal 255, Ln := some 1 }, { Op := OP_halt }] 1
        { pc := some 0 } = some (Exit.returned e1) ∧ e1.pc = some 1 ∧ e1.pc ≠ none :=
  match (returned_pc sampleEnv [{ Op := OP_illegal 255, Ln := some 1 }, { Op := OP_halt }]).2 0
      { pc := some 0 } 0 { Op := OP_illegal 255, Ln := some 1 } 255 rfl rfl rfl with
  | ⟨e1, h1, h2⟩ => ⟨e1, h1, h2, by rw [h2]; exact fun h => Option.noConfusion h⟩

end emu

namespace emu

/-- C17, as amended. A `bsw` whose tag, as read at dispatch (0 when the tag register is `Rz`),
is not below `uint64(Iv)` only does what the loop head does on every iteration: `pc` moves to
`Ln`, `Rz` and `Pn` are cleared, every other register, every slot and the memory are
unchanged; and the outcome is the same whatever the switch table holds. -/
theorem bsw_falls_through (env : Env) (prog : List Ir) (e : Emulator) (i : Nat) (p : Ir)
    (hp : prog[i]? = some p) (hop : p.Op = OP_bsw)
    (htag : toU64 p.Iv ≤ (if p.Rx = Rz then 0 else e.uv p.Rx)) :
    ∃ e1, step env prog e i = Step.cont e1 ∧ e1.pc = p.Ln ∧
      (∀ r, r ≠ Rz → e1.uv r = e.uv r) ∧ e1.uv Rz = 0 ∧
      (∀ r, r ≠ Pn → e1.pv r = e.pv r) ∧ e1.pv Pn = 0 ∧
      e1.ar = e.ar ∧ e1.rv = e.rv ∧ e1.mem = e.mem ∧
      ∀ tab, exec env { p with Sw := tab } (advance p e) = Step.cont e1 := by
  have hlt : ¬ (advance p e).uv p.Rx < toU64 p.Iv := by
    simp only [advance, setG_apply]
    omega
  refine ⟨advance p e, ?_, rfl, ?_, rfl, ?_, rfl, rfl, rfl, rfl, ?_⟩
  · simp only [step, hp, exec, hop]
    rw [if_neg hlt]
  · intro r hr
    simp [advance, setG_apply, hr]
  · intro r hr
    simp [advance, setP_apply, hr]
  · intro tab
    simp only [exec, hop]
    rw [if_neg hlt]

/-- Witness of `bsw_falls_through`: a `bsw` with `Iv = 0` and a one-entry table, in a state
whose registers all hold 7, falls through to `Ln` and keeps `R0`. -/
theorem bsw_falls_through_witness :
    ∃ e1, step sampleEnv [{ Op := OP_bsw, Rx := R0, Iv := 0, Sw := [some 0], Ln := some 1 }]
        { pc := some 0, uv := fun _ => 7, pv := fun _ => 7 } 0 = Step.cont e1 ∧
      e1.pc = some 1 ∧ e1.uv R0 = 7 ∧ e1.uv Rz = 0 :=
  match bsw_falls_through sampleEnv
      [{ Op := OP_bsw, Rx := R0, Iv := 0, Sw := [some 0], Ln := some 1 }]
      { pc := some 0, uv := fun _ => 7, pv := fun _ => 7 } 0 _ rfl rfl (by decide) with
  | ⟨e1, h1, h2, h3, h4, _⟩ => ⟨e1, h1, h2, h3 R0 (by decide), h4⟩

/-- Counterexample to C17 as stated. On the program `addi Rz, 7 -> Rz; bsw R0, Iv = 0` run from
a cleared state, `Rz` holds 7 when the `bsw` is reached and 0 after its step: the step changes
a generic register. And a `bsw` with `Iv = -1`, whose tag 0 is not below `Iv`, reads its table
and jumps to the entry, not to `Ln`. -/
theorem bsw_changes_state :
    ((steps sampleEnv
        [{ Op := OP_addi, Rx := Rz, Iv := 7, Ry := Rz, Ln := some 1 },
          { Op := OP_bsw, Rx := R0, Iv := 0, Ln := some 2 }, { Op := OP_halt }]
        1 { pc := some 0 }).map (fun e => (e.pc, e.uv Rz)) = some (some 1, 7) ∧
      (steps sampleEnv
        [{ Op := OP_addi, Rx := Rz, Iv := 7, Ry := Rz, Ln := some 1 },
          { Op := OP_bsw, Rx := R0, Iv := 0, Ln := some 2 }, { Op := OP_halt }]
        2 { pc := some 0 }).map (fun e => (e.pc, e.uv Rz)) = some (some 2, 0)) ∧
    (∃ e1, step sampleEnv [{ Op := OP_bsw, Rx := R0, Iv := -1, Sw := [some 3], Ln := some 1 }]
        { pc := some 0 } 0 = Step.cont e1 ∧
      e1.pc = some 3 ∧ (-1 : Int) ≤ ((({ pc := some 0 } : Emulator).uv R0 : Nat) : Int)) := by
  refine ⟨⟨by rfl, by rfl⟩, ⟨_, rfl, rfl, by decide⟩⟩

/-- C18, as amended. One step at a `jal` ends with `pc = Br` and with the link register `Pd`
holding the address of the instruction after the `jal`, its `Ln` (null when there is none):
the loop head has advanced `pc` before the link is taken. This holds for every link register;
a link left in `Pn` is cleared by the next loop head. -/
theorem jal_links_successor (env : Env) (prog : List Ir) (e : Emulator) (i : Nat) (p : Ir)
    (hp : prog[i]? = some p) (hop : p.Op = OP_jal) :
    ∃ e1, step env prog e i = Step.cont e1 ∧ e1.pc = p.Br ∧ e1.pv p.Pd = pcAddr env p.Ln ∧
      (∀ r, r ≠ p.Pd → r ≠ Pn → e1.pv r = e.pv r) ∧ e1.uv = setG e.uv Rz 0 ∧
      e1.mem = e.mem := by
  refine ⟨{ advance p e with pv := setP (advance p e).pv p.Pd (pcAddr env p.Ln), pc := p.Br },
    ?_, rfl, ?_, ?_, rfl, rfl⟩
  · simp only [step, hp, exec, hop]
    rfl
  · simp [setP_apply]
  · intro r h1 h2
    simp [advance, setP_apply, h1, h2]

/-- Witness of `jal_links_successor`: the `jal` at index 0 with `Ln` at index 1 links the
address of instruction 1. -/
theorem jal_links_successor_witness :
    ∃ e1, step sampleEnv [{ Op := OP_jal, Br := some 2, Pd := P0, Ln := some 1 }, { Op := OP_nop },
        { Op := OP_halt }] { pc := some 0 } 0 = Step.cont e1 ∧
      e1.pc = some 2 ∧ e1.pv P0 = sampleEnv.irAddr 1 :=
  match jal_links_successor sampleEnv [{ Op := OP_jal, Br := some 2, Pd := P0, Ln := some 1 },
      { Op := OP_nop }, { Op := OP_halt }] { pc := some 0 } 0 _ rfl rfl with
  | ⟨e1, h1, h2, h3, _⟩ => ⟨e1, h1, h2, h3⟩

/-- Counterexample to C18 as stated: the `jal` at index 0, whose record is at address 65536,
leaves in its link register 65600, the address of the instruction at index 1. -/
theorem jal_link_is_not_self :
    ∃ e1, step sampleEnv [{ Op := OP_jal, Br := some 2, Pd := P0, Ln := some 1 }, { Op := OP_nop },
        { Op := OP_halt }] { pc := some 0 } 0 = Step.cont e1 ∧
      e1.pc = some 2 ∧ e1.pv P0 = 65600 ∧ sampleEnv.irAddr 0 = 65536 ∧
      e1.pv P0 ≠ sampleEnv.irAddr 0 := by
  refine ⟨_, rfl, rfl, rfl, rfl, by decide⟩

/-- C19. Whatever the pool hands out, nothing or an instance in any state, `LoadProgram`
returns an emulator with `pc = p.Head`, all registers zero or null and all argument and return
slots cleared: `Gr`, `Pr`, `Ru` and `Rp` read zero everywhere. -/
theorem LoadProgram_resets (v : Option Emulator) (p : Program) (m : Mem) :
    (LoadProgram v p m).pc = p.Head ∧
    (∀ r, (LoadProgram v p m).Gr r = 0) ∧ (∀ r, (LoadProgram v p m).Pr r = 0) ∧
    (∀ i, (LoadProgram v p m).Ru i = 0 ∧ (LoadProgram v p m).Rp i = 0) ∧
    (∀ i, (LoadProgram v p m).ar i = { U := 0, P := 0 }) ∧
    (∀ (pool : Pool) (self : Emulator),
      (LoadProgram ((self.Free pool).Get).1 p m).pc = p.Head ∧
      (∀ r, (LoadProgram ((self.Free pool).Get).1 p m).Gr r = 0) ∧
      (∀ r, (LoadProgram ((self.Free pool).Get).1 p m).Pr r = 0) ∧
      (∀ i, (LoadProgram ((self.Free pool).Get).1 p m).Ru i = 0 ∧
        (LoadProgram ((self.Free pool).Get).1 p m).Rp i = 0)) := by
  have h : ∀ w : Option Emulator, (LoadProgram w p m).pc = p.Head ∧
      (∀ r, (LoadProgram w p m).Gr r = 0) ∧ (∀ r, (LoadProgram w p m).Pr r = 0) ∧
      (∀ i, (LoadProgram w p m).Ru i = 0 ∧ (LoadProgram w p m).Rp i = 0) ∧
      (∀ i, (LoadProgram w p m).ar i = { U := 0, P := 0 }) := by
    intro w
    cases w with
    | none => exact ⟨rfl, fun _ => rfl, fun _ => rfl, fun _ => ⟨rfl, rfl⟩, fun _ => rfl⟩
    | some e => exact ⟨rfl, fun _ => rfl, fun _ => rfl, fun _ => ⟨rfl, rfl⟩, fun _ => rfl⟩
  obtain ⟨h1, h2, h3, h4, h5⟩ := h v
  refine ⟨h1, h2, h3, h4, h5, ?_⟩
  intro pool self
  obtain ⟨g1, g2, g3, g4, _⟩ := h ((self.Free pool).Get).1
  exact ⟨g1, g2, g3, g4⟩

/-- C20, as amended. `Free` puts the instance into the pool as it is: the pooled instance has
the `pc`, registers and slots the run left. The reset happens when `LoadProgram` takes the
instance out again, so that no value of the finished run is observable after reuse. -/
theorem Free_keeps_state (self : Emulator) (pool : Pool) (p : Program) (m : Mem) :
    self.Free pool = self :: pool ∧ ((self.Free pool).Get).1 = some self ∧
    (LoadProgram ((self.Free pool).Get).1 p m).pc = p.Head ∧
    (∀ r, (LoadProgram ((self.Free pool).Get).1 p m).uv r = 0) ∧
    (∀ r, (LoadProgram ((self.Free pool).Get).1 p m).pv r = 0) ∧
    (∀ i, (LoadProgram ((self.Free pool).Get).1 p m).ar i = { U := 0, P := 0 } ∧
      (LoadProgram ((self.Free pool).Get).1 p m).rv i = { U := 0, P := 0 }) :=
  ⟨rfl, rfl, rfl, fun _ => rfl, fun _ => rfl, fun _ => ⟨rfl, rfl⟩⟩

/-- Counterexample to C20 as stated: an instance freed with `pc` at instruction 3, 7 in every
generic register and 4096 in every pointer register sits in the pool with these values. -/
theorem Free_does_not_reset :
    ∃ x, ((({ pc := some 3, uv := fun _ => 7, pv := fun _ => 4096 } : Emulator).Free []).Get).1
        = some x ∧
      x.pc = some 3 ∧ x.pc ≠ none ∧ x.uv R0 = 7 ∧ x.pv P0 = 4096 := by
  refine ⟨_, rfl, rfl, by decide, rfl, rfl⟩

end emu

theorem ReverseBytes16_lt (x : Nat) : ReverseBytes16 x < 65536 := by
  unfold ReverseBytes16
  omega

theorem ReverseBytes32_lt (x : Nat) : ReverseBytes32 x < 4294967296 := by
  unfold ReverseBytes32
  omega

theorem ReverseBytes64_lt (x : Nat) : ReverseBytes64 x < W64 := by
  unfold ReverseBytes64
  simp only [W64]
  omega

theorem ReverseBytes16_bytes (b0 b1 : Nat) (h0 : b0 < 256) (h1 : b1 < 256) :
    ReverseBytes16 (b0 + 256 * b1) = b1 + 256 * b0 := by
  unfold ReverseBytes16
  omega

theorem ReverseBytes32_bytes (b0 b1 b2 b3 : Nat) (h0 : b0 < 256) (h1 : b1 < 256) (h2 : b2 < 256)
    (h3 : b3 < 256) :
    ReverseBytes32 (b0 + 256 * b1 + 65536 * b2 + 16777216 * b3) =
      b3 + 256 * b2 + 65536 * b1 + 16777216 * b0 := by
  unfold ReverseBytes32
  omega

theorem ReverseBytes64_bytes (b0 b1 b2 b3 b4 b5 b6 b7 : Nat) (h0 : b0 < 256) (h1 : b1 < 256)
    (h2 : b2 < 256) (h3 : b3 < 256) (h4 : b4 < 256) (h5 : b5 < 256) (h6 : b6 < 256)
    (h7 : b7 < 256) :
    ReverseBytes64 (b0 + 256 * b1 + 65536 * b2 + 16777216 * b3 + 4294967296 * b4
        + 1099511627776 * b5 + 281474976710656 * b6 + 72057594037927936 * b7) =
      b7 + 256 * b6 + 65536 * b5 + 16777216 * b4 + 4294967296 * b3
        + 1099511627776 * b2 + 281474976710656 * b1 + 72057594037927936 * b0 := by
  unfold ReverseBytes64
  omega

theorem ReverseBytes16_twice (x : Nat) :
    ReverseBytes16 (ReverseBytes16 (x % 65536) % 65536) = x % 65536 := by
  have hx : x % 65536 = x % 256 + 256 * (x / 256 % 256) := by omega
  rw [Nat.mod_eq_of_lt (ReverseBytes16_lt _), hx,
    ReverseBytes16_bytes _ _ (Nat.mod_lt _ (by decide)) (Nat.mod_lt _ (by decide)),
    ReverseBytes16_bytes _ _ (Nat.mod_lt _ (by decide)) (Nat.mod_lt _ (by decide))]

theorem ReverseBytes32_twice (x : Nat) :
    ReverseBytes32 (ReverseBytes32 (x % 4294967296) % 4294967296) = x % 4294967296 := by
  have hx : x % 4294967296 = x % 256 + 256 * (x / 256 % 256) + 65536 * (x / 65536 % 256)
      + 16777216 * (x / 16777216 % 256) := by omega
  rw [Nat.mod_eq_of_lt (ReverseBytes32_lt _), hx,
    ReverseBytes32_bytes _ _ _ _ (Nat.mod_lt _ (by decide)) (Nat.mod_lt _ (by decide))
      (Nat.mod_lt _ (by decide)) (Nat.mod_lt _ (by decide)),
    ReverseBytes32_bytes _ _ _ _ (Nat.mod_lt _ (by decide)) (Nat.mod_lt _ (by decide))
      (Nat.mod_lt _ (by decide)) (Nat.mod_lt _ (by decide))]

theorem ReverseBytes64_twice (x : Nat) :
    ReverseBytes64 (ReverseBytes64 (x % W64) % W64) = x % W64 := by
  have hx : x % W64 = x % 256 + 256 * (x / 256 % 256) + 65536 * (x / 65536 % 256)
      + 16777216 * (x / 16777216 % 256) + 4294967296 * (x / 4294967296 % 256)
      + 1099511627776 * (x / 1099511627776 % 256)
      + 281474976710656 * (x / 281474976710656 % 256)
      + 72057594037927936 * (x / 72057594037927936 % 256) := by
    simp only [W64]
    omega
  rw [Nat.mod_eq_of_lt (ReverseBytes64_lt _), hx,
    ReverseBytes64_bytes _ _ _ _ _ _ _ _ (Nat.mod_lt _ (by decide)) (Nat.mod_lt _ (by decide))
      (Nat.mod_lt _ (by decide)) (Nat.mod_lt _ (by decide)) (Nat.mod_lt _ (by decide))
      (Nat.mod_lt _ (by decide)) (Nat.mod_lt _ (by decide)) (Nat.mod_lt _ (by decide)),
    ReverseBytes64_bytes _ _ _ _ _ _ _ _ (Nat.mod_lt _ (by decide)) (Nat.mod_lt _ (by decide))
      (Nat.mod_lt _ (by decide)) (Nat.mod_lt _ (by decide)) (Nat.mod_lt _ (by decide))
      (Nat.mod_lt _ (by decide)) (Nat.mod_lt _ (by decide)) (Nat.mod_lt _ (by decide))]

namespace emu

/-- C15, as amended. A byte-swap opcode executed twice, `Rx -> Ry` then `Ry -> Ry` with `Ry`
other than `Rz`, leaves in `Ry` the value `x` read from `Rx` reduced to the width of the
opcode: `x mod 2^16` for `swapw`, `x mod 2^32` for `swapl`, and `x` itself for `swapq`. The
opcodes are involutions on the values that fit their width. -/
theorem swap_twice (env : Env) (prog : List Ir) (e : Emulator) (i j : Nat) (p q : Ir)
    (hpc : e.pc = some i) (hp : prog[i]? = some p) (hpl : p.Ln = some j)
    (hq : prog[j]? = some q) (hry : p.Ry ≠ Rz) (hq1 : q.Op = p.Op) (hq2 : q.Rx = p.Ry)
    (hq3 : q.Ry = p.Ry) (x : Nat) (hx : x = if p.Rx = Rz then 0 else e.uv p.Rx) :
    (p.Op = OP_swapw →
      ∃ e2, steps env prog 2 e = some e2 ∧ e2.pc = q.Ln ∧ e2.uv p.Ry = x % 65536) ∧
    (p.Op = OP_swapl →
      ∃ e2, steps env prog 2 e = some e2 ∧ e2.pc = q.Ln ∧ e2.uv p.Ry = x % 4294967296) ∧
    (p.Op = OP_swapq →
      ∃ e2, steps env prog 2 e = some e2 ∧ e2.pc = q.Ln ∧ e2.uv p.Ry = x % W64) ∧
    (x < W64 → x % W64 = x) := by
  refine ⟨?_, ?_, ?_, fun h => Nat.mod_eq_of_lt h⟩
  · intro hop
    rw [hop] at hq1
    simp [steps, step, hpc, hp, hpl, hq, exec, advance, hop, hq1, hq2, hq3, setG_apply, hry,
      ← hx, ReverseBytes16_twice]
  · intro hop
    rw [hop] at hq1
    simp [steps, step, hpc, hp, hpl, hq, exec, advance, hop, hq1, hq2, hq3, setG_apply, hry,
      ← hx, ReverseBytes32_twice]
  · intro hop
    rw [hop] at hq1
    have h64 := ReverseBytes64_twice x
    simp only [W64] at h64
    simp [steps, step, hpc, hp, hpl, hq, exec, advance, hop, hq1, hq2, hq3, setG_apply, hry,
      ← hx, h64]

/-- Witness of `swap_twice`: `swapw R0 -> R1` then `swapw R1 -> R1` on `R0 = 0x1234` leaves
`0x1234` in `R1`. -/
theorem swap_twice_witness :
    ∃ e2, steps sampleEnv
        [{ Op := OP_swapw, Rx := R0, Ry := R1, Ln := some 1 }, { Op := OP_swapw, Rx := R1, Ry := R1 }]
        2 { pc := some 0, uv := fun _ => 4660 } = some e2 ∧ e2.pc = none ∧ e2.uv R1 = 4660 :=
  (swap_twice sampleEnv
    [{ Op := OP_swapw, Rx := R0, Ry := R1, Ln := some 1 }, { Op := OP_swapw, Rx := R1, Ry := R1 }]
    { pc := some 0, uv := fun _ => 4660 } 0 1 _ _ rfl rfl rfl rfl (by decide) rfl rfl rfl 4660
    rfl).1 rfl

/-- Counterexample to C15 as stated: `swapw R0 -> R1` then `swapw R1 -> R1` on the 64-bit value
`R0 = 0x10000` leaves 0 in `R1`, and `swapl` twice on `0x100000000` does too. -/
theorem swap_twice_truncates :
    (steps sampleEnv
      [{ Op := OP_swapw, Rx := R0, Ry := R1, Ln := some 1 }, { Op := OP_swapw, Rx := R1, Ry := R1 }]
      2 { pc := some 0, uv := fun _ => 65536 }).map (fun e => e.uv R1) = some 0 ∧
    (steps sampleEnv
      [{ Op := OP_swapl, Rx := R0, Ry := R1, Ln := some 1 }, { Op := OP_swapl, Rx := R1, Ry := R1 }]
      2 { pc := some 0, uv := fun _ => 4294967296 }).map (fun e => e.uv R1) = some 0 ∧
    (65536 : Nat) < W64 ∧ (4294967296 : Nat) < W64 := by
  refine ⟨by rfl, by rfl, by decide, by decide⟩

end emu

namespace emu

theorem setG_same (f : GenericRegister → Nat) (r : GenericRegister) (v : Nat) :
    setG f r v r = v := by
  simp [setG]

/-- C16, as amended. `bzero(p, n)`, then the `n`-byte store of the value `v` of a register at
`p + Iv`, then the `n`-byte load from `p + Iv`: the load's destination holds the sign extension
to 64 bits of the low `n` bytes of `v`. For a 64-bit `v` this is `v` itself exactly when `v` is
the sign extension of its low `n` bytes, which is always so for `n = 8`. -/
theorem store_load_roundtrip (env : Env) (prog : List Ir) (e : Emulator) (i j k : Nat)
    (q0 q1 q2 : Ir) (st ld : ir.OpCode) (n : Nat)
    (hw : (st, ld, n) ∈
      [(OP_sb, OP_lb, 1), (OP_sw, OP_lw, 2), (OP_sl, OP_ll, 4), (OP_sq, OP_lq, 8)])
    (hpc : e.pc = some i) (h0 : prog[i]? = some q0) (h0op : q0.Op = OP_bzero)
    (h0iv : q0.Iv = (n : Int)) (h0l : q0.Ln = some j)
    (h1 : prog[j]? = some q1) (h1op : q1.Op = st) (h1pd : q1.Pd = q0.Pd) (h1l : q1.Ln = some k)
    (h2 : prog[k]? = some q2) (h2op : q2.Op = ld) (h2ps : q2.Ps = q0.Pd) (h2iv : q2.Iv = q1.Iv)
    (v : Nat) (hv : v = if q1.Rx = Rz then 0 else e.uv q1.Rx) :
    ∃ e3, steps env prog 3 e = some e3 ∧ e3.pc = q2.Ln ∧
      e3.uv q2.Rx = sext (8 * n) (v % 256 ^ n) ∧
      (v < W64 → (e3.uv q2.Rx = v ↔ v < 2 ^ (8 * n - 1) ∨ W64 - 2 ^ (8 * n - 1) ≤ v)) ∧
      (n = 8 → v < W64 → e3.uv q2.Rx = v) := by
  have hchar : ∀ r : Nat, r = sext (8 * n) (v % 256 ^ n) →
      (v < W64 → (r = v ↔ v < 2 ^ (8 * n - 1) ∨ W64 - 2 ^ (8 * n - 1) ≤ v)) ∧
      (n = 8 → v < W64 → r = v) := by
    intro r hr
    simp only [List.mem_cons, Prod.mk.injEq, List.mem_singleton, List.not_mem_nil,
      or_false] at hw
    rcases hw with ⟨_, _, rfl⟩ | ⟨_, _, rfl⟩ | ⟨_, _, rfl⟩ | ⟨_, _, rfl⟩ <;>
      (simp only [sext, W64] at hr ⊢
       norm_num at hr ⊢
       first
         | (split at hr <;> omega)
         | omega)
  have hv' : setG e.uv Rz 0 q1.Rx = v := by rw [hv, setG_apply]
  have hrun : ∃ e3, steps env prog 3 e = some e3 ∧ e3.pc = q2.Ln ∧
      e3.uv q2.Rx = sext (8 * n) (v % 256 ^ n) := by
    simp only [List.mem_cons, Prod.mk.injEq, List.mem_singleton, List.not_mem_nil,
      or_false] at hw
    rcases hw with ⟨rfl, rfl, rfl⟩ | ⟨rfl, rfl, rfl⟩ | ⟨rfl, rfl, rfl⟩ | ⟨rfl, rfl, rfl⟩ <;>
      simp [steps, step, hpc, h0, h0op, h0l, h1, h1op, h1pd, h1l, h2, h2op, h2ps, h2iv, exec,
        advance, setG_idem, setP_idem, setG_same, loadN_storeN_same, hv']
  obtain ⟨e3, g1, g2, g3⟩ := hrun
  obtain ⟨c1, c2⟩ := hchar _ g3
  exact ⟨e3, g1, g2, g3, c1, c2⟩

/-- Witness of `store_load_roundtrip`: `bzero(P0, 8)`, `sq R0 -> P0 + 16`, `lq P0 + 16 -> R1`
with `R0 = 0xCAFE` leaves `0xCAFE` in `R1`. -/
theorem store_load_roundtrip_witness :
    ∃ e3, steps sampleEnv
        [{ Op := OP_bzero, Pd := P0, Iv := 8, Ln := some 1 },
          { Op := OP_sq, Rx := R0, Pd := P0, Iv := 16, Ln := some 2 },
          { Op := OP_lq, Ps := P0, Iv := 16, Rx := R1 }]
        3 { pc := some 0, uv := fun _ => 51966, pv := fun _ => 1024 } = some e3 ∧
      e3.uv R1 = 51966 :=
  match store_load_roundtrip sampleEnv
      [{ Op := OP_bzero, Pd := P0, Iv := 8, Ln := some 1 },
        { Op := OP_sq, Rx := R0, Pd := P0, Iv := 16, Ln := some 2 },
        { Op := OP_lq, Ps := P0, Iv := 16, Rx := R1 }]
      { pc := some 0, uv := fun _ => 51966, pv := fun _ => 1024 } 0 1 2 _ _ _ OP_sq OP_lq 8
      (by decide) rfl rfl rfl rfl rfl rfl rfl rfl rfl rfl rfl rfl rfl 51966 rfl with
  | ⟨e3, h1, _, _, _, h5⟩ => ⟨e3, h1, h5 rfl (by decide)⟩

/-- Counterexample to C16 as stated: `bzero(P0, 1)`, `sb R0 -> P0`, `lb P0 -> R1` with
`R0 = 0xFF` leaves `0xFFFFFFFFFFFFFFFF` in `R1`, and with `R0 = 0x100` it leaves 0. -/
theorem store_load_not_identity :
    (steps sampleEnv
      [{ Op := OP_bzero, Pd := P0, Iv := 1, Ln := some 1 },
        { Op := OP_sb, Rx := R0, Pd := P0, Iv := 0, Ln := some 2 },
        { Op := OP_lb, Ps := P0, Iv := 0, Rx := R1 }]
      3 { pc := some 0, uv := fun _ => 255, pv := fun _ => 1024 }).map (fun e => e.uv R1)
      = some 18446744073709551615 ∧
    (steps sampleEnv
      [{ Op := OP_bzero, Pd := P0, Iv := 1, Ln := some 1 },
        { Op := OP_sb, Rx := R0, Pd := P0, Iv := 0, Ln := some 2 },
        { Op := OP_lb, Ps := P0, Iv := 0, Rx := R1 }]
      3 { pc := some 0, uv := fun _ => 256, pv := fun _ => 1024 }).map (fun e => e.uv R1)
      = some 0 := by
  refine ⟨by rfl, by rfl⟩

end emu

namespace encoder

/-- C21. `Link(p)` is the installed linker's `Link(p)` when a linker is stored and
`ForceEmulator` is false, and `link_emu(p)` in every other case; so, when the two results
differ, `Link(p)` is the linker's result if and only if a linker is stored and `ForceEmulator`
is false. After `SetLinker(v)` the stored linker is `v`, and it is the one consulted. -/
theorem Link_selects {Encoder : Type} (g : Globals Encoder) (link_emu : ir.Program → Encoder)
    (p : ir.Program) :
    (∀ l, g.linker = some l → g.ForceEmulator = false → Link g link_emu p = l.Link p) ∧
    (g.linker = none ∨ g.ForceEmulator = true → Link g link_emu p = link_emu p) ∧
    (∀ l, g.linker = some l → l.Link p ≠ link_emu p →
      (Link g link_emu p = l.Link p ↔ g.ForceEmulator = false)) ∧
    (∀ v, (SetLinker g v).linker = v ∧ (SetLinker g v).ForceEmulator = g.ForceEmulator) ∧
    (∀ l, g.ForceEmulator = false → Link (SetLinker g (some l)) link_emu p = l.Link p) ∧
    (Link (SetLinker g none) link_emu p = link_emu p) := by
  refine ⟨?_, ?_, ?_, fun v => ⟨rfl, rfl⟩, ?_, rfl⟩
  · intro l hl hf
    simp [Link, hl, hf]
  · intro h
    cases hl : g.linker with
    | none => simp [Link, hl]
    | some l =>
      rcases h with h | h
      · rw [hl] at h
        cases h
      · simp [Link, hl, h]
  · intro l hl hne
    cases hf : g.ForceEmulator with
    | false => simp [Link, hl, hf]
    | true =>
      simp only [Link, hl, hf, if_true]
      constructor
      · intro h
        exact absurd h.symm hne
      · intro h
        cases h
  · intro l hf
    simp [Link, SetLinker, hf]

/-- Witness of `Link_selects`: with encoders named by numbers, a stored linker answering 1 and
`link_emu` answering 0, `Link` answers 1 when `ForceEmulator` is false and 0 when it is
true. -/
theorem Link_selects_witness :
    Link ({ linker := some { Link := fun _ => 1 }, ForceEmulator := false } : Globals Nat)
      (fun _ => 0) { code := [], Head := none } = 1 ∧
    Link ({ linker := some { Link := fun _ => 1 }, ForceEmulator := true } : Globals Nat)
      (fun _ => 0) { code := [], Head := none } = 0 :=
  ⟨(Link_selects { linker := some { Link := fun _ => 1 }, ForceEmulator := false }
      (fun _ => 0) { code := [], Head := none }).1 _ rfl rfl,
    (Link_selects { linker := some { Link := fun _ => 1 }, ForceEmulator := true }
      (fun _ => 0) { code := [], Head := none }).2.1 (Or.inr rfl)⟩

end encoder

namespace decoder

/-- The block at `_eof`: it loads `nb`, subtracts it from `TR`, hands the difference to the
`error_eof` handle and leaves through `_error` with the two words the handle returns. -/
theorem run_eof (D : Defs) (s : List Instr) (P : ir.Program) (E : Nat) (hT : Tail D s P E)
    (env : Env) (e : Emulator) (hpc : e.pc = some (E + 6)) (f : Nat) :
    ∃ e1, Run env P.code (f + 8) e = some (Exit.returned e1) ∧ e1.pc = none ∧
      e1.Ru 0 = e.uv IC ∧
      e1.Rp 1 = (env.LookupCall D.F_error_eof
        [(e.uv TR + (W64 - (e.ar 1).U % W64)) % W64] e.mem).1.headD 0 % W64 ∧
      e1.Rp 2 = (env.LookupCall D.F_error_eof
        [(e.uv TR + (W64 - (e.ar 1).U % W64)) % W64] e.mem).1.tail.headD 0 % W64 ∧
      e1.mem = (env.LookupCall D.F_error_eof
        [(e.uv TR + (W64 - (e.ar 1).U % W64)) % W64] e.mem).2 := by
  simp [Run, step, hpc, hT.c6, hT.c7, hT.c8, hT.c9, hT.c2, hT.c3, hT.c4, hT.c5, exec,
    advance, RET_pos, RET_err_itab, RET_err_data, ARG_nb, Run_halted, setG_apply, setP_apply,
    setU_apply, setVP_apply, Emulator.Ru, Emulator.Rp, Call, writeRets, Emulator.setReg,
    Emulator.SetGr, Emulator.SetPr, Emulator.reg, Emulator.Gr, Emulator.Pr]

end decoder

theorem sub_mod_eq_toU64 (t n : Nat) :
    (t + (W64 - n % W64)) % W64 = toU64 ((t : Int) - (n : Int)) := by
  unfold toU64
  have h : ((t : Int) - (n : Int)) % 18446744073709551616 =
      (((t + (W64 - n % W64)) % W64 : Nat) : Int) := by
    simp only [W64]
    omega
  rw [h, Int.toNat_ofNat]

namespace decoder

/-- C23, as amended. From every state that enters the `_eof` block with `TR = t` and argument
slot `nb = n`, the `error_eof` handle is called with the one argument `t - n` (modulo `2^64`):
the block computes `TR - nb`, not `nb - TR`. The run then ends, returning `IC` as `pos` and
the two words the handle returns as `err_itab` and `err_data`. -/
theorem eof_passes_shortfall (D : Defs) (env : Env) (s : List Instr) (P : ir.Program)
    (h : Translate D s = some P) (e : Emulator) (hpc : e.pc = addrOf D s LB_eof) (t n : Nat)
    (ht : e.uv TR = t) (hn : (e.ar 1).U = n) :
    (∃ e3, steps env P.code 3 e = some e3 ∧ e3.uv TR = toU64 ((t : Int) - (n : Int)) ∧
      e3.pv ET = (env.LookupCall D.F_error_eof [toU64 ((t : Int) - (n : Int))] e.mem).1.headD 0
        % W64 ∧
      e3.pv EP = (env.LookupCall D.F_error_eof
        [toU64 ((t : Int) - (n : Int))] e.mem).1.tail.headD 0 % W64) ∧
    ∃ e1, Run env P.code 8 e = some (Exit.returned e1) ∧ e1.pc = none ∧ e1.Ru 0 = e.uv IC ∧
      e1.Rp 1 = (env.LookupCall D.F_error_eof [toU64 ((t : Int) - (n : Int))] e.mem).1.headD 0
        % W64 ∧
      e1.Rp 2 = (env.LookupCall D.F_error_eof
        [toU64 ((t : Int) - (n : Int))] e.mem).1.tail.headD 0 % W64 := by
  obtain ⟨E, hT⟩ := tail_code D s P h
  rw [hT.eof] at hpc
  have harg := sub_mod_eq_toU64 t n
  constructor
  · rw [← harg, ← ht, ← hn]
    simp [steps, step, hpc, hT.c6, hT.c7, hT.c8, exec, advance, ARG_nb, setG_apply, setP_apply,
      Call, writeRets, Emulator.setReg, Emulator.SetGr, Emulator.SetPr, Emulator.reg,
      Emulator.Gr, Emulator.Pr]
  · obtain ⟨e1, h1, h2, h3, h4, h5, _⟩ := run_eof D s P E hT env e hpc 0
    rw [ht, hn, harg] at h4 h5
    exact ⟨e1, h1, h2, h3, h4, h5⟩

/-- Witness of `eof_passes_shortfall`: the `_eof` block of the translation of `[halt]`, entered
with `TR = 9` and `nb = 6`, calls the handle with 3; the sample handle returns its argument as
second word. -/
theorem eof_passes_shortfall_witness :
    ∃ e1, Run sampleEnv (sampleProgram [{ Op := decoder.OpCode.OP_halt }]).code 8
        { pc := some 12, uv := fun _ => 9, ar := fun _ => { U := 6, P := 0 } }
          = some (Exit.returned e1) ∧
      e1.pc = none ∧ e1.Rp 1 = 4096 ∧ e1.Rp 2 = 3 :=
  match (eof_passes_shortfall sampleDefs sampleEnv [{ Op := decoder.OpCode.OP_halt }] _ (by rfl)
      { pc := some 12, uv := fun _ => 9, ar := fun _ => { U := 6, P := 0 } } (by rfl) 9 6 rfl rfl).2 with
  | ⟨e1, h1, h2, _, h4, h5⟩ => ⟨e1, h1, h2, h4, h5⟩

/-- Counterexample to C23 as stated: the `_eof` block of the translation of `[halt]`, entered
with `TR = 9` and `nb = 6`, leaves `9 - 6 = 3` in `TR` and hands it to the handle (the sample
handle returns its argument as second word, which the run returns as `err_data`), whereas
`nb - TR` is `2^64 - 3`. -/
theorem eof_argument_is_not_remaining :
    (steps sampleEnv (sampleProgram [{ Op := decoder.OpCode.OP_halt }]).code 2
      { pc := some 12, uv := fun _ => 9, ar := fun _ => { U := 6, P := 0 } }).map
        (fun e => e.uv TR) = some 3 ∧
    (steps sampleEnv (sampleProgram [{ Op := decoder.OpCode.OP_halt }]).code 8
      { pc := some 12, uv := fun _ => 9, ar := fun _ => { U := 6, P := 0 } }).map
        (fun e => (e.pc, e.Rp 1, e.Rp 2)) = some (none, 4096, 3) ∧
    addrOf sampleDefs [{ Op := decoder.OpCode.OP_halt }] LB_eof = some 12 ∧
    toU64 ((6 : Int) - 9) = 18446744073709551613 := by
  refine ⟨by rfl, by rfl, by rfl, by rfl⟩

end decoder

namespace decoder

/-- The lowering of `bin` up to its bounds check, when the check fails: the pointer word at
`WP` is set to the zero value first, the length `L` is read big-endian at the cursor, the
cursor is advanced past the prefix and control goes to `_eof`. -/
theorem bin_eof_spec (D : Defs) (env : Env) (s : List Instr) (P : ir.Program) (k : Nat)
    (v : Instr) (h : Translate D s = some P) (hk : s[k]? = some v)
    (hop : v.Op = decoder.OpCode.OP_bin) (a : Nat) (ha : addrOf D s (mark k) = some a)
    (e : Emulator) (hpc : e.pc = some a) (m1 : Mem)
    (hm1 : m1 = storeN e.mem (e.pv WP % W64) 8 D.V_zerovalue) (L : Nat)
    (hL : L = loadBE m1 ((e.pv IP + e.uv IC) % W64) 4) (hlt : (e.ar 1).U < L) :
    ∃ e8, steps env P.code 8 e = some e8 ∧ e8.pc = addrOf D s LB_eof ∧
      e8.uv IC = (e.uv IC + 4) % W64 ∧ e8.uv TR = L ∧ e8.mem = m1 ∧ e8.ar = e.ar := by
  have hm : translators D k v = some (translate_OP_bin D k) := by simp [translators, hop]
  obtain ⟨E, a1, pre, hT, _, _, ha1, hle, hfetch, _⟩ := lowering_code D s P h k v hk _ hm
  rw [ha] at ha1
  cases ha1
  have hlen : (instrs (translate_OP_bin D k)).length = 14 := rfl
  rw [hlen] at hle
  have c0 := hfetch 0 _ rfl
  have c1 := hfetch 1 _ rfl
  have c2 := hfetch 2 _ rfl
  have c3 := hfetch 3 _ rfl
  have c4 := hfetch 4 _ rfl
  have c5 := hfetch 5 _ rfl
  have c6 := hfetch 6 _ rfl
  have c7 := hfetch 7 _ rfl
  rw [linkInstr_plain _ _ _ _ rfl rfl (by omega)] at c0 c1 c2 c3 c4 c5 c6
  rw [linkInstr_br _ _ _ _ _ (E + 6) rfl hT.eof rfl (by omega)] at c7
  simp [instrs, translate_OP_bin, translate_OP_binstr] at c0 c1 c2 c3 c4 c5 c6 c7
  have hswap : ReverseBytes32 (sext 32 (loadN (storeN e.mem (e.pv WP % W64) 8 D.V_zerovalue)
      ((e.pv IP + e.uv IC) % W64) 4) % 4294967296) = L := by
    rw [swap_4, hL, hm1]
  simp [steps, step, hpc, c0, c1, c2, c3, c4, c5, c6, c7, exec, advance, setG_apply, setP_apply,
    ARG_nb, hswap, hlt, hT.eof, hm1]

/-- Every instruction of a translated plan has its mark resolved. -/
theorem addrOf_mark_exists (D : Defs) (s : List Instr) (P : ir.Program)
    (h : Translate D s = some P) (k : Nat) (v : Instr) (hk : s[k]? = some v) :
    ∃ a, addrOf D s (mark k) = some a := by
  obtain ⟨body, hb, _, _⟩ := Translate_items D s P h
  obtain ⟨_, mid, _, _, hmid, _⟩ := program_split D s 0 k v body hb hk
  rw [Nat.zero_add] at hmid
  obtain ⟨_, a, _, _, _, _, ha, _⟩ := lowering_code D s P h k v hk mid hmid
  exact ⟨a, ha⟩

/-- C22, as amended. Whenever the lowering of `str` or of `bin` takes the branch to `_eof`,
which it does when `nb` is below the length `L` read at the cursor, the run ends with the EOF
error words of the handle and with `pos`, return slot 0, equal to the starting cursor plus 4,
the cursor just past the length prefix: `IC` is advanced before the bounds check. -/
theorem eof_pos_is_past_header (D : Defs) (env : Env) (s : List Instr) (P : ir.Program)
    (k : Nat) (v : Instr) (h : Translate D s = some P) (hk : s[k]? = some v)
    (e : Emulator) (hpc : e.pc = addrOf D s (mark k)) (z : Nat)
    (hop : (v.Op = decoder.OpCode.OP_str ∧ z = 0) ∨
      (v.Op = decoder.OpCode.OP_bin ∧ z = D.V_zerovalue)) (L : Nat)
    (hL : L = loadBE (storeN e.mem (e.pv WP % W64) 8 z) ((e.pv IP + e.uv IC) % W64) 4)
    (hlt : (e.ar 1).U < L) :
    ∃ t e7 fuel e1, steps env P.code t e = some e7 ∧ e7.pc = addrOf D s LB_eof ∧
      e7.uv IC = (e.uv IC + 4) % W64 ∧
      Run env P.code fuel e = some (Exit.returned e1) ∧ e1.pc = none ∧
      e1.Ru 0 = (e.uv IC + 4) % W64 ∧
      e1.Rp 1 = (env.LookupCall D.F_error_eof [toU64 ((L : Int) - ((e.ar 1).U : Int))]
        (storeN e.mem (e.pv WP % W64) 8 z)).1.headD 0 % W64 ∧
      e1.Rp 2 = (env.LookupCall D.F_error_eof [toU64 ((L : Int) - ((e.ar 1).U : Int))]
        (storeN e.mem (e.pv WP % W64) 8 z)).1.tail.headD 0 % W64 := by
  obtain ⟨E, hT⟩ := tail_code D s P h
  have hex := addrOf_mark_exists D s P h k v hk
  obtain ⟨a, ha⟩ := hex
  rw [ha] at hpc
  have hreach : ∃ t e7, steps env P.code t e = some e7 ∧ e7.pc = addrOf D s LB_eof ∧
      e7.uv IC = (e.uv IC + 4) % W64 ∧ e7.uv TR = L ∧
      e7.mem = storeN e.mem (e.pv WP % W64) 8 z ∧ e7.ar = e.ar := by
    rcases hop with ⟨ho, hz⟩ | ⟨ho, hz⟩
    · subst hz
      obtain ⟨e7, g⟩ := (str_spec D env s P k v h hk ho a ha e hpc _ rfl L hL).1 hlt
      exact ⟨7, e7, g⟩
    · subst hz
      obtain ⟨e8, g⟩ := bin_eof_spec D env s P k v h hk ho a ha e hpc _ rfl L hL hlt
      exact ⟨8, e8, g⟩
  obtain ⟨t, e7, g1, g2, g3, g4, g5, g6⟩ := hreach
  have hpc7 : e7.pc = some (E + 6) := by rw [g2, hT.eof]
  obtain ⟨e1, h1, h2, h3, h4, h5, _⟩ := run_eof D s P E hT env e7 hpc7 0
  rw [g4, g5, g6, sub_mod_eq_toU64] at h4 h5
  refine ⟨t, e7, t + (0 + 8), e1, g1, g2, g3, ?_, h2, by rw [h3, g3], h4, h5⟩
  rw [Run_steps env P.code t (0 + 8) e e7 g1]
  exact h1

/-- Witness of `eof_pos_is_past_header`: `[str, halt]` reached with the cursor at 3 on a buffer
whose four bytes at the cursor declare 255 bytes, with `nb = 64`: the run returns `pos = 7`. -/
theorem eof_pos_is_past_header_witness :
    ∃ fuel e1, Run sampleEnv
        (sampleProgram [{ Op := decoder.OpCode.OP_str }, { Op := decoder.OpCode.OP_halt }]).code fuel
        (sampleState 5 (fun a => if a = 2054 then 255 else 0)) = some (Exit.returned e1) ∧
      e1.pc = none ∧ e1.Ru 0 = 7 ∧ e1.Rp 1 = 4096 ∧ e1.Rp 2 = 191 :=
  match eof_pos_is_past_header sampleDefs sampleEnv
      [{ Op := decoder.OpCode.OP_str }, { Op := decoder.OpCode.OP_halt }] _ 0
      { Op := decoder.OpCode.OP_str } (by rfl) (by rfl)
      (sampleState 5 (fun a => if a = 2054 then 255 else 0)) (by rfl) 0 (Or.inl ⟨rfl, rfl⟩)
      255 (by rfl) (by decide) with
  | ⟨_, _, fuel, e1, _, _, _, h1, h2, h3, h4, h5⟩ => ⟨fuel, e1, h1, h2, h3, h4, h5⟩

/-- Counterexample to C22 as stated: `[str, halt]` invoked on the buffer `00 00 00 09 'a' 'b'`
with `nb = 6` and starting cursor `i = 0` takes the branch to `_eof` (the state after 12 steps
is at `_eof`) and returns `pos = 4`, not 0. -/
theorem eof_pos_is_not_start :
    (steps sampleEnv
      (sampleProgram [{ Op := decoder.OpCode.OP_str }, { Op := decoder.OpCode.OP_halt }]).code 12
      (invoke (sampleProgram [{ Op := decoder.OpCode.OP_str }, { Op := decoder.OpCode.OP_halt }])
        (bytesAt 2048 [0, 0, 0, 9, 97, 98]) 2048 6 0 1024 4096 0)).map (fun e => e.pc)
      = some (addrOf sampleDefs [{ Op := decoder.OpCode.OP_str }, { Op := decoder.OpCode.OP_halt }]
          LB_eof) ∧
    (steps sampleEnv
      (sampleProgram [{ Op := decoder.OpCode.OP_str }, { Op := decoder.OpCode.OP_halt }]).code 20
      (invoke (sampleProgram [{ Op := decoder.OpCode.OP_str }, { Op := decoder.OpCode.OP_halt }])
        (bytesAt 2048 [0, 0, 0, 9, 97, 98]) 2048 6 0 1024 4096 0)).map
        (fun e => (e.pc, e.Ru 0, e.Rp 1)) = some (none, 4, 4096) := by
  refine ⟨by rfl, by rfl⟩

end decoder

theorem add_sub_cancel_mod (x s : Nat) (hx : x < W64) :
    ((x + s) % W64 + toU64 (-(s : Int))) % W64 = x := by
  unfold toU64
  simp only [W64] at hx ⊢
  omega

namespace decoder

/-- C25. From a state with `ST` below the overflow threshold, the lowering of `make_state`
stores `WP` in the slot `RS[ST + WpOffset]` and adds `StateSize` to `ST`; after any further
steps that end at a `drop_state` lowering with `ST`, `RS` and that slot as `make_state` left
them, whatever they did to `WP`, the lowering of `drop_state` restores `ST` and `WP` to their
values before `make_state` and leaves the slot null. -/
theorem make_drop_inverse (D : Defs) (env : Env) (s : List Instr) (P : ir.Program)
    (h : Translate D s = some P) (k1 k2 : Nat) (v1 v2 : Instr)
    (hk1 : s[k1]? = some v1) (hop1 : v1.Op = decoder.OpCode.OP_make_state)
    (hk2 : s[k2]? = some v2) (hop2 : v2.Op = decoder.OpCode.OP_drop_state)
    (e : Emulator) (hpc : e.pc = addrOf D s (mark k1)) (hst : e.uv ST < D.StateMax % W64)
    (hwp : e.pv WP < W64) (slot : Nat)
    (hslot : slot = ((e.pv RS + e.uv ST) % W64 + D.WpOffset) % W64) :
    ∃ a e5, addrOf D s (mark k1) = some a ∧ steps env P.code 5 e = some e5 ∧
      e5.pc = some (a + 5) ∧ e5.uv ST = (e.uv ST + D.StateSize) % W64 ∧
      e5.pv RS = e.pv RS ∧ loadN e5.mem slot 8 = e.pv WP ∧
      ∀ (t : Nat) (e6 : Emulator), steps env P.code t e5 = some e6 →
        e6.pc = addrOf D s (mark k2) → e6.uv ST = e5.uv ST → e6.pv RS = e5.pv RS →
        loadN e6.mem slot 8 = loadN e5.mem slot 8 →
        ∃ e10, steps env P.code (5 + t + 4) e = some e10 ∧ e10.uv ST = e.uv ST ∧
          e10.pv WP = e.pv WP ∧ loadN e10.mem slot 8 = 0 := by
  obtain ⟨a, ha⟩ := addrOf_mark_exists D s P h k1 v1 hk1
  obtain ⟨a2, ha2⟩ := addrOf_mark_exists D s P h k2 v2 hk2
  rw [ha] at hpc
  obtain ⟨_, hpush⟩ := make_state_spec D env s P k1 v1 h hk1 hop1 a ha e hpc
  obtain ⟨e5, g1, g2, g3, _, _, g6, _, _, g9⟩ := hpush hst
  have hW : (256 : Nat) ^ 8 = W64 := by norm_num
  have hld5 : loadN e5.mem slot 8 = e.pv WP := by
    rw [g9, ← hslot, loadN_storeN_same, hW]
    exact Nat.mod_eq_of_lt hwp
  refine ⟨a, e5, ha, g1, g2, g3, g6, hld5, ?_⟩
  intro t e6 hs6 hpc6 hst6 hrs6 hmem6
  rw [ha2] at hpc6
  obtain ⟨e10, q1, _, q3, _, q5, _, q7, q8⟩ :=
    drop_state_spec D env s P k2 v2 h hk2 hop2 a2 ha2 e6 hpc6
  have hst10 : e10.uv ST = e.uv ST := by
    rw [q3, hst6, g3]
    exact add_sub_cancel_mod _ _ (lt_trans hst (Nat.mod_lt _ (by decide)))
  have hsl : ((e6.pv RS + e10.uv ST) % W64 + D.WpOffset) % W64 = slot := by
    rw [hst10, hrs6, g6, hslot]
  rw [hsl] at q7 q8
  refine ⟨e10, ?_, hst10, by rw [q7, hmem6, hld5], ?_⟩
  · rw [steps_add, steps_add, g1]
    simp only [Option.bind_eq_bind, Option.some_bind]
    rw [hs6]
    exact q1
  · rw [q8, loadN_storeN_same]
    rfl

/-- Witness of `make_drop_inverse`: `[make_state, drop_state, halt]` reached with `ST = 0` and
`WP = 1024`: after the nine instructions `ST` is 0, `WP` is 1024 and the slot at
`RS + WpOffset = 4112` is null. -/
theorem make_drop_inverse_witness :
    ∃ e9, steps sampleEnv
        (sampleProgram [{ Op := decoder.OpCode.OP_make_state },
          { Op := decoder.OpCode.OP_drop_state }, { Op := decoder.OpCode.OP_halt }]).code 9
        (sampleState 5 (fun _ => 255)) = some e9 ∧
      e9.uv ST = 0 ∧ e9.pv WP = 1024 ∧ loadN e9.mem 4112 8 = 0 := by
  obtain ⟨a, e5, ha, h1, h2, h3, h4, h5, hrest⟩ := make_drop_inverse sampleDefs sampleEnv
    [{ Op := decoder.OpCode.OP_make_state }, { Op := decoder.OpCode.OP_drop_state },
      { Op := decoder.OpCode.OP_halt }] _ (by rfl) 0 1 _ _ (by rfl) (by rfl) (by rfl) (by rfl)
    (sampleState 5 (fun _ => 255)) (by rfl) (by decide) (by decide) 4112 (by rfl)
  have ha5 : a = 5 := by
    have : some a = some 5 := ha.symm.trans (by rfl)
    exact Option.some.inj this
  subst ha5
  obtain ⟨e10, q1, q2, q3, q4⟩ := hrest 0 e5 rfl (by rw [h2]; rfl) rfl rfl rfl
  exact ⟨e10, q1, q2, q3, q4⟩

end decoder

namespace ir

/-- A resolved switch table has an entry for every entry of the symbolic table: null for a null
entry, the index the label resolves to otherwise. -/
theorem resolveTab_spec (tgt : Label → Option Nat) :
    ∀ (tab : List (Option Label)) (sw : List (Option Nat)), resolveTab tgt tab = some sw →
      ∀ f, (tab.getD f none = none → sw.getD f none = none) ∧
        (∀ l, tab.getD f none = some l → ∃ t, tgt l = some t ∧ sw.getD f none = some t) := by
  intro tab
  induction tab with
  | nil =>
    intro sw h f
    simp only [resolveTab, Option.some.injEq] at h
    subst h
    simp
  | cons o r ih =>
    intro sw h f
    simp only [resolveTab] at h
    cases ho : resolveRef tgt o with
    | none => simp [ho] at h
    | some x =>
      cases hr : resolveTab tgt r with
      | none => simp [ho, hr] at h
      | some b =>
        simp only [ho, hr, Option.some.injEq] at h
        subst h
        cases f with
        | zero =>
          simp only [List.getD_cons_zero]
          cases o with
          | none =>
            simp only [resolveRef, Option.some.injEq] at ho
            subst ho
            simp
          | some l =>
            simp only [resolveRef, Option.map_eq_some'] at ho
            obtain ⟨t, ht, hx⟩ := ho
            subst hx
            simp [ht]
        | succ f =>
          simp only [List.getD_cons_succ]
          exact ih b hr f

/-- Linking of an instruction that has a switch table and no branch target. -/
theorem linkInstr_sw (tgt : Label → Option Nat) (n i : Nat) (r : Instr Label) (x : Ir)
    (hBr : r.Br = none) (hi : i + 1 < n) (h : linkInstr tgt n i r = some x) :
    ∃ sw, resolveTab tgt r.Sw = some sw ∧
      x = { Op := r.Op, Rx := r.Rx, Ry := r.Ry, Rz := r.Rz, Ps := r.Ps, Pd := r.Pd, Iv := r.Iv,
            Pr := r.Pr, Br := none, Ln := some (i + 1), Sw := sw, Ar := r.Ar, Rr := r.Rr } := by
  simp only [linkInstr, hBr, resolveRef, hi, if_true] at h
  cases hs : resolveTab tgt r.Sw with
  | none => simp [hs] at h
  | some sw =>
    simp only [hs, Option.some.injEq] at h
    exact ⟨sw, rfl, h.symm⟩

end ir

namespace decoder

/-- The lowering of `struct_switch`, path by path: where control goes on the field id `f` read
at the cursor, and what the five instructions leave alone. -/
theorem struct_switch_spec (D : Defs) (env : Env) (s : List Instr) (P : ir.Program)
    (k : Nat) (v : Instr) (h : Translate D s = some P) (hk : s[k]? = some v)
    (hop : v.Op = decoder.OpCode.OP_struct_switch) (hIv : v.Iv < (W64 : Int))
    (hSw : v.Iv.toNat ≤ v.Sw.length)
    (e : Emulator) (hpc : e.pc = addrOf D s (mark k)) (f : Nat)
    (hf : f = loadBE e.mem ((e.pv IP + e.uv IC) % W64) 2) :
    ∃ a, addrOf D s (mark k) = some a ∧ (mkstab v.Sw v.Iv).length = v.Iv.toNat ∧ f < 65536 ∧
      ((f < v.Iv.toNat ∧ 0 ≤ (mkstab v.Sw v.Iv).getD f 0) →
        ∃ e5 tgt, steps env P.code 5 e = some e5 ∧
          addrOf D s (mark ((mkstab v.Sw v.Iv).getD f 0).toNat) = some tgt ∧
          e5.pc = some tgt ∧ e5.uv IC = (e.uv IC + 2) % W64 ∧ e5.mem = e.mem ∧
          e5.pv RS = e.pv RS ∧ e5.uv ST = e.uv ST) ∧
      (¬ (f < v.Iv.toNat ∧ 0 ≤ (mkstab v.Sw v.Iv).getD f 0) →
        ∃ e5, steps env P.code 5 e = some e5 ∧ e5.pc = some (a + 5) ∧
          e5.uv IC = (e.uv IC + 2) % W64 ∧ e5.mem = e.mem ∧
          e5.pv RS = e.pv RS ∧ e5.uv ST = e.uv ST) := by
  obtain ⟨body, hb, _, _⟩ := Translate_items D s P h
  obtain ⟨_, mid, _, _, hmid, _⟩ := program_split D s 0 k v body hb hk
  rw [Nat.zero_add] at hmid
  have h0 : 0 ≤ v.Iv := by
    by_contra hneg
    simp [translators, hop, translate_OP_struct_switch, hneg] at hmid
  have hstab : (mkstab v.Sw v.Iv).length = v.Iv.toNat := by
    simp only [mkstab, List.length_take]
    omega
  obtain ⟨tab, htabdef⟩ : ∃ tab : List (Option Label), tab = (mkstab v.Sw v.Iv).map
      (fun (t : Int) => if t ≥ 0 then some (mark t.toNat) else none) := ⟨_, rfl⟩
  have htlen : tab.length = v.Iv.toNat := by rw [htabdef, List.length_map, hstab]
  have hm : translators D k v = some [ ADDP IP IC EP, ADDI IC 2 IC, LW EP 0 TR, SWAPW TR TR,
      BSW TR tab ] := by
    simp [translators, hop, translate_OP_struct_switch, h0, hstab, htabdef]
  obtain ⟨E, a, pre, hT, _, _, ha, hle, hfetch, _⟩ := lowering_code D s P h k v hk _ hm
  rw [ha] at hpc
  have hlen : (instrs [ ADDP IP IC EP, ADDI IC 2 IC, LW EP 0 TR, SWAPW TR TR,
      BSW TR tab ]).length = 5 := rfl
  rw [hlen] at hle
  have c0 := hfetch 0 _ rfl
  have c1 := hfetch 1 _ rfl
  have c2 := hfetch 2 _ rfl
  have c3 := hfetch 3 _ rfl
  have c4 := hfetch 4 { Op := OP_bsw, Rx := TR, Iv := (tab.length : Nat), Sw := tab } rfl
  rw [linkInstr_plain _ _ _ _ rfl rfl (by omega)] at c0 c1 c2 c3
  simp [instrs] at c0 c1 c2 c3
  have hlt4 : a + 4 < P.code.length := by rw [hT.len]; omega
  obtain ⟨x, hx⟩ : ∃ x, P.code[a + 4]? = some x := ⟨_, List.getElem?_eq_getElem hlt4⟩
  rw [hx] at c4
  obtain ⟨sw, hsw, hxeq⟩ := linkInstr_sw _ _ _ _ x rfl (by omega) c4.symm
  simp only [htlen] at hsw hxeq
  have htab := resolveTab_spec _ _ sw hsw f
  have hf16 : f < 65536 := by
    rw [hf]
    have := loadBE_lt e.mem 2 ((e.pv IP + e.uv IC) % W64)
    norm_num at this
    exact this
  have hW64 : W64 = 18446744073709551616 := rfl
  have htag : ReverseBytes16 (sext 16 (loadN e.mem ((e.pv IP + e.uv IC) % W64) 2) % 65536)
      = f := by rw [swap_2, hf]
  have hivnat : toU64 (v.Iv ⊔ 0) = v.Iv.toNat := by
    rw [sup_eq_left.mpr h0]
    unfold toU64
    have hIv2 : v.Iv < 18446744073709551616 := hIv
    rw [Int.emod_eq_of_lt h0 hIv2]
  subst hxeq
  refine ⟨a, ha, hstab, hf16, ?_, ?_⟩
  · intro ⟨hfi, hge⟩
    have hget : tab.getD f none = some (mark ((mkstab v.Sw v.Iv).getD f 0).toNat) := by
      rw [htabdef]
      rw [List.getD_eq_getElem?_getD, List.getElem?_map, List.getD_eq_getElem?_getD] at *
      rw [List.getElem?_eq_getElem (by omega)] at hge ⊢
      simp only [Option.getD_some, Option.map_some'] at hge ⊢
      simp [hge]
    obtain ⟨t, ht, hswf⟩ := htab.2 _ hget
    rw [List.getD_eq_getElem?_getD] at hswf
    obtain ⟨e5, q1, q2, q3, q4⟩ : ∃ e5, steps env P.code 5 e = some e5 ∧ e5.pc = some t ∧
        e5.uv IC = (e.uv IC + 2) % W64 ∧ e5.mem = e.mem ∧
        e5.pv RS = e.pv RS ∧ e5.uv ST = e.uv ST := by
      simp [steps, step, hpc, c0, c1, c2, c3, hx, exec, advance, setG_apply, setP_apply, htag,
        hivnat, hfi, hswf]
    exact ⟨e5, t, q1, ht, q2, q3, q4⟩
  · intro hno
    by_cases hfi : f < v.Iv.toNat
    · have hneg : ¬ 0 ≤ (mkstab v.Sw v.Iv).getD f 0 := fun hh => hno ⟨hfi, hh⟩
      have hget : tab.getD f none = none := by
        rw [htabdef]
        rw [List.getD_eq_getElem?_getD, List.getElem?_map, List.getD_eq_getElem?_getD] at *
        rw [List.getElem?_eq_getElem (by omega)] at hneg ⊢
        simp only [Option.getD_some, Option.map_some'] at hneg ⊢
        simp [hneg]
      have hswf := htab.1 hget
      rw [List.getD_eq_getElem?_getD] at hswf
      simp [steps, step, hpc, c0, c1, c2, c3, hx, exec, advance, setG_apply, setP_apply, htag,
        hivnat, hfi, hswf]
    · simp [steps, step, hpc, c0, c1, c2, c3, hx, exec, advance, setG_apply, setP_apply, htag,
        hivnat, hfi]

/-- C24. The lowering of `struct_switch` with a table `stab` of `Iv` entries reads the field id
`f`, the big-endian unsigned 16-bit number at the cursor, and advances `IC` by 2 in every
case. When `f < Iv` and `stab[f] >= 0` control goes to the first instruction of the lowering
of the plan instruction `stab[f]`; otherwise it continues with the instruction after the
switch. -/
theorem struct_switch_dispatches (D : Defs) (env : Env) (s : List Instr) (P : ir.Program)
    (k : Nat) (v : Instr) (h : Translate D s = some P) (hk : s[k]? = some v)
    (hop : v.Op = decoder.OpCode.OP_struct_switch) (hIv : v.Iv < (W64 : Int))
    (hSw : v.Iv.toNat ≤ v.Sw.length)
    (e : Emulator) (hpc : e.pc = addrOf D s (mark k)) (f : Nat)
    (hf : f = loadBE e.mem ((e.pv IP + e.uv IC) % W64) 2) :
    ∃ a, addrOf D s (mark k) = some a ∧ (mkstab v.Sw v.Iv).length = v.Iv.toNat ∧ f < 65536 ∧
      ((f < v.Iv.toNat ∧ 0 ≤ (mkstab v.Sw v.Iv).getD f 0) →
        ∃ e5 tgt, steps env P.code 5 e = some e5 ∧
          addrOf D s (mark ((mkstab v.Sw v.Iv).getD f 0).toNat) = some tgt ∧
          e5.pc = some tgt ∧ e5.uv IC = (e.uv IC + 2) % W64 ∧ e5.mem = e.mem) ∧
      (¬ (f < v.Iv.toNat ∧ 0 ≤ (mkstab v.Sw v.Iv).getD f 0) →
        ∃ e5, steps env P.code 5 e = some e5 ∧ e5.pc = some (a + 5) ∧
          e5.uv IC = (e.uv IC + 2) % W64 ∧ e5.mem = e.mem) := by
  obtain ⟨a, ha, hlen, hf16, hjump, hfall⟩ :=
    struct_switch_spec D env s P k v h hk hop hIv hSw e hpc f hf
  refine ⟨a, ha, hlen, hf16, ?_, ?_⟩
  · intro hc
    obtain ⟨e5, tgt, q1, q2, q3, q4, q5, _⟩ := hjump hc
    exact ⟨e5, tgt, q1, q2, q3, q4, q5⟩
  · intro hc
    obtain ⟨e5, q1, q2, q3, q4, _⟩ := hfall hc
    exact ⟨e5, q1, q2, q3, q4⟩

/-- Witness of `struct_switch_dispatches`: the plan `[struct_switch, halt, halt]` with the
table `[-1, 2]`, reached with the cursor at 3. On the field id 1 control goes to instruction
11, the lowering of plan instruction 2; on the field id 0, whose entry is negative, it goes on
to instruction 10, after the switch. In both cases `IC` becomes 5. -/
theorem struct_switch_dispatches_witness :
    (∃ e5, steps sampleEnv
        (sampleProgram [{ Op := decoder.OpCode.OP_struct_switch, Sw := [-1, 2], Iv := 2 },
          { Op := decoder.OpCode.OP_halt }, { Op := decoder.OpCode.OP_halt }]).code 5
        (sampleState 5 (fun a => if a = 2052 then 1 else 0)) = some e5 ∧
      e5.pc = some 11 ∧ e5.uv IC = 5) ∧
    (∃ e5, steps sampleEnv
        (sampleProgram [{ Op := decoder.OpCode.OP_struct_switch, Sw := [-1, 2], Iv := 2 },
          { Op := decoder.OpCode.OP_halt }, { Op := decoder.OpCode.OP_halt }]).code 5
        (sampleState 5 (fun _ => 0)) = some e5 ∧
      e5.pc = some 10 ∧ e5.uv IC = 5) := by
  constructor
  · obtain ⟨a, ha, _, _, hjump, _⟩ := struct_switch_dispatches sampleDefs sampleEnv
      [{ Op := decoder.OpCode.OP_struct_switch, Sw := [-1, 2], Iv := 2 },
        { Op := decoder.OpCode.OP_halt }, { Op := decoder.OpCode.OP_halt }] _ 0
      { Op := decoder.OpCode.OP_struct_switch, Sw := [-1, 2], Iv := 2 } (by rfl) (by rfl) (by rfl)
      (by decide) (by decide) (sampleState 5 (fun a => if a = 2052 then 1 else 0)) (by rfl) 1
      (by rfl)
    obtain ⟨e5, tgt, h1, h2, h3, h4, _⟩ := hjump ⟨by decide, by decide⟩
    have ht : tgt = 11 := by
      have : some tgt = some 11 := h2.symm.trans (by rfl)
      exact Option.some.inj this
    subst ht
    exact ⟨e5, h1, h3, h4⟩
  · obtain ⟨a, ha, _, _, _, hfall⟩ := struct_switch_dispatches sampleDefs sampleEnv
      [{ Op := decoder.OpCode.OP_struct_switch, Sw := [-1, 2], Iv := 2 },
        { Op := decoder.OpCode.OP_halt }, { Op := decoder.OpCode.OP_halt }] _ 0
      { Op := decoder.OpCode.OP_struct_switch, Sw := [-1, 2], Iv := 2 } (by rfl) (by rfl) (by rfl)
      (by decide) (by decide) (sampleState 5 (fun _ => 0)) (by rfl) 0 (by rfl)
    have ha5 : a = 5 := by
      have : some a = some 5 := ha.symm.trans (by rfl)
      exact Option.some.inj this
    subst ha5
    obtain ⟨e5, h1, h2, h3, _⟩ := hfall (by decide)
    exact ⟨e5, h1, h2, h3⟩

end decoder

namespace decoder

/-- The lowering of `list_alloc`, path by path. `n` is the element count read from the frame
counter, `m1` the memory after the store of `len`, `c` the capacity read from it. -/
theorem list_alloc_spec (D : Defs) (env : Env) (s : List Instr) (P : ir.Program) (k : Nat)
    (v : Instr) (h : Translate D s = some P) (hk : s[k]? = some v)
    (hop : v.Op = decoder.OpCode.OP_list_alloc) (a : Nat) (ha : addrOf D s (mark k) = some a)
    (e : Emulator) (hpc : e.pc = some a) (n : Nat)
    (hn : n = loadN e.mem (((e.pv RS + e.uv ST) % W64 + D.NbOffset) % W64) 8) (m1 : Mem)
    (hm1 : m1 = storeN e.mem ((e.pv WP + 8) % W64) 8 n) (c : Nat)
    (hc : c = loadN m1 ((e.pv WP + 16) % W64) 8) :
    (n = 0 → c ≠ 0 →
      ∃ e1, steps env P.code 7 e = some e1 ∧ e1.pc = some (a + 18) ∧ e1.mem = m1 ∧
        e1.pv WP = loadN m1 (e.pv WP % W64) 8) ∧
    (n = 0 → c = 0 →
      ∃ e1, steps env P.code 11 e = some e1 ∧ e1.pc = some (a + 18) ∧
        e1.mem = storeN (storeN m1 (e.pv WP % W64) 8 D.V_zerovalue) ((e.pv WP + 16) % W64) 8 0 ∧
        e1.pv WP = loadN e1.mem (e.pv WP % W64) 8) ∧
    (n ≠ 0 → n ≤ c →
      ∃ e1, steps env P.code 7 e = some e1 ∧ e1.pc = some (a + 18) ∧ e1.mem = m1 ∧
        e1.pv WP = loadN m1 (e.pv WP % W64) 8) ∧
    (n ≠ 0 → c < n →
      ∃ e1, steps env P.code 13 e = some e1 ∧ e1.pc = some (a + 18) ∧
        e1.mem = storeN (env.LookupCall D.F_mallocgc [(n * v.Vt.Size) % W64, v.Vt.addr, 1]
            (storeN m1 ((e.pv WP + 16) % W64) 8 n)).2 (e.pv WP % W64) 8
          ((env.LookupCall D.F_mallocgc [(n * v.Vt.Size) % W64, v.Vt.addr, 1]
            (storeN m1 ((e.pv WP + 16) % W64) 8 n)).1.headD 0 % W64) ∧
        e1.pv WP = loadN e1.mem (e.pv WP % W64) 8) := by
  have hm : translators D k v = some (translate_OP_list_alloc D k v) := by
    simp [translators, hop]
  obtain ⟨E, a1, pre, hT, _, _, ha1, hle, hfetch, hloc⟩ := lowering_code D s P h k v hk _ hm
  rw [ha] at ha1
  cases ha1
  have hlen : (instrs (translate_OP_list_alloc D k v)).length = 18 := rfl
  rw [hlen] at hle
  have halloc := hloc "_alloc_{n}" 10 (by simp [translate_OP_list_alloc, labelIndex])
  have hdone := hloc "_done_{n}" 17 (by simp [translate_OP_list_alloc, labelIndex])
  have c0 := hfetch 0 _ rfl
  have c1 := hfetch 1 _ rfl
  have c2 := hfetch 2 _ rfl
  have c3 := hfetch 3 _ rfl
  have c4 := hfetch 4 _ rfl
  have c5 := hfetch 5 _ rfl
  have c6 := hfetch 6 _ rfl
  have c7 := hfetch 7 _ rfl
  have c8 := hfetch 8 _ rfl
  have c9 := hfetch 9 _ rfl
  have c10 := hfetch 10 _ rfl
  have c11 := hfetch 11 _ rfl
  have c12 := hfetch 12 _ rfl
  have c13 := hfetch 13 _ rfl
  have c14 := hfetch 14 _ rfl
  have c15 := hfetch 15 _ rfl
  have c16 := hfetch 16 _ rfl
  have c17 := hfetch 17 _ rfl
  rw [linkInstr_plain _ _ _ _ rfl rfl (by omega)] at c0 c1 c2 c3 c6 c7 c8 c11 c12 c13
  rw [linkInstr_plain _ _ _ _ rfl rfl (by omega)] at c14 c15 c16 c17
  rw [linkInstr_br _ _ _ _ _ (a + 10) rfl halloc rfl (by omega)] at c4
  rw [linkInstr_br _ _ _ _ _ (a + 17) rfl hdone rfl (by omega)] at c5 c9 c10
  simp [instrs, translate_OP_list_alloc] at c0 c1 c2 c3 c4 c5 c6 c7 c8 c9
  simp [instrs, translate_OP_list_alloc] at c10 c11 c12 c13 c14 c15 c16 c17
  have hnlt : n < W64 := by rw [hn]; exact loadN_8_lt _ _
  have hclt : c < W64 := by rw [hc]; exact loadN_8_lt _ _
  have hsn : sext 64 (loadN e.mem ((e.pv RS + e.uv ST + D.NbOffset) % W64) 8) = n := by
    rw [sext_64, ← Nat.mod_add_mod, ← hn, Nat.mod_eq_of_lt hnlt]
  have e8 : ∀ b, ea b 8 = (b + 8) % W64 := fun b => by simp [ea]
  have e16 : ∀ b, ea b 16 = (b + 16) % W64 := fun b => by simp [ea]
  have hsc : sext 64 (loadN (storeN e.mem ((e.pv WP + 8) % W64) 8 n) ((e.pv WP + 16) % W64) 8)
      = c := by
    rw [sext_64, ← hm1, ← hc, Nat.mod_eq_of_lt hclt]
  have hmul : n * (v.Vt.Size % W64) % W64 = n * v.Vt.Size % W64 := by
    rw [Nat.mul_mod, Nat.mod_mod, ← Nat.mul_mod]
  obtain ⟨e4, s4, p4, t4, u4, m4, w4⟩ : ∃ e4, steps env P.code 4 e = some e4 ∧
      e4.pc = some (a + 4) ∧ e4.uv TR = n ∧ e4.uv UR = c ∧ e4.mem = m1 ∧
      e4.pv WP = e.pv WP := by
    simp [steps, step, hpc, c0, c1, c2, c3, exec, advance, setG_apply, setP_apply, ea_natCast,
      e8, e16, hsn, hsc, hm1]
  refine ⟨?_, ?_, ?_, ?_⟩
  · intro hz hcz
    rw [hz] at t4
    obtain ⟨e1, q1, q2, q3, q4⟩ : ∃ e1, steps env P.code 3 e4 = some e1 ∧
        e1.pc = some (a + 18) ∧ e1.mem = e4.mem ∧ e1.pv WP = loadN e4.mem (e4.pv WP % W64) 8 := by
      simp [steps, step, p4, c4, c5, c17, exec, advance, setG_apply, setP_apply, t4, u4, hcz]
    refine ⟨e1, ?_, q2, by rw [q3, m4], by rw [q4, m4, w4]⟩
    rw [show 7 = 4 + 3 from rfl, steps_add, s4]
    exact q1
  · intro hz hcz
    rw [hz] at t4
    rw [hcz] at u4
    obtain ⟨e1, q1, q2, q3, q4⟩ : ∃ e1, steps env P.code 7 e4 = some e1 ∧
        e1.pc = some (a + 18) ∧
        e1.mem = storeN (storeN e4.mem (e4.pv WP % W64) 8 D.V_zerovalue)
          ((e4.pv WP + 16) % W64) 8 0 ∧
        e1.pv WP = loadN e1.mem (e4.pv WP % W64) 8 := by
      simp [steps, step, p4, c4, c5, c6, c7, c8, c9, c17, exec, advance, setG_apply, setP_apply,
        ea_natCast, e8, e16, t4, u4]
    refine ⟨e1, ?_, q2, by rw [q3, m4, w4], by rw [q4, w4]⟩
    rw [show 11 = 4 + 7 from rfl, steps_add, s4]
    exact q1
  · intro hnz hle2
    obtain ⟨e1, q1, q2, q3, q4⟩ : ∃ e1, steps env P.code 3 e4 = some e1 ∧
        e1.pc = some (a + 18) ∧ e1.mem = e4.mem ∧ e1.pv WP = loadN e4.mem (e4.pv WP % W64) 8 := by
      simp [steps, step, p4, c4, c10, c17, exec, advance, setG_apply, setP_apply, t4, u4, hnz,
        hle2]
    refine ⟨e1, ?_, q2, by rw [q3, m4], by rw [q4, m4, w4]⟩
    rw [show 7 = 4 + 3 from rfl, steps_add, s4]
    exact q1
  · intro hnz hlt
    obtain ⟨e10, r1, r2, r3, r4, r5, r6, r7⟩ : ∃ e10, steps env P.code 6 e4 = some e10 ∧
        e10.pc = some (a + 15) ∧ e10.uv TR = (n * v.Vt.Size) % W64 ∧ e10.uv UR = 1 ∧
        e10.pv TP = v.Vt.addr ∧ e10.mem = storeN e4.mem ((e4.pv WP + 16) % W64) 8 n ∧
        e10.pv WP = e4.pv WP := by
      simp [steps, step, p4, c4, c10, c11, c12, c13, c14, exec, advance, setG_apply, setP_apply,
        ea_natCast, e8, e16, t4, u4, hnz, Nat.not_le.mpr hlt, toU64_natCast, hmul]
    obtain ⟨e1, q1, q2, q3, q4⟩ : ∃ e1, steps env P.code 3 e10 = some e1 ∧
        e1.pc = some (a + 18) ∧
        e1.mem = storeN (env.LookupCall D.F_mallocgc [e10.uv TR, e10.pv TP, e10.uv UR]
            e10.mem).2 (e10.pv WP % W64) 8
          ((env.LookupCall D.F_mallocgc [e10.uv TR, e10.pv TP, e10.uv UR]
            e10.mem).1.headD 0 % W64) ∧
        e1.pv WP = loadN e1.mem (e10.pv WP % W64) 8 := by
      simp [steps, step, r2, c15, c16, c17, exec, advance, setG_apply, setP_apply, Call,
        writeRets, Emulator.setReg, Emulator.SetGr, Emulator.SetPr, Emulator.reg, Emulator.Gr,
        Emulator.Pr]
    refine ⟨e1, ?_, q2, by rw [q3, r3, r4, r5, r6, r7, m4, w4], by rw [q4, r7, w4]⟩
    rw [show 13 = 4 + (6 + 3) from rfl, steps_add, s4]
    simp only [Option.bind_eq_bind, Option.some_bind]
    rw [steps_add, r1]
    exact q1

end decoder

namespace decoder

/-- C26. The lowering of `list_alloc` on a slice header at `wp` (data pointer at `wp`, `len` at
`wp + 8`, `cap` at `wp + 16`), with the element count `n` in the frame counter and the previous
capacity `c`: afterwards `len = n` and `cap = max(c, n)`, and `WP` is the data pointer. When
`n <= c` the outcome does not depend on the call handles, `mallocgc` is not called: the data
pointer is kept, except that for `n = 0` and `c = 0` it is set to the address of the zero
value. When `c < n` (unsigned), `mallocgc` is called with the size `n * Size`, the element type
and 1, and its result becomes the data pointer; the helper is taken to leave `len` and `cap`
of the header alone. -/
theorem list_alloc_header (D : Defs) (env : Env) (s : List Instr) (P : ir.Program) (k : Nat)
    (v : Instr) (h : Translate D s = some P) (hk : s[k]? = some v)
    (hop : v.Op = decoder.OpCode.OP_list_alloc) (e : Emulator)
    (hpc : e.pc = addrOf D s (mark k)) (wp n c : Nat) (hwp : wp = e.pv WP)
    (hfit : wp + 24 ≤ W64)
    (hn : n = loadN e.mem (((e.pv RS + e.uv ST) % W64 + D.NbOffset) % W64) 8)
    (hc : c = loadN e.mem (wp + 16) 8)
    (hkeep : ∀ x, wp + 8 ≤ x → x < wp + 24 →
      (env.LookupCall D.F_mallocgc [(n * v.Vt.Size) % W64, v.Vt.addr, 1]
        (storeN (storeN e.mem (wp + 8) 8 n) (wp + 16) 8 n)).2 x =
      storeN (storeN e.mem (wp + 8) 8 n) (wp + 16) 8 n x) :
    ∃ t e1 a, addrOf D s (mark k) = some a ∧ steps env P.code t e = some e1 ∧
      e1.pc = some (a + 18) ∧
      loadN e1.mem (wp + 8) 8 = n ∧ loadN e1.mem (wp + 16) 8 = max c n ∧
      e1.pv WP = loadN e1.mem wp 8 ∧
      (n ≤ c → ∀ env2 : Env, ∃ e2, steps env2 P.code t e = some e2 ∧ e2.pc = e1.pc ∧
        e2.mem = e1.mem ∧ e2.pv WP = e1.pv WP) ∧
      (n = 0 → c = 0 → loadN e1.mem wp 8 = D.V_zerovalue % W64) ∧
      (n ≤ c → ¬ (n = 0 ∧ c = 0) → loadN e1.mem wp 8 = loadN e.mem wp 8) ∧
      (c < n →
        loadN e1.mem wp 8 = (env.LookupCall D.F_mallocgc [(n * v.Vt.Size) % W64, v.Vt.addr, 1]
          (storeN (storeN e.mem (wp + 8) 8 n) (wp + 16) 8 n)).1.headD 0 % W64 ∧
        e1.mem = storeN (env.LookupCall D.F_mallocgc [(n * v.Vt.Size) % W64, v.Vt.addr, 1]
            (storeN (storeN e.mem (wp + 8) 8 n) (wp + 16) 8 n)).2 wp 8
          ((env.LookupCall D.F_mallocgc [(n * v.Vt.Size) % W64, v.Vt.addr, 1]
            (storeN (storeN e.mem (wp + 8) 8 n) (wp + 16) 8 n)).1.headD 0 % W64)) := by
  obtain ⟨a, ha⟩ := addrOf_mark_exists D s P h k v hk
  rw [ha] at hpc
  have hW64 : W64 = 18446744073709551616 := rfl
  have hP : (256 : Nat) ^ 8 = W64 := by norm_num
  have w0 : e.pv WP % W64 = wp := by rw [← hwp]; exact Nat.mod_eq_of_lt (by omega)
  have w8 : (e.pv WP + 8) % W64 = wp + 8 := by rw [← hwp]; exact Nat.mod_eq_of_lt (by omega)
  have w16 : (e.pv WP + 16) % W64 = wp + 16 := by rw [← hwp]; exact Nat.mod_eq_of_lt (by omega)
  have hnlt : n < W64 := by rw [hn]; exact loadN_8_lt _ _
  have hc1 : c = loadN (storeN e.mem ((e.pv WP + 8) % W64) 8 n) ((e.pv WP + 16) % W64) 8 := by
    rw [w8, w16, loadN_storeN_disjoint _ _ _ _ _ _ (Or.inr (by omega))]
    exact hc
  have hlen1 : loadN (storeN e.mem (wp + 8) 8 n) (wp + 8) 8 = n := by
    rw [loadN_storeN_same, hP]
    exact Nat.mod_eq_of_lt hnlt
  have hcap1 : loadN (storeN e.mem (wp + 8) 8 n) (wp + 16) 8 = c := by
    rw [loadN_storeN_disjoint _ _ _ _ _ _ (Or.inr (by omega))]
    exact hc.symm
  have hptr1 : loadN (storeN e.mem (wp + 8) 8 n) wp 8 = loadN e.mem wp 8 :=
    loadN_storeN_disjoint _ _ _ _ _ _ (Or.inl (by omega))
  have hspec := fun env2 : Env =>
    list_alloc_spec D env2 s P k v h hk hop a ha e hpc n hn _ rfl c hc1
  simp only [w0, w8, w16] at hspec
  by_cases hz : n = 0
  · by_cases hcz : c = 0
    · obtain ⟨e1, q1, q2, q3, q4⟩ := (hspec env).2.1 hz hcz
      have hlen : loadN e1.mem (wp + 8) 8 = n := by
        rw [q3, loadN_storeN_disjoint _ _ _ _ _ _ (Or.inl (by omega)),
          loadN_storeN_disjoint _ _ _ _ _ _ (Or.inr (by omega))]
        exact hlen1
      have hcap : loadN e1.mem (wp + 16) 8 = max c n := by
        rw [q3, loadN_storeN_same, hz, hcz]
        rfl
      have hptr : loadN e1.mem wp 8 = D.V_zerovalue % W64 := by
        rw [q3, loadN_storeN_disjoint _ _ _ _ _ _ (Or.inl (by omega)), loadN_storeN_same, hP]
      refine ⟨11, e1, a, ha, q1, q2, hlen, hcap, q4, ?_, fun _ _ => hptr,
        fun _ hno => absurd ⟨hz, hcz⟩ hno, fun hlt => by omega⟩
      intro _ env2
      obtain ⟨e2, r1, r2, r3, r4⟩ := (hspec env2).2.1 hz hcz
      exact ⟨e2, r1, by rw [r2, q2], by rw [r3, q3], by rw [r4, q4, r3, q3]⟩
    · obtain ⟨e1, q1, q2, q3, q4⟩ := (hspec env).1 hz hcz
      have hcap : loadN e1.mem (wp + 16) 8 = max c n := by
        rw [q3, hcap1, hz]
        exact (Nat.max_eq_left (Nat.zero_le _)).symm
      have hptr : loadN e1.mem wp 8 = loadN e.mem wp 8 := by rw [q3, hptr1]
      refine ⟨7, e1, a, ha, q1, q2, by rw [q3, hlen1], hcap, by rw [q4, q3], ?_,
        fun _ hc0 => absurd hc0 hcz, fun _ _ => hptr, fun hlt => by omega⟩
      intro _ env2
      obtain ⟨e2, r1, r2, r3, r4⟩ := (hspec env2).1 hz hcz
      exact ⟨e2, r1, by rw [r2, q2], by rw [r3, q3], by rw [r4, q4]⟩
  · by_cases hle : n ≤ c
    · obtain ⟨e1, q1, q2, q3, q4⟩ := (hspec env).2.2.1 hz hle
      have hcap : loadN e1.mem (wp + 16) 8 = max c n := by
        rw [q3, hcap1]
        exact (Nat.max_eq_left hle).symm
      have hptr : loadN e1.mem wp 8 = loadN e.mem wp 8 := by rw [q3, hptr1]
      refine ⟨7, e1, a, ha, q1, q2, by rw [q3, hlen1], hcap, by rw [q4, q3], ?_,
        fun hn0 _ => absurd hn0 hz, fun _ _ => hptr, fun hlt => by omega⟩
      intro _ env2
      obtain ⟨e2, r1, r2, r3, r4⟩ := (hspec env2).2.2.1 hz hle
      exact ⟨e2, r1, by rw [r2, q2], by rw [r3, q3], by rw [r4, q4]⟩
    · have hlt : c < n := Nat.not_le.mp hle
      obtain ⟨e1, q1, q2, q3, q4⟩ := (hspec env).2.2.2 hz hlt
      have hm2len : loadN (storeN (storeN e.mem (wp + 8) 8 n) (wp + 16) 8 n) (wp + 8) 8 = n := by
        rw [loadN_storeN_disjoint _ _ _ _ _ _ (Or.inl (by omega))]
        exact hlen1
      have hm2cap : loadN (storeN (storeN e.mem (wp + 8) 8 n) (wp + 16) 8 n) (wp + 16) 8 = n := by
        rw [loadN_storeN_same, hP]
        exact Nat.mod_eq_of_lt hnlt
      have hlen : loadN e1.mem (wp + 8) 8 = n := by
        rw [q3, loadN_storeN_disjoint _ _ _ _ _ _ (Or.inr (by omega))]
        exact (loadN_congr _ _ 8 (wp + 8) (fun x h1 h2 => hkeep x h1 (by omega))).trans hm2len
      have hcap : loadN e1.mem (wp + 16) 8 = max c n := by
        rw [q3, loadN_storeN_disjoint _ _ _ _ _ _ (Or.inr (by omega)),
          Nat.max_eq_right (Nat.le_of_lt hlt)]
        exact (loadN_congr _ _ 8 (wp + 16)
          (fun x h1 h2 => hkeep x (by omega) (by omega))).trans hm2cap
      have hptr : loadN e1.mem wp 8 =
          (env.LookupCall D.F_mallocgc [(n * v.Vt.Size) % W64, v.Vt.addr, 1]
            (storeN (storeN e.mem (wp + 8) 8 n) (wp + 16) 8 n)).1.headD 0 % W64 := by
        rw [q3, loadN_storeN_same, hP, Nat.mod_mod]
      exact ⟨13, e1, a, ha, q1, q2, hlen, hcap, q4, fun hh => absurd hh hle,
        fun hn0 _ => absurd hn0 hz, fun hh => absurd hh hle, fun _ => ⟨hptr, q3⟩⟩

/-- Witness of `list_alloc_header`: a header at 1024 with capacity 0 and a frame counter of 3,
elements of size 4: the sample `mallocgc` handle answers 4160; afterwards `len = 3`, `cap = 3`
and `WP = 4160`. -/
theorem list_alloc_header_witness :
    ∃ t e1, steps sampleEnv
        (sampleProgram [{ Op := decoder.OpCode.OP_list_alloc, Vt := { addr := 77, Size := 4 } },
          { Op := decoder.OpCode.OP_halt }]).code t
        (sampleState 5 (fun x => if x = 4096 then 3 else 0)) = some e1 ∧
      loadN e1.mem 1032 8 = 3 ∧ loadN e1.mem 1040 8 = 3 ∧ e1.pv WP = 4160 := by
  obtain ⟨t, e1, a, _, h1, _, h3, h4, h5, _, _, _, h9⟩ := list_alloc_header sampleDefs sampleEnv
    [{ Op := decoder.OpCode.OP_list_alloc, Vt := { addr := 77, Size := 4 } },
      { Op := decoder.OpCode.OP_halt }] _ 0
    { Op := decoder.OpCode.OP_list_alloc, Vt := { addr := 77, Size := 4 } } (by rfl) (by rfl)
    (by rfl) (sampleState 5 (fun x => if x = 4096 then 3 else 0)) (by rfl) 1024 3 0 (by rfl)
    (by decide) (by rfl) (by rfl) (fun _ _ _ => rfl)
  obtain ⟨h10, _⟩ := h9 (by decide)
  exact ⟨t, e1, h1, h3, h4, by rw [h5, h10]; rfl⟩

end decoder

namespace decoder

theorem newFieldBitmap_getD (D : Defs) (n w : Nat) :
    (newFieldBitmap D n).getD w 0 = if w < D.MaxBitmap then D.pooled n w % W64 else 0 := by
  simp only [newFieldBitmap, List.getD_eq_getElem?_getD]
  by_cases hw : w < D.MaxBitmap
  · simp [hw, List.getElem?_map, List.getElem?_range]
  · have hn : (List.range D.MaxBitmap)[w]? = none :=
      List.getElem?_eq_none (by simp only [List.length_range]; omega)
    simp [hw, List.getElem?_map, hn]

/-- The template a lowering builds for a table of field ids `R` on the bitmap the pooled
constructor hands it: word `w` has bit `b` set exactly when the pooled bitmap had it set or
`b < 64` and `64 w + b` is in `R`; the words fit 64 bits. -/
theorem template_spec (D : Defs) (n : Nat) (R : List Nat) (W : List Nat)
    (h : appendAll D (newFieldBitmap D n) (R.map Int.ofNat) = some W) :
    W.length = D.MaxBitmap ∧ (∀ f ∈ R, f < 64 * D.MaxBitmap) ∧
    (∀ w b, (W.getD w 0).testBit b =
      ((decide (w < D.MaxBitmap) && (D.pooled n w % W64).testBit b) ||
        decide (b < 64 ∧ 64 * w + b ∈ R))) ∧
    ∀ w, W.getD w 0 < W64 := by
  obtain ⟨h1, h2, h3⟩ := appendAll_spec D _ _ W (by simp [newFieldBitmap]) h
  have h4 : ∀ w b, (W.getD w 0).testBit b =
      ((decide (w < D.MaxBitmap) && (D.pooled n w % W64).testBit b) ||
        decide (b < 64 ∧ 64 * w + b ∈ R)) := by
    intro w b
    rw [h3 w b, newFieldBitmap_getD]
    have hmem : (((64 * w + b : Nat) : Int) ∈ R.map Int.ofNat) ↔ 64 * w + b ∈ R := by
      constructor
      · intro hh
        obtain ⟨a, ha, hha⟩ := List.mem_map.mp hh
        have : a = 64 * w + b := Int.ofNat.inj hha
        rw [← this]
        exact ha
      · intro hh
        exact List.mem_map.mpr ⟨_, hh, rfl⟩
    by_cases hw : w < D.MaxBitmap
    · simp only [hw, if_true, decide_True, Bool.true_and, hmem]
    · simp only [hw, if_false, decide_False, Bool.false_and, Nat.zero_testBit, hmem]
  refine ⟨h1, ?_, h4, ?_⟩
  · intro f hf
    have := (h2 (f : Int) (List.mem_map.mpr ⟨f, hf, rfl⟩)).2
    omega
  · intro w
    show W.getD w 0 < 2 ^ 64
    apply Nat.lt_pow_two_of_testBit
    intro b hb
    rw [h4 w b]
    have hp : (D.pooled n w % W64).testBit b = false := by
      apply Nat.testBit_lt_two_pow
      have h1 : D.pooled n w % W64 < 2 ^ 64 := Nat.mod_lt _ (by decide)
      exact lt_of_lt_of_le h1 (Nat.pow_le_pow_right (by decide) hb)
    have hd : ¬ (b < 64 ∧ 64 * w + b ∈ R) := fun hh => by omega
    simp [hp, hd]

/-- The stores of `clearWords` leave the words alone whose template word is zero. -/
theorem clearedMem_keep (tp : Nat) : ∀ (ws : List Nat) (i : Nat) (m : Mem) (j : Nat),
    j < ws.length → ws.getD j 0 = 0 → tp + 8 * (i + ws.length) ≤ W64 →
    loadN (clearedMem m tp i ws) (tp + 8 * (i + j)) 8 = loadN m (tp + 8 * (i + j)) 8 := by
  intro ws
  induction ws with
  | nil => intro i m j hj; simp at hj
  | cons w ws ih =>
    intro i m j hj hz hfit
    simp only [List.length_cons] at hj hfit
    cases j with
    | zero =>
      have hw : w = 0 := by simpa using hz
      simp only [clearedMem, hw, ne_eq, not_true_eq_false, if_false, Nat.add_zero]
      exact loadN_congr _ _ 8 (tp + 8 * i)
        (fun x h1 h2 => clearedMem_outside tp ws (i + 1) _ x (by omega) (by omega))
    | succ j =>
      simp only [clearedMem]
      have := ih (i + 1) (if w ≠ 0 then storeN m (ea tp ((i : Int) * 8)) 8 0 else m) j
        (by omega) (by simpa using hz) (by omega)
      rw [show tp + 8 * (i + (j + 1)) = tp + 8 * (i + 1 + j) by omega, this]
      split
      · rw [ea_word, Nat.mod_eq_of_lt (by omega)]
        exact loadN_storeN_disjoint _ _ _ _ _ _ (by omega)
      · rfl

/-- After the lowering of `struct_bitmap` no field is marked: the words of its template are
cleared, the other words are as the allocation helper left them. -/
theorem cleared_holds (D : Defs) (W : List Nat) (m : Mem) (slot bm : Nat)
    (hlen : W.length = D.MaxBitmap) (hfit : bm + 8 * D.MaxBitmap ≤ W64)
    (hdis : slot + 8 ≤ bm ∨ bm + 8 * D.MaxBitmap ≤ slot) (hbm : bm < W64) :
    bitmapHolds D W m (clearedMem (storeN m slot 8 bm) bm 0 W) slot bm [] := by
  constructor
  · rw [loadN_congr _ (storeN m slot 8 bm) 8 slot
      (fun x h1 h2 => clearedMem_outside bm W 0 _ x (by rw [hlen]; omega) (by rw [hlen]; omega))]
    rw [loadN_storeN_same]
    apply Nat.mod_eq_of_lt
    have : (256 : Nat) ^ 8 = W64 := by norm_num [W64]
    rw [this]
    exact hbm
  · intro w hw b
    by_cases hne : W.getD w 0 = 0
    · have := clearedMem_keep bm W 0 (storeN m slot 8 bm) w (by omega) hne (by rw [hlen]; omega)
      rw [Nat.zero_add] at this
      rw [this, loadN_storeN_disjoint _ _ _ _ _ _ (by omega), hne]
      simp
    · have := clearedMem_word bm W 0 (storeN m slot 8 bm) w (by omega) hne (by rw [hlen]; omega)
      rw [Nat.zero_add] at this
      rw [this, decide_eq_false hne]
      simp

/-- Marking a field keeps the bitmap state, with the field added to the marked ones. -/
theorem mark_holds (D : Defs) (W : List Nat) (m0 m : Mem) (slot bm : Nat) (M : List Nat)
    (f : Nat) (hfit : bm + 8 * D.MaxBitmap ≤ W64)
    (hdis : slot + 8 ≤ bm ∨ bm + 8 * D.MaxBitmap ≤ slot) (hf : f < 64 * D.MaxBitmap)
    (hM : bitmapHolds D W m0 m slot bm M) :
    bitmapHolds D W m0
      (storeN m ((bm + 8 * (f / 64)) % W64) 8
        (loadN m ((bm + 8 * (f / 64)) % W64) 8 ||| 1 <<< (f % 64))) slot bm (M ++ [f]) := by
  have hw0 : f / 64 < D.MaxBitmap := by omega
  have hlt : bm + 8 * (f / 64) < W64 := by omega
  rw [Nat.mod_eq_of_lt hlt]
  obtain ⟨h1, h2⟩ := hM
  constructor
  · rw [loadN_storeN_disjoint _ _ _ _ _ _ (by omega)]
    exact h1
  · intro w hw b
    by_cases hwf : w = f / 64
    · subst hwf
      rw [loadN_storeN_same]
      have hsh : 1 <<< (f % 64) < 2 ^ 64 := by
        rw [Nat.one_shiftLeft]
        exact Nat.pow_lt_pow_right (by decide) (Nat.mod_lt _ (by decide))
      have hld : loadN m (bm + 8 * (f / 64)) 8 < 2 ^ 64 := loadN_8_lt _ _
      have hor := Nat.or_lt_two_pow hld hsh
      rw [show (256 : Nat) ^ 8 = 2 ^ 64 by norm_num, Nat.mod_eq_of_lt hor, Nat.testBit_or,
        h2 _ hw b, testBit_one_shiftLeft]
      by_cases hb : b < 64
      · by_cases hbf : f % 64 = b
        · have : 64 * (f / 64) + b = f := by omega
          simp [hb, hbf, this]
        · have : ¬ (64 * (f / 64) + b = f) := by omega
          simp [hb, hbf, this]
      · have : ¬ (f % 64 = b) := by omega
        simp [hb, this]
    · rw [loadN_storeN_disjoint _ _ _ _ _ _ (by omega), h2 _ hw b]
      by_cases hb : b < 64
      · have : ¬ (64 * w + b = f) := by omega
        simp [hb, this]
      · simp [hb]

/-- The residue `struct_require` computes for a word: the bits of the mask that are clear in
the bitmap word. -/
theorem residue_testBit (m : Mem) (bm w x : Nat) (hfit : bm + 8 * w < W64) (hx : x < W64)
    (b : Nat) :
    (residue m bm w x).testBit b = (x.testBit b && !(loadN m (bm + 8 * w) 8).testBit b) := by
  unfold residue
  rw [ea_word, Nat.mod_eq_of_lt hfit, sext_64, Nat.mod_eq_of_lt (loadN_8_lt _ _),
    toU64_toI64, Nat.mod_eq_of_lt hx, Nat.testBit_xor, Nat.testBit_and]
  cases x.testBit b <;> cases (loadN m (bm + 8 * w) 8).testBit b <;> rfl

end decoder

namespace decoder

/-- The lowering of `goto`: one `jal` that links into `Pn`, to the lowering of the target. -/
theorem goto_spec (D : Defs) (env : Env) (s : List Instr) (P : ir.Program) (k : Nat)
    (v : Instr) (h : Translate D s = some P) (hk : s[k]? = some v)
    (hop : v.Op = decoder.OpCode.OP_goto) (t : Nat) (ht : addrOf D s (mark v.To) = some t)
    (a : Nat) (ha : addrOf D s (mark k) = some a) (e : Emulator) (hpc : e.pc = some a) :
    ∃ e1, steps env P.code 1 e = some e1 ∧ e1.pc = some t ∧ e1.mem = e.mem ∧
      e1.pv RS = e.pv RS ∧ e1.uv ST = e.uv ST := by
  have hm : translators D k v = some (translate_OP_goto v) := by simp [translators, hop]
  obtain ⟨E, a1, pre, hT, _, _, ha1, hle, hfetch, _⟩ := lowering_code D s P h k v hk _ hm
  rw [ha] at ha1
  cases ha1
  have hlen : (instrs (translate_OP_goto v)).length = 1 := rfl
  rw [hlen] at hle
  have c0 := hfetch 0 _ rfl
  rw [linkInstr_br _ _ _ _ _ t rfl ht rfl (by omega)] at c0
  simp [instrs, translate_OP_goto] at c0
  simp [steps, step, hpc, c0, exec, advance, setG_apply, setP_apply]

/-- Along a run of marks the frame is kept and the bitmap holds the marked fields. -/
theorem marks_holds (D : Defs) (env : Env) (s : List Instr) (P : ir.Program)
    (h : Translate D s = some P) (W : List Nat) (m0 : Mem) (slot bm : Nat) (e0 : Emulator)
    (hfit : bm + 8 * D.MaxBitmap ≤ W64)
    (hdis : slot + 8 ≤ bm ∨ bm + 8 * D.MaxBitmap ≤ slot)
    (hslot : slot = ((e0.pv RS + e0.uv ST) % W64 + D.FmOffset) % W64)
    (h0 : bitmapHolds D W m0 e0.mem slot bm []) (M : List Nat) (e : Emulator)
    (hM : Marks D env s P slot bm e0 M e) :
    (∃ t, steps env P.code t e0 = some e) ∧ e.pv RS = e0.pv RS ∧ e.uv ST = e0.uv ST ∧
      bitmapHolds D W m0 e.mem slot bm M ∧ ∀ f ∈ M, f < 64 * D.MaxBitmap := by
  induction hM with
  | start => exact ⟨⟨0, rfl⟩, rfl, rfl, h0, by simp⟩
  | tag M e e1 k v f _ hk hop hiv hf hpc hs ih =>
    obtain ⟨⟨t, ht⟩, g1, g2, hB, hlt⟩ := ih
    obtain ⟨a, ha⟩ := addrOf_mark_exists D s P h k v hk
    rw [ha] at hpc
    obtain ⟨_, e2, q1, _, q3, r1, _, _, _, r5, _⟩ :=
      mark_tag_spec D env s P k v h hk hop f hiv a ha e hpc
    rw [hs] at q1
    cases q1
    refine ⟨⟨t + 5, ?_⟩, by rw [r1, g1], by rw [r5, g2], ?_, ?_⟩
    · rw [steps_add, ht]
      exact hs
    · rw [q3, g1, g2, ← hslot, hB.1]
      exact mark_holds D W m0 e.mem slot bm M f hfit hdis hf hB
    · intro x hx
      rcases List.mem_append.mp hx with hx | hx
      · exact hlt x hx
      · rw [List.mem_singleton.mp hx]
        exact hf
  | other M e e1 t _ hs hrs hst hsl hbmem ih =>
    obtain ⟨⟨t0, ht⟩, g1, g2, hB, hlt⟩ := ih
    refine ⟨⟨t0 + t, ?_⟩, by rw [hrs, g1], by rw [hst, g2], ?_, hlt⟩
    · rw [steps_add, ht]
      exact hs
    · constructor
      · rw [loadN_congr e1.mem e.mem 8 slot hsl]
        exact hB.1
      · intro w hw b
        rw [loadN_congr e1.mem e.mem 8 (bm + 8 * w)
          (fun x h1 h2 => hbmem x (by omega) (by omega))]
        exact hB.2 w hw b

/-- A `struct_bitmap` lowering, any run of marks on its frame, then a `struct_require`
lowering: the templates the two lowerings build, the state in which the lowering of
`struct_bitmap` ends, the bitmap that `struct_require` finds, and its two outcomes. -/
theorem require_reached (D : Defs) (env : Env) (s : List Instr) (P : ir.Program)
    (h : Translate D s = some P) (kb kr : Nat) (vb vr : Instr)
    (hkb : s[kb]? = some vb) (hopb : vb.Op = decoder.OpCode.OP_struct_bitmap)
    (hkr : s[kr]? = some vr) (hopr : vr.Op = decoder.OpCode.OP_struct_require)
    (a : Nat) (ha : addrOf D s (mark kb) = some a) (e : Emulator) (hpc : e.pc = some a)
    (bm slot : Nat) (hbm : bm = (env.LookupCall D.F_newFiedBitmap [] e.mem).1.headD 0 % W64)
    (hslot : slot = ((e.pv RS + e.uv ST) % W64 + D.FmOffset) % W64)
    (hfit : bm + 8 * D.MaxBitmap ≤ W64)
    (hdis : slot + 8 ≤ bm ∨ bm + 8 * D.MaxBitmap ≤ slot) :
    ∃ Wb Wr e0 a1,
      appendAll D (newFieldBitmap D kb) (mkstab vb.Sw vb.Iv) = some Wb ∧
      appendAll D (newFieldBitmap D kr) (mkstab vr.Sw vr.Iv) = some Wr ∧
      steps env P.code (3 + (instrs (clearWords 0 Wb)).length) e = some e0 ∧
      e0.pc = some (a + (3 + (instrs (clearWords 0 Wb)).length)) ∧
      addrOf D s (mark kr) = some a1 ∧
      ∀ M e1, Marks D env s P slot bm e0 M e1 → e1.pc = some a1 →
        (∃ t, steps env P.code t e0 = some e1) ∧
        bitmapHolds D Wb (env.LookupCall D.F_newFiedBitmap [] e.mem).2 e1.mem slot bm M ∧
        (∀ f ∈ M, f < 64 * D.MaxBitmap) ∧
        (firstMissing e1.mem bm 0 Wr = none →
          ∃ e2, steps env P.code (2 + (instrs (testWords vr 0 Wr)).length + 2) e1 = some e2 ∧
            e2.pc = some (a1 + (2 + (instrs (testWords vr 0 Wr)).length + 2))) ∧
        (∀ w r, firstMissing e1.mem bm 0 Wr = some (w, r) →
          ∃ t2 e2, steps env P.code t2 e1 = some e2 ∧ e2.pc = addrOf D s LB_missing ∧
            e2.uv UR = w % W64 ∧ e2.uv TR = r ∧ e2.pv ET = vr.Vt.addr ∧ e2.mem = e1.mem) := by
  obtain ⟨body, hb, _, _⟩ := Translate_items D s P h
  obtain ⟨_, midb, _, _, hmidb, _⟩ := program_split D s 0 kb vb body hb hkb
  obtain ⟨_, midr, _, _, hmidr, _⟩ := program_split D s 0 kr vr body hb hkr
  simp only [Nat.zero_add] at hmidb hmidr
  obtain ⟨a1, ha1⟩ := addrOf_mark_exists D s P h kr vr hkr
  cases hWb : appendAll D (newFieldBitmap D kb) (mkstab vb.Sw vb.Iv) with
  | none => simp [translators, hopb, translate_OP_struct_bitmap, hWb] at hmidb
  | some Wb =>
    cases hWr : appendAll D (newFieldBitmap D kr) (mkstab vr.Sw vr.Iv) with
    | none => simp [translators, hopr, translate_OP_struct_require, hWr] at hmidr
    | some Wr =>
      obtain ⟨hlenW, _, _⟩ := appendAll_spec D _ _ Wb (by simp [newFieldBitmap]) hWb
      have hbmlt : bm < W64 := by
        rw [hbm]
        exact Nat.mod_lt _ (by decide)
      obtain ⟨_, e0, h1, h2, h3, g1, _, _, _, g5, _⟩ :=
        struct_bitmap_spec D env s P kb vb h hkb hopb Wb hWb a ha e hpc
      rw [← hbm, ← hslot] at h3
      have h0 : bitmapHolds D Wb (env.LookupCall D.F_newFiedBitmap [] e.mem).2 e0.mem slot bm
          [] := by
        rw [h3]
        exact cleared_holds D Wb _ slot bm hlenW hfit hdis hbmlt
      have hslot0 : slot = ((e0.pv RS + e0.uv ST) % W64 + D.FmOffset) % W64 := by
        rw [g1, g5]
        exact hslot
      refine ⟨Wb, Wr, e0, a1, rfl, rfl, h1, h2, ha1, ?_⟩
      intro M e1 hM hpc1
      obtain ⟨ht, q1, q2, hB, hlt⟩ :=
        marks_holds D env s P h Wb _ slot bm e0 hfit hdis hslot0 h0 M e1 hM
      have hsl : ((e1.pv RS + e1.uv ST) % W64 + D.FmOffset) % W64 = slot := by
        rw [q1, q2]
        exact hslot0.symm
      obtain ⟨hnone, hsome⟩ := struct_require_spec D env s P kr vr h hkr hopr Wr hWr a1 ha1 e1 hpc1
      rw [hsl, hB.1] at hnone hsome
      refine ⟨ht, hB, hlt, ?_, ?_⟩
      · intro hn
        obtain ⟨e2, p1, p2, _⟩ := hnone hn
        exact ⟨e2, p1, p2⟩
      · intro w r hs
        obtain ⟨t2, e2, p1, p2, p3, p4, p5, p6, _⟩ := hsome w r hs
        exact ⟨t2, e2, p1, p2, p3, p4, p5, p6⟩

end decoder

namespace decoder

/-- A marked field never shows in the residue of its word, whatever the mask. -/
theorem marked_residue_clear (D : Defs) (W : List Nat) (m0 m : Mem) (slot bm : Nat)
    (M : List Nat) (hfit : bm + 8 * D.MaxBitmap ≤ W64) (hM : bitmapHolds D W m0 m slot bm M)
    (x : Nat) (hx : x < W64) (f : Nat) (hf : f ∈ M) (hlt : f < 64 * D.MaxBitmap) :
    (residue m bm (f / 64) x).testBit (f % 64) = false := by
  have hw : f / 64 < D.MaxBitmap := by omega
  have hW64 : W64 = 18446744073709551616 := rfl
  rw [residue_testBit m bm (f / 64) x (by omega) hx, hM.2 (f / 64) hw (f % 64)]
  have hfeq : 64 * (f / 64) + f % 64 = f := Nat.div_add_mod f 64
  have hd : f % 64 < 64 ∧ 64 * (f / 64) + f % 64 ∈ M := ⟨Nat.mod_lt _ (by decide), by rw [hfeq]; exact hf⟩
  rw [decide_eq_true hd]
  simp

/-- The residue of a word when the mask of `struct_require` holds the required fields only and
the template of `struct_bitmap` holds them all: the required fields of the word that are not
marked. -/
theorem residue_required (D : Defs) (Wb Wr : List Nat) (m0 m : Mem) (slot bm : Nat)
    (R M : List Nat) (hfit : bm + 8 * D.MaxBitmap ≤ W64)
    (hM : bitmapHolds D Wb m0 m slot bm M)
    (hb : ∀ w b, b < 64 → 64 * w + b ∈ R → (Wb.getD w 0).testBit b = true)
    (hr : ∀ w b, (Wr.getD w 0).testBit b = decide (b < 64 ∧ 64 * w + b ∈ R))
    (hlt : ∀ w, Wr.getD w 0 < W64) (w : Nat) (hw : w < D.MaxBitmap) (b : Nat) :
    (residue m bm w (Wr.getD w 0)).testBit b =
      decide (b < 64 ∧ 64 * w + b ∈ R ∧ 64 * w + b ∉ M) := by
  have hW64 : W64 = 18446744073709551616 := rfl
  rw [residue_testBit m bm w _ (by omega) (hlt w), hr w b, hM.2 w hw b]
  by_cases h1 : b < 64 ∧ 64 * w + b ∈ R
  · have hbit := hb w b h1.1 h1.2
    have hne : ¬ (Wb.getD w 0 = 0) := by
      intro h0
      rw [h0, Nat.zero_testBit] at hbit
      cases hbit
    rw [decide_eq_true h1, decide_eq_false hne]
    by_cases h2 : 64 * w + b ∈ M
    · simp [h1.1, h1.2, h2]
    · simp [h1.1, h1.2, h2]
  · rw [decide_eq_false h1]
    have : ¬ (b < 64 ∧ 64 * w + b ∈ R ∧ 64 * w + b ∉ M) := fun hh => h1 ⟨hh.1, hh.2.1⟩
    rw [decide_eq_false this]
    simp

/-- When every required field is marked, no tested word has a residue. -/
theorem missing_none_of_subset (D : Defs) (W : List Nat) (m : Mem) (bm : Nat) (R M : List Nat)
    (hlen : W.length = D.MaxBitmap)
    (hres : ∀ w, w < D.MaxBitmap → ∀ b, (residue m bm w (W.getD w 0)).testBit b =
      decide (b < 64 ∧ 64 * w + b ∈ R ∧ 64 * w + b ∉ M))
    (hsub : ∀ f ∈ R, f ∈ M) :
    firstMissing m bm 0 W = none := by
  apply firstMissing_none
  intro j hj _
  rw [Nat.zero_add]
  apply Nat.eq_of_testBit_eq
  intro b
  rw [hres j (by omega) b, Nat.zero_testBit]
  apply decide_eq_false
  intro ⟨_, h1, h2⟩
  exact h2 (hsub _ h1)

/-- What the word tests report when they find a residue: the lowest word holding a required
field that is not marked, and the mask of the required fields of that word not marked. -/
theorem missing_some_spec (D : Defs) (W : List Nat) (m : Mem) (bm : Nat) (R M : List Nat)
    (hlen : W.length = D.MaxBitmap)
    (hbits : ∀ w b, (W.getD w 0).testBit b = decide (b < 64 ∧ 64 * w + b ∈ R))
    (hres : ∀ w, w < D.MaxBitmap → ∀ b, (residue m bm w (W.getD w 0)).testBit b =
      decide (b < 64 ∧ 64 * w + b ∈ R ∧ 64 * w + b ∉ M))
    (w r : Nat) (h : firstMissing m bm 0 W = some (w, r)) :
    w < D.MaxBitmap ∧ r = residue m bm w (W.getD w 0) ∧ (∃ f ∈ R, f ∉ M ∧ f / 64 = w) ∧
    (∀ f ∈ R, f ∉ M → w ≤ f / 64) ∧
    ∀ b, r.testBit b = decide (b < 64 ∧ 64 * w + b ∈ R ∧ 64 * w + b ∉ M) := by
  obtain ⟨_, h2, h3, h4, h5, h6⟩ := firstMissing_some m bm W 0 w r h
  simp only [Nat.zero_add, Nat.sub_zero] at h2 h3 h4 h6
  have hw : w < D.MaxBitmap := by omega
  refine ⟨hw, h4, ?_, ?_, ?_⟩
  · obtain ⟨b, hb⟩ := Nat.ne_zero_implies_bit_true h5
    rw [h4, hres w hw b] at hb
    obtain ⟨hb1, hb2, hb3⟩ := of_decide_eq_true hb
    exact ⟨64 * w + b, hb2, hb3, by omega⟩
  · intro f hf hnm
    by_contra hlt2
    have hj : f / 64 < w := by omega
    have hfeq : 64 * (f / 64) + f % 64 = f := Nat.div_add_mod f 64
    have hbit : (W.getD (f / 64) 0).testBit (f % 64) = true := by
      rw [hbits]
      apply decide_eq_true
      exact ⟨Nat.mod_lt _ (by decide), by rw [hfeq]; exact hf⟩
    have hne : W.getD (f / 64) 0 ≠ 0 := by
      intro h0
      rw [h0, Nat.zero_testBit] at hbit
      cases hbit
    rcases h6 (f / 64) (Nat.zero_le _) hj with h0 | h0
    · exact hne h0
    · have := hres (f / 64) (by omega) (f % 64)
      rw [h0, Nat.zero_testBit] at this
      have hh := of_decide_eq_false this.symm
      apply hh
      exact ⟨Nat.mod_lt _ (by decide), by rw [hfeq]; exact hf, by rw [hfeq]; exact hnm⟩
  · intro b
    rw [h4]
    exact hres w hw b

/-- When some required field is not marked, the word tests find a residue. -/
theorem missing_some_of_unmarked (D : Defs) (W : List Nat) (m : Mem) (bm : Nat)
    (R M : List Nat) (hlen : W.length = D.MaxBitmap)
    (hbits : ∀ w b, (W.getD w 0).testBit b = decide (b < 64 ∧ 64 * w + b ∈ R))
    (hres : ∀ w, w < D.MaxBitmap → ∀ b, (residue m bm w (W.getD w 0)).testBit b =
      decide (b < 64 ∧ 64 * w + b ∈ R ∧ 64 * w + b ∉ M))
    (hR : ∀ f ∈ R, f < 64 * D.MaxBitmap)
    (hmiss : ∃ f ∈ R, f ∉ M) : ∃ w r, firstMissing m bm 0 W = some (w, r) := by
  cases hfm : firstMissing m bm 0 W with
  | some wr => exact ⟨wr.1, wr.2, rfl⟩
  | none =>
    exfalso
    obtain ⟨f, hf, hnm⟩ := hmiss
    have hfeq : 64 * (f / 64) + f % 64 = f := Nat.div_add_mod f 64
    have hw : f / 64 < D.MaxBitmap := by
      have := hR f hf
      omega
    have hbit : (W.getD (f / 64) 0).testBit (f % 64) = true := by
      rw [hbits]
      apply decide_eq_true
      exact ⟨Nat.mod_lt _ (by decide), by rw [hfeq]; exact hf⟩
    have hne : W.getD (f / 64) 0 ≠ 0 := by
      intro h0
      rw [h0, Nat.zero_testBit] at hbit
      cases hbit
    have h0 := firstMissing_none_elim m bm W 0 hfm (f / 64) (by omega) hne
    rw [Nat.zero_add] at h0
    have := hres (f / 64) hw (f % 64)
    rw [h0, Nat.zero_testBit] at this
    have hh := of_decide_eq_false this.symm
    apply hh
    exact ⟨Nat.mod_lt _ (by decide), by rw [hfeq]; exact hf, by rw [hfeq]; exact hnm⟩

/-- The templates of the two lowerings when the pool hands the lowering of `struct_require` an
empty bitmap: the mask of `struct_require` holds the required fields only, and the template of
`struct_bitmap` holds them all. -/
theorem templates_clean (D : Defs) (kb kr : Nat) (R Wb Wr : List Nat)
    (hWb : appendAll D (newFieldBitmap D kb) (R.map Int.ofNat) = some Wb)
    (hWr : appendAll D (newFieldBitmap D kr) (R.map Int.ofNat) = some Wr)
    (hclean : ∀ w, w < D.MaxBitmap → D.pooled kr w % W64 = 0) :
    (∀ w b, b < 64 → 64 * w + b ∈ R → (Wb.getD w 0).testBit b = true) ∧
    (∀ w b, (Wr.getD w 0).testBit b = decide (b < 64 ∧ 64 * w + b ∈ R)) := by
  obtain ⟨_, _, hb, _⟩ := template_spec D kb R Wb hWb
  obtain ⟨_, _, hr, _⟩ := template_spec D kr R Wr hWr
  constructor
  · intro w b h1 h2
    rw [hb w b, decide_eq_true (show b < 64 ∧ 64 * w + b ∈ R from ⟨h1, h2⟩)]
    simp
  · intro w b
    rw [hr w b]
    by_cases hw : w < D.MaxBitmap
    · rw [hclean w hw]
      simp
    · simp [hw]

end decoder

namespace decoder

/-- C5. A plan holds a `struct_bitmap` and a `struct_require` for the required fields `R`, at
any two places. The lowering of `struct_bitmap` is run, with the bitmap the helper hands out
lying apart from the frame slot; then the program runs on with `struct_mark_tag` lowerings for
the fields `M` on that frame, and anything in between that keeps the frame and its bitmap
(`Marks`), and arrives at the lowering of `struct_require`. Whatever bitmaps the pooled
constructor handed to the two lowerings at translation time: the residue computed for the word
of a marked field has the bit of that field clear, and a branch to `_missing` never reports a
marked field. The lowering runs to its end when the word tests find no residue and branches to
`_missing` with the first residue otherwise (`firstMissing` over the template `Wr` the
lowering built). When the pooled bitmap handed to the lowering of `struct_require` was empty
and every field of `R` is marked, the word tests find no residue; the witness has a pooled
bitmap with stale bits, and there the lowering branches to `_missing` although every field of
`R` is marked. -/
theorem struct_require_after_marks (D : Defs) (env : Env) (s : List Instr) (P : ir.Program)
    (h : Translate D s = some P) (kb kr : Nat) (vb vr : Instr) (R : List Nat)
    (hkb : s[kb]? = some vb) (hopb : vb.Op = decoder.OpCode.OP_struct_bitmap)
    (htab : mkstab vb.Sw vb.Iv = R.map Int.ofNat)
    (hkr : s[kr]? = some vr) (hopr : vr.Op = decoder.OpCode.OP_struct_require)
    (htabr : mkstab vr.Sw vr.Iv = R.map Int.ofNat)
    (a : Nat) (ha : addrOf D s (mark kb) = some a) (e : Emulator) (hpc : e.pc = some a)
    (bm slot : Nat) (hbm : bm = (env.LookupCall D.F_newFiedBitmap [] e.mem).1.headD 0 % W64)
    (hslot : slot = ((e.pv RS + e.uv ST) % W64 + D.FmOffset) % W64)
    (hfit : bm + 8 * D.MaxBitmap ≤ W64)
    (hdis : slot + 8 ≤ bm ∨ bm + 8 * D.MaxBitmap ≤ slot) :
    ∃ Wb Wr e0 a1,
      appendAll D (newFieldBitmap D kb) (R.map Int.ofNat) = some Wb ∧
      appendAll D (newFieldBitmap D kr) (R.map Int.ofNat) = some Wr ∧
      steps env P.code (3 + (instrs (clearWords 0 Wb)).length) e = some e0 ∧
      e0.pc = some (a + (3 + (instrs (clearWords 0 Wb)).length)) ∧
      addrOf D s (mark kr) = some a1 ∧
      ∀ M e1, Marks D env s P slot bm e0 M e1 → e1.pc = some a1 →
        bitmapHolds D Wb (env.LookupCall D.F_newFiedBitmap [] e.mem).2 e1.mem slot bm M ∧
        (∀ f ∈ M,
          (residue e1.mem bm (f / 64) (Wr.getD (f / 64) 0)).testBit (f % 64) = false) ∧
        (firstMissing e1.mem bm 0 Wr = none →
          ∃ e2, steps env P.code (2 + (instrs (testWords vr 0 Wr)).length + 2) e1 = some e2 ∧
            e2.pc = some (a1 + (2 + (instrs (testWords vr 0 Wr)).length + 2))) ∧
        (∀ w r, firstMissing e1.mem bm 0 Wr = some (w, r) →
          ∃ t2 e2, steps env P.code t2 e1 = some e2 ∧ e2.pc = addrOf D s LB_missing ∧
            e2.uv UR = w ∧ e2.uv TR = r ∧ r = residue e1.mem bm w (Wr.getD w 0) ∧
            ∀ f ∈ M, ¬ (f / 64 = w ∧ r.testBit (f % 64) = true)) ∧
        ((∀ w, w < D.MaxBitmap → D.pooled kr w % W64 = 0) → (∀ f ∈ R, f ∈ M) →
          firstMissing e1.mem bm 0 Wr = none) := by
  obtain ⟨Wb, Wr, e0, a1, hWb, hWr, hs0, hpc0, ha1, hall⟩ :=
    require_reached D env s P h kb kr vb vr hkb hopb hkr hopr a ha e hpc bm slot hbm hslot hfit
      hdis
  rw [htab] at hWb
  rw [htabr] at hWr
  obtain ⟨hlen, hR, hbits, hlt⟩ := template_spec D kr R Wr hWr
  have hW64 : W64 = 18446744073709551616 := rfl
  refine ⟨Wb, Wr, e0, a1, hWb, hWr, hs0, hpc0, ha1, ?_⟩
  intro M e1 hM hpc1
  obtain ⟨_, hB, hMlt, hnone, hsome⟩ := hall M e1 hM hpc1
  have hclear : ∀ f ∈ M,
      (residue e1.mem bm (f / 64) (Wr.getD (f / 64) 0)).testBit (f % 64) = false :=
    fun f hf => marked_residue_clear D Wb _ e1.mem slot bm M hfit hB _ (hlt _) f hf (hMlt f hf)
  refine ⟨hB, hclear, hnone, ?_, ?_⟩
  · intro w r hfm
    obtain ⟨t2, e2, q1, q2, q3, q4, _⟩ := hsome w r hfm
    obtain ⟨_, h2, _, h4, _⟩ := firstMissing_some e1.mem bm Wr 0 w r hfm
    simp only [Nat.zero_add, Nat.sub_zero] at h2 h4
    have hur : e2.uv UR = w := by
      rw [q3]
      exact Nat.mod_eq_of_lt (by omega)
    refine ⟨t2, e2, q1, q2, hur, q4, h4, ?_⟩
    intro f hf ⟨hfw, hbit⟩
    rw [h4, ← hfw, hclear f hf] at hbit
    cases hbit
  · intro hclean hsub
    obtain ⟨hb, hr⟩ := templates_clean D kb kr R Wb Wr hWb hWr hclean
    exact missing_none_of_subset D Wr e1.mem bm R M hlen
      (fun w hw b => residue_required D Wb Wr _ e1.mem slot bm R M hfit hB hb hr hlt w hw b) hsub

/-- C6. A plan holds a `struct_bitmap` and a `struct_require` for the required fields `R`, at
any two places. The lowering of `struct_bitmap` is run, whatever the memory and the bitmap the
allocation helper hands out (it lies apart from the frame slot); then the program runs on with
`struct_mark_tag` lowerings for the fields `M` on that frame, and anything in between that
keeps the frame and its bitmap (`Marks`), and arrives at the lowering of `struct_require`.
Whatever bitmaps the pooled constructor handed to the two lowerings at translation time: when
the word tests find a residue, execution branches to `_missing` with `UR` the index of the
first tested word with a residue, `TR` the bits of the template word `Wr[UR]` that are clear in
the bitmap word, and `ET` the struct type. When the pooled bitmap handed to the lowering of
`struct_require` was empty and some field of `R` is not in `M`, execution branches to
`_missing` with `UR` the index of the lowest bitmap word holding a required field that is not
marked and `TR` the mask of exactly the required fields of that word that are not marked; the
witness has a pooled bitmap with stale bits, and there `UR` and `TR` report fields that are not
required. -/
theorem struct_require_reports (D : Defs) (env : Env) (s : List Instr) (P : ir.Program)
    (h : Translate D s = some P) (kb kr : Nat) (vb vr : Instr) (R : List Nat)
    (hkb : s[kb]? = some vb) (hopb : vb.Op = decoder.OpCode.OP_struct_bitmap)
    (htab : mkstab vb.Sw vb.Iv = R.map Int.ofNat)
    (hkr : s[kr]? = some vr) (hopr : vr.Op = decoder.OpCode.OP_struct_require)
    (htabr : mkstab vr.Sw vr.Iv = R.map Int.ofNat)
    (a : Nat) (ha : addrOf D s (mark kb) = some a) (e : Emulator) (hpc : e.pc = some a)
    (bm slot : Nat) (hbm : bm = (env.LookupCall D.F_newFiedBitmap [] e.mem).1.headD 0 % W64)
    (hslot : slot = ((e.pv RS + e.uv ST) % W64 + D.FmOffset) % W64)
    (hfit : bm + 8 * D.MaxBitmap ≤ W64)
    (hdis : slot + 8 ≤ bm ∨ bm + 8 * D.MaxBitmap ≤ slot) :
    ∃ Wb Wr e0 a1,
      appendAll D (newFieldBitmap D kb) (R.map Int.ofNat) = some Wb ∧
      appendAll D (newFieldBitmap D kr) (R.map Int.ofNat) = some Wr ∧
      steps env P.code (3 + (instrs (clearWords 0 Wb)).length) e = some e0 ∧
      e0.pc = some (a + (3 + (instrs (clearWords 0 Wb)).length)) ∧
      addrOf D s (mark kr) = some a1 ∧
      ∀ M e1, Marks D env s P slot bm e0 M e1 → e1.pc = some a1 →
        bitmapHolds D Wb (env.LookupCall D.F_newFiedBitmap [] e.mem).2 e1.mem slot bm M ∧
        (∀ w r, firstMissing e1.mem bm 0 Wr = some (w, r) →
          ∃ t2 e2, steps env P.code t2 e1 = some e2 ∧ e2.pc = addrOf D s LB_missing ∧
            e2.uv UR = w ∧ e2.uv TR = r ∧ e2.pv ET = vr.Vt.addr ∧ w < D.MaxBitmap ∧
            ∀ b, r.testBit b =
              ((Wr.getD w 0).testBit b && !(loadN e1.mem (bm + 8 * w) 8).testBit b)) ∧
        ((∀ w, w < D.MaxBitmap → D.pooled kr w % W64 = 0) → (∃ f ∈ R, f ∉ M) →
          ∃ t2 e2, steps env P.code t2 e1 = some e2 ∧ e2.pc = addrOf D s LB_missing ∧
            e2.uv UR < D.MaxBitmap ∧ (∃ f ∈ R, f ∉ M ∧ f / 64 = e2.uv UR) ∧
            (∀ f ∈ R, f ∉ M → e2.uv UR ≤ f / 64) ∧
            (∀ b, (e2.uv TR).testBit b =
              decide (b < 64 ∧ 64 * e2.uv UR + b ∈ R ∧ 64 * e2.uv UR + b ∉ M)) ∧
            e2.pv ET = vr.Vt.addr) := by
  obtain ⟨Wb, Wr, e0, a1, hWb, hWr, hs0, hpc0, ha1, hall⟩ :=
    require_reached D env s P h kb kr vb vr hkb hopb hkr hopr a ha e hpc bm slot hbm hslot hfit
      hdis
  rw [htab] at hWb
  rw [htabr] at hWr
  obtain ⟨hlen, hR, hbits, hlt⟩ := template_spec D kr R Wr hWr
  have hW64 : W64 = 18446744073709551616 := rfl
  refine ⟨Wb, Wr, e0, a1, hWb, hWr, hs0, hpc0, ha1, ?_⟩
  intro M e1 hM hpc1
  obtain ⟨_, hB, hMlt, _, hsome⟩ := hall M e1 hM hpc1
  refine ⟨hB, ?_, ?_⟩
  · intro w r hfm
    obtain ⟨t2, e2, q1, q2, q3, q4, q5, _⟩ := hsome w r hfm
    obtain ⟨_, h2, _, h4, _⟩ := firstMissing_some e1.mem bm Wr 0 w r hfm
    simp only [Nat.zero_add, Nat.sub_zero] at h2 h4
    have hw : w < D.MaxBitmap := by omega
    have hur : e2.uv UR = w := by
      rw [q3]
      exact Nat.mod_eq_of_lt (by omega)
    refine ⟨t2, e2, q1, q2, hur, q4, q5, hw, ?_⟩
    intro b
    rw [h4]
    exact residue_testBit e1.mem bm w _ (by omega) (hlt w) b
  · intro hclean hmiss
    obtain ⟨hb, hr⟩ := templates_clean D kb kr R Wb Wr hWb hWr hclean
    have hres : ∀ w, w < D.MaxBitmap → ∀ b, (residue e1.mem bm w (Wr.getD w 0)).testBit b =
        decide (b < 64 ∧ 64 * w + b ∈ R ∧ 64 * w + b ∉ M) :=
      fun w hw b => residue_required D Wb Wr _ e1.mem slot bm R M hfit hB hb hr hlt w hw b
    obtain ⟨w, r, hfm⟩ := missing_some_of_unmarked D Wr e1.mem bm R M hlen hr hres hR hmiss
    obtain ⟨t2, e2, q1, q2, q3, q4, q5, _⟩ := hsome w r hfm
    obtain ⟨hw, _, hex, hlow, hmask⟩ := missing_some_spec D Wr e1.mem bm R M hlen hr hres w r hfm
    have hur : e2.uv UR = w := by
      rw [q3]
      exact Nat.mod_eq_of_lt (by omega)
    exact ⟨t2, e2, q1, q2, by rw [hur]; exact hw, by rw [hur]; exact hex,
      by rw [hur]; exact hlow, by rw [hur, q4]; exact hmask, q5⟩

end decoder

namespace decoder

/-- Witness of `struct_require_after_marks`. First, with a pool that hands out empty bitmaps:
the plan `requiredPlan` run over a memory of `0xFF` bytes; the required fields 1 and 2 are both
marked, control reaches the lowering of `struct_require` at instruction 19, the residue of word
0 has bit 2 clear, and the ten instructions of the lowering run to its end. Second, the input
on which the code departs from C5: the plan `markedPlan` translated with the pool of
`staleDefs`, run from the lowering of `struct_bitmap` over a zeroed memory. The one required
field, 70, is marked, and control reaches the lowering of `struct_require`; its template has
the stale bits of fields 1 and 2 in word 0, and it branches to `_missing` with `UR = 0` and
`TR = 6`. -/
theorem struct_require_after_marks_witness :
    (∃ e0 e1 e2, steps sampleEnv (sampleProgram requiredPlan).code 4
        (sampleState 5 (fun _ => 255)) = some e0 ∧
      Marks sampleDefs sampleEnv requiredPlan (sampleProgram requiredPlan) 4120 4272 e0
        [2, 1] e1 ∧
      e1.pc = addrOf sampleDefs requiredPlan (mark 3) ∧
      (residue e1.mem 4272 0 6).testBit 2 = false ∧
      steps sampleEnv (sampleProgram requiredPlan).code 10 e1 = some e2 ∧
      e2.pc = some 29) ∧
    (∃ P e0 e1 t2 e2, Translate staleDefs markedPlan = some P ∧
      steps sampleEnv P.code 4 (sampleState 23 (fun _ => 0)) = some e0 ∧
      Marks staleDefs sampleEnv markedPlan P 4120 4272 e0 [70] e1 ∧
      e1.pc = addrOf staleDefs markedPlan (mark 1) ∧ (∀ f ∈ [70], f ∈ [70]) ∧
      steps sampleEnv P.code t2 e1 = some e2 ∧
      e2.pc = addrOf staleDefs markedPlan LB_missing ∧ e2.uv UR = 0 ∧ e2.uv TR = 6) := by
  constructor
  · obtain ⟨Wb, Wr, e0, a1, hWb, hWr, hs0, hpc0, ha1, hall⟩ :=
      struct_require_after_marks sampleDefs sampleEnv requiredPlan (sampleProgram requiredPlan)
        (by rfl) 0 3
        { Op := decoder.OpCode.OP_struct_bitmap, Sw := [1, 2], Iv := 2 }
        { Op := decoder.OpCode.OP_struct_require, Sw := [1, 2], Iv := 2 } [1, 2]
        (by rfl) (by rfl) (by rfl) (by rfl) (by rfl) (by rfl)
        5 (by rfl) (sampleState 5 (fun _ => 255)) (by rfl)
        4272 4120 (by rfl) (by rfl) (by decide) (Or.inl (by decide))
    have hWb2 : Wb = [6, 0] := Option.some.inj (hWb.symm.trans (by rfl))
    have hWr2 : Wr = [6, 0] := Option.some.inj (hWr.symm.trans (by rfl))
    have ha12 : a1 = 19 := Option.some.inj (ha1.symm.trans (by rfl))
    subst hWb2 hWr2 ha12
    have hpc0b : e0.pc = some 9 := hpc0
    obtain ⟨_, e1a, hs1, hpc1, _⟩ := mark_tag_spec sampleDefs sampleEnv requiredPlan _ 1
      { Op := decoder.OpCode.OP_struct_mark_tag, Iv := 2 } (by rfl) (by rfl) (by rfl) 2 (by rfl)
      9 (by rfl) e0 hpc0b
    have hM1 : Marks sampleDefs sampleEnv requiredPlan (sampleProgram requiredPlan) 4120 4272 e0
        ([] ++ [2]) e1a :=
      Marks.tag [] e0 e1a 1 { Op := decoder.OpCode.OP_struct_mark_tag, Iv := 2 } 2 Marks.start
        (by rfl) (by rfl) (by rfl) (by decide) (hpc0b.trans (by rfl)) hs1
    obtain ⟨_, e1, hs2, hpc2, _⟩ := mark_tag_spec sampleDefs sampleEnv requiredPlan _ 2
      { Op := decoder.OpCode.OP_struct_mark_tag, Iv := 1 } (by rfl) (by rfl) (by rfl) 1 (by rfl)
      14 (by rfl) e1a hpc1
    have hM2 : Marks sampleDefs sampleEnv requiredPlan (sampleProgram requiredPlan) 4120 4272 e0
        [2, 1] e1 :=
      Marks.tag ([] ++ [2]) e1a e1 2 { Op := decoder.OpCode.OP_struct_mark_tag, Iv := 1 } 1 hM1
        (by rfl) (by rfl) (by rfl) (by decide) (hpc1.trans (by rfl)) hs2
    obtain ⟨_, hclear, hnone, _, hclean⟩ := hall [2, 1] e1 hM2 hpc2
    obtain ⟨e2, q1, q2⟩ := hnone (hclean (fun w _ => rfl) (by decide))
    exact ⟨e0, e1, e2, hs0, hM2, hpc2.trans (by rfl), hclear 2 (by decide), q1, q2⟩
  · obtain ⟨Wb, Wr, e0, a1, hWb, hWr, hs0, hpc0, ha1, hall⟩ :=
      struct_require_after_marks staleDefs sampleEnv markedPlan
        ((Translate staleDefs markedPlan).getD { code := [], Head := none }) (by rfl) 3 1
        { Op := decoder.OpCode.OP_struct_bitmap, Sw := [70], Iv := 1 }
        { Op := decoder.OpCode.OP_struct_require, Sw := [70], Iv := 1 } [70]
        (by rfl) (by rfl) (by rfl) (by rfl) (by rfl) (by rfl)
        23 (by rfl) (sampleState 23 (fun _ => 0)) (by rfl)
        4272 4120 (by rfl) (by rfl) (by decide) (Or.inl (by decide))
    have hWb2 : Wb = [0, 64] := Option.some.inj (hWb.symm.trans (by rfl))
    have hWr2 : Wr = [6, 64] := Option.some.inj (hWr.symm.trans (by rfl))
    have ha12 : a1 = 6 := Option.some.inj (ha1.symm.trans (by rfl))
    subst hWb2 hWr2 ha12
    have hpc0b : e0.pc = some 27 := hpc0
    obtain ⟨_, e1, hs1, hpc1, _⟩ := mark_tag_spec staleDefs sampleEnv markedPlan _ 4
      { Op := decoder.OpCode.OP_struct_mark_tag, Iv := 70 } (by rfl) (by rfl) (by rfl) 70 (by rfl)
      27 (by rfl) e0 hpc0b
    have hM1 : Marks staleDefs sampleEnv markedPlan
        ((Translate staleDefs markedPlan).getD { code := [], Head := none }) 4120 4272 e0
        ([] ++ [70]) e1 :=
      Marks.tag [] e0 e1 4 { Op := decoder.OpCode.OP_struct_mark_tag, Iv := 70 } 70 Marks.start
        (by rfl) (by rfl) (by rfl) (by decide) (hpc0b.trans (by rfl)) hs1
    obtain ⟨e1b, hs2, hpc2, hmem2, hrs2, hst2⟩ := goto_spec staleDefs sampleEnv markedPlan _ 5
      { Op := decoder.OpCode.OP_goto, To := 1 } (by rfl) (by rfl) (by rfl) 6 (by rfl)
      32 (by rfl) e1 hpc1
    have hM2 := Marks.other _ e1 e1b 1 hM1 hs2 hrs2 hst2 (fun x _ _ => by rw [hmem2])
      (fun x _ _ => by rw [hmem2])
    obtain ⟨hB, _, _, hsome, _⟩ := hall _ e1b hM2 hpc2
    have hword : loadN e1b.mem 4272 8 = 0 := by
      apply Nat.eq_of_testBit_eq
      intro b
      have h0 := hB.2 0 (by decide) b
      have hz : loadN (sampleEnv.LookupCall staleDefs.F_newFiedBitmap []
          (sampleState 23 (fun _ => 0)).mem).2 (4272 + 8 * 0) 8 = 0 := by rfl
      rw [hz] at h0
      rw [show 4272 + 8 * 0 = 4272 from rfl] at h0
      rw [h0]
      have hd : ¬ (b < 64 ∧ 64 * 0 + b ∈ [] ++ [70]) := by
        intro ⟨h1, h2⟩
        simp at h2
        omega
      rw [decide_eq_false hd]
      simp
    have hfm : firstMissing e1b.mem 4272 0 [6, 64] = some (0, 6) := by
      have hres : residue e1b.mem 4272 0 6 = 6 := by
        unfold residue
        rw [ea_word, show (4272 + 8 * 0) % W64 = 4272 from rfl, hword]
        rfl
      simp [firstMissing, hres]
    obtain ⟨t2, e2, q1, q2, q3, q4, _⟩ := hsome 0 6 hfm
    exact ⟨_, e0, e1b, t2, e2, rfl, hs0, hM2, hpc2.trans (by rfl), fun f hf => hf, q1, q2, q3, q4⟩

/-- Witness of `struct_require_reports`. First, with a pool that hands out empty bitmaps,
scenario S5: the plan `switchPlan` run over `switchInput`, a memory of `0xFF` bytes with the
field id 2 at the cursor; the `struct_switch` goes to the mark of field 2, so of the required
fields 1 and 2 only field 2 is marked when control reaches the lowering of `struct_require`,
which branches to `_missing` with `UR = 0` and `TR = 1 << 1`. Second, the input on which the
code departs from C6: the plan `unmarkedPlan` translated with the pool of `staleDefs`, run from
the lowering of `struct_bitmap` over a zeroed memory. The one required field, 70, is not
marked; it lies in word 1 with mask `1 << 6`. The lowering of `struct_require` branches to
`_missing` with `UR = 0` and `TR = 6`, the stale bits of fields 1 and 2. -/
theorem struct_require_reports_witness :
    (∃ e0 e1 t2 e2, steps sampleEnv (sampleProgram switchPlan).code 4
        (sampleState 5 switchInput) = some e0 ∧
      Marks sampleDefs sampleEnv switchPlan (sampleProgram switchPlan) 4120 4272 e0 [2] e1 ∧
      e1.pc = addrOf sampleDefs switchPlan (mark 4) ∧
      steps sampleEnv (sampleProgram switchPlan).code t2 e1 = some e2 ∧
      e2.pc = addrOf sampleDefs switchPlan LB_missing ∧ e2.uv UR = 0 ∧ e2.uv TR = 1 <<< 1) ∧
    (∃ P e0 e1 t2 e2, Translate staleDefs unmarkedPlan = some P ∧
      steps sampleEnv P.code 4 (sampleState 23 (fun _ => 0)) = some e0 ∧
      Marks staleDefs sampleEnv unmarkedPlan P 4120 4272 e0 [] e1 ∧
      e1.pc = addrOf staleDefs unmarkedPlan (mark 1) ∧ (∃ f ∈ [70], f ∉ ([] : List Nat)) ∧
      steps sampleEnv P.code t2 e1 = some e2 ∧
      e2.pc = addrOf staleDefs unmarkedPlan LB_missing ∧ e2.uv UR = 0 ∧ e2.uv TR = 6 ∧
      e2.uv UR ≠ 70 / 64 ∧ e2.uv TR ≠ 1 <<< (70 % 64)) := by
  constructor
  · obtain ⟨Wb, Wr, e0, a1, hWb, hWr, hs0, hpc0, ha1, hall⟩ :=
      struct_require_reports sampleDefs sampleEnv switchPlan (sampleProgram switchPlan)
        (by rfl) 0 4
        { Op := decoder.OpCode.OP_struct_bitmap, Sw := [1, 2], Iv := 2 }
        { Op := decoder.OpCode.OP_struct_require, Sw := [1, 2], Iv := 2 } [1, 2]
        (by rfl) (by rfl) (by rfl) (by rfl) (by rfl) (by rfl)
        5 (by rfl) (sampleState 5 switchInput) (by rfl)
        4272 4120 (by rfl) (by rfl) (by decide) (Or.inl (by decide))
    have hWb2 : Wb = [6, 0] := Option.some.inj (hWb.symm.trans (by rfl))
    have hWr2 : Wr = [6, 0] := Option.some.inj (hWr.symm.trans (by rfl))
    have ha12 : a1 = 20 := Option.some.inj (ha1.symm.trans (by rfl))
    subst hWb2 hWr2 ha12
    have hpc0b : e0.pc = some 9 := hpc0
    obtain ⟨_, e0b, k1, _, k3, _, _, k6, k7, _, _⟩ :=
      struct_bitmap_spec sampleDefs sampleEnv switchPlan (sampleProgram switchPlan) 0
        { Op := decoder.OpCode.OP_struct_bitmap, Sw := [1, 2], Iv := 2 } (by rfl) (by rfl) (by rfl)
        [6, 0] (by rfl) 5 (by rfl) (sampleState 5 switchInput) (by rfl)
    have he : e0b = e0 := Option.some.inj (k1.symm.trans hs0)
    subst he
    obtain ⟨_, _, _, _, hjump, _⟩ := struct_switch_spec sampleDefs sampleEnv switchPlan
      (sampleProgram switchPlan) 1 { Op := decoder.OpCode.OP_struct_switch, Sw := [-1, -1, 3], Iv := 3 }
      (by rfl) (by rfl) (by rfl) (by decide) (by decide) e0b (hpc0b.trans (by rfl)) 2
      (by rw [k3, k6, k7]; rfl)
    obtain ⟨e5, tgt, p1, p2, p3, _, p5, p6, p7⟩ := hjump ⟨by decide, by decide⟩
    have ht : tgt = 15 := Option.some.inj (p2.symm.trans (by rfl))
    subst ht
    have hM1 : Marks sampleDefs sampleEnv switchPlan (sampleProgram switchPlan) 4120 4272 e0b
        [] e5 :=
      Marks.other [] e0b e5 5 Marks.start p1 p6 p7 (fun x _ _ => by rw [p5])
        (fun x _ _ => by rw [p5])
    obtain ⟨_, e1, hs2, hpc2, _⟩ := mark_tag_spec sampleDefs sampleEnv switchPlan _ 3
      { Op := decoder.OpCode.OP_struct_mark_tag, Iv := 2 } (by rfl) (by rfl) (by rfl) 2 (by rfl)
      15 (by rfl) e5 p3
    have hM2 : Marks sampleDefs sampleEnv switchPlan (sampleProgram switchPlan) 4120 4272 e0b
        [2] e1 :=
      Marks.tag [] e5 e1 3 { Op := decoder.OpCode.OP_struct_mark_tag, Iv := 2 } 2 hM1
        (by rfl) (by rfl) (by rfl) (by decide) (p3.trans (by rfl)) hs2
    obtain ⟨_, _, hclean⟩ := hall [2] e1 hM2 hpc2
    obtain ⟨t2, e2, q1, q2, _, ⟨f, hf, hnm, hfe⟩, _, hmask, _⟩ :=
      hclean (fun w _ => rfl) ⟨1, by decide, by decide⟩
    have hf1 : f = 1 := by
      simp only [List.mem_cons, List.mem_singleton, List.not_mem_nil, or_false] at hf hnm
      omega
    have hur : e2.uv UR = 0 := by
      rw [← hfe, hf1]
    refine ⟨e0b, e1, t2, e2, hs0, hM2, hpc2.trans (by rfl), q1, q2, hur, ?_⟩
    apply Nat.eq_of_testBit_eq
    intro b
    rw [hmask b, hur, testBit_one_shiftLeft]
    simp only [List.mem_cons, List.mem_singleton, List.not_mem_nil, or_false, Nat.mul_zero,
      Nat.zero_add]
    by_cases hb : b = 1
    · subst hb
      decide
    · have h1 : ¬ (1 = b) := fun hh => hb hh.symm
      rw [decide_eq_false h1]
      apply decide_eq_false
      omega
  · obtain ⟨Wb, Wr, e0, a1, hWb, hWr, hs0, hpc0, ha1, hall⟩ :=
      struct_require_reports staleDefs sampleEnv unmarkedPlan
        ((Translate staleDefs unmarkedPlan).getD { code := [], Head := none }) (by rfl) 3 1
        { Op := decoder.OpCode.OP_struct_bitmap, Sw := [70], Iv := 1 }
        { Op := decoder.OpCode.OP_struct_require, Sw := [70], Iv := 1 } [70]
        (by rfl) (by rfl) (by rfl) (by rfl) (by rfl) (by rfl)
        23 (by rfl) (sampleState 23 (fun _ => 0)) (by rfl)
        4272 4120 (by rfl) (by rfl) (by decide) (Or.inl (by decide))
    have hWb2 : Wb = [0, 64] := Option.some.inj (hWb.symm.trans (by rfl))
    have hWr2 : Wr = [6, 64] := Option.some.inj (hWr.symm.trans (by rfl))
    have ha12 : a1 = 6 := Option.some.inj (ha1.symm.trans (by rfl))
    subst hWb2 hWr2 ha12
    have hpc0b : e0.pc = some 27 := hpc0
    obtain ⟨e1, hs2, hpc2, hmem2, hrs2, hst2⟩ := goto_spec staleDefs sampleEnv unmarkedPlan _ 4
      { Op := decoder.OpCode.OP_goto, To := 1 } (by rfl) (by rfl) (by rfl) 6 (by rfl)
      27 (by rfl) e0 hpc0b
    have hM2 : Marks staleDefs sampleEnv unmarkedPlan
        ((Translate staleDefs unmarkedPlan).getD { code := [], Head := none }) 4120 4272 e0
        [] e1 :=
      Marks.other [] e0 e1 1 Marks.start hs2 hrs2 hst2 (fun x _ _ => by rw [hmem2])
        (fun x _ _ => by rw [hmem2])
    obtain ⟨hB, hsome, _⟩ := hall _ e1 hM2 hpc2
    have hword : loadN e1.mem 4272 8 = 0 := by
      apply Nat.eq_of_testBit_eq
      intro b
      have h0 := hB.2 0 (by decide) b
      have hz : loadN (sampleEnv.LookupCall staleDefs.F_newFiedBitmap []
          (sampleState 23 (fun _ => 0)).mem).2 (4272 + 8 * 0) 8 = 0 := by rfl
      rw [hz] at h0
      rw [show 4272 + 8 * 0 = 4272 from rfl] at h0
      rw [h0]
      simp
    have hfm : firstMissing e1.mem 4272 0 [6, 64] = some (0, 6) := by
      have hres : residue e1.mem 4272 0 6 = 6 := by
        unfold residue
        rw [ea_word, show (4272 + 8 * 0) % W64 = 4272 from rfl, hword]
        rfl
      simp [firstMissing, hres]
    obtain ⟨t2, e2, q1, q2, q3, q4, _⟩ := hsome 0 6 hfm
    exact ⟨_, e0, e1, t2, e2, rfl, hs0, hM2, hpc2.trans (by rfl), ⟨70, by simp, by simp⟩, q1, q2,
      q3, q4, by rw [q3]; decide, by rw [q4]; decide⟩

end decoder

namespace emu

theorem visible_uv (z : Emulator) (x : GenericRegister) : z.visible.uv x = specReadG z x := rfl

theorem visible_pv (z : Emulator) (x : PointerRegister) : z.visible.pv x = specReadP z x := rfl

theorem visible_eq (a b : Emulator) (h1 : a.pc = b.pc) (h2 : ∀ x, x ≠ Rz → a.uv x = b.uv x)
    (h3 : ∀ x, x ≠ Pn → a.pv x = b.pv x) (h4 : a.ar = b.ar) (h5 : a.rv = b.rv)
    (h6 : a.mem = b.mem) : a.visible = b.visible := by
  cases a
  cases b
  simp only [Emulator.visible, Emulator.mk.injEq] at *
  refine ⟨h1, ?_, ?_, h4, h5, h6⟩
  · funext x
    by_cases hx : x = Rz
    · simp [setG, hx]
    · simp [setG, hx, h2 x hx]
  · funext x
    by_cases hx : x = Pn
    · simp [setP, hx]
    · simp [setP, hx, h3 x hx]

theorem visible_writeG (z : Emulator) (d : GenericRegister) (v : Nat) :
    Emulator.visible { z.visible with uv := setG z.visible.uv d v } =
      (specWriteG z d v).visible := by
  apply visible_eq
  · unfold specWriteG; split <;> rfl
  · intro x hx
    unfold specWriteG
    split
    · rename_i hd
      simp [setG, Emulator.visible, hx, hd]
    · simp [setG, Emulator.visible, hx]
  · intro x hx
    unfold specWriteG
    split <;> simp [setP, Emulator.visible, hx]
  · unfold specWriteG; split <;> rfl
  · unfold specWriteG; split <;> rfl
  · unfold specWriteG; split <;> rfl

theorem visible_writeP (z : Emulator) (d : PointerRegister) (v : Nat) :
    Emulator.visible { z.visible with pv := setP z.visible.pv d v } =
      (specWriteP z d v).visible := by
  apply visible_eq
  · unfold specWriteP; split <;> rfl
  · intro x hx
    unfold specWriteP
    split <;> simp [setG, Emulator.visible, hx]
  · intro x hx
    unfold specWriteP
    split
    · rename_i hd
      simp [setP, Emulator.visible, hx, hd]
    · simp [setP, Emulator.visible, hx]
  · unfold specWriteP; split <;> rfl
  · unfold specWriteP; split <;> rfl
  · unfold specWriteP; split <;> rfl

end emu

namespace emu

theorem visible_visible (z : Emulator) : z.visible.visible = z.visible := by
  apply visible_eq <;> first | rfl | (intro x hx; simp [Emulator.visible, setG, setP, hx])

theorem visible_mem (z : Emulator) (m : Mem) :
    Emulator.visible { z.visible with mem := m } = Emulator.visible { z with mem := m } := by
  apply visible_eq <;> first | rfl | (intro x hx; simp [Emulator.visible, setG, setP, hx])

theorem visible_rv (z : Emulator) (r : Nat → Value) :
    Emulator.visible { z.visible with rv := r } = Emulator.visible { z with rv := r } := by
  apply visible_eq <;> first | rfl | (intro x hx; simp [Emulator.visible, setG, setP, hx])

theorem visible_pc (z : Emulator) (q : Option Nat) :
    Emulator.visible { z.visible with pc := q } = Emulator.visible { z with pc := q } := by
  apply visible_eq <;> first | rfl | (intro x hx; simp [Emulator.visible, setG, setP, hx])

theorem visible_congr_pc (a b : Emulator) (h : a.visible = b.visible) (q : Option Nat) :
    Emulator.visible { a with pc := q } = Emulator.visible { b with pc := q } := by
  cases a
  cases b
  simp only [Emulator.visible, Emulator.mk.injEq] at *
  exact ⟨trivial, h.2.1, h.2.2.1, h.2.2.2.1, h.2.2.2.2.1, h.2.2.2.2.2⟩

theorem visible_writeRets : ∀ (rr : List Register) (a z : Emulator) (vs : List Nat),
    a.visible = z.visible → (writeRets a rr vs).visible = (specWriteRets z rr vs).visible := by
  intro rr
  induction rr with
  | nil => intro a z vs h; exact h
  | cons r rr ih =>
    intro a z vs h
    simp only [writeRets, specWriteRets]
    apply ih
    cases r with
    | G x =>
      simp only [Emulator.setReg, Emulator.SetGr, specWriteReg]
      rw [← visible_writeG, ← h]
      apply visible_eq <;> first | rfl | (intro y hy; simp [Emulator.visible, setG, setP, hy])
    | P x =>
      simp only [Emulator.setReg, Emulator.SetPr, specWriteReg]
      rw [← visible_writeP, ← h]
      apply visible_eq <;> first | rfl | (intro y hy; simp [Emulator.visible, setG, setP, hy])

theorem visible_reg (z : Emulator) (r : Register) : z.visible.reg r = specReadReg z r := by
  cases r <;> rfl

theorem visible_Call (env : Env) (z : Emulator) (p : Ir) :
    (Call env z.visible p).visible = (specCall env z p).visible := by
  unfold Call specCall
  have hargs : p.Ar.map z.visible.reg = p.Ar.map (specReadReg z) :=
    List.map_congr_left (fun r _ => visible_reg z r)
  simp only [hargs]
  apply visible_writeRets
  exact visible_mem z _

theorem visible_setG (a z : Emulator) (h : a.visible = z.visible) (d : GenericRegister)
    (v : Nat) : Emulator.visible { a with uv := setG a.uv d v } = (specWriteG z d v).visible := by
  rw [← visible_writeG, ← h]
  apply visible_eq <;> first | rfl | (intro y hy; simp [Emulator.visible, setG, setP, hy])

theorem visible_jal (z : Emulator) (d : PointerRegister) (v : Nat) (q : Option Nat) :
    Emulator.visible { z.visible with pv := setP z.visible.pv d v, pc := q } =
      Emulator.visible { specWriteP z d v with pc := q } := by
  have h := visible_writeP z d v
  exact visible_congr_pc _ _ h q

theorem visible_trap (env : Env) (z : Emulator) :
    (z.visible.trap env).visible = (z.trap env).visible := by
  unfold Emulator.trap
  have hpc : z.visible.pc = z.pc := rfl
  rw [hpc]
  cases z.pc with
  | none => rfl
  | some i =>
    simp only
    split
    · exact congrArg Step.cont (visible_visible z)
    · rfl

/-- One instruction of the source interpreter on a state whose zero registers are cleared, and
one instruction of the interpreter in the spec's words on the state as it is, end in the same
state up to the cells of the zero registers. -/
theorem exec_visible (env : Env) (p : Ir) (z : Emulator) :
    (exec env p z.visible).visible = (specExec env p z).visible := by
  have hpc : z.visible.pc = z.pc := rfl
  have har : z.visible.ar = z.ar := rfl
  have hmem : z.visible.mem = z.mem := rfl
  cases hop : p.Op with
  | OP_illegal c =>
    simp only [exec, specExec, hop, Step.visible]
    exact congrArg Step.ret (visible_visible z)
  | OP_nop =>
    simp only [exec, specExec, hop, Step.visible]
    exact congrArg Step.cont (visible_visible z)
  | OP_ip =>
    simp only [exec, specExec, hop, Step.visible, visible_uv, visible_pv, hmem, har, hpc]
    exact congrArg Step.cont (visible_writeP z _ _)
  | OP_lb =>
    simp only [exec, specExec, hop, Step.visible, visible_uv, visible_pv, hmem, har, hpc]
    exact congrArg Step.cont (visible_writeG z _ _)
  | OP_lw =>
    simp only [exec, specExec, hop, Step.visible, visible_uv, visible_pv, hmem, har, hpc]
    exact congrArg Step.cont (visible_writeG z _ _)
  | OP_ll =>
    simp only [exec, specExec, hop, Step.visible, visible_uv, visible_pv, hmem, har, hpc]
    exact congrArg Step.cont (visible_writeG z _ _)
  | OP_lq =>
    simp only [exec, specExec, hop, Step.visible, visible_uv, visible_pv, hmem, har, hpc]
    exact congrArg Step.cont (visible_writeG z _ _)
  | OP_lp =>
    simp only [exec, specExec, hop, Step.visible, visible_uv, visible_pv, hmem, har, hpc]
    exact congrArg Step.cont (visible_writeP z _ _)
  | OP_sb =>
    simp only [exec, specExec, hop, Step.visible, visible_uv, visible_pv, hmem, har, hpc]
    exact congrArg Step.cont (visible_mem z _)
  | OP_sw =>
    simp only [exec, specExec, hop, Step.visible, visible_uv, visible_pv, hmem, har, hpc]
    exact congrArg Step.cont (visible_mem z _)
  | OP_sl =>
    simp only [exec, specExec, hop, Step.visible, visible_uv, visible_pv, hmem, har, hpc]
    exact congrArg Step.cont (visible_mem z _)
  | OP_sq =>
    simp only [exec, specExec, hop, Step.visible, visible_uv, visible_pv, hmem, har, hpc]
    exact congrArg Step.cont (visible_mem z _)
  | OP_sp =>
    simp only [exec, specExec, hop, Step.visible, visible_uv, visible_pv, hmem, har, hpc]
    exact congrArg Step.cont (visible_mem z _)
  | OP_ldaq =>
    simp only [exec, specExec, hop, visible_uv, visible_pv, hmem, har, hpc]
    split
    · exact congrArg Step.cont (visible_writeG z _ _)
    · rfl
  | OP_ldap =>
    simp only [exec, specExec, hop, visible_uv, visible_pv, hmem, har, hpc]
    split
    · exact congrArg Step.cont (visible_writeP z _ _)
    · rfl
  | OP_strq =>
    simp only [exec, specExec, hop, visible_uv, visible_pv, hmem, har, hpc]
    split
    · exact congrArg Step.cont (visible_rv z _)
    · rfl
  | OP_strp =>
    simp only [exec, specExec, hop, visible_uv, visible_pv, hmem, har, hpc]
    split
    · exact congrArg Step.cont (visible_rv z _)
    · rfl
  | OP_addp =>
    simp only [exec, specExec, hop, Step.visible, visible_uv, visible_pv, hmem, har, hpc]
    exact congrArg Step.cont (visible_writeP z _ _)
  | OP_subp =>
    simp only [exec, specExec, hop, Step.visible, visible_uv, visible_pv, hmem, har, hpc]
    exact congrArg Step.cont (visible_writeP z _ _)
  | OP_addpi =>
    simp only [exec, specExec, hop, Step.visible, visible_uv, visible_pv, hmem, har, hpc]
    exact congrArg Step.cont (visible_writeP z _ _)
  | OP_add =>
    simp only [exec, specExec, hop, Step.visible, visible_uv, visible_pv, hmem, har, hpc]
    exact congrArg Step.cont (visible_writeG z _ _)
  | OP_sub =>
    simp only [exec, specExec, hop, Step.visible, visible_uv, visible_pv, hmem, har, hpc]
    exact congrArg Step.cont (visible_writeG z _ _)
  | OP_addi =>
    simp only [exec, specExec, hop, Step.visible, visible_uv, visible_pv, hmem, har, hpc]
    exact congrArg Step.cont (visible_writeG z _ _)
  | OP_muli =>
    simp only [exec, specExec, hop, Step.visible, visible_uv, visible_pv, hmem, har, hpc]
    exact congrArg Step.cont (visible_writeG z _ _)
  | OP_andi =>
    simp only [exec, specExec, hop, Step.visible, visible_uv, visible_pv, hmem, har, hpc]
    exact congrArg Step.cont (visible_writeG z _ _)
  | OP_xori =>
    simp only [exec, specExec, hop, Step.visible, visible_uv, visible_pv, hmem, har, hpc]
    exact congrArg Step.cont (visible_writeG z _ _)
  | OP_shri =>
    simp only [exec, specExec, hop, visible_uv, visible_pv, hmem, har, hpc]
    split
    · exact congrArg Step.cont (visible_writeG z _ _)
    · rfl
  | OP_sbiti =>
    simp only [exec, specExec, hop, visible_uv, visible_pv, hmem, har, hpc]
    split
    · exact congrArg Step.cont (visible_writeG z _ _)
    · rfl
  | OP_swapw =>
    simp only [exec, specExec, hop, Step.visible, visible_uv, visible_pv, hmem, har, hpc]
    exact congrArg Step.cont (visible_writeG z _ _)
  | OP_swapl =>
    simp only [exec, specExec, hop, Step.visible, visible_uv, visible_pv, hmem, har, hpc]
    exact congrArg Step.cont (visible_writeG z _ _)
  | OP_swapq =>
    simp only [exec, specExec, hop, Step.visible, visible_uv, visible_pv, hmem, har, hpc]
    exact congrArg Step.cont (visible_writeG z _ _)
  | OP_beq =>
    simp only [exec, specExec, hop, Step.visible, visible_uv, visible_pv, hmem, har, hpc]
    split
    · exact congrArg Step.cont (visible_pc z _)
    · exact congrArg Step.cont (visible_visible z)
  | OP_bne =>
    simp only [exec, specExec, hop, Step.visible, visible_uv, visible_pv, hmem, har, hpc]
    split
    · exact congrArg Step.cont (visible_pc z _)
    · exact congrArg Step.cont (visible_visible z)
  | OP_blt =>
    simp only [exec, specExec, hop, Step.visible, visible_uv, visible_pv, hmem, har, hpc]
    split
    · exact congrArg Step.cont (visible_pc z _)
    · exact congrArg Step.cont (visible_visible z)
  | OP_bltu =>
    simp only [exec, specExec, hop, Step.visible, visible_uv, visible_pv, hmem, har, hpc]
    split
    · exact congrArg Step.cont (visible_pc z _)
    · exact congrArg Step.cont (visible_visible z)
  | OP_bgeu =>
    simp only [exec, specExec, hop, Step.visible, visible_uv, visible_pv, hmem, har, hpc]
    split
    · exact congrArg Step.cont (visible_pc z _)
    · exact congrArg Step.cont (visible_visible z)
  | OP_beqn =>
    simp only [exec, specExec, hop, Step.visible, visible_uv, visible_pv, hmem, har, hpc]
    split
    · exact congrArg Step.cont (visible_pc z _)
    · exact congrArg Step.cont (visible_visible z)
  | OP_bnen =>
    simp only [exec, specExec, hop, Step.visible, visible_uv, visible_pv, hmem, har, hpc]
    split
    · exact congrArg Step.cont (visible_pc z _)
    · exact congrArg Step.cont (visible_visible z)
  | OP_jal =>
    simp only [exec, specExec, hop, Step.visible, visible_uv, visible_pv, hmem, har, hpc]
    exact congrArg Step.cont (visible_jal z _ _ _)
  | OP_bzero =>
    simp only [exec, specExec, hop, Step.visible, visible_uv, visible_pv, hmem, har, hpc]
    exact congrArg Step.cont (visible_mem z _)
  | OP_bcopy =>
    simp only [exec, specExec, hop, Step.visible, visible_uv, visible_pv, hmem, har, hpc]
    exact congrArg Step.cont (visible_mem z _)
  | OP_halt =>
    simp only [exec, specExec, hop, Step.visible]
    exact congrArg Step.cont (visible_pc z _)
  | OP_break =>
    simp only [exec, specExec, hop]
    exact visible_trap env z
  | OP_ccall =>
    simp only [exec, specExec, hop, Step.visible]
    exact congrArg Step.cont (visible_Call env z p)
  | OP_gcall =>
    simp only [exec, specExec, hop, Step.visible]
    exact congrArg Step.cont (visible_Call env z p)
  | OP_icall =>
    simp only [exec, specExec, hop, Step.visible]
    exact congrArg Step.cont (visible_Call env z p)
  | OP_bts =>
    simp only [exec, specExec, hop, Step.visible, visible_uv, visible_pv, hmem, har, hpc]
    exact congrArg Step.cont (visible_setG _ _ (visible_writeG z _ _) _ _)
  | OP_bsw =>
    simp only [exec, specExec, hop, visible_uv, visible_pv, hmem, har, hpc]
    split
    · cases hq : p.Sw.getD (specReadG z p.Rx) none with
      | none => exact congrArg Step.cont (visible_visible z)
      | some q => exact congrArg Step.cont (visible_pc z _)
    · exact congrArg Step.cont (visible_visible z)

theorem step_visible (env : Env) (prog : List Ir) (e z : Emulator) (h : e.visible = z.visible)
    (i : Nat) : (step env prog e i).visible = (specStep env prog z i).visible := by
  unfold step specStep
  cases prog[i]? with
  | none => rfl
  | some p =>
    simp only
    have h1 : advance p e = Emulator.visible { z with pc := p.Ln } :=
      visible_congr_pc e z h p.Ln
    rw [h1]
    exact exec_visible env p _

theorem Run_visible (env : Env) (prog : List Ir) : ∀ (fuel : Nat) (e z : Emulator),
    e.visible = z.visible →
    (Run env prog fuel e).map Exit.visible = (specRun env prog fuel z).map Exit.visible := by
  intro fuel
  induction fuel with
  | zero =>
    intro e z h
    have hpc0 : e.visible.pc = z.visible.pc := congrArg (fun a : Emulator => a.pc) h
    have hpc : e.pc = z.pc := hpc0
    simp only [Run, specRun, finish, hpc]
    cases hz : z.pc with
    | none => simp [Exit.visible, h]
    | some i => simp
  | succ fuel ih =>
    intro e z h
    have hpc0 : e.visible.pc = z.visible.pc := congrArg (fun a : Emulator => a.pc) h
    have hpc : e.pc = z.pc := hpc0
    simp only [Run, specRun, hpc]
    cases hz : z.pc with
    | none =>
      simp only [finish, hpc, hz]
      simp [Exit.visible, h]
    | some i =>
      simp only
      have hs := step_visible env prog e z h i
      cases h1 : step env prog e i with
      | cont e1 =>
        cases h2 : specStep env prog z i with
        | cont z1 =>
          rw [h1, h2] at hs
          simp only
          exact ih e1 z1 (Step.cont.inj hs)
        | ret z1 => rw [h1, h2] at hs; cases hs
        | fault => rw [h1, h2] at hs; cases hs
      | ret e1 =>
        cases h2 : specStep env prog z i with
        | cont z1 => rw [h1, h2] at hs; cases hs
        | ret z1 =>
          rw [h1, h2] at hs
          simp only [Option.map_some']
          exact congrArg some (congrArg Exit.returned (Step.ret.inj hs))
        | fault => rw [h1, h2] at hs; cases hs
      | fault =>
        cases h2 : specStep env prog z i with
        | cont z1 => rw [h1, h2] at hs; cases hs
        | ret z1 => rw [h1, h2] at hs; cases hs
        | fault => rfl

/-- C14. In every run of every program the zero register reads as 0 and the null pointer
register as null, whatever was written to them before. Every run of the source interpreter
`Run`, which clears the cells of `Rz` and `Pn` at the head of every loop iteration and then
reads and writes them like any other register, ends exactly as the run of the interpreter in
the spec's words `specRun` does, in which every operand read of `Rz` or `Pn` yields 0 or null
and every write to them, by an instruction or by a call handle through `SetGr` / `SetPr`, is
discarded: same kind of end, same `pc`, registers, slots and memory, up to what the cells of
`Rz` and `Pn` hold. And the state on which the switch of an iteration is executed (`advance`)
holds 0 in `Rz` and null in `Pn`, whatever the state before held there. -/
theorem zero_registers_hardwired (env : Env) (prog : List Ir) :
    (∀ (fuel : Nat) (e : Emulator),
      (Run env prog fuel e).map Exit.visible = (specRun env prog fuel e).map Exit.visible) ∧
    (∀ (e : Emulator) (i : Nat) (p : Ir), prog[i]? = some p →
      step env prog e i = exec env p (advance p e) ∧
      (advance p e).Gr Rz = 0 ∧ (advance p e).Pr Pn = 0 ∧
      ∀ x y, step env prog ((e.SetGr Rz x).SetPr Pn y) i = step env prog e i) := by
  refine ⟨fun fuel e => Run_visible env prog fuel e e rfl, ?_⟩
  intro e i p hp
  refine ⟨by simp [step, hp], by simp [advance, Emulator.Gr, setG], by simp [advance, Emulator.Pr, setP], ?_⟩
  intro x y
  simp only [step, hp, advance, Emulator.SetGr, Emulator.SetPr, setG_idem, setP_idem]

/-- Witness of `zero_registers_hardwired`: `zeroProgram` run from a state with stale values in
`Rz` and `Pn`. The program stores 7 into `Rz`, the address of an instruction into `Pn`, then
the results of a call into both; the reads that follow yield 0 and null, so the run returns
with `R0 = 0` and `P0 = 0`; and at the dispatch of the `add` at index 3 the registers hold 0
and null whatever was stored into them. -/
theorem zero_registers_hardwired_witness :
    (Run sampleEnv zeroProgram 7 (sampleState 0 (fun _ => 0))).map
        (fun x => match x.visible with
          | Exit.returned e => [e.uv R0, e.pv P0]
          | _ => [1, 1]) = some [0, 0] ∧
    zeroProgram[3]? = some { Op := OP_add, Rx := Rz, Ry := Rz, Rz := R0, Ln := some 4 } ∧
    (advance { Op := OP_add, Rx := Rz, Ry := Rz, Rz := R0, Ln := some 4 }
      (((sampleState 3 (fun _ => 0)).SetGr Rz 4112).SetPr Pn 3)).Gr Rz = 0 ∧
    (advance { Op := OP_add, Rx := Rz, Ry := Rz, Rz := R0, Ln := some 4 }
      (((sampleState 3 (fun _ => 0)).SetGr Rz 4112).SetPr Pn 3)).Pr Pn = 0 := by
  have h := (zero_registers_hardwired sampleEnv zeroProgram).1 7 (sampleState 0 (fun _ => 0))
  have h2 := (zero_registers_hardwired sampleEnv zeroProgram).2
    (((sampleState 3 (fun _ => 0)).SetGr Rz 4112).SetPr Pn 3) 3
    { Op := OP_add, Rx := Rz, Ry := Rz, Rz := R0, Ln := some 4 } rfl
  refine ⟨?_, rfl, h2.2.1, h2.2.2.1⟩
  have h3 : (Option.map Exit.visible (specRun sampleEnv zeroProgram 7
      (sampleState 0 (fun _ => 0)))).map
        (fun x => match x with
          | Exit.returned e => [e.uv R0, e.pv P0]
          | _ => [1, 1]) = some [0, 0] := by rfl
  rw [← h, Option.map_map] at h3
  exact h3

end emu

end Frugal
